import Mathlib

/-!
RandSet: seed scheduling core (AFL++ queue routines and periodic minimisation)

A shallow embedding of the scheduling routines of `afl-fuzz-queue.c` and
`afl-sched-cmin.c`, and the properties proved about them.

Conventions of the embedding.

* A `struct queue_entry *` is the index of the entry in `queue_buf`
  (`queued_items` is the length of `queue_buf`).
* Byte buffers are lists of naturals; an index outside a buffer reads `0`
  and a write outside it is dropped.
* Machine integers are naturals; where the source arithmetic can wrap the
  reduction modulo the width is written out.
* C strings are lists of characters, without the closing `NUL`.
* Floating point values are exact rationals (no rounding). Where a divisor can
  be zero or a value infinite or NaN, in the weights of the alias construction
  and in the factors of `calculate_score`, a `double` is a value of `fval`: a
  rational, plus or minus infinity, or NaN, with the arithmetic and the
  comparison of IEEE 754 on these (zero has no sign). `log`, `log10` and
  `calculate_score` are parameters of the alias construction (`score_model`),
  and `source_model` instantiates them with the `calculate_score` of the source.
* Constants of headers that are not among the sources are fields of
  `afl_consts` and `score_consts`; a routine of a file that is not among the
  sources is a function parameter.
* Clock reads, values of `rand()` and the answers of the file system and of the
  child process are inputs of the routines that use them.
* A routine that can dereference `NULL`, index an array out of range, divide
  an integer by zero, convert a `double` without integer value or stop in
  `FATAL` returns an `Option`, `none` standing for all of these.
  `update_bitmap_score` is given as a total function: it is the state that
  the call leaves where it returns (see its comment).
-/

namespace RandSet

/-! ## Floating point values -/

/-- A value of type `double`: a finite number, kept exactly (rounding is outside the
model), an infinity, or NaN. The sign of a zero is not kept: a zero that is divided by
counts as `+0`, which is what the zero divisors of the code are (converted unsigned
integers and sums of values that are not negative). -/
inductive fval where
  | fin (q : ℚ)
  | pinf
  | ninf
  | nan
deriving DecidableEq, Inhabited

namespace fval

/-- The negation `-a`. -/
def neg : fval → fval
  | fin a => fin (-a)
  | pinf => ninf
  | ninf => pinf
  | nan => nan

/-- The sum `a + b`. -/
def add : fval → fval → fval
  | fin a, fin b => fin (a + b)
  | fin _, pinf => pinf
  | fin _, ninf => ninf
  | pinf, fin _ => pinf
  | pinf, pinf => pinf
  | ninf, fin _ => ninf
  | ninf, ninf => ninf
  | _, _ => nan

/-- The difference `a - b`. -/
def sub (a b : fval) : fval := add a (neg b)

/-- The product `a * b`. -/
def mul : fval → fval → fval
  | fin a, fin b => fin (a * b)
  | fin a, pinf => if a = 0 then nan else if 0 < a then pinf else ninf
  | fin a, ninf => if a = 0 then nan else if 0 < a then ninf else pinf
  | pinf, fin b => if b = 0 then nan else if 0 < b then pinf else ninf
  | ninf, fin b => if b = 0 then nan else if 0 < b then ninf else pinf
  | pinf, pinf => pinf
  | ninf, ninf => pinf
  | pinf, ninf => ninf
  | ninf, pinf => ninf
  | _, _ => nan

/-- The quotient `a / b`; a zero divisor is `+0`. -/
def div : fval → fval → fval
  | fin a, fin b =>
    if b = 0 then (if a = 0 then nan else if 0 < a then pinf else ninf) else fin (a / b)
  | fin _, pinf => fin 0
  | fin _, ninf => fin 0
  | pinf, fin b => if 0 ≤ b then pinf else ninf
  | ninf, fin b => if 0 ≤ b then ninf else pinf
  | _, _ => nan

/-- The comparison `a < b`, false when either side is NaN. -/
def lt : fval → fval → Bool
  | fin a, fin b => decide (a < b)
  | fin _, pinf => true
  | ninf, fin _ => true
  | ninf, pinf => true
  | _, _ => false

end fval

/-- The sum that a loop `sum += x` accumulates from `0.0` over the values of a list. -/
def fsum (l : List fval) : fval := l.foldl fval.add (fval.fin 0)

/-! ## Data model -/

/-- Compile-time constants of `afl-fuzz.h`, which is not among the sources:
the power-schedule enumerators that the queue routines compare against, the
capacity `MAX_NODES_PER_SEED`, and the inline helper `next_pow2`. -/
structure afl_consts where
  MMOPT : Nat
  FAST : Nat
  RARE : Nat
  MAX_NODES_PER_SEED : Nat
  next_pow2 : Nat → Nat

/-- The fields of `struct queue_entry` that the scheduling core reads or writes. -/
structure queue_entry where
  id : Nat := 0
  len : Nat := 0
  exec_us : Nat := 0
  fuzz_level : Nat := 0
  n_fuzz_entry : Nat := 0
  bitmap_size : Nat := 0
  handicap : Nat := 0
  depth : Nat := 0
  tc_ref : Nat := 0
  trace_mini : Option (List Nat) := none
  favored : Bool := false
  fs_redundant : Bool := false
  was_fuzzed : Bool := false
  disabled : Bool := false
  set_covered : Bool := false
  set_favored : Bool := false
  covered_frontier_node_list : List Nat := []
  covered_frontier_nodes_count : Nat := 0
  weight : fval := fval.fin 0
  perf_score : ℚ := 0
  passed_det : Bool := false
  mother : Option Nat := none
  frontier_node_bitmap : List Nat := []
  testcase_buf : Option (List Nat) := none
deriving DecidableEq, Inhabited

/-- The fields of `afl_state_t` (with `fsrv` flattened) used by the scheduling core. -/
structure afl_state_t where
  schedule : Nat := 0
  fixed_seed : Bool := false
  use_set_cover_scheduling : Bool := false
  non_instrumented_mode : Bool := false
  map_size : Nat := 0
  trace_bits : List Nat := []
  n_fuzz : List Nat := []
  queue_buf : List queue_entry := []
  top_rated : Nat → Option Nat := fun _ => none
  map_tmp_buf : List Nat := []
  score_changed : Bool := false
  reinit_table : Bool := false
  queued_favored : Nat := 0
  pending_favored : Nat := 0
  pending_not_fuzzed : Nat := 0
  smallest_favored : Int := -1
  queued_discovered : Nat := 0
  global_frontier_bitmap : List Nat := []
  global_frontier_bitmap_temp : List Nat := []
  global_covered_frontier_nodes_count : Nat := 0
  set_favored_id : Int := 0
  covered_seed_list_counter : Nat := 0
  alias_table : List Nat := []
  alias_probability : List fval := []
  cur_depth : Nat := 0
  max_depth : Nat := 0
  queue_cur : Option Nat := none
  queue : Option Nat := none
  queue_top : Option Nat := none
  ready_for_splicing_count : Nat := 0
  active_items : Nat := 0
  cycles_wo_finds : Nat := 0
  total_cal_us : Nat := 0
  total_cal_cycles : Nat := 0
  total_bitmap_size : Nat := 0
  total_bitmap_entries : Nat := 0
  total_execs : Nat := 0
  limit_time_sig : Int := 0
  havoc_max_mult : Nat := 0
  recent_frontier_count : Nat := 0
  recent_frontier_nodes : List Nat := []
  frontier_discovery_time : List Int := []
  real_map_size : Nat := 0
  virgin_bits : List Nat := []
  successor_count : List Int := []
  successor_map : List (List Nat) := []
  testcase_buf : Option (List Nat) := none
  splicecase_buf : Option (List Nat) := none
  q_testcase_max_cache_size : Nat := 0
  q_testcase_cache_size : Nat := 0
  q_testcase_cache_count : Nat := 0
  q_testcase_max_cache_count : Nat := 0
  q_testcase_max_cache_entries : Nat := 0
  q_testcase_smallest_free : Nat := 0
  q_testcase_evictions : Nat := 0
  q_testcase_cache : List (Option Nat) := []
  do_once : Bool := false
  argv : List (List Char) := []
  out_file : Option (List Char) := none
  mem_limit : Nat := 0
  exec_tmout : Nat := 0
  frida_mode : Bool := false
  qemu_mode : Bool := false
  unicorn_mode : Bool := false

/-- The entry behind a seed pointer: `afl->queue_buf[i]`. -/
def entry (afl : afl_state_t) (i : Nat) : queue_entry :=
  afl.queue_buf.getD i default

/-- Store through a seed pointer. -/
def set_entry (afl : afl_state_t) (i : Nat) (e : queue_entry) : afl_state_t :=
  { afl with queue_buf := afl.queue_buf.set i e }

/-- The number of queue entries, `afl->queued_items`. -/
def queued_items (afl : afl_state_t) : Nat := afl.queue_buf.length

/-! ## Bitmap primitives -/

/-- Modelled from the spec: the bit test of a bitmap (§4.A); `BITMAP_CHECK` is a
macro of `afl-fuzz.h`, which is not among the sources. -/
def BITMAP_CHECK (bm : List Nat) (idx : Nat) : Bool :=
  (bm.getD (idx >>> 3) 0).testBit (idx &&& 7)

/-- Modelled from the spec: setting a bit of a bitmap (§4.A), the macro `BITMAP_SET`. -/
def BITMAP_SET (bm : List Nat) (idx : Nat) : List Nat :=
  bm.set (idx >>> 3) (bm.getD (idx >>> 3) 0 ||| (1 <<< (idx &&& 7)))

/-- Modelled from the spec: clearing a bit of a bitmap (§4.A), the macro `BITMAP_CLEAR`. -/
def BITMAP_CLEAR (bm : List Nat) (idx : Nat) : List Nat :=
  bm.set (idx >>> 3) (bm.getD (idx >>> 3) 0 &&& (255 ^^^ (1 <<< (idx &&& 7))))

/-- Modelled from the spec: `minimize_bits` (§4.A) compresses the byte-valued
hit map `src` into one bit per position, 1 iff the source byte is non-zero. The
destination is the zeroed buffer of `map_size >> 3` bytes that
`update_bitmap_score` allocates; the function itself lives in a file that is not
among the sources. -/
def minimize_bits (map_size : Nat) (src : List Nat) : List Nat :=
  (List.range map_size).foldl
    (fun dst i =>
      if src.getD i 0 ≠ 0 then
        dst.set (i >>> 3) (dst.getD (i >>> 3) 0 ||| (1 <<< (i &&& 7)))
      else dst)
    (List.replicate (map_size >>> 3) 0)

/-- Bit `e` of a seed's `trace_mini`, a buffer of `map_size >> 3` bytes
(`false` when the seed has no `trace_mini`). -/
def trace_mini_bit (afl : afl_state_t) (s : Nat) (e : Nat) : Bool :=
  match (entry afl s).trace_mini with
  | some m => decide (e >>> 3 < afl.map_size >>> 3) && (m.getD (e >>> 3) 0).testBit (e &&& 7)
  | none => false

/-! ## Top-rated table: `update_bitmap_score` -/

/-- The fuzz pressure `fuzz_p2` that `update_bitmap_score` computes for an entry. -/
def fuzz_p2_of (c : afl_consts) (afl : afl_state_t) (q : queue_entry) : Nat :=
  if c.FAST ≤ afl.schedule ∧ afl.schedule < c.RARE then 0
  else if afl.schedule = c.RARE then c.next_pow2 (afl.n_fuzz.getD q.n_fuzz_entry 0)
  else q.fuzz_level

/-- The `fav_factor` that `update_bitmap_score` computes for an entry
(`len` is a `u32`, `exec_us` and the factor are `u64`). -/
def fav_factor_of (c : afl_consts) (afl : afl_state_t) (q : queue_entry) : Nat :=
  if c.RARE ≤ afl.schedule ∨ afl.fixed_seed = true then (q.len <<< 2) % 2 ^ 32
  else (q.exec_us * q.len) % 2 ^ 64

/-- A store `a[k] = v` into a zero-initialised array whose written part is `a`. -/
def array_write (a : List Nat) (k v : Nat) : List Nat :=
  if k < a.length then a.set k v else a ++ List.replicate (k - a.length) 0 ++ [v]

/-- Lines 766-770: append the hit edge to the seed's frontier list, up to the cap
`MAX_NODES_PER_SEED` (beyond it the edge is dropped with a warning). The list is the
array that lines 745-749 allocate under `use_set_cover_scheduling`; without the flag
the pointer is `NULL` and the code does not get past this store, so that the state
given here is the state of the code under the flag only. -/
def record_frontier_list (c : afl_consts) (qi : Nat) (afl : afl_state_t) (edge_id : Nat) :
    afl_state_t :=
  let q := entry afl qi
  if q.covered_frontier_nodes_count < c.MAX_NODES_PER_SEED then
    set_entry afl qi
      { q with
        covered_frontier_node_list :=
          array_write q.covered_frontier_node_list q.covered_frontier_nodes_count edge_id
        covered_frontier_nodes_count := q.covered_frontier_nodes_count + 1 }
  else afl

/-- Lines 772-777: set the edge in the global frontier bitmap and count it when
the bit was clear. -/
def record_frontier_global (afl : afl_state_t) (edge_id : Nat) : afl_state_t :=
  if !BITMAP_CHECK afl.global_frontier_bitmap edge_id then
    { afl with
      global_frontier_bitmap := BITMAP_SET afl.global_frontier_bitmap edge_id
      global_covered_frontier_nodes_count :=
        (afl.global_covered_frontier_nodes_count + 1) % 2 ^ 32 }
  else afl

/-- Lines 766-777: record the hit edge in the seed's frontier list and in the
global frontier bitmap. -/
def record_frontier (c : afl_consts) (qi : Nat) (afl : afl_state_t) (edge_id : Nat) :
    afl_state_t :=
  record_frontier_global (record_frontier_list c qi afl edge_id) edge_id

/-- Lines 821-826: the previous winner `t` loses one reference (`tc_ref` is a
`u32`) and its `trace_mini` is freed when the count reaches zero. -/
def release_top (afl : afl_state_t) (t : Nat) : afl_state_t :=
  let top := entry afl t
  let r := (top.tc_ref + 2 ^ 32 - 1) % 2 ^ 32
  set_entry afl t
    { top with tc_ref := r, trace_mini := if r = 0 then none else top.trace_mini }

/-- Lines 832-843: install `qi` as the winner of edge `i`. A missing `trace_mini` is
allocated with `map_size >> 3` bytes and filled by `minimize_bits`; for `map_size < 8`
the allocation of zero bytes yields `NULL` and the code does not get past
`minimize_bits`, so that the state given here is the state of the code for a map of
eight or more positions only. -/
def install_top (qi : Nat) (afl : afl_state_t) (i : Nat) : afl_state_t :=
  let afl1 : afl_state_t :=
    { afl with top_rated := fun e => if e = i then some qi else afl.top_rated e }
  let q := entry afl1 qi
  let q1 : queue_entry := { q with tc_ref := (q.tc_ref + 1) % 2 ^ 32 }
  let q2 : queue_entry :=
    match q1.trace_mini with
    | none => { q1 with trace_mini := some (minimize_bits afl1.map_size afl1.trace_bits) }
    | some _ => q1
  { set_entry afl1 qi q2 with score_changed := true }

/-- The body of the loop of `update_bitmap_score` for map position `i`. -/
def update_bitmap_score_edge (c : afl_consts) (qi fuzz_p2 fav_factor : Nat)
    (afl : afl_state_t) (i : Nat) : afl_state_t :=
  if afl.trace_bits.getD i 0 ≠ 0 then
    let afl1 := record_frontier c qi afl i
    match afl1.top_rated i with
    | some t =>
      let top_rated_fuzz_p2 := fuzz_p2_of c afl1 (entry afl1 t)
      let top_rated_fav_factor := fav_factor_of c afl1 (entry afl1 t)
      if fuzz_p2 > top_rated_fuzz_p2 then afl1
      else if fav_factor > top_rated_fav_factor then afl1
      else install_top qi (release_top afl1 t) i
    | none => install_top qi afl1 i
  else afl

/-- Lines 745-749: under set-cover scheduling the seed gets a fresh, empty
frontier list. -/
def reset_frontier_list (afl : afl_state_t) (qi : Nat) : afl_state_t :=
  if afl.use_set_cover_scheduling then
    set_entry afl qi
      { entry afl qi with covered_frontier_node_list := [], covered_frontier_nodes_count := 0 }
  else afl

/-- The function `update_bitmap_score(afl, q)`, with `q = queue_buf[qi]`: the state
that the call leaves where it returns. It returns for a trace that hits an edge only
under `use_set_cover_scheduling` and with `map_size` a multiple of 8 that is not zero
(see `record_frontier_list` and `install_top`); the worked examples are states of that
kind. -/
def update_bitmap_score (c : afl_consts) (afl : afl_state_t) (qi : Nat) : afl_state_t :=
  let fuzz_p2 := fuzz_p2_of c afl (entry afl qi)
  let fav_factor := fav_factor_of c afl (entry afl qi)
  (List.range afl.map_size).foldl (update_bitmap_score_edge c qi fuzz_p2 fav_factor)
    (reset_frontier_list afl qi)

/-- The call `update_bitmap_score(afl, q)` as it is made after a run of the seed
`q = queue_buf[qi]`, with the trace of that run in `trace_bits`. -/
def score_seed (c : afl_consts) (afl : afl_state_t) (trace : List Nat) (qi : Nat) :
    afl_state_t :=
  update_bitmap_score c { afl with trace_bits := trace } qi

/-- The seeds of `l` scored one after the other, the seed `s` with the trace `tr s`. -/
def score_seeds (c : afl_consts) (tr : Nat → List Nat) (afl : afl_state_t) (l : List Nat) :
    afl_state_t :=
  l.foldl (fun a s => score_seed c a (tr s) s) afl

/-! ## Favored culling: `cull_queue` -/

/-- The function `mark_as_redundant(afl, q, state)`: the flag `fs_redundant` is set
to `state`; the marker file under `redundant_edges/` is outside the model. -/
def mark_as_redundant (afl : afl_state_t) (i : Nat) (state : Bool) : afl_state_t :=
  if state = (entry afl i).fs_redundant then afl
  else set_entry afl i { entry afl i with fs_redundant := state }

/-- Lines 890-902: `j = len; while (j--) if (trace_mini[j]) temp_v[j] &= ~trace_mini[j]`. -/
def cull_remove_bits (len : Nat) (temp_v m : List Nat) : List Nat :=
  (List.range len).reverse.foldl
    (fun tv j => if m.getD j 0 ≠ 0 then tv.set j (tv.getD j 0 &&& (255 ^^^ m.getD j 0)) else tv)
    temp_v

/-- Lines 904-920: mark the winner `t` favored and account for it
(`queued_favored`, `pending_favored` are `u32`, `smallest_favored` is an `s64`). -/
def cull_mark_favored (afl : afl_state_t) (t : Nat) : afl_state_t :=
  if !(entry afl t).favored then
    let afl1 := set_entry afl t { entry afl t with favored := true }
    let afl2 := { afl1 with queued_favored := (afl1.queued_favored + 1) % 2 ^ 32 }
    if !(entry afl2 t).was_fuzzed then
      let afl3 := { afl2 with pending_favored := (afl2.pending_favored + 1) % 2 ^ 32 }
      if afl3.smallest_favored < 0 then
        { afl3 with smallest_favored := ((entry afl3 t).id : Int) }
      else afl3
    else afl2
  else afl

/-- The body of the edge loop of `cull_queue` (lines 888-922) for map position `i`;
`temp_v` is `map_tmp_buf`. The result is `none` when the winner has no `trace_mini`
to read (a null pointer, read when `len > 0`) or is not an entry of the queue. -/
def cull_queue_edge (afl : afl_state_t) (i : Nat) : Option afl_state_t :=
  match afl.top_rated i with
  | some t =>
    if afl.map_tmp_buf.getD (i >>> 3) 0 &&& (1 <<< (i &&& 7)) ≠ 0 then
      if t < afl.queue_buf.length then
        match (entry afl t).trace_mini with
        | some m =>
          some (cull_mark_favored
            { afl with
              map_tmp_buf := cull_remove_bits (afl.map_size >>> 3) afl.map_tmp_buf m } t)
        | none => if afl.map_size >>> 3 = 0 then some (cull_mark_favored afl t) else none
      else none
    else some afl
  | none => some afl

/-- The edge loop of `cull_queue` over the given map positions. -/
def cull_queue_edges : List Nat → afl_state_t → Option afl_state_t
  | [], afl => some afl
  | i :: rest, afl =>
    match cull_queue_edge afl i with
    | some a => cull_queue_edges rest a
    | none => none

/-- Lines 926-934: every entry that is not disabled gets `fs_redundant = !favored`. -/
def cull_mark_redundant (afl : afl_state_t) : afl_state_t :=
  (List.range afl.queue_buf.length).foldl
    (fun a i =>
      if !(entry a i).disabled then mark_as_redundant a i (!(entry a i).favored) else a)
    afl

/-- Lines 864-884: the state at the start of the edge loop of `cull_queue`. -/
def cull_queue_init (afl : afl_state_t) : afl_state_t :=
  { afl with
    score_changed := false
    map_tmp_buf :=
      List.replicate (afl.map_size >>> 3) 255 ++ afl.map_tmp_buf.drop (afl.map_size >>> 3)
    queued_favored := 0
    pending_favored := 0
    queue_buf := afl.queue_buf.map (fun q => { q with favored := false })
    smallest_favored := -1 }

/-- The function `cull_queue(afl)`. -/
def cull_queue (afl : afl_state_t) : Option afl_state_t :=
  if !afl.score_changed || afl.non_instrumented_mode then some afl
  else
    match cull_queue_edges (List.range afl.map_size) (cull_queue_init afl) with
    | some a => some { cull_mark_redundant a with reinit_table := true }
    | none => none

/-! ## Alias sampler: `create_alias_table` and `select_next_queue_entry` -/

/-- The parts of the weight model that lie outside of the queue file or are kept as
parameters: the library functions `log` and `log10` on the positive integers they are
applied to, and `calculate_score(afl, q)`, which yields the performance score (a `u32`)
and the handicap it leaves in `q`. -/
structure score_model where
  log : Nat → ℚ
  log10 : Nat → ℚ
  calculate_score : afl_state_t → queue_entry → ℚ × Nat

/-- The value of `log(x)` for an unsigned integer `x`: minus infinity at 0. -/
def flog (m : score_model) (x : Nat) : fval :=
  if x = 0 then fval.ninf else fval.fin (m.log x)

/-- The function `compute_weight(afl, q, avg_exec_us, avg_bitmap_size, avg_top_size)`. -/
def compute_weight (c : afl_consts) (m : score_model) (afl : afl_state_t) (q : queue_entry)
    (avg_exec_us avg_bitmap_size avg_top_size : fval) : fval :=
  let w0 : fval := fval.fin 1
  let w1 : fval :=
    if c.FAST ≤ afl.schedule ∧ afl.schedule ≤ c.RARE then
      if afl.n_fuzz.getD q.n_fuzz_entry 0 ≠ 0 then
        w0.div ((fval.fin (m.log10 (afl.n_fuzz.getD q.n_fuzz_entry 0))).add (fval.fin 1))
      else w0
    else w0
  let w2 : fval :=
    if afl.schedule < c.RARE then w1.mul (avg_exec_us.div (fval.fin q.exec_us)) else w1
  let w3 : fval := w2.mul ((flog m q.bitmap_size).div avg_bitmap_size)
  let w4 : fval := w3.mul ((fval.fin 1).add ((fval.fin q.tc_ref).div avg_top_size))
  let w5 : fval := if w4.lt (fval.fin (1 / 10)) then fval.fin (1 / 10) else w4
  let w6 : fval := if q.favored then w5.mul (fval.fin 5) else w5
  let w7 : fval := if !q.was_fuzzed then w6.mul (fval.fin 2) else w6
  if q.fs_redundant then w7.mul (fval.fin (8 / 10)) else w7

/-- Lines 123-141: the averages over the entries that are not disabled (`0.0 / 0` is
NaN when there is none). -/
def alias_averages (m : score_model) (afl : afl_state_t) : fval × fval × fval :=
  let act := afl.queue_buf.filter (fun q => !q.disabled)
  let active : fval := fval.fin (act.length : ℚ)
  ((fsum (act.map (fun q => fval.fin (q.exec_us : ℚ)))).div active,
   (fsum (act.map (fun q => flog m q.bitmap_size))).div active,
   (fsum (act.map (fun q => fval.fin (q.tc_ref : ℚ)))).div active)

/-- Lines 143-156: the body of the weight loop; the pair is the state and `sum`. -/
def alias_weight_step (c : afl_consts) (m : score_model) (avg : fval × fval × fval)
    (st : afl_state_t × fval) (i : Nat) : afl_state_t × fval :=
  let q := entry st.1 i
  if !q.disabled then
    let q1 : queue_entry := { q with weight := compute_weight c m st.1 q avg.1 avg.2.1 avg.2.2 }
    let afl1 := set_entry st.1 i q1
    let sc := m.calculate_score afl1 q1
    (set_entry afl1 i { q1 with perf_score := sc.1, handicap := sc.2 }, st.2.add q1.weight)
  else st

/-- Lines 158-170: under MMOPT the weight of the most recent discoveries is doubled,
from index `n - cnt` (a `u32` difference) up to `n`. -/
def alias_mmopt_double (c : afl_consts) (afl : afl_state_t) : afl_state_t :=
  if afl.schedule = c.MMOPT ∧ afl.queued_discovered ≠ 0 then
    let n := afl.queue_buf.length
    let cnt := if afl.queued_discovered ≥ 5 then 5 else afl.queued_discovered
    let start := (n + 2 ^ 32 - cnt) % 2 ^ 32
    (List.range' start (n - start)).foldl
      (fun a i =>
        if !(entry a i).disabled then
          set_entry a i { entry a i with weight := (entry a i).weight.mul (fval.fin 2) }
        else a)
      afl
  else afl

/-- Lines 189-200: the body of the score loop of the schedules from RARE on. -/
def alias_score_step (m : score_model) (st : afl_state_t × fval) (i : Nat) :
    afl_state_t × fval :=
  let q := entry st.1 i
  if !q.disabled then
    let sc := m.calculate_score st.1 q
    (set_entry st.1 i { q with perf_score := sc.1, handicap := sc.2 },
      st.2.add (fval.fin sc.1))
  else st

/-- Lines 116-217, first half: the state with the weights and scores stored, and the
accumulated `sum`. -/
def alias_weights (c : afl_consts) (m : score_model) (afl : afl_state_t) : afl_state_t × fval :=
  if afl.schedule < c.RARE then
    let r := (List.range afl.queue_buf.length).foldl
      (alias_weight_step c m (alias_averages m afl)) (afl, fval.fin 0)
    (alias_mmopt_double c r.1, r.2)
  else
    (List.range afl.queue_buf.length).foldl (alias_score_step m) (afl, fval.fin 0)

/-- The weight that enters `P[i]` (lines 172-185 and 202-215): zero for a disabled
entry, else the stored `weight`, or the stored `perf_score` from RARE on. -/
def alias_final_weight (c : afl_consts) (afl : afl_state_t) (i : Nat) : fval :=
  if (entry afl i).disabled then fval.fin 0
  else if afl.schedule < c.RARE then (entry afl i).weight
  else fval.fin (entry afl i).perf_score

/-- The array `P` at line 219: `P[i] = weight * n / sum`, and zero for disabled entries. -/
def alias_P (c : afl_consts) (m : score_model) (afl : afl_state_t) : List fval :=
  (List.range afl.queue_buf.length).map
    (fun i =>
      if (entry (alias_weights c m afl).1 i).disabled then fval.fin 0
      else
        ((alias_final_weight c (alias_weights c m afl).1 i).mul
          (fval.fin (afl.queue_buf.length : ℚ))).div (alias_weights c m afl).2)

/-- The local variables of the alias construction: `P`, the stacks `Small` and
`Large` (top first), and the two tables. -/
structure alias_state where
  P : List fval
  Small : List Nat
  Large : List Nat
  alias_table : List Nat
  alias_probability : List fval

/-- Lines 221-233: `j` runs from `n - 1` down to `0` and is pushed on `Small` when
`P[j] < 1`, else on `Large` (so also when `P[j]` is NaN). -/
def alias_partition (P : List fval) : List Nat × List Nat :=
  (List.range P.length).reverse.foldl
    (fun sl j =>
      if (P.getD j (fval.fin 0)).lt (fval.fin 1) then (j :: sl.1, sl.2) else (sl.1, j :: sl.2))
    ([], [])

/-- Lines 235-255: the pairing loop; each round pops one index from each stack and
pushes one back, so `fuel = n` rounds are more than the loop can make. -/
def alias_pair_loop : Nat → alias_state → alias_state
  | 0, st => st
  | fuel + 1, st =>
    match st.Small, st.Large with
    | small :: ss, large :: ls =>
      let pl :=
        (st.P.getD large (fval.fin 0)).sub ((fval.fin 1).sub (st.P.getD small (fval.fin 0)))
      let st1 : alias_state :=
        { P := st.P.set large pl
          Small := ss
          Large := ls
          alias_table := st.alias_table.set small large
          alias_probability := st.alias_probability.set small (st.P.getD small (fval.fin 0)) }
      if pl.lt (fval.fin 1) then alias_pair_loop fuel { st1 with Small := large :: ss }
      else alias_pair_loop fuel { st1 with Large := large :: ls }
    | _, _ => st

/-- Lines 257-267: the indices left on either stack get probability 1. -/
def alias_finish (st : alias_state) : List Nat × List fval :=
  (st.alias_table,
    st.Large.foldl (fun ap l => ap.set l (fval.fin 1))
      (st.Small.foldl (fun ap s => ap.set s (fval.fin 1)) st.alias_probability))

/-- Lines 219-267: the alias construction from the array `P`. -/
def alias_build (P : List fval) : List Nat × List fval :=
  alias_finish
    (alias_pair_loop P.length
      { P := P
        Small := (alias_partition P).1
        Large := (alias_partition P).2
        alias_table := List.replicate P.length 0
        alias_probability := List.replicate P.length (fval.fin 0) })

/-- The function `create_alias_table(afl)`. -/
def create_alias_table (c : afl_consts) (m : score_model) (afl : afl_state_t) : afl_state_t :=
  { (alias_weights c m afl).1 with
    alias_table := (alias_build (alias_P c m afl)).1
    alias_probability := (alias_build (alias_P c m afl)).2
    reinit_table := false }

/-- The function `select_next_queue_entry(afl)`, with `s` the value of
`rand_below(afl, queued_items)` and `p` the value of `rand_next_percent(afl)`. -/
def select_next_queue_entry (afl : afl_state_t) (s : Nat) (p : ℚ) : Nat :=
  if (fval.fin p).lt (afl.alias_probability.getD s (fval.fin 0)) then s
  else afl.alias_table.getD s 0

/-- The probability that `select_next_queue_entry` returns `i` when `s` is uniform on
`[0, n)` and `p` is uniform on `[0, 1)`, for tables of finite probabilities `ap`: the
bucket `i` answers with probability `ap[i]`, and every bucket `j` whose alias is `i`
answers `i` with probability `1 - ap[j]`. -/
def select_probability (at_ : List Nat) (ap : List ℚ) (n i : Nat) : ℚ :=
  (ap.getD i 0 +
    ∑ j in Finset.range n, if at_.getD j 0 = i then 1 - ap.getD j 0 else 0) / (n : ℚ)

/-! ### The alias construction on finite values

The same construction over the rationals; the construction above follows it as long as
every `P[i]` is finite. -/

/-- The local variables of the alias construction, all of `P` finite. -/
structure alias_state_rat where
  P : List ℚ
  Small : List Nat
  Large : List Nat
  alias_table : List Nat
  alias_probability : List ℚ

/-- The partition of `alias_partition` for finite values. -/
def alias_partition_rat (P : List ℚ) : List Nat × List Nat :=
  (List.range P.length).reverse.foldl
    (fun sl j => if P.getD j 0 < 1 then (j :: sl.1, sl.2) else (sl.1, j :: sl.2))
    ([], [])

/-- The pairing loop of `alias_pair_loop` for finite values. -/
def alias_pair_loop_rat : Nat → alias_state_rat → alias_state_rat
  | 0, st => st
  | fuel + 1, st =>
    match st.Small, st.Large with
    | small :: ss, large :: ls =>
      let pl := st.P.getD large 0 - (1 - st.P.getD small 0)
      let st1 : alias_state_rat :=
        { P := st.P.set large pl
          Small := ss
          Large := ls
          alias_table := st.alias_table.set small large
          alias_probability := st.alias_probability.set small (st.P.getD small 0) }
      if pl < 1 then alias_pair_loop_rat fuel { st1 with Small := large :: ss }
      else alias_pair_loop_rat fuel { st1 with Large := large :: ls }
    | _, _ => st

/-- The closing loops of `alias_finish` for finite values. -/
def alias_finish_rat (st : alias_state_rat) : List Nat × List ℚ :=
  (st.alias_table,
    st.Large.foldl (fun ap l => ap.set l 1)
      (st.Small.foldl (fun ap s => ap.set s 1) st.alias_probability))

/-- The construction of `alias_build` for finite values. -/
def alias_build_rat (P : List ℚ) : List Nat × List ℚ :=
  alias_finish_rat
    (alias_pair_loop_rat P.length
      { P := P
        Small := (alias_partition_rat P).1
        Large := (alias_partition_rat P).2
        alias_table := List.replicate P.length 0
        alias_probability := List.replicate P.length 0 })

/-! ## Frontier set cover: `set_cover_reduction_final` -/

/-- The edges in the first `covered_frontier_nodes_count` slots of a seed's
`covered_frontier_node_list` (the array is zero-initialised). -/
def covered_edges (q : queue_entry) : List Nat :=
  (List.range q.covered_frontier_nodes_count).map
    (fun k => q.covered_frontier_node_list.getD k 0)

/-- The number of bits set in a bitmap. -/
def bitmap_count (bm : List Nat) : Nat :=
  (List.range (8 * bm.length)).countP (fun e => BITMAP_CHECK bm e)

/-- Lines 1541-1548: the gain of a seed, the number of slots of its list whose edge
is still set in the working copy of the global frontier. -/
def set_cover_gain (temp : List Nat) (q : queue_entry) : Nat :=
  (covered_edges q).countP (fun e => BITMAP_CHECK temp e)

/-- Lines 1535-1554: the search for the candidate of strictly greatest gain; the
result is `(best_seed_idx, max_gain)`, with `none` for the initial `-1`. -/
def set_cover_best (afl : afl_state_t) (unselected_seeds : List Nat) : Option Nat × Nat :=
  (List.range unselected_seeds.length).foldl
    (fun bm i =>
      let gain := set_cover_gain afl.global_frontier_bitmap_temp
        (entry afl (unselected_seeds.getD i 0))
      if gain > bm.2 then (some i, gain) else bm)
    (none, 0)

/-- Lines 1567-1575: clear the edges of the chosen seed from the working copy and
count those that were still set (`local_covered_intersection_num`). -/
def set_cover_clear (temp : List Nat) (edges : List Nat) : List Nat × Nat :=
  edges.foldl
    (fun tn e => if BITMAP_CHECK tn.1 e then (BITMAP_CLEAR tn.1 e, tn.2 + 1) else tn)
    (temp, 0)

/-- The variables of the greedy loop of `set_cover_reduction_final`. -/
structure set_cover_vars where
  afl : afl_state_t
  unselected_seeds : List Nat
  covered_frontier_count : Nat
  set_covered_seed_list : List Nat

/-- Line 1578: `unselected_seeds[best_seed_idx] = unselected_seeds[--unselected_seeds_count]`. -/
def swap_remove (l : List Nat) (i : Nat) : List Nat :=
  (l.set i (l.getD (l.length - 1) 0)).dropLast

/-- One round of the greedy loop (lines 1532-1596). The result is `none` when no
candidate has gain, so that `best_seed_idx` is still `-1` when it indexes
`unselected_seeds`; otherwise the new variables and whether the loop breaks. -/
def set_cover_round (global_frontier_nodes : Nat) (v : set_cover_vars) :
    Option (set_cover_vars × Bool) :=
  match (set_cover_best v.afl v.unselected_seeds).1 with
  | none => none
  | some best_seed_idx =>
    let seed_index := v.unselected_seeds.getD best_seed_idx 0
    let reduction_seed := entry v.afl seed_index
    let cl := set_cover_clear v.afl.global_frontier_bitmap_temp (covered_edges reduction_seed)
    let afl1 : afl_state_t := { v.afl with global_frontier_bitmap_temp := cl.1 }
    let v1 : set_cover_vars :=
      if cl.2 ≠ 0 then
        { afl :=
            set_entry
              { afl1 with covered_seed_list_counter := afl1.covered_seed_list_counter + 1 }
              seed_index { entry afl1 seed_index with set_covered := true }
          unselected_seeds := swap_remove v.unselected_seeds best_seed_idx
          covered_frontier_count := v.covered_frontier_count + cl.2
          set_covered_seed_list := v.set_covered_seed_list ++ [reduction_seed.id] }
      else { v with afl := afl1 }
    some (v1, decide (v1.covered_frontier_count = global_frontier_nodes))

/-- The greedy loop `while (1)`; every round that goes on removes a candidate, so
`fuel` one above the number of candidates is never used up. -/
def set_cover_loop (global_frontier_nodes : Nat) : Nat → set_cover_vars → Option set_cover_vars
  | 0, _ => none
  | fuel + 1, v =>
    match set_cover_round global_frontier_nodes v with
    | none => none
    | some (v1, true) => some v1
    | some (v1, false) => set_cover_loop global_frontier_nodes fuel v1

/-- Lines 1459-1492: the state and the candidate array before the greedy loop. -/
def set_cover_init (afl : afl_state_t) : set_cover_vars :=
  { afl :=
      { afl with
        global_frontier_bitmap_temp := afl.global_frontier_bitmap
        covered_seed_list_counter := 0
        queue_buf := afl.queue_buf.map (fun q => { q with set_covered := false }) }
    unselected_seeds :=
      (List.range afl.queue_buf.length).filter
        (fun i => decide ((entry afl i).covered_frontier_nodes_count > 0))
    covered_frontier_count := 0
    set_covered_seed_list := [] }

/-- The function `set_cover_reduction_final(afl)`, with `rnd` the value of `rand()`.
The result is the new state and the local cover list `set_covered_seed_list`; it is
`none` when the code divides by `queued_items = 0`, indexes `unselected_seeds` with
`-1`, or has selected more than `MAX_NODES_PER_SEED` seeds (the array
`set_covered_seed_list` is then overrun and line 1606 stops in `FATAL`). -/
def set_cover_reduction_final (c : afl_consts) (rnd : Nat) (afl : afl_state_t) :
    Option (afl_state_t × List Nat) :=
  let v0 := set_cover_init afl
  if v0.unselected_seeds.length = 0 then
    if afl.queue_buf.length = 0 then none
    else
      some ({ v0.afl with
        set_favored_id := ((entry v0.afl (rnd % afl.queue_buf.length)).id : Int) }, [])
  else
    match set_cover_loop afl.global_covered_frontier_nodes_count
        (v0.unselected_seeds.length + 1) v0 with
    | none => none
    | some v =>
      if v.afl.covered_seed_list_counter > c.MAX_NODES_PER_SEED then none
      else some (v.afl, v.set_covered_seed_list)

/-! ## Periodic minimization: applying the keep-set (`afl-sched-cmin.c`) -/

/-- The snapshot `cmin_snapshot_t`: the parallel arrays `entries` (seed pointers, here
queue indices) and `hashes` (`u64`), and their length `count`. -/
structure cmin_snapshot_t where
  entries : List Nat := []
  hashes : List Nat := []
  count : Nat := 0

/-- The loop of `keep_index` (lines 373-378) on `lo` and `hi`; the interval shrinks in
every iteration, so `fuel = n` iterations are never used up. -/
def keep_index_loop (arr : List Nat) (key : Nat) : Nat → Nat → Nat → Nat
  | 0, lo, _ => lo
  | fuel + 1, lo, hi =>
    if lo < hi then
      let mid := lo + ((hi - lo) >>> 1)
      if arr.getD mid 0 < key then keep_index_loop arr key fuel (mid + 1) hi
      else keep_index_loop arr key fuel lo mid
    else lo

/-- The cast `(int)lo` of a `u32`. -/
def u32_to_int (x : Nat) : Int :=
  if x % 2 ^ 32 < 2 ^ 31 then ((x % 2 ^ 32 : Nat) : Int) else ((x % 2 ^ 32 : Nat) : Int) - 2 ^ 32

/-- The function `keep_index(arr, n, key)`: binary search for `key` in the ascending
array `arr` of `n` hashes; the position as an `int`, or `-1`. -/
def keep_index (arr : List Nat) (n : Nat) (key : Nat) : Int :=
  let lo := keep_index_loop arr key n 0 n
  if lo < n ∧ arr.getD lo 0 = key then u32_to_int lo else -1

/-- The variables of the entry loop of `apply_filter_to_snapshot`; `keep_used` is
`none` for the `NULL` of an empty keep-set. -/
structure apply_filter_vars where
  afl : afl_state_t
  keep_used : Option (List Nat)
  kept : Nat
  disabled : Nat

/-- The `else` branch of lines 409-417: the entry is disabled. -/
def apply_filter_disable (v : apply_filter_vars) (q : Nat) : apply_filter_vars :=
  { v with
    afl := set_entry v.afl q { entry v.afl q with disabled := true }
    disabled := v.disabled + 1 }

/-- One iteration of the entry loop (lines 400-418) for snapshot position `i`. -/
def apply_filter_entry (snap : cmin_snapshot_t) (keep : List Nat) (keep_n : Nat)
    (v : apply_filter_vars) (i : Nat) : apply_filter_vars :=
  let q := snap.entries.getD i 0
  let h := snap.hashes.getD i 0
  let idx := keep_index keep keep_n h
  match v.keep_used with
  | none => apply_filter_disable v q
  | some keep_used =>
    if idx ≥ 0 ∧ keep_used.getD idx.toNat 0 = 0 then
      { afl := set_entry v.afl q { entry v.afl q with disabled := false }
        keep_used := some (keep_used.set idx.toNat 1)
        kept := v.kept + 1
        disabled := v.disabled }
    else apply_filter_disable v q

/-- Lines 423-432: the walk over the queue that recounts `pending_not_fuzzed` and
`pending_favored`. -/
def recount_pending (afl : afl_state_t) : afl_state_t :=
  let c := afl.queue_buf.foldl
    (fun (c : Nat × Nat) qq =>
      if qq.disabled then c
      else
        ((if !qq.was_fuzzed then c.1 + 1 else c.1),
         (if qq.favored && !qq.was_fuzzed then c.2 + 1 else c.2)))
    (0, 0)
  { afl with pending_not_fuzzed := c.1, pending_favored := c.2 }

/-- The function `apply_filter_to_snapshot(afl, snap, keep, keep_n)`. The `cull_queue`
it calls is the one of this fuzzer tree, whose queue file is not part of the sources;
it is the parameter `cull`. -/
def apply_filter_to_snapshot (cull : afl_state_t → afl_state_t) (afl : afl_state_t)
    (snap : cmin_snapshot_t) (keep : List Nat) (keep_n : Nat) : afl_state_t :=
  if snap.count = 0 then afl
  else
    let v0 : apply_filter_vars :=
      { afl := afl
        keep_used := if keep_n ≠ 0 then some (List.replicate keep_n 0) else none
        kept := 0
        disabled := 0 }
    let v := (List.range snap.count).foldl (apply_filter_entry snap keep keep_n) v0
    recount_pending { cull v.afl with reinit_table := true }

/-- What the file system and the child process answer during one minimization
round: whether both `mkdtemp` calls succeed; for the seed at a queue index, whether
the base name of its file passes `is_casefile_name` and what `copy_file_and_hash`
yields (the `hash64` of the contents, or `none` for a failed read or copy); the wait
status of `afl-cmin`; and the output directory as `collect_keep_hashes` reads it
(`none` when `opendir` fails, else the hashes of the case files it could read). -/
structure cmin_round_env where
  mkdtemp_ok : Bool := true
  is_casefile : Nat → Bool := fun _ => true
  file_hash : Nat → Option Nat := fun _ => none
  wifexited : Bool := true
  wexitstatus : Nat := 0
  out_hashes : Option (List Nat) := none

/-- The function `snapshot_queue_copy(afl, tmp_in, snap)`: the snapshot of the seeds
that are not disabled, carry a case-file name and could be copied, and the count as
the `int` it returns. -/
def snapshot_queue_copy (env : cmin_round_env) (afl : afl_state_t) : cmin_snapshot_t × Int :=
  let snap := (List.range afl.queue_buf.length).foldl
    (fun (snap : cmin_snapshot_t) i =>
      if (entry afl i).disabled then snap
      else if !env.is_casefile i then snap
      else
        match env.file_hash i with
        | some h =>
          { entries := snap.entries ++ [i], hashes := snap.hashes ++ [h],
            count := snap.count + 1 }
        | none => snap)
    { entries := [], hashes := [], count := 0 }
  (snap, u32_to_int snap.count)

/-- The return value of `spawn_afl_cmin_and_wait` (lines 324-332): `0` when the child
exited with status 0, `-1` otherwise. -/
def spawn_afl_cmin_and_wait (env : cmin_round_env) : Int :=
  if !env.wifexited || env.wexitstatus ≠ 0 then -1 else 0

/-- The loop of lines 364-367 of `collect_keep_hashes`: an element of the sorted array
is kept when it is the first or differs from its predecessor. -/
def dedup_sorted : List Nat → List Nat
  | [] => []
  | [a] => [a]
  | a :: b :: rest => if a = b then dedup_sorted (b :: rest) else a :: dedup_sorted (b :: rest)

/-- The function `collect_keep_hashes(out_dir, &keep, &keep_n)`: the non-zero hashes
of the output directory, sorted ascending (`qsort` with `cmpu64`) and without
duplicates; `none` for the return value `-1`. -/
def collect_keep_hashes (env : cmin_round_env) : Option (List Nat) :=
  match env.out_hashes with
  | none => none
  | some hs =>
    some (dedup_sorted ((hs.filter (fun h => h ≠ 0)).insertionSort (fun a b => a ≤ b)))

/-- The function `run_cmin_once_blocking(afl)`; `cull` is the `cull_queue` that
`apply_filter_to_snapshot` calls. -/
def run_cmin_once_blocking (cull : afl_state_t → afl_state_t) (env : cmin_round_env)
    (afl : afl_state_t) : afl_state_t :=
  if !env.mkdtemp_ok then afl
  else
    let sc := snapshot_queue_copy env afl
    if sc.2 ≤ 0 then afl
    else if spawn_afl_cmin_and_wait env = 0 then
      match collect_keep_hashes env with
      | some keep => apply_filter_to_snapshot cull afl sc.1 keep keep.length
      | none => afl
    else afl

/-- The file-scope variables `g_cmin_inited`, `g_cmin_running` and `g_cmin_last_ms`. -/
structure cmin_gate where
  inited : Bool := false
  running : Bool := false
  last_ms : Nat := 0
deriving DecidableEq

/-- The constant `SCHED_CMIN_INTERVAL_SEC`. -/
def SCHED_CMIN_INTERVAL_SEC : Nat := 300

/-- The difference `a - b` of two `u64`. -/
def u64_sub (a b : Nat) : Nat := (a % 2 ^ 64 + 2 ^ 64 - b % 2 ^ 64) % 2 ^ 64

/-- The function `sched_cmin_maybe_run(afl)` on the gate variables and the state.
`now` is what `now_ms()` returns at the first read of the call and `now_after` what it
returns after the round; the third component tells whether `run_cmin_once_blocking`
was called. -/
def sched_cmin_maybe_run (cull : afl_state_t → afl_state_t) (env : cmin_round_env)
    (now now_after : Nat) (g : cmin_gate) (afl : afl_state_t) :
    cmin_gate × afl_state_t × Bool :=
  if !g.inited then ({ g with inited := true, last_ms := now % 2 ^ 64 }, afl, false)
  else if g.running then (g, afl, false)
  else if u64_sub now g.last_ms < SCHED_CMIN_INTERVAL_SEC * 1000 then (g, afl, false)
  else
    let g1 : cmin_gate := { g with running := true }
    let afl1 := run_cmin_once_blocking cull env afl
    ({ g1 with last_ms := now_after % 2 ^ 64, running := false }, afl1, true)

/-- A snapshot as `snapshot_queue_copy` builds it: `count` pairs, the seeds being
distinct entries of the queue. -/
def snapshot_wf (afl : afl_state_t) (snap : cmin_snapshot_t) : Prop :=
  snap.entries.length = snap.count ∧ snap.hashes.length = snap.count ∧
  snap.entries.Nodup ∧ ∀ s, s ∈ snap.entries → s < afl.queue_buf.length

/-- The fields of an entry that `update_bitmap_score` compares and never writes. -/
def entry_key (q : queue_entry) : Nat × Nat × Nat × Nat :=
  (q.len, q.exec_us, q.fuzz_level, q.n_fuzz_entry)

/-- Two states agree on everything that `update_bitmap_score` reads but never writes. -/
def same_inputs (a b : afl_state_t) : Prop :=
  a.schedule = b.schedule ∧ a.fixed_seed = b.fixed_seed ∧ a.n_fuzz = b.n_fuzz ∧
  a.map_size = b.map_size ∧ a.trace_bits = b.trace_bits ∧
  a.queue_buf.length = b.queue_buf.length ∧
  ∀ s, entry_key (entry a s) = entry_key (entry b s)

/-- The number of map positions whose top-rated entry is the seed `s`. -/
def edges_held (afl : afl_state_t) (s : Nat) : Nat :=
  (List.range afl.map_size).countP (fun e => decide (afl.top_rated e = some s))

/-- The reference-count invariant: `tc_ref` of every seed is the number of edges
whose top-rated entry is that seed. -/
def tc_ref_inv (afl : afl_state_t) : Prop :=
  ∀ s, s < afl.queue_buf.length → (entry afl s).tc_ref = edges_held afl s

/-- The coverage invariant of the top-rated table: every edge with a top-rated
seed has its bit set in that seed's `trace_mini`. -/
def trace_mini_inv (afl : afl_state_t) : Prop :=
  ∀ e s, e < afl.map_size → afl.top_rated e = some s → trace_mini_bit afl s e = true

/-- The invariant of the loop of `update_bitmap_score(q)` for a seed `q` that
enters without a `trace_mini`: both table invariants, and `q` either still has no
`trace_mini` or has the one computed from the current trace. -/
def score_loop_inv (afl : afl_state_t) (qi : Nat) : Prop :=
  tc_ref_inv afl ∧ trace_mini_inv afl ∧
  ((entry afl qi).trace_mini = none ∨
    (entry afl qi).trace_mini = some (minimize_bits afl.map_size afl.trace_bits))

/-- Some favored entry of the queue has bit `e` set in its `trace_mini`. -/
def covered_by_favored (afl : afl_state_t) (e : Nat) : Prop :=
  ∃ f, f < afl.queue_buf.length ∧ (entry afl f).favored = true ∧ trace_mini_bit afl f e = true

/-- What the edge loop of `cull_queue` never changes. -/
def cull_frame (a b : afl_state_t) : Prop :=
  b.top_rated = a.top_rated ∧ b.map_size = a.map_size ∧
  b.queue_buf.length = a.queue_buf.length ∧
  (∀ s, (entry b s).trace_mini = (entry a s).trace_mini) ∧
  ∀ s, (entry a s).favored = true → (entry b s).favored = true

/-- The invariant of the edge loop of `cull_queue`: every bit already removed from
`temp_v` is a bit of the `trace_mini` of some favored entry. -/
def cull_loop_inv (a : afl_state_t) : Prop :=
  a.map_size >>> 3 ≤ a.map_tmp_buf.length ∧
  ∀ b, b >>> 3 < a.map_size >>> 3 →
    (a.map_tmp_buf.getD (b >>> 3) 0).testBit (b &&& 7) = false → covered_by_favored a b

/-- The probability mass that index `i` owns in an intermediate state of the alias
construction: its current `P[i]` while it waits on a stack, its
`alias_probability[i]` once it is paired, plus what the paired buckets that alias
to `i` give away. -/
def alias_mass (n : Nat) (st : alias_state_rat) (i : Nat) : ℚ :=
  (if i ∈ st.Small ++ st.Large then st.P.getD i 0 else st.alias_probability.getD i 0) +
  ∑ j in Finset.range n,
    if j ∈ st.Small ++ st.Large then 0
    else if st.alias_table.getD j 0 = i then 1 - st.alias_probability.getD j 0 else 0

/-- The invariant of the pairing loop of the alias construction that started
from the array `P0`. -/
def alias_inv (P0 : List ℚ) (st : alias_state_rat) : Prop :=
  (st.P.length = P0.length ∧ st.alias_table.length = P0.length ∧
    st.alias_probability.length = P0.length) ∧
  ((st.Small ++ st.Large).Nodup ∧ ∀ u ∈ st.Small ++ st.Large, u < P0.length) ∧
  ((∀ s ∈ st.Small, st.P.getD s 0 < 1) ∧ ∀ l ∈ st.Large, 1 ≤ st.P.getD l 0) ∧
  (∀ i, i < P0.length → alias_mass P0.length st i = P0.getD i 0) ∧
  ((st.Small ++ st.Large).map (fun u => st.P.getD u 0)).sum =
    ((st.Small ++ st.Large).length : ℚ) + (P0.sum - (P0.length : ℚ))

/-- What the pairing loop keeps for an index `d` whose `P[d]` is zero: `d` waits on
`Small` with `P[d] = 0`, or it has been paired with `alias_probability[d] = 0`; and no
paired bucket aliases to `d`. -/
def alias_zero_inv (n d : Nat) (st : alias_state_rat) : Prop :=
  ((d ∈ st.Small ∧ st.P.getD d 0 = 0) ∨
    (d ∉ st.Small ++ st.Large ∧ st.alias_probability.getD d 0 = 0)) ∧
  ∀ j, j < n → j ∉ st.Small ++ st.Large → st.alias_table.getD j 0 ≠ d

/-! ## Concrete inputs -/

/-- Constants for the worked examples: the enumerators in the order of the
upstream declaration (EXPLORE = 0, MMOPT = 1, EXPLOIT = 2, FAST = 3, COE = 4,
LIN = 5, QUAD = 6, RARE = 7, SEEK = 8), a cap of 1024 edges per seed and the
least power of two that is not below the argument. -/
def demo_consts : afl_consts :=
  { MMOPT := 1, FAST := 3, RARE := 7, MAX_NODES_PER_SEED := 1024,
    next_pow2 := fun n => if n ≤ 1 then 1 else 2 ^ (Nat.log2 (n - 1) + 1) }

/-- Two seeds of equal `len`, `exec_us` and `fuzz_level` under EXPLORE and set-cover
scheduling; seed 0 was scored with a trace that hits edge 0 of an eight-edge map and
holds that edge, and the current trace hits edge 0. -/
def tie_state : afl_state_t :=
  { schedule := 0, map_size := 8, use_set_cover_scheduling := true,
    trace_bits := [1, 0, 0, 0, 0, 0, 0, 0],
    global_frontier_bitmap := [1, 0], global_covered_frontier_nodes_count := 1,
    queue_buf :=
      [{ id := 0, len := 10, exec_us := 100, tc_ref := 1, trace_mini := some [1],
         covered_frontier_node_list := [0], covered_frontier_nodes_count := 1 },
       { id := 1, len := 10, exec_us := 100 }],
    top_rated := fun e => if e = 0 then some 0 else none }

/-- An eight-edge map under set-cover scheduling in which seed 0 was scored with a
trace that hits edges 0 and 1: it holds both edges, has both bits in its `trace_mini`
and `tc_ref` 2; seed 1 has just been added (no `trace_mini`) and the current trace hits
edge 0. -/
def fresh_seed_state : afl_state_t :=
  { schedule := 0, map_size := 8, use_set_cover_scheduling := true,
    trace_bits := [1, 0, 0, 0, 0, 0, 0, 0],
    global_frontier_bitmap := [3, 0], global_covered_frontier_nodes_count := 2,
    queue_buf :=
      [{ id := 0, len := 10, exec_us := 100, tc_ref := 2, trace_mini := some [3],
         covered_frontier_node_list := [0, 1], covered_frontier_nodes_count := 2 },
       { id := 1, len := 10, exec_us := 100 }],
    top_rated := fun e => if e = 0 ∨ e = 1 then some 0 else none }

/-- Three seeds over an eight-byte map after scoring traces {0,1}, {1,2}, {0,2} in
that order with equal `exec_us` and `len`: ties take the edge, so seed 2 holds edges 0
and 2, seed 1 holds edge 1 and seed 0 has lost its edges and its `trace_mini`. -/
def cull_demo_state : afl_state_t :=
  { schedule := 0, map_size := 8, score_changed := true,
    queue_buf :=
      [{ id := 0, len := 10, exec_us := 100, tc_ref := 0, trace_mini := none },
       { id := 1, len := 10, exec_us := 100, tc_ref := 1, trace_mini := some [6] },
       { id := 2, len := 10, exec_us := 100, tc_ref := 2, trace_mini := some [5] }],
    top_rated := fun e => if e = 0 ∨ e = 2 then some 2 else if e = 1 then some 1 else none }

/-- The integer part of the decimal logarithm, by repeated division; `fuel` bounds the
number of digits. -/
def ilog10 : Nat → Nat → Nat
  | 0, _ => 0
  | fuel + 1, n => if n < 10 then 0 else ilog10 fuel (n / 10) + 1

/-- A score model for the worked examples: `log` constant on the positive integers,
`log10` the integer part of the decimal logarithm (of a number below `10^40`), and a
constant performance score that leaves the handicap alone. -/
def demo_model : score_model :=
  { log := fun _ => 1, log10 := fun n => (ilog10 40 n : ℚ),
    calculate_score := fun _ q => (100, q.handicap) }

/-- Four active seeds under FAST whose weights come out as 1, 1, 2 and 4. All have
`exec_us = 100`, `bitmap_size = 8` and a path that was hit `10^7` times (a factor
`1 / 8`), all are favored (a factor 5), and they hold 3, 3, 3 and 11 edges of a map of
24 (factors `1 + 3/5` and `1 + 11/5`); seeds 2 and 3 were not fuzzed yet (a factor 2). -/
def alias_demo_state : afl_state_t :=
  { schedule := 3, map_size := 24, n_fuzz := [10000000],
    top_rated := fun e =>
      if e < 3 then some 0 else if e < 6 then some 1 else if e < 9 then some 2
      else if e < 20 then some 3 else none,
    queue_buf :=
      [{ id := 0, exec_us := 100, bitmap_size := 8, was_fuzzed := true, favored := true,
         tc_ref := 3, trace_mini := some [7, 0, 0] },
       { id := 1, exec_us := 100, bitmap_size := 8, was_fuzzed := true, favored := true,
         tc_ref := 3, trace_mini := some [56, 0, 0] },
       { id := 2, exec_us := 100, bitmap_size := 8, was_fuzzed := false, favored := true,
         tc_ref := 3, trace_mini := some [192, 1, 0] },
       { id := 3, exec_us := 100, bitmap_size := 8, was_fuzzed := false, favored := true,
         tc_ref := 11, trace_mini := some [0, 254, 15] }] }

/-- Three seeds under EXPLORE: seed 0 is disabled, seeds 1 and 2 are active and
favored and hold one edge each of a map of 8. -/
def alias_disabled_state : afl_state_t :=
  { schedule := 0, map_size := 8,
    top_rated := fun e => if e = 0 then some 1 else if e = 1 then some 2 else none,
    queue_buf :=
      [{ id := 0, exec_us := 100, bitmap_size := 8, was_fuzzed := true, disabled := true },
       { id := 1, exec_us := 100, bitmap_size := 8, was_fuzzed := true, favored := true,
         tc_ref := 1, trace_mini := some [1] },
       { id := 2, exec_us := 100, bitmap_size := 8, was_fuzzed := false, favored := true,
         tc_ref := 1, trace_mini := some [2] }] }

/-- The seeds of `alias_disabled_state` when no seed holds an edge: the average of
`tc_ref` is zero and the weights of the active seeds are NaN. -/
def alias_nan_state : afl_state_t :=
  { schedule := 0,
    queue_buf :=
      [{ id := 0, exec_us := 100, bitmap_size := 8, was_fuzzed := true, disabled := true },
       { id := 1, exec_us := 100, bitmap_size := 8, was_fuzzed := true },
       { id := 2, exec_us := 100, bitmap_size := 8, was_fuzzed := false }] }

/-- The invariant of the entry loop of `apply_filter_to_snapshot` after `k` entries:
a slot of `keep_used` is free exactly when no entry so far was found at it, and an
entry so far is active exactly when its hash was found at a slot no earlier entry was
found at. -/
structure apply_filter_inv (afl0 : afl_state_t) (snap : cmin_snapshot_t) (keep : List Nat)
    (keep_n : Nat) (k : Nat) (v : apply_filter_vars) : Prop where
  len : v.afl.queue_buf.length = afl0.queue_buf.length
  used_none : v.keep_used = none → keep_n = 0
  used_len : ∀ ku, v.keep_used = some ku → ku.length = keep_n
  used_some : ∀ ku, v.keep_used = some ku →
    ∀ x, x < keep_n → (ku.getD x 0 = 0 ↔
      ∀ j, j < k → keep_index keep keep_n (snap.hashes.getD j 0) ≠ (x : Int))
  act : ∀ i, i < k →
    ((entry v.afl (snap.entries.getD i 0)).disabled = false ↔
      (0 ≤ keep_index keep keep_n (snap.hashes.getD i 0) ∧
        ∀ j, j < i → keep_index keep keep_n (snap.hashes.getD j 0) ≠
          keep_index keep keep_n (snap.hashes.getD i 0)))

/-- The invariant "no disabled seed is the top-rated seed of an edge". -/
def no_disabled_top (afl : afl_state_t) : Prop :=
  ∀ e s, e < afl.map_size → afl.top_rated e = some s → (entry afl s).disabled = false

/-- A state in which nothing has been scored yet: no edge has a top-rated seed and
no seed holds a reference or a `trace_mini`. -/
def fresh_table (afl : afl_state_t) : Prop :=
  (∀ e, afl.top_rated e = none) ∧
  ∀ s, (entry afl s).tc_ref = 0 ∧ (entry afl s).trace_mini = none

/-- What `update_bitmap_score` leaves alone of the inputs of `cull_queue`. -/
def same_flags (a b : afl_state_t) : Prop :=
  a.non_instrumented_mode = b.non_instrumented_mode ∧ a.map_tmp_buf = b.map_tmp_buf ∧
  ∀ s, (entry a s).favored = (entry b s).favored

/-- How `score_changed` follows the top-rated table from the state `a0` on: it is set
once an edge has a holder, and is as in `a0` as long as none has. -/
def score_changed_inv (a0 a : afl_state_t) : Prop :=
  ((∃ e, a.top_rated e ≠ none) → a.score_changed = true) ∧
  (a.score_changed = a0.score_changed ∨ ∃ e, a.top_rated e ≠ none)

/-- The link between reference count and `trace_mini`: a seed without references has
no `trace_mini`, and a seed with references has the one minimized from its trace. -/
def trace_mini_of_trace (tr : Nat → List Nat) (afl : afl_state_t) : Prop :=
  ∀ s, s < afl.queue_buf.length →
    (entry afl s).trace_mini =
      if (entry afl s).tc_ref = 0 then none else some (minimize_bits afl.map_size (tr s))

/-- The state `a` reached from `afl0` by scoring the seeds of `l`, in terms that do not
depend on the order of `l`: the holder of an edge is a seed of `l` that hits the edge
and has the least `fav_factor` among those, every edge hit by a seed of `l` has a
holder, and counts, `trace_mini` and `score_changed` follow from the table. -/
structure scored_inv (c : afl_consts) (tr : Nat → List Nat) (afl0 : afl_state_t)
    (l : List Nat) (a : afl_state_t) : Prop where
  size : a.map_size = afl0.map_size ∧ a.queue_buf.length = afl0.queue_buf.length
  keys : ∀ s, fuzz_p2_of c a (entry a s) = fuzz_p2_of c afl0 (entry afl0 s) ∧
    fav_factor_of c a (entry a s) = fav_factor_of c afl0 (entry afl0 s)
  flags : same_flags a afl0
  changed : score_changed_inv afl0 a
  refs : tc_ref_inv a
  minis : trace_mini_of_trace tr a
  holder : ∀ e s, a.top_rated e = some s →
    s ∈ l ∧ e < afl0.map_size ∧ (tr s).getD e 0 ≠ 0 ∧
      ∀ s', s' ∈ l → (tr s').getD e 0 ≠ 0 →
        fav_factor_of c afl0 (entry afl0 s) ≤ fav_factor_of c afl0 (entry afl0 s')
  held : ∀ e s, s ∈ l → e < afl0.map_size → (tr s).getD e 0 ≠ 0 → a.top_rated e ≠ none

/-- Two states that `cull_queue` cannot tell apart as far as the favored flags go. -/
def cull_same (a b : afl_state_t) : Prop :=
  a.top_rated = b.top_rated ∧ a.map_size = b.map_size ∧ a.map_tmp_buf = b.map_tmp_buf ∧
  a.queue_buf.length = b.queue_buf.length ∧ a.score_changed = b.score_changed ∧
  a.non_instrumented_mode = b.non_instrumented_mode ∧
  ∀ s, (entry a s).trace_mini = (entry b s).trace_mini ∧
    (entry a s).favored = (entry b s).favored

/-- A seed without frontier edges and a seed that covers the whole frontier {3};
`set_favored_id` still names seed 0 from an earlier round. -/
def stale_favored_state : afl_state_t :=
  { global_frontier_bitmap := [8], global_covered_frontier_nodes_count := 1,
    set_favored_id := 0,
    queue_buf :=
      [{ id := 0 },
       { id := 1, covered_frontier_node_list := [3], covered_frontier_nodes_count := 1 }] }

/-- The minimization scenario of the spec: four seeds with contents aa, bb, aa, cc,
none fuzzed; the hashes stand for H(aa) = 11, H(bb) = 22 and H(cc) = 33. -/
def cmin_demo_state : afl_state_t :=
  { queue_buf := [{ id := 0 }, { id := 1 }, { id := 2 }, { id := 3 }] }

/-- The snapshot of `cmin_demo_state`. -/
def cmin_demo_snapshot : cmin_snapshot_t :=
  { entries := [0, 1, 2, 3], hashes := [11, 22, 11, 33], count := 4 }

/-- A disabled seed that was marked redundant while it was active and holds edge 0,
next to an active seed that holds edge 1; the scores have changed. -/
def disabled_holder_state : afl_state_t :=
  { schedule := 0, map_size := 8, score_changed := true,
    queue_buf :=
      [{ id := 0, len := 10, exec_us := 100, tc_ref := 1, trace_mini := some [1],
         disabled := true, fs_redundant := true },
       { id := 1, len := 10, exec_us := 100, tc_ref := 1, trace_mini := some [2] }],
    top_rated := fun e => if e = 0 then some 0 else if e = 1 then some 1 else none }

/-- The start of the scenario "favored minimality": an eight-edge map, nothing scored
yet, and three seeds with `exec_us = 100` and `len = 10`. -/
def favored_demo_start : afl_state_t :=
  { schedule := 0, map_size := 8, use_set_cover_scheduling := true,
    global_frontier_bitmap := [0, 0],
    queue_buf :=
      [{ id := 0, len := 10, exec_us := 100 },
       { id := 1, len := 10, exec_us := 100 },
       { id := 2, len := 10, exec_us := 100 }] }

/-- The three seeds scored in the order 0, 1, 2 with the traces {0,1}, {1,2}, {0,2}. -/
def favored_demo_scored : afl_state_t :=
  score_seed demo_consts
    (score_seed demo_consts
      (score_seed demo_consts favored_demo_start [1, 1, 0, 0, 0, 0, 0, 0] 0)
      [0, 1, 1, 0, 0, 0, 0, 0] 1)
    [1, 0, 1, 0, 0, 0, 0, 0] 2

/-- The traces {0,1}, {1,2}, {0,2} of the seeds 0, 1, 2 over an eight-edge map. -/
def favored_demo_traces (s : Nat) : List Nat :=
  [[1, 1, 0, 0, 0, 0, 0, 0], [0, 1, 1, 0, 0, 0, 0, 0], [1, 0, 1, 0, 0, 0, 0, 0]].getD s []

/-- The three seeds of the scenario with pairwise different speed: `exec_us` 100, 200
and 300 at `len = 10`. -/
def paced_demo_start : afl_state_t :=
  { schedule := 0, map_size := 8, use_set_cover_scheduling := true,
    global_frontier_bitmap := [0, 0],
    queue_buf :=
      [{ id := 0, len := 10, exec_us := 100 },
       { id := 1, len := 10, exec_us := 200 },
       { id := 2, len := 10, exec_us := 300 }] }

/-- Two seeds that both hit edge 0 under EXPLORE: seed 0 is slower and was never
fuzzed, seed 1 is faster and has `fuzz_level = 1`. -/
def pressure_demo_start : afl_state_t :=
  { schedule := 0, map_size := 8, use_set_cover_scheduling := true,
    global_frontier_bitmap := [0, 0],
    queue_buf :=
      [{ id := 0, len := 10, exec_us := 200, fuzz_level := 0 },
       { id := 1, len := 10, exec_us := 100, fuzz_level := 1 }] }

/-- The scenario "speed beats size": two seeds of `len = 100` with `exec_us` 50 and
200 over an eight-edge map, nothing scored yet. -/
def speed_demo_state : afl_state_t :=
  { schedule := 0, map_size := 8, use_set_cover_scheduling := true,
    global_frontier_bitmap := [0, 0],
    queue_buf := [{ id := 0, len := 100, exec_us := 50 }, { id := 1, len := 100, exec_us := 200 }] }

/-- The two seeds of `speed_demo_state` next to a short and fast seed 2 that was scored
before them and holds edge 5. -/
def speed_third_state : afl_state_t :=
  { schedule := 0, map_size := 8, use_set_cover_scheduling := true,
    global_frontier_bitmap := [32, 0], global_covered_frontier_nodes_count := 1,
    queue_buf :=
      [{ id := 0, len := 100, exec_us := 50 }, { id := 1, len := 100, exec_us := 200 },
       { id := 2, len := 1, exec_us := 1, tc_ref := 1, trace_mini := some [32],
         covered_frontier_node_list := [5], covered_frontier_nodes_count := 1 }],
    top_rated := fun e => if e = 5 then some 2 else none }

/-- Two seeds of `len = 0` with `exec_us` 50 and 200 over an eight-edge map, nothing
scored yet. -/
def speed_empty_state : afl_state_t :=
  { schedule := 0, map_size := 8, use_set_cover_scheduling := true,
    global_frontier_bitmap := [0, 0],
    queue_buf := [{ id := 0, len := 0, exec_us := 50 }, { id := 1, len := 0, exec_us := 200 }] }

/-- The files of the minimization scenario: every seed of `cmin_demo_state` has a case
file, with the hashes 11, 22, 11, 33; the minimizer exits with status 0 and leaves
files hashing to 33 and 11 in its output directory. -/
def cmin_demo_env : cmin_round_env :=
  { file_hash := fun i => [11, 22, 11, 33][i]?, out_hashes := some [33, 11] }

/-- The same files, with a minimizer that exits with status 1. -/
def cmin_failed_env : cmin_round_env :=
  { cmin_demo_env with wexitstatus := 1 }

/-- Two active seeds over an eight-edge map, seed 0 holding edge 0 and seed 1 holding
edge 1, with changed scores. -/
def cmin_top_state : afl_state_t :=
  { schedule := 0, map_size := 8, score_changed := true,
    queue_buf :=
      [{ id := 0, len := 10, exec_us := 100, tc_ref := 1, trace_mini := some [1] },
       { id := 1, len := 10, exec_us := 100, tc_ref := 1, trace_mini := some [2] }],
    top_rated := fun e => if e = 0 then some 0 else if e = 1 then some 1 else none }

/-- The snapshot of `cmin_top_state`, the contents hashing to 11 and 22. -/
def cmin_top_snapshot : cmin_snapshot_t :=
  { entries := [0, 1], hashes := [11, 22], count := 2 }

/-! ## Growing the queue: `add_to_queue` -/

/-- The function `add_to_queue(afl, fname, len, passed_det)`, lines 587-628: a zeroed
entry gets `len`, `depth`, `passed_det` and `mother`, the counters (all `u32`) are
advanced, and the entry is stored at `queue_buf[queued_items - 1]` with that index as
its `id`. The counter `queued_items` is the length of `queue_buf` in this model; when
its increment wraps, the store falls outside the reallocated buffer and the result is
`none`. The allocations are taken to succeed; the time bookkeeping and the hooks that
follow line 628 write to fields outside the model. -/
def add_to_queue (afl : afl_state_t) (len : Nat) (passed_det : Bool) : Option afl_state_t :=
  let depth := (afl.cur_depth + 1) % 2 ^ 32
  let queued_items := (afl.queue_buf.length + 1) % 2 ^ 32
  if queued_items = afl.queue_buf.length + 1 then
    some
      { afl with
        max_depth := if depth > afl.max_depth then depth else afl.max_depth
        queue :=
          match afl.queue_top with
          | some _ => afl.queue
          | none => some afl.queue_buf.length
        queue_top := some afl.queue_buf.length
        ready_for_splicing_count :=
          if len > 4 then (afl.ready_for_splicing_count + 1) % 2 ^ 32
          else afl.ready_for_splicing_count
        active_items := (afl.active_items + 1) % 2 ^ 32
        pending_not_fuzzed := (afl.pending_not_fuzzed + 1) % 2 ^ 32
        cycles_wo_finds := 0
        queue_buf :=
          afl.queue_buf ++
            [{ len := len, depth := depth, passed_det := passed_det, trace_mini := none,
               mother := afl.queue_cur, id := queued_items - 1 }] }
  else none

/-- The invariant "`queue_buf[i]->id == i` for every `i < queued_items`". -/
def id_inv (afl : afl_state_t) : Prop :=
  ∀ i, i < queued_items afl → (entry afl i).id = i

/-! ## Performance score: `calculate_score` -/

/-- The constants that `calculate_score` compares against, next to those of
`afl_consts`: the remaining power-schedule enumerators, `MAX_FACTOR` and `POWER_BETA`
of `config.h`, and the library function `log2` on the integers it is applied to. -/
structure score_consts extends afl_consts where
  EXPLORE : Nat
  SEEK : Nat
  EXPLOIT : Nat
  COE : Nat
  LIN : Nat
  QUAD : Nat
  MAX_FACTOR : ℚ
  POWER_BETA : ℚ
  log2 : Nat → ℚ

/-- The conversion to `u32` of a finite `double` that is not negative and below
`2^32`, as the compound assignments to `perf_score` perform it: the fraction is
dropped. It is applied to such values only, the products of a score of at most 300
with 1.5, 0.25, 0.5 and 0.75. -/
def to_u32 (x : ℚ) : Nat :=
  (Rat.floor x).toNat % 2 ^ 32

/-- The conversion of a `double` to `u32`: the fraction is dropped; NaN, the infinities
and the values whose integral part does not fit have no defined conversion (`none`). -/
def fval.to_u32 : fval → Option Nat
  | fval.fin x => if -1 < x ∧ x < 2 ^ 32 then some (Rat.floor x).toNat else none
  | _ => none

/-- The value of `log2(x)` for an unsigned integer `x`: minus infinity at 0. -/
def flog2 (log2 : Nat → ℚ) (x : Nat) : fval :=
  if x = 0 then fval.ninf else fval.fin (log2 x)

/-- Lines 2303-2347: the starting score by execution speed against the average. -/
def score_speed (k : score_consts) (afl : afl_state_t) (q : queue_entry) (avg_exec_us : Nat) :
    Nat :=
  if afl.schedule < k.RARE ∧ afl.fixed_seed = false then
    if (q.exec_us : ℚ) * (1 / 10) > (avg_exec_us : ℚ) then 10
    else if (q.exec_us : ℚ) * (1 / 4) > (avg_exec_us : ℚ) then 25
    else if (q.exec_us : ℚ) * (1 / 2) > (avg_exec_us : ℚ) then 50
    else if (q.exec_us : ℚ) * (3 / 4) > (avg_exec_us : ℚ) then 75
    else if (q.exec_us * 4) % 2 ^ 64 < avg_exec_us then 300
    else if (q.exec_us * 3) % 2 ^ 64 < avg_exec_us then 200
    else if (q.exec_us * 2) % 2 ^ 64 < avg_exec_us then 150
    else 100
  else 100

/-- Lines 2352-2376: the adjustment by bitmap size against the average. -/
def score_bitmap (q : queue_entry) (avg_bitmap_size : Nat) (perf_score : Nat) : Nat :=
  if (q.bitmap_size : ℚ) * (3 / 10) > (avg_bitmap_size : ℚ) then (perf_score * 3) % 2 ^ 32
  else if (q.bitmap_size : ℚ) * (1 / 2) > (avg_bitmap_size : ℚ) then (perf_score * 2) % 2 ^ 32
  else if (q.bitmap_size : ℚ) * (3 / 4) > (avg_bitmap_size : ℚ) then
    to_u32 ((perf_score : ℚ) * (3 / 2))
  else if (q.bitmap_size * 3) % 2 ^ 32 < avg_bitmap_size then to_u32 ((perf_score : ℚ) * (1 / 4))
  else if (q.bitmap_size * 2) % 2 ^ 32 < avg_bitmap_size then to_u32 ((perf_score : ℚ) * (1 / 2))
  else if (q.bitmap_size : ℚ) * (3 / 2) < (avg_bitmap_size : ℚ) then
    to_u32 ((perf_score : ℚ) * (3 / 4))
  else perf_score

/-- Lines 2382-2392: the adjustment by handicap; the result is the score and the
handicap left in the entry. -/
def score_handicap (q : queue_entry) (perf_score : Nat) : Nat × Nat :=
  if q.handicap ≥ 4 then ((perf_score * 4) % 2 ^ 32, q.handicap - 4)
  else if q.handicap ≠ 0 then ((perf_score * 2) % 2 ^ 32, q.handicap - 1)
  else (perf_score, q.handicap)

/-- Lines 2398-2414: the adjustment by input depth. -/
def score_depth (q : queue_entry) (perf_score : Nat) : Nat :=
  if q.depth ≤ 3 then perf_score
  else if q.depth ≤ 7 then (perf_score * 2) % 2 ^ 32
  else if q.depth ≤ 13 then (perf_score * 3) % 2 ^ 32
  else if q.depth ≤ 25 then (perf_score * 4) % 2 ^ 32
  else (perf_score * 5) % 2 ^ 32

/-- Lines 2465-2503: the factor of the case `FAST`, which the case `COE` falls into;
`none` where `(u32)log2(...)` has no defined value. -/
def score_fast (k : score_consts) (afl : afl_state_t) (q : queue_entry) : Option ℚ :=
  if q.fuzz_level = 0 then some 1
  else
    match (flog2 k.log2 (afl.n_fuzz.getD q.n_fuzz_entry 0)).to_u32 with
    | none => none
    | some l =>
      let factor : ℚ :=
        if l ≤ 1 then 4
        else if l ≤ 3 then 3
        else if l = 4 then 2
        else if l = 5 then 1
        else if l = 6 then (if !q.favored then 8 / 10 else 1)
        else if l = 7 then (if !q.favored then 6 / 10 else 1)
        else (if !q.favored then 4 / 10 else 1)
      some (if q.favored then factor * (115 / 100) else factor)

/-- Lines 2420-2550: the switch over the power schedule; the result is the score and
`factor`, and `none` where the code stops in `FATAL` or `PFATAL`, divides an integer by
zero (the `u32` sum `n_fuzz + 1` of the cases `LIN` and `QUAD` can wrap to zero) or
converts a `double` without a `u32` value. `max_depth - depth` is a `u64` difference;
`fuzz_level` and the `n_fuzz` counts are `u32`. -/
def score_schedule (k : score_consts) (afl : afl_state_t) (q : queue_entry) (perf_score : Nat) :
    Option (Nat × ℚ) :=
  if afl.schedule = k.EXPLORE then some (perf_score, 1)
  else if afl.schedule = k.SEEK then some (perf_score, 1)
  else if afl.schedule = k.EXPLOIT then some (perf_score, k.MAX_FACTOR)
  else if afl.schedule = k.COE then
    if q.fuzz_level = 0 then some (perf_score, 1)
    else
      let act := afl.queue_buf.filter (fun e => !e.disabled)
      if act.length = 0 then none
      else
        let fuzz_mu : fval :=
          (fsum (act.map (fun e => flog2 k.log2 (afl.n_fuzz.getD e.n_fuzz_entry 0)))).div
            (fval.fin (act.length : ℚ))
        if fuzz_mu.lt (flog2 k.log2 (afl.n_fuzz.getD q.n_fuzz_entry 0)) then
          some (perf_score, if !q.favored then 0 else 1)
        else
          match score_fast k afl q with
          | some f => some (perf_score, f)
          | none => none
  else if afl.schedule = k.FAST then
    match score_fast k afl q with
    | some f => some (perf_score, f)
    | none => none
  else if afl.schedule = k.LIN then
    if q.fuzz_level = 0 then some (perf_score, 1)
    else if (afl.n_fuzz.getD q.n_fuzz_entry 0 + 1) % 2 ^ 32 = 0 then none
    else
      some (perf_score,
        ((q.fuzz_level / ((afl.n_fuzz.getD q.n_fuzz_entry 0 + 1) % 2 ^ 32) : Nat) : ℚ))
  else if afl.schedule = k.QUAD then
    if q.fuzz_level = 0 then some (perf_score, 1)
    else if (afl.n_fuzz.getD q.n_fuzz_entry 0 + 1) % 2 ^ 32 = 0 then none
    else
      some (perf_score,
        (((q.fuzz_level * q.fuzz_level) % 2 ^ 32 /
          ((afl.n_fuzz.getD q.n_fuzz_entry 0 + 1) % 2 ^ 32) : Nat) : ℚ))
  else if afl.schedule = k.MMOPT then
    if u64_sub afl.max_depth q.depth < 5 then some ((perf_score * 2) % 2 ^ 32, 1)
    else some (perf_score, 1)
  else if afl.schedule = k.RARE then
    match ((fval.fin (((perf_score + q.tc_ref * 10) % 2 ^ 32 : Nat) : ℚ)).mul
        ((fval.fin 1).sub
          ((fval.fin (afl.n_fuzz.getD q.n_fuzz_entry 0 : ℚ)).div
            (fval.fin (afl.total_execs : ℚ))))).to_u32 with
    | some p => some (p, 1)
    | none => none
  else none

/-- Lines 2552-2577: the factor is applied for the schedules from EXPLOIT to QUAD,
then the MOpt doubling or the lower bound 1, then the cap `havoc_max_mult * 100`;
`none` where the product with the factor has no `u32` value. -/
def score_finish (k : score_consts) (afl : afl_state_t) (q : queue_entry) (perf_score : Nat)
    (factor : ℚ) : Option Nat :=
  let p1 : Option Nat :=
    if k.EXPLOIT ≤ afl.schedule ∧ afl.schedule ≤ k.QUAD then
      ((fval.fin (perf_score : ℚ)).mul
        ((fval.fin (if factor > k.MAX_FACTOR then k.MAX_FACTOR else factor)).div
          (fval.fin k.POWER_BETA))).to_u32
    else some perf_score
  match p1 with
  | none => none
  | some p1 =>
    let p2 : Nat :=
      if afl.limit_time_sig ≠ 0 ∧ u64_sub afl.max_depth q.depth < 3 then (p1 * 2) % 2 ^ 32
      else if afl.schedule ≠ k.COE ∧ p1 < 1 then 1
      else p1
    some
      (if p2 > (afl.havoc_max_mult * 100) % 2 ^ 32 then (afl.havoc_max_mult * 100) % 2 ^ 32
       else p2)

/-- The function `calculate_score(afl, q)`: the `u32` score it returns and the handicap
it leaves in `q`; `none` where it does not return a defined value (see
`score_schedule` and `score_finish`). The divisors are the counters cut to `u32`,
with zero replaced by 1, and the averages are `u64` quotients stored in `u32`
variables. -/
def calculate_score (k : score_consts) (afl : afl_state_t) (q : queue_entry) :
    Option (Nat × Nat) :=
  let cal_cycles :=
    if afl.total_cal_cycles % 2 ^ 32 = 0 then 1 else afl.total_cal_cycles % 2 ^ 32
  let bitmap_entries :=
    if afl.total_bitmap_entries % 2 ^ 32 = 0 then 1 else afl.total_bitmap_entries % 2 ^ 32
  let avg_exec_us := (afl.total_cal_us / cal_cycles) % 2 ^ 32
  let avg_bitmap_size := (afl.total_bitmap_size / bitmap_entries) % 2 ^ 32
  let h := score_handicap q (score_bitmap q avg_bitmap_size (score_speed k afl q avg_exec_us))
  match score_schedule k afl q (score_depth q h.1) with
  | some r =>
    match score_finish k afl q r.1 r.2 with
    | some p => some (p, h.2)
    | none => none
  | none => none

/-- The weight model whose `calculate_score` is the function of the source, over
given `log` and `log10`; a call without a defined value is given the score 0 with the
handicap unchanged. -/
def source_model (k : score_consts) (log log10 : Nat → ℚ) : score_model :=
  { log := log
    log10 := log10
    calculate_score := fun afl q =>
      match calculate_score k afl q with
      | some r => ((r.1 : ℚ), r.2)
      | none => (0, q.handicap) }

/-- What the weights of the schedules below RARE are computed from: every field of
an entry but `weight`, `perf_score` and `handicap`. -/
def alias_key (q : queue_entry) : Bool × Nat × Nat × Nat × Nat × Bool × Bool × Bool :=
  (q.disabled, q.exec_us, q.bitmap_size, q.tc_ref, q.n_fuzz_entry, q.favored, q.was_fuzzed,
    q.fs_redundant)

/-- Two states agree on everything that the weights of the schedules below RARE are
computed from. -/
def alias_rel (a b : afl_state_t) : Prop :=
  a.schedule = b.schedule ∧ a.n_fuzz = b.n_fuzz ∧ a.queued_discovered = b.queued_discovered ∧
  a.queue_buf.length = b.queue_buf.length ∧
  ∀ s, alias_key (entry a s) = alias_key (entry b s)

/-! ## Choosing the rotation target in the cover list -/

/-- The function `calculate_newest_frontier_node_score(afl, q)`, with `now` the value
of `time(NULL)`: the sum of `1 / (1 + difftime(now, discovery_time))` over the recent
frontier nodes whose bit is set in the seed's `frontier_node_bitmap`. -/
def calculate_newest_frontier_node_score (now : Int) (afl : afl_state_t) (q : queue_entry) : ℚ :=
  (List.range afl.recent_frontier_count).foldl
    (fun score i =>
      let frontier_node := afl.recent_frontier_nodes.getD i 0
      if BITMAP_CHECK q.frontier_node_bitmap frontier_node then
        let discovery_time := afl.frontier_discovery_time.getD frontier_node 0
        if discovery_time ≠ 4294967295 then score + 1 / (1 + ((now - discovery_time : Int) : ℚ))
        else score
      else score)
    0

/-- The variables `best_seed_id`, `best_priority_score` and `all_favored` of
`select_seed_with_priority`. -/
structure select_vars where
  best_seed_id : Nat
  best_priority_score : ℚ
  all_favored : Bool

/-- Lines 1342-1366: the body of the loop of `select_seed_with_priority` for list
position `i`; `exec_us + 1` is a `u64` sum. -/
def select_priority_step (time : Nat → Int) (afl : afl_state_t)
    (set_covered_seed_list : List Nat) (v : select_vars) (i : Nat) : select_vars :=
  let q := entry afl (set_covered_seed_list.getD i 0)
  if !q.set_favored then
    let frontier_score := calculate_newest_frontier_node_score (time i) afl q
    let priority_score := frontier_score / (((q.exec_us + 1) % 2 ^ 64 : Nat) : ℚ)
    if priority_score > v.best_priority_score then
      { best_seed_id := q.id, best_priority_score := priority_score, all_favored := false }
    else { v with all_favored := false }
  else v

/-- The loop that clears `set_favored` of every seed of the cover list. -/
def reset_set_favored (afl : afl_state_t) (set_covered_seed_list : List Nat) : afl_state_t :=
  (List.range afl.covered_seed_list_counter).foldl
    (fun a i =>
      set_entry a (set_covered_seed_list.getD i 0)
        { entry a (set_covered_seed_list.getD i 0) with set_favored := false })
    afl

/-- The function `select_seed_with_priority(afl, set_covered_seed_list)`, with
`time i` the clock at list position `i` and `rnd` the value of `rand()`. The result is
the new state and the returned id; it is `none` when `rand()` is reduced modulo a zero
count or the final store does not go to an entry of the queue. -/
def select_seed_with_priority (time : Nat → Int) (rnd : Nat) (afl : afl_state_t)
    (set_covered_seed_list : List Nat) : Option (afl_state_t × Nat) :=
  let v := (List.range afl.covered_seed_list_counter).foldl
    (select_priority_step time afl set_covered_seed_list)
    { best_seed_id := set_covered_seed_list.getD 0 0, best_priority_score := -1,
      all_favored := true }
  if v.all_favored ∧ afl.covered_seed_list_counter = 0 then none
  else
    let afl1 := if v.all_favored then reset_set_favored afl set_covered_seed_list else afl
    let best_seed_id :=
      if v.all_favored then rnd % afl.covered_seed_list_counter else v.best_seed_id
    if best_seed_id < afl1.queue_buf.length then
      some (set_entry afl1 best_seed_id { entry afl1 best_seed_id with set_favored := true },
        best_seed_id)
    else none

/-- Lines 1413-1431: the body of the loop of `select_fastest_seed` for list position
`i`, on the state, `latest_seed_id` and `all_favored`; `rnd i` is the value of `rand()`
drawn there. -/
def select_fastest_step (rnd : Nat → Nat) (set_covered_seed_list : List Nat)
    (st : afl_state_t × Nat × Bool) (i : Nat) : afl_state_t × Nat × Bool :=
  let q := entry st.1 (set_covered_seed_list.getD i 0)
  let st1 : afl_state_t × Nat × Bool :=
    if !q.set_favored then (st.1, (if q.id > st.2.1 then q.id else st.2.1), false) else st
  if st1.2.2 then
    (reset_set_favored st1.1 set_covered_seed_list, rnd i % st1.1.covered_seed_list_counter,
      true)
  else st1

/-- The function `select_fastest_seed(afl, set_covered_seed_list)`; the loop starts
at list position 1. The result is the new state and the returned id, and `none` when
the final store does not go to an entry of the queue. -/
def select_fastest_seed (rnd : Nat → Nat) (afl : afl_state_t) (set_covered_seed_list : List Nat) :
    Option (afl_state_t × Nat) :=
  let r := (List.range' 1 (afl.covered_seed_list_counter - 1)).foldl
    (select_fastest_step rnd set_covered_seed_list)
    (afl, set_covered_seed_list.getD 0 0, true)
  if r.2.1 < r.1.queue_buf.length then
    some (set_entry r.1 r.2.1 { entry r.1 r.2.1 with set_favored := true }, r.2.1)
  else none

/-! ## Frontier classification -/

/-- The function `is_frontier_node_inner(afl, id)`: more than one successor, one of
which is still virgin (`0xFF`) and not hit by the current trace. -/
def is_frontier_node_inner (afl : afl_state_t) (id : Nat) : Bool :=
  let num_successors := afl.successor_count.getD id 0
  if num_successors ≤ 1 then false
  else
    (List.range num_successors.toNat).any
      (fun i =>
        let succ_id := (afl.successor_map.getD id []).getD i 0
        decide (afl.virgin_bits.getD succ_id 0 = 255) &&
          decide (afl.trace_bits.getD succ_id 0 = 0))

/-- The edges below `n` that the trace hits, in ascending order. -/
def hit_edges (trace : List Nat) (n : Nat) : List Nat :=
  (List.range n).filter (fun e => decide (trace.getD e 0 ≠ 0))

/-! ## Invariants of the favored walk -/

/-- What `cull_queue` keeps about `smallest_favored`: it is `-1` while no favored seed
is unfuzzed, and otherwise the id of a favored seed that is not yet fuzzed. -/
def smallest_favored_inv (a : afl_state_t) : Prop :=
  (a.smallest_favored = -1 ∧
    ∀ s, s < a.queue_buf.length → (entry a s).favored = true → (entry a s).was_fuzzed = true) ∨
  (∃ s, s < a.queue_buf.length ∧ (entry a s).favored = true ∧ (entry a s).was_fuzzed = false ∧
    a.smallest_favored = ((entry a s).id : Int))

/-- Every favored seed is the top-rated seed of some edge of the map. -/
def favored_held_inv (a : afl_state_t) : Prop :=
  ∀ s, s < a.queue_buf.length → (entry a s).favored = true →
    ∃ e, e < a.map_size ∧ a.top_rated e = some s

/-- What the greedy loop of `set_cover_reduction_final` keeps about its candidates,
over the state `afl0` at the call: ids stay, every remaining candidate is a queue index
with a non-zero `covered_frontier_nodes_count`, and every id of the cover list is the id
of such a seed. -/
structure candidates_inv (afl0 : afl_state_t) (v : set_cover_vars) : Prop where
  len : v.afl.queue_buf.length = afl0.queue_buf.length
  ids : ∀ s, (entry v.afl s).id = (entry afl0 s).id
  cand : ∀ s, s ∈ v.unselected_seeds →
    s < afl0.queue_buf.length ∧ 0 < (entry afl0 s).covered_frontier_nodes_count
  cover : ∀ x, x ∈ v.set_covered_seed_list →
    ∃ s, s < afl0.queue_buf.length ∧ 0 < (entry afl0 s).covered_frontier_nodes_count ∧
      (entry afl0 s).id = x

/-- The gain of the candidate at position `i` of `unselected_seeds`. -/
def gain_at (v : set_cover_vars) (i : Nat) : Nat :=
  set_cover_gain v.afl.global_frontier_bitmap_temp (entry v.afl (v.unselected_seeds.getD i 0))

/-- Two states agree on the trace and on the frontier bookkeeping. -/
def same_frontier (a b : afl_state_t) : Prop :=
  a.trace_bits = b.trace_bits ∧ a.global_frontier_bitmap = b.global_frontier_bitmap ∧
  a.global_covered_frontier_nodes_count = b.global_covered_frontier_nodes_count ∧
  a.queue_buf.length = b.queue_buf.length ∧
  ∀ s, (entry a s).covered_frontier_node_list = (entry b s).covered_frontier_node_list ∧
    (entry a s).covered_frontier_nodes_count = (entry b s).covered_frontier_nodes_count

/-- The state of the frontier bookkeeping of seed `qi` after the loop of
`update_bitmap_score` has passed the map positions below `k`: the list holds the hit
edges so far, up to the cap, and the global bitmap has gained their bits. -/
structure hit_edges_inv (c : afl_consts) (afl0 : afl_state_t) (qi k : Nat) (a : afl_state_t) :
    Prop where
  trace : a.trace_bits = afl0.trace_bits
  len : a.queue_buf.length = afl0.queue_buf.length
  list : (entry a qi).covered_frontier_node_list =
    (hit_edges afl0.trace_bits k).take c.MAX_NODES_PER_SEED
  count : (entry a qi).covered_frontier_nodes_count =
    ((hit_edges afl0.trace_bits k).take c.MAX_NODES_PER_SEED).length
  glen : a.global_frontier_bitmap.length = afl0.global_frontier_bitmap.length
  bits : ∀ e, BITMAP_CHECK a.global_frontier_bitmap e =
    (BITMAP_CHECK afl0.global_frontier_bitmap e ||
      (decide (e ∈ hit_edges afl0.trace_bits k) &&
        decide (e >>> 3 < afl0.global_frontier_bitmap.length)))

/-! ## More concrete inputs -/

/-- A queue of two seeds whose ids are their indices. -/
def two_seed_queue : afl_state_t :=
  { cur_depth := 1, max_depth := 1, active_items := 2, pending_not_fuzzed := 1,
    queue := some 0, queue_top := some 1, queue_cur := some 1,
    queue_buf := [{ id := 0, len := 8, depth := 1, was_fuzzed := true },
                  { id := 1, len := 3, depth := 1, mother := some 0 }] }

/-- The enumerators and constants of AFL++ for `calculate_score`, with the integer
logarithm in place of `log2`. -/
def demo_score_consts : score_consts :=
  { demo_consts with
    EXPLORE := 0, SEEK := 8, EXPLOIT := 2, COE := 4, LIN := 5, QUAD := 6,
    MAX_FACTOR := 32, POWER_BETA := 1, log2 := fun n => (Nat.log2 n : ℚ) }

/-- Two seeds under the schedule SEEK, the first with handicap 1. -/
def handicap_demo_state : afl_state_t :=
  { schedule := 8, havoc_max_mult := 64,
    queue_buf := [{ id := 0, handicap := 1 }, { id := 1 }] }

/-- Edge 0 held by seed 2 and edge 1 by seed 1, both not yet fuzzed. -/
def first_favored_state : afl_state_t :=
  { map_size := 8, score_changed := true, map_tmp_buf := [0],
    top_rated := fun e => if e = 0 then some 2 else if e = 1 then some 1 else none,
    queue_buf :=
      [{ id := 0 },
       { id := 1, tc_ref := 1, trace_mini := some [2] },
       { id := 2, tc_ref := 1, trace_mini := some [1] }] }

/-- Two seeds under set-cover scheduling before scoring: seed 0 runs in 10 us, seed 1
in 50 us. -/
def greedy_cover_start : afl_state_t :=
  { map_size := 8, use_set_cover_scheduling := true, global_frontier_bitmap := [0, 0],
    map_tmp_buf := [0],
    queue_buf := [{ id := 0, len := 4, exec_us := 10 }, { id := 1, len := 4, exec_us := 50 }] }

/-- Seed 0 hits edges 0 and 1; seed 1 hits edges 0, 1 and 2. -/
def greedy_cover_traces (s : Nat) : List Nat :=
  if s = 0 then [1, 1, 0, 0, 0, 0, 0, 0] else [1, 1, 1, 0, 0, 0, 0, 0]

/-- A global frontier {3} whose only candidate is a disabled seed. -/
def disabled_candidate_state : afl_state_t :=
  { global_frontier_bitmap := [8], global_covered_frontier_nodes_count := 1,
    queue_buf :=
      [{ id := 0, disabled := true, covered_frontier_node_list := [3],
         covered_frontier_nodes_count := 1 },
       { id := 1 }] }

/-- No candidate, and a disabled seed at index 0. -/
def disabled_first_state : afl_state_t :=
  { global_frontier_bitmap := [0], set_favored_id := 1,
    queue_buf := [{ id := 0, disabled := true }, { id := 1 }] }

/-- A global frontier {3, 4} of which the only candidate lists edge 3. -/
def uncovered_frontier_state : afl_state_t :=
  { global_frontier_bitmap := [24], global_covered_frontier_nodes_count := 2,
    queue_buf :=
      [{ id := 0, covered_frontier_node_list := [3], covered_frontier_nodes_count := 1 }] }

/-- Three seeds; the cover list holds seeds 1 and 2, both already `set_favored`. -/
def all_favored_state : afl_state_t :=
  { covered_seed_list_counter := 2,
    queue_buf := [{ id := 0 }, { id := 1, set_favored := true }, { id := 2, set_favored := true }] }

/-- Three seeds; the cover list holds seeds 1 and 2, of which seed 1 is `set_favored`. -/
def one_favored_state : afl_state_t :=
  { covered_seed_list_counter := 2,
    queue_buf := [{ id := 0 }, { id := 1, set_favored := true }, { id := 2, exec_us := 9 }] }

/-- A fast seed 0 and a slow seed 1, neither `set_favored`, both in the cover list. -/
def fast_slow_state : afl_state_t :=
  { covered_seed_list_counter := 2,
    queue_buf := [{ id := 0, exec_us := 10 }, { id := 1, exec_us := 500 }] }

/-- One seed whose run hits edge 3, an edge without successors in the CFG tables. -/
def plain_edge_state : afl_state_t :=
  { use_set_cover_scheduling := true, map_size := 8,
    trace_bits := [0, 0, 0, 1, 0, 0, 0, 0], virgin_bits := [255, 255, 255, 254, 255, 255, 255, 255],
    global_frontier_bitmap := [0],
    queue_buf := [{ id := 0, len := 4, exec_us := 10 }] }

/-! ## Frontier classification, outer variant -/

/-- The function `is_frontier_node_outer(afl, id)`: more than one successor, one of
which is still virgin (`0xFF`). -/
def is_frontier_node_outer (afl : afl_state_t) (id : Nat) : Bool :=
  let num_successors := afl.successor_count.getD id 0
  if num_successors ≤ 1 then false
  else
    (List.range num_successors.toNat).any
      (fun i =>
        let succ_id := (afl.successor_map.getD id []).getD i 0
        decide (afl.virgin_bits.getD succ_id 0 = 255))

/-- The successor of edge `id` at position `i` of its row of `successor_map`. -/
def successor_at (afl : afl_state_t) (id i : Nat) : Nat :=
  (afl.successor_map.getD id []).getD i 0

/-! ## Strings of the minimizer command line (`afl-sched-cmin.c`) -/

/-- The library function `strstr(haystack, needle)` on strings as lists of characters:
the offset of the first occurrence of `needle`, and `none` for `NULL`. -/
def strstr : List Char → List Char → Option Nat
  | [], n => if n = [] then some 0 else none
  | c :: h, n =>
    if n.isPrefixOf (c :: h) then some 0
    else
      match strstr h n with
      | some p => some (p + 1)
      | none => none

/-- The string `needle` occurs in `haystack`. -/
def has_substr (haystack needle : List Char) : Prop :=
  ∃ x y, haystack = x ++ needle ++ y

/-- The constant `k_fix_prefix`. -/
def k_fix_prefix : List Char := "/workspace/target_final/".toList

/-- The function `replace_prefix_before_ellipsis(in_path)` for a non-null `in_path`,
with `none` for `NULL`; the allocation is taken to succeed. -/
def replace_prefix_before_ellipsis (in_path : List Char) : Option (List Char) :=
  match strstr in_path "...".toList with
  | none => none
  | some p =>
    let tail := (in_path.drop (p + 3)).dropWhile (fun c => c == '/')
    let na := ( k_fix_prefix).length
    let nb := tail.length
    let need_slash : Bool :=
      decide (na > 0) && decide (( k_fix_prefix).getD (na - 1) ' ' ≠ '/') && decide (nb > 0) &&
        decide (tail.getD 0 ' ' ≠ '/')
    some (( k_fix_prefix) ++ (if need_slash then ['/'] else []) ++ tail)

/-- The function `argv_has_atat(argv)`. -/
def argv_has_atat (argv : List (List Char)) : Bool :=
  argv.any (fun a => (strstr a "@@".toList).isSome)

/-- The enumeration `mode` of `spawn_afl_cmin_and_wait`. -/
inductive cmin_mode where
  | MODE_ATAT
  | MODE_FILE_FIXED
  | MODE_STDIN_EXISTING
  | MODE_STDIN_FORCED
deriving DecidableEq

/-- Lines 216-219: the index of the first argument that is `-`, `none` for `-1`. -/
def idx_stdin_dash (argv : List (List Char)) : Option Nat :=
  (List.range argv.length).find? (fun i => decide (argv.getD i [] = "-".toList))

/-- Lines 225-240: the body of the search for the fixed path, on the pair of
`(idx_fixed_path, fixed_path)` (`none` for `-1`) and whether the loop has been left
by `break`. -/
def fixed_path_step (argv : List (List Char)) (cfg_out_file : Option (List Char))
    (st : Option (Nat × List Char) × Bool) (i : Nat) : Option (Nat × List Char) × Bool :=
  if st.2 then st
  else
    let arg := argv.getD i []
    if arg = "-".toList then st
    else if (strstr arg "@@".toList).isSome then st
    else if cfg_out_file = some arg then (some (i, arg), true)
    else if (strstr arg ".cur_input".toList).isSome then (some (i, arg), cfg_out_file.isNone)
    else st

/-- Lines 221-240: `idx_fixed_path` and `fixed_path` after the search. -/
def find_fixed_path (argv : List (List Char)) (cfg_out_file : Option (List Char)) :
    Option (Nat × List Char) :=
  ((List.range argv.length).foldl (fixed_path_step argv cfg_out_file) (none, false)).1

/-- Lines 242-246: the mode decision. -/
def decide_mode (afl : afl_state_t) : cmin_mode :=
  if argv_has_atat afl.argv then cmin_mode.MODE_ATAT
  else if (find_fixed_path afl.argv afl.out_file).isSome then cmin_mode.MODE_FILE_FIXED
  else if (idx_stdin_dash afl.argv).isSome then cmin_mode.MODE_STDIN_EXISTING
  else cmin_mode.MODE_STDIN_FORCED

/-- Lines 252-259: the options in front of the target, up to the emulation flag
(the branches under `NYX_MODE` and `USE_WINE` are not compiled in); `%u` prints the
decimal digits of the `u32` value. -/
def cmin_argv_head (afl : afl_state_t) (in_dir out_dir : List Char) : List (List Char) :=
  let mem_str :=
    if afl.mem_limit = 0 then "none".toList else (Nat.repr (afl.mem_limit % 2 ^ 32)).toList
  let to_str := (Nat.repr (afl.exec_tmout % 2 ^ 32)).toList
  ["afl-cmin".toList, "-i".toList, in_dir, "-o".toList, out_dir, "-m".toList, mem_str,
    "-t".toList, to_str] ++
  (if afl.frida_mode then ["-O".toList]
   else if afl.qemu_mode then ["-Q".toList]
   else if afl.unicorn_mode then ["-U".toList]
   else [])

/-- Lines 277-291: the target argv as it is copied: `-` is dropped in the two file
modes, and a path with `...` is replaced. -/
def cmin_argv_target (mode : cmin_mode) (argv : List (List Char)) : List (List Char) :=
  argv.foldl
    (fun out src =>
      if (mode = cmin_mode.MODE_ATAT ∨ mode = cmin_mode.MODE_FILE_FIXED) ∧ src = "-".toList then
        out
      else
        out ++
          [match replace_prefix_before_ellipsis src with
           | some fixed => fixed
           | none => src])
    []

/-- Lines 205-298 of `spawn_afl_cmin_and_wait`: the argv handed to `execve`, without
the closing `NULL`; `none` where the code stops in `FATAL`. -/
def cmin_argv (afl : afl_state_t) (in_dir out_dir : List Char) : Option (List (List Char)) :=
  let mode := decide_mode afl
  let fixed := find_fixed_path afl.argv afl.out_file
  let opt_f : Option (List (List Char)) :=
    if mode = cmin_mode.MODE_FILE_FIXED then
      match fixed with
      | some ip => some ["-f".toList, ip.2]
      | none => none
    else some []
  match opt_f with
  | none => none
  | some f =>
    some (cmin_argv_head afl in_dir out_dir ++ f ++ ["--".toList] ++
      cmin_argv_target mode afl.argv ++
      (if mode = cmin_mode.MODE_STDIN_FORCED then ["-".toList] else []))

/-! ## Concrete inputs of the last part -/

/-- A control flow graph of three edges: edge 0 has the successors 1 and 2, edge 1
has the single successor 2, edge 2 has none; edge 1 is hit by the current trace and
was seen before, edge 2 is still virgin. -/
def cfg_demo_state : afl_state_t :=
  { map_size := 8, trace_bits := [1, 1, 0, 0, 0, 0, 0, 0],
    virgin_bits := [254, 254, 255, 255, 255, 255, 255, 255],
    successor_count := [2, 1, 0], successor_map := [[1, 2], [2], []] }

/-- A target that reads its input from the file `.cur_input` and also names `-`. -/
def cmin_file_state : afl_state_t :=
  { exec_tmout := 1000, qemu_mode := true,
    argv := ["./target".toList, "-".toList, "out/.cur_input".toList] }

/-- A target without any input placeholder. -/
def cmin_plain_state : afl_state_t :=
  { mem_limit := 50, exec_tmout := 1000, argv := ["./target".toList, "-v".toList] }

/-- Two active, fuzzed and favored seeds under MMOPT with one recent discovery; each
holds one edge of a map of 8. -/
def mmopt_demo_state : afl_state_t :=
  { schedule := 1, queued_discovered := 1, map_size := 8,
    top_rated := fun e => if e = 0 then some 0 else if e = 1 then some 1 else none,
    queue_buf :=
      [{ id := 0, exec_us := 100, bitmap_size := 8, was_fuzzed := true, favored := true,
         tc_ref := 1, trace_mini := some [1] },
       { id := 1, exec_us := 100, bitmap_size := 8, was_fuzzed := true, favored := true,
         tc_ref := 1, trace_mini := some [2] }] }

/-- A queue of two seeds, both disabled. -/
def all_disabled_state : afl_state_t :=
  { schedule := 0,
    queue_buf :=
      [{ id := 0, exec_us := 100, bitmap_size := 8, disabled := true },
       { id := 1, exec_us := 100, bitmap_size := 8, disabled := true }] }

/-- A slow seed with a small bitmap under FAST in MOpt mode (`limit_time_sig` set), at
the greatest depth, whose path was hit 256 times. -/
def mopt_zero_state : afl_state_t :=
  { schedule := 3, limit_time_sig := 1, havoc_max_mult := 64,
    total_cal_us := 10, total_cal_cycles := 1, total_bitmap_size := 100,
    total_bitmap_entries := 1, n_fuzz := [256],
    queue_buf := [{ id := 0, exec_us := 1000, bitmap_size := 1, fuzz_level := 1 }] }

/-- A seed under LIN that was fuzzed once and whose path counter `n_fuzz` has reached
its greatest value `2^32 - 1`. -/
def lin_trap_state : afl_state_t :=
  { schedule := 5, havoc_max_mult := 64, n_fuzz := [4294967295],
    queue_buf := [{ id := 0, exec_us := 100, bitmap_size := 8, fuzz_level := 1 }] }

/-! ## Pruning of the frontier bitmaps (`update_global_frontier_nodes`) -/

/-- The bits set in a byte, `__builtin_popcount(current)` for a `u8`. -/
def popcount8 (x : Nat) : Nat := (List.range 8).countP (fun b => x.testBit b)

/-- Lines 1101-1121: the body of the bit loop for byte `i`, on the state and the local
`current`; `none` where the code stops in `FATAL`. The local `count` is never read and
is left out. -/
def update_frontier_bit (i : Nat) (st : Option (afl_state_t × Nat)) (bit : Nat) :
    Option (afl_state_t × Nat) :=
  match st with
  | none => none
  | some (a, current) =>
    let edge_id := ((i <<< 3) % 2 ^ 32 + bit) % 2 ^ 32
    if edge_id < (i <<< 3) % 2 ^ 32 then none
    else if current &&& (1 <<< bit) ≠ 0 then
      if edge_id ≥ a.map_size then none
      else if !is_frontier_node_outer a edge_id then
        let a1 : afl_state_t :=
          if BITMAP_CHECK a.global_frontier_bitmap edge_id then
            { a with
              global_frontier_bitmap := BITMAP_CLEAR a.global_frontier_bitmap edge_id
              global_covered_frontier_nodes_count :=
                (a.global_covered_frontier_nodes_count + 2 ^ 32 - 1) % 2 ^ 32 }
          else a
        some (a1, current &&& (255 ^^^ (1 <<< bit)))
      else some (a, current)
    else some (a, current)

/-- Lines 1095-1127: the body of the byte loop for the seed `q = queue_buf[qi]`, on the
state and the local `updated_coverage_count`. -/
def update_frontier_byte (qi : Nat) (st : Option (afl_state_t × Nat)) (i : Nat) :
    Option (afl_state_t × Nat) :=
  match st with
  | none => none
  | some (a, updated) =>
    let current := (entry a qi).frontier_node_bitmap.getD i 0
    if current = 0 then some (a, updated)
    else
      match (List.range 8).foldl (update_frontier_bit i) (some (a, current)) with
      | none => none
      | some (a1, cur1) =>
        some (set_entry a1 qi
            { entry a1 qi with
              frontier_node_bitmap := (entry a1 qi).frontier_node_bitmap.set i cur1 },
          (updated + popcount8 cur1) % 2 ^ 32)

/-- The function `update_global_frontier_nodes(q, afl)`, with `q = queue_buf[qi]`;
`none` where the code stops in `FATAL`. -/
def update_global_frontier_nodes (afl : afl_state_t) (qi : Nat) : Option afl_state_t :=
  let a0 := set_entry afl qi { entry afl qi with set_covered := false }
  match (List.range ((afl.real_map_size >>> 3) + 1)).foldl (update_frontier_byte qi)
      (some (a0, 0)) with
  | none => none
  | some (a, updated) =>
    some (set_entry a qi { entry a qi with covered_frontier_nodes_count := updated })

/-- The invariant of the global frontier bookkeeping: the counter is the number of
bits set in the bitmap. -/
def frontier_count_inv (afl : afl_state_t) : Prop :=
  afl.global_covered_frontier_nodes_count = bitmap_count afl.global_frontier_bitmap

instance (afl : afl_state_t) : Decidable (frontier_count_inv afl) := by
  unfold frontier_count_inv
  infer_instance

/-- The invariant together with the size of the bitmap, which no step changes. -/
def frontier_count_at (L : Nat) (a : afl_state_t) : Prop :=
  frontier_count_inv a ∧ a.global_frontier_bitmap.length = L

/-! ## The test case cache (`queue_testcase_get`)

The counters have the widths of AFL++: `q_testcase_cache_size`,
`q_testcase_max_cache_size` and `q_testcase_evictions` are `u64`, the other counters
and `len` are `u32`. A slot of `q_testcase_cache` holds the index of the cached seed,
`none` for `NULL`, and a slot outside of the array reads as `NULL`. The values of
`rand_below` and the content of the seed's file are inputs, the static local `do_once`
is the field `do_once` of the state, and allocations are taken to succeed. -/

/-- Lines 2728-2738: the `do … while` that draws a slot until it holds a seed other
than `queue_cur`: the slot, the seed in it and the draws left; `none` when the draws
run out. -/
def draw_victim (afl : afl_state_t) : List Nat → Option (Nat × Nat × List Nat)
  | [] => none
  | tid :: rest =>
    match afl.q_testcase_cache.getD tid none with
    | none => draw_victim afl rest
    | some old =>
      if afl.queue_cur = some old then draw_victim afl rest else some (tid, old, rest)

/-- Lines 2740-2748: the eviction of the seed `old_cached = queue_buf[old]` from the
slot `tid`. -/
def cache_evict (afl : afl_state_t) (tid old : Nat) : afl_state_t :=
  let a1 := set_entry afl old { entry afl old with testcase_buf := none }
  { a1 with
    q_testcase_cache_size :=
      (afl.q_testcase_cache_size + 2 ^ 64 - (entry afl old).len % 2 ^ 64) % 2 ^ 64
    q_testcase_cache := afl.q_testcase_cache.set tid none
    q_testcase_cache_count := (afl.q_testcase_cache_count + 2 ^ 32 - 1) % 2 ^ 32
    q_testcase_evictions := (afl.q_testcase_evictions + 1) % 2 ^ 64
    q_testcase_smallest_free :=
      if tid < afl.q_testcase_smallest_free then tid else afl.q_testcase_smallest_free }

/-- The array of `m` slots that `ck_realloc` gives back: the old slots as far as they
fit, and `NULL` in the slots gained. -/
def cache_realloc (cache : List (Option Nat)) (m : Nat) : List (Option Nat) :=
  cache.take m ++ List.replicate (m - cache.length) none

/-- Lines 2698-2723: once, when the cache is full by size, the number of entries is
learnt and the array is cut down to it. -/
def cache_learn (afl : afl_state_t) (len : Nat) : afl_state_t :=
  if (afl.q_testcase_cache_size + len) % 2 ^ 64 ≥ afl.q_testcase_max_cache_size ∧
      (afl.q_testcase_cache_count < afl.q_testcase_max_cache_entries ∧
        afl.q_testcase_max_cache_count < afl.q_testcase_max_cache_entries) ∧
      afl.do_once = false then
    let n :=
      if afl.q_testcase_max_cache_count > afl.q_testcase_cache_count then
        (afl.q_testcase_max_cache_count + 1) % 2 ^ 32
      else (afl.q_testcase_cache_count + 1) % 2 ^ 32
    { afl with
      q_testcase_max_cache_entries := n
      do_once := true
      q_testcase_cache := cache_realloc afl.q_testcase_cache ((n + 1) % 2 ^ 32) }
  else afl

/-- Lines 2691-2750: the eviction loop for a seed of `len` bytes, on the state, the
local `tid` and the draws left; every round takes at least one draw, so that the
number of draws plus one is enough fuel. `none` when the draws run out. -/
def cache_make_room (len : Nat) : Nat → afl_state_t → Nat → List Nat →
    Option (afl_state_t × Nat)
  | 0, _, _, _ => none
  | fuel + 1, afl, tid, draws =>
    if (afl.q_testcase_cache_size + len) % 2 ^ 64 ≥ afl.q_testcase_max_cache_size ∨
        afl.q_testcase_cache_count ≥ (afl.q_testcase_max_cache_entries + 2 ^ 32 - 1) % 2 ^ 32
    then
      let a1 := cache_learn afl len
      match draw_victim a1 draws with
      | none => none
      | some (t, old, rest) => cache_make_room len fuel (cache_evict a1 t old) t rest
    else some (afl, tid)

/-- Lines 2761-2762: `while (cache[tid] != NULL) ++tid;`. -/
def next_free (cache : List (Option Nat)) : Nat → Nat → Nat
  | 0, tid => tid
  | fuel + 1, tid =>
    if (cache.getD tid none).isSome then next_free cache fuel ((tid + 1) % 2 ^ 32) else tid

/-- The content read by `open` and `ck_read` for a seed of `len` bytes: `none` where
the file cannot be opened or is shorter than `len` (`PFATAL`). -/
def read_testcase (file : Option (List Nat)) (len : Nat) : Option (List Nat) :=
  match file with
  | none => none
  | some data => if data.length < len then none else some (data.take len)

/-- The function `queue_testcase_get(afl, q)`, with `q = queue_buf[qi]`: the new state
and the buffer returned. `draws` are the values of `rand_below`, `file` is the content
of `q->fname`. The result is `none` where the code stops in `PFATAL`, where the draws
run out, and where the free slot found lies outside of the array. -/
def queue_testcase_get (afl : afl_state_t) (qi : Nat) (draws : List Nat)
    (file : Option (List Nat)) : Option (afl_state_t × List Nat) :=
  let len := (entry afl qi).len
  if afl.q_testcase_max_cache_size = 0 then
    match read_testcase file len with
    | none => none
    | some buf =>
      if afl.queue_cur = some qi then some ({ afl with testcase_buf := some buf }, buf)
      else some ({ afl with splicecase_buf := some buf }, buf)
  else
    match (entry afl qi).testcase_buf with
    | some buf => some (afl, buf)
    | none =>
      match cache_make_room len (draws.length + 1) afl afl.q_testcase_max_cache_count draws with
      | none => none
      | some (a1, tid0) =>
        let tid1 := if tid0 ≥ a1.q_testcase_max_cache_entries then a1.q_testcase_smallest_free
          else tid0
        let tid := next_free a1.q_testcase_cache (a1.q_testcase_cache.length + 1) tid1
        if tid ≥ a1.q_testcase_cache.length then none
        else
          match read_testcase file len with
          | none => none
          | some buf =>
            let a2 := set_entry a1 qi { entry a1 qi with testcase_buf := some buf }
            some ({ a2 with
                q_testcase_cache := a1.q_testcase_cache.set tid (some qi)
                q_testcase_cache_size := (a1.q_testcase_cache_size + len) % 2 ^ 64
                q_testcase_cache_count := (a1.q_testcase_cache_count + 1) % 2 ^ 32
                q_testcase_max_cache_count :=
                  if tid ≥ a1.q_testcase_max_cache_count then (tid + 1) % 2 ^ 32
                  else a1.q_testcase_max_cache_count
                q_testcase_smallest_free :=
                  if tid ≥ a1.q_testcase_max_cache_count then a1.q_testcase_smallest_free
                  else if tid = a1.q_testcase_smallest_free then (tid + 1) % 2 ^ 32
                  else a1.q_testcase_smallest_free },
              buf)

/-! ## Concrete inputs of the pruning and of the cache -/

/-- The seed 0 has the edges 1 and 2 in its frontier bitmap and both are counted in
the global one; edge 1 still has a virgin successor, edge 2 has a single successor. -/
def frontier_prune_state : afl_state_t :=
  { map_size := 8, real_map_size := 8, use_set_cover_scheduling := true, trace_bits := [0, 1, 1, 1, 0, 0, 0, 0],
    virgin_bits := [254, 254, 254, 254, 255, 255, 255, 255],
    successor_count := [0, 2, 1, 0], successor_map := [[], [3, 4], [3], []],
    global_frontier_bitmap := [6, 0], global_covered_frontier_nodes_count := 2,
    queue_buf := [{ id := 0, frontier_node_bitmap := [6, 0] }] }

/-- A cache of three slots that is full by size: the current seed 0 sits in slot 0,
the seed 1 in slot 1, and the seed 2 is not cached. -/
def cache_full_state : afl_state_t :=
  { queue_cur := some 0,
    q_testcase_max_cache_size := 10, q_testcase_cache_size := 8,
    q_testcase_cache_count := 2, q_testcase_max_cache_count := 2,
    q_testcase_max_cache_entries := 4, q_testcase_smallest_free := 2,
    q_testcase_cache := [some 0, some 1, none, none, none],
    queue_buf :=
      [{ id := 0, len := 4, testcase_buf := some [1, 2, 3, 4] },
       { id := 1, len := 4, testcase_buf := some [5, 6, 7, 8] },
       { id := 2, len := 3 }] }

/-! ## Auxiliary notions of the alias construction -/

/-- The variables of the construction over the rationals, read as variables of the
construction over `fval`. -/
def alias_lift (st : alias_state_rat) : alias_state :=
  { P := st.P.map fval.fin
    Small := st.Small
    Large := st.Large
    alias_table := st.alias_table
    alias_probability := st.alias_probability.map fval.fin }

/-- One round of the pairing loop (lines 237-253) in a state whose stacks are
`small :: ss` and `large :: ls`. -/
def alias_pair_round (st : alias_state) (small large : Nat) (ss ls : List Nat) : alias_state :=
  let pl := (st.P.getD large (fval.fin 0)).sub ((fval.fin 1).sub (st.P.getD small (fval.fin 0)))
  if pl.lt (fval.fin 1) then
    { P := st.P.set large pl
      Small := large :: ss
      Large := ls
      alias_table := st.alias_table.set small large
      alias_probability := st.alias_probability.set small (st.P.getD small (fval.fin 0)) }
  else
    { P := st.P.set large pl
      Small := ss
      Large := large :: ls
      alias_table := st.alias_table.set small large
      alias_probability := st.alias_probability.set small (st.P.getD small (fval.fin 0)) }

/-- The number that a finite value holds, and zero for the others. -/
def fval.to_rat : fval → ℚ
  | fval.fin q => q
  | _ => 0

/-- The final weight is the weight `w` itself or `w` doubled some number of times: NaN
and plus infinity stay, a positive number does not get smaller. -/
def weight_ge (w w' : fval) : Prop :=
  (w = fval.nan ∧ w' = fval.nan) ∨ (w = fval.pinf ∧ w' = fval.pinf) ∨
  ∃ x x' : ℚ, 0 < x ∧ x ≤ x' ∧ w = fval.fin x ∧ w' = fval.fin x'

/-- The values that a weight of the schedules below RARE can have after the lower
bound `0.1` and the factors 5, 2 and 0.8: a positive number, plus infinity or NaN. -/
def weight_class (w : fval) : Prop :=
  w = fval.pinf ∨ w = fval.nan ∨ ∃ x : ℚ, 0 < x ∧ w = fval.fin x

/-- The value is NaN or plus infinity: it is not below 1 and stays so when a value is
subtracted that is not plus infinity. -/
def is_sink (w : fval) : Prop := w = fval.nan ∨ w = fval.pinf

/-- What the pairing loop keeps when some `P[k]` is NaN or plus infinity, for an index
`d` with `P[d] = 0`, over `n` indices: `k` waits on `Large` for good, so that `Large`
never runs empty; `d` waits on `Small` with `P[d] = 0` or has been paired with
`alias_probability[d] = 0`; a paired index has a probability below 1 and an alias other
than `d`. -/
structure alias_sink_inv (n d k : Nat) (st : alias_state) : Prop where
  len : st.P.length = n ∧ st.alias_table.length = n ∧ st.alias_probability.length = n
  nodup : (st.Small ++ st.Large).Nodup
  bound : ∀ u ∈ st.Small ++ st.Large, u < n
  sink : k ∈ st.Large ∧ is_sink (st.P.getD k (fval.fin 0))
  small : ∀ s ∈ st.Small, (st.P.getD s (fval.fin 0)).lt (fval.fin 1) = true
  zero : (d ∈ st.Small ∧ st.P.getD d (fval.fin 0) = fval.fin 0) ∨
    (d ∉ st.Small ++ st.Large ∧ st.alias_probability.getD d (fval.fin 0) = fval.fin 0)
  paired : ∀ j, j < n → j ∉ st.Small ++ st.Large →
    (st.alias_probability.getD j (fval.fin 0)).lt (fval.fin 1) = true ∧
      st.alias_table.getD j 0 ≠ d

/-! ## The edge walk of `cull_queue` -/

/-- The state of the edge walk of `cull_queue(afl)` in front of map position `e`. -/
def cull_walk (afl : afl_state_t) (e : Nat) : Option afl_state_t :=
  cull_queue_edges (List.range e) (cull_queue_init afl)

/-- No favored seed of the state is still to be fuzzed. -/
def no_pending_favored (a : afl_state_t) : Prop :=
  ∀ f, f < a.queue_buf.length → (entry a f).favored = true → (entry a f).was_fuzzed = true

/-- The walk of `cull_queue(afl)` takes the seed `s` at map position `e`: `s` is the
top-rated seed of `e`, it is not favored in the state `ae` in front of `e`, and it is
favored in the state behind `e`. -/
def taken_at (afl : afl_state_t) (e s : Nat) (ae : afl_state_t) : Prop :=
  cull_walk afl e = some ae ∧ afl.top_rated e = some s ∧ (entry ae s).favored = false ∧
  ∃ ae1, cull_walk afl (e + 1) = some ae1 ∧ (entry ae1 s).favored = true

/-- What the walk of `cull_queue(afl)` keeps about `smallest_favored` in front of map
position `k`: it is `-1` while no favored seed is unfuzzed, and otherwise it is the id
of the seed taken first among those that are not yet fuzzed. -/
def first_pending_inv (afl : afl_state_t) (k : Nat) (a : afl_state_t) : Prop :=
  (a.smallest_favored = -1 ∧ no_pending_favored a) ∨
  ∃ e s ae, e < k ∧ taken_at afl e s ae ∧ no_pending_favored ae ∧
    s < a.queue_buf.length ∧ (entry a s).favored = true ∧ (entry a s).was_fuzzed = false ∧
    a.smallest_favored = ((entry a s).id : Int)

/-- What the walk of `cull_queue(afl)` keeps about the favored seeds in front of map
position `k`: the bits left in `temp_v` are those that no favored seed covers, and
every favored seed was taken at a position that none of the seeds favored before it
covers. -/
def greedy_inv (afl : afl_state_t) (k : Nat) (a : afl_state_t) : Prop :=
  (∀ b, b >>> 3 < a.map_size >>> 3 → covered_by_favored a b →
    (a.map_tmp_buf.getD (b >>> 3) 0).testBit (b &&& 7) = false) ∧
  ∀ s, s < a.queue_buf.length → (entry a s).favored = true →
    ∃ e ae, e < k ∧ taken_at afl e s ae ∧
      ∀ f, f < ae.queue_buf.length → (entry ae f).favored = true →
        trace_mini_bit ae f e = false

/-- What holds of the state `a` of the walk of `cull_queue(afl)` in front of map
position `k`: the walk has changed nothing but `temp_v`, the `favored` flags and the
three counters, `temp_v` has its `len` bytes, and the two invariants above hold. -/
structure cull_walk_inv (afl : afl_state_t) (k : Nat) (a : afl_state_t) : Prop where
  top : a.top_rated = afl.top_rated
  size : a.map_size = afl.map_size
  len : a.queue_buf.length = afl.queue_buf.length
  fields : ∀ s, (entry a s).trace_mini = (entry afl s).trace_mini ∧
    (entry a s).was_fuzzed = (entry afl s).was_fuzzed ∧ (entry a s).id = (entry afl s).id
  tmp : a.map_size >>> 3 ≤ a.map_tmp_buf.length
  first : first_pending_inv afl k a
  greedy : greedy_inv afl k a

/-! ## Reading and writing queue entries -/

theorem entry_set_entry (afl : afl_state_t) (i s : Nat) (e : queue_entry) :
    entry (set_entry afl i e) s =
      if s = i ∧ i < afl.queue_buf.length then e else entry afl s := by
  unfold entry set_entry
  simp only [List.getD_eq_getElem?_getD, List.getElem?_set]
  by_cases h : i = s
  · subst h
    by_cases hl : i < afl.queue_buf.length
    · simp [hl]
    · simp [hl, List.getElem?_eq_none (Nat.le_of_not_lt hl)]
  · have h' : ¬ s = i := fun x => h x.symm
    simp [h, h']

theorem entry_set_entry_proj {α : Type} (f : queue_entry → α) (afl : afl_state_t) (i s : Nat)
    (e : queue_entry) (h : f e = f (entry afl i)) :
    f (entry (set_entry afl i e) s) = f (entry afl s) := by
  rw [entry_set_entry]
  split
  · next hc => rw [h, hc.1]
  · rfl

theorem length_set_entry (afl : afl_state_t) (i : Nat) (e : queue_entry) :
    (set_entry afl i e).queue_buf.length = afl.queue_buf.length := by
  simp [set_entry]

/-! ## What `update_bitmap_score` leaves alone -/

theorem same_inputs_refl (a : afl_state_t) : same_inputs a a :=
  ⟨rfl, rfl, rfl, rfl, rfl, rfl, fun _ => rfl⟩

theorem same_inputs_trans {a b c : afl_state_t} (h1 : same_inputs a b) (h2 : same_inputs b c) :
    same_inputs a c := by
  obtain ⟨a1, a2, a3, a4, a5, a6, a7⟩ := h1
  obtain ⟨b1, b2, b3, b4, b5, b6, b7⟩ := h2
  exact ⟨a1.trans b1, a2.trans b2, a3.trans b3, a4.trans b4, a5.trans b5, a6.trans b6,
    fun s => (a7 s).trans (b7 s)⟩

theorem same_inputs_set_entry (afl : afl_state_t) (i : Nat) (e : queue_entry)
    (h : entry_key e = entry_key (entry afl i)) : same_inputs (set_entry afl i e) afl :=
  ⟨rfl, rfl, rfl, rfl, rfl, length_set_entry afl i e,
    fun s => entry_set_entry_proj entry_key afl i s e h⟩

theorem same_inputs_record_frontier_list (c : afl_consts) (qi : Nat) (afl : afl_state_t)
    (e : Nat) : same_inputs (record_frontier_list c qi afl e) afl := by
  unfold record_frontier_list
  simp only []
  split
  · exact same_inputs_set_entry afl qi _ rfl
  · exact same_inputs_refl afl

theorem same_inputs_record_frontier_global (afl : afl_state_t) (e : Nat) :
    same_inputs (record_frontier_global afl e) afl := by
  unfold record_frontier_global
  split
  · exact ⟨rfl, rfl, rfl, rfl, rfl, rfl, fun _ => rfl⟩
  · exact same_inputs_refl afl

theorem same_inputs_record_frontier (c : afl_consts) (qi : Nat) (afl : afl_state_t) (e : Nat) :
    same_inputs (record_frontier c qi afl e) afl :=
  same_inputs_trans (same_inputs_record_frontier_global _ e)
    (same_inputs_record_frontier_list c qi afl e)

theorem same_inputs_release_top (afl : afl_state_t) (t : Nat) :
    same_inputs (release_top afl t) afl := by
  unfold release_top
  simp only []
  apply same_inputs_set_entry
  simp only [entry_key]

theorem same_inputs_install_top (qi : Nat) (afl : afl_state_t) (i : Nat) :
    same_inputs (install_top qi afl i) afl := by
  unfold install_top
  simp only []
  split
  · exact same_inputs_set_entry
      { afl with top_rated := fun e => if e = i then some qi else afl.top_rated e } qi _ rfl
  · exact same_inputs_set_entry
      { afl with top_rated := fun e => if e = i then some qi else afl.top_rated e } qi _ rfl

theorem same_inputs_reset_frontier_list (afl : afl_state_t) (qi : Nat) :
    same_inputs (reset_frontier_list afl qi) afl := by
  unfold reset_frontier_list
  split
  · exact same_inputs_set_entry afl qi _ rfl
  · exact same_inputs_refl afl

theorem same_inputs_edge (c : afl_consts) (qi p f : Nat) (afl : afl_state_t) (i : Nat) :
    same_inputs (update_bitmap_score_edge c qi p f afl i) afl := by
  unfold update_bitmap_score_edge
  have hr := same_inputs_record_frontier c qi afl i
  split
  · simp only []
    split
    · split
      · exact hr
      · split
        · exact hr
        · exact same_inputs_trans (same_inputs_install_top _ _ _)
            (same_inputs_trans (same_inputs_release_top _ _) hr)
    · exact same_inputs_trans (same_inputs_install_top _ _ _) hr
  · exact same_inputs_refl afl

theorem same_inputs_foldl (c : afl_consts) (qi p f : Nat) (l : List Nat) (afl : afl_state_t) :
    same_inputs (l.foldl (update_bitmap_score_edge c qi p f) afl) afl := by
  induction l generalizing afl with
  | nil => exact same_inputs_refl afl
  | cons x xs ih =>
    exact same_inputs_trans (ih _) (same_inputs_edge c qi p f afl x)

theorem fuzz_p2_of_same (c : afl_consts) {a b : afl_state_t} (h : same_inputs a b) (s : Nat) :
    fuzz_p2_of c a (entry a s) = fuzz_p2_of c b (entry b s) := by
  obtain ⟨h1, _, h3, _, _, _, h7⟩ := h
  have := h7 s
  simp only [entry_key, Prod.mk.injEq] at this
  unfold fuzz_p2_of
  rw [h1, h3, this.2.2.1, this.2.2.2]

theorem fav_factor_of_same (c : afl_consts) {a b : afl_state_t} (h : same_inputs a b) (s : Nat) :
    fav_factor_of c a (entry a s) = fav_factor_of c b (entry b s) := by
  obtain ⟨h1, h2, _, _, _, _, h7⟩ := h
  have := h7 s
  simp only [entry_key, Prod.mk.injEq] at this
  unfold fav_factor_of
  rw [h1, h2, this.1, this.2.1]

/-! ## The winner of an edge -/

theorem top_rated_set_entry (afl : afl_state_t) (i : Nat) (x : queue_entry) :
    (set_entry afl i x).top_rated = afl.top_rated := rfl

theorem top_rated_record_frontier (c : afl_consts) (qi : Nat) (afl : afl_state_t) (e : Nat) :
    (record_frontier c qi afl e).top_rated = afl.top_rated := by
  unfold record_frontier record_frontier_global record_frontier_list
  simp only []
  split <;> split <;> rfl

theorem top_rated_reset_frontier_list (afl : afl_state_t) (qi : Nat) :
    (reset_frontier_list afl qi).top_rated = afl.top_rated := by
  unfold reset_frontier_list
  split <;> rfl

theorem top_rated_release_top (afl : afl_state_t) (t : Nat) :
    (release_top afl t).top_rated = afl.top_rated := rfl

theorem top_rated_install_top (qi : Nat) (afl : afl_state_t) (i e : Nat) :
    (install_top qi afl i).top_rated e = if e = i then some qi else afl.top_rated e := by
  unfold install_top
  simp only []
  split <;> rfl

/-- The decision of `update_bitmap_score` for one hit edge, as a function of the
previous holder. -/
theorem top_rated_edge_self (c : afl_consts) (qi p f : Nat) (afl : afl_state_t) (i : Nat)
    (ht : afl.trace_bits.getD i 0 ≠ 0) :
    (update_bitmap_score_edge c qi p f afl i).top_rated i = some qi ↔
      (afl.top_rated i = none ∨ ∃ t, afl.top_rated i = some t ∧
        p ≤ fuzz_p2_of c afl (entry afl t) ∧ f ≤ fav_factor_of c afl (entry afl t)) ∨
      afl.top_rated i = some qi := by
  unfold update_bitmap_score_edge
  rw [if_pos ht]
  simp only []
  have hr := same_inputs_record_frontier c qi afl i
  rw [top_rated_record_frontier]
  cases hq : afl.top_rated i with
  | none => simp [top_rated_install_top]
  | some t =>
    simp only []
    rw [fuzz_p2_of_same c hr t, fav_factor_of_same c hr t]
    by_cases h1 : p > fuzz_p2_of c afl (entry afl t)
    · rw [if_pos h1, top_rated_record_frontier, hq]
      constructor
      · intro h; exact Or.inr h
      · rintro (⟨h | ⟨t', h, h2, _⟩⟩ | h)
        · cases h
        · cases h; omega
        · exact h
    · rw [if_neg h1]
      by_cases h2 : f > fav_factor_of c afl (entry afl t)
      · rw [if_pos h2, top_rated_record_frontier, hq]
        constructor
        · intro h; exact Or.inr h
        · rintro (⟨h | ⟨t', h, _, h3⟩⟩ | h)
          · cases h
          · cases h; omega
          · exact h
      · rw [if_neg h2, top_rated_install_top, if_pos rfl]
        simp only [true_iff]
        exact Or.inl (Or.inr ⟨t, rfl, by omega, by omega⟩)

theorem top_rated_edge_other (c : afl_consts) (qi p f : Nat) (afl : afl_state_t) (i e : Nat)
    (h : e ≠ i) :
    (update_bitmap_score_edge c qi p f afl i).top_rated e = afl.top_rated e := by
  unfold update_bitmap_score_edge
  split
  · simp only []
    split
    · split
      · rw [top_rated_record_frontier]
      · split
        · rw [top_rated_record_frontier]
        · rw [top_rated_install_top, if_neg h, top_rated_release_top, top_rated_record_frontier]
    · rw [top_rated_install_top, if_neg h, top_rated_record_frontier]
  · rfl

theorem top_rated_foldl_other (c : afl_consts) (qi p f : Nat) (l : List Nat) (afl : afl_state_t)
    (e : Nat) (h : e ∉ l) :
    (l.foldl (update_bitmap_score_edge c qi p f) afl).top_rated e = afl.top_rated e := by
  induction l generalizing afl with
  | nil => rfl
  | cons x xs ih =>
    simp only [List.mem_cons, not_or] at h
    rw [List.foldl_cons, ih _ h.2, top_rated_edge_other c qi p f afl x e h.1]

theorem range_split (n e : Nat) (h : e < n) :
    List.range n = List.range e ++ e :: List.range' (e + 1) (n - (e + 1)) := by
  obtain ⟨k, rfl⟩ : ∃ k, n = e + (1 + k) := ⟨n - (e + 1), by omega⟩
  have hk : e + (1 + k) - (e + 1) = k := by omega
  have h1 : List.range' 0 (e + (1 + k)) = List.range' 0 e ++ List.range' (0 + e) (1 + k) := by
    rw [List.range'_append_1]
    congr 1
    omega
  have h2 : List.range' (0 + e) (1 + k) = e :: List.range' (e + 1) k := by
    rw [Nat.zero_add, Nat.add_comm 1 k, List.range'_succ]
  rw [hk, List.range_eq_range', List.range_eq_range', h1, h2]

/-! ## C1: who wins an edge -/

/-- C1 (as the code decides it): for an edge `e` whose trace byte is non-zero, after
`update_bitmap_score(q)` the seed `q` is `top_rated[e]` if and only if, before the
call, `top_rated[e]` was absent, or the holder's fuzz pressure was at least `q`'s and
the holder's `fav_factor` was at least `q`'s. The two comparisons are independent
and strict, so `q` takes the edge on a tie. -/
theorem update_bitmap_score_winner (c : afl_consts) (afl : afl_state_t) (qi e : Nat)
    (he : e < afl.map_size) (ht : afl.trace_bits.getD e 0 ≠ 0) :
    (update_bitmap_score c afl qi).top_rated e = some qi ↔
      (afl.top_rated e = none ∨ ∃ t, afl.top_rated e = some t ∧
        fuzz_p2_of c afl (entry afl qi) ≤ fuzz_p2_of c afl (entry afl t) ∧
        fav_factor_of c afl (entry afl qi) ≤ fav_factor_of c afl (entry afl t)) := by
  unfold update_bitmap_score
  simp only []
  have h0 : same_inputs (reset_frontier_list afl qi) afl := same_inputs_reset_frontier_list afl qi
  have ht0 : (reset_frontier_list afl qi).top_rated = afl.top_rated :=
    top_rated_reset_frontier_list afl qi
  generalize reset_frontier_list afl qi = afl0 at h0 ht0
  rw [range_split afl.map_size e he, List.foldl_append, List.foldl_cons]
  generalize hA : (List.range e).foldl
    (update_bitmap_score_edge c qi (fuzz_p2_of c afl (entry afl qi))
      (fav_factor_of c afl (entry afl qi))) afl0 = A
  have hAs : same_inputs A afl := by
    rw [← hA]
    exact same_inputs_trans (same_inputs_foldl _ _ _ _ _ _) h0
  have hAt : A.top_rated e = afl.top_rated e := by
    rw [← hA, top_rated_foldl_other _ _ _ _ _ _ e (by simp), ht0]
  have hAtr : A.trace_bits.getD e 0 ≠ 0 := by
    rw [hAs.2.2.2.2.1]
    exact ht
  rw [top_rated_foldl_other _ _ _ _ _ _ e (by simp only [List.mem_range']; rintro ⟨x, _, hx⟩; omega),
    top_rated_edge_self c qi _ _ A e hAtr, hAt]
  constructor
  · rintro (⟨h | ⟨t, h, h2, h3⟩⟩ | h)
    · exact Or.inl h
    · rw [fuzz_p2_of_same c hAs t] at h2
      rw [fav_factor_of_same c hAs t] at h3
      exact Or.inr ⟨t, h, h2, h3⟩
    · exact Or.inr ⟨qi, h, le_refl _, le_refl _⟩
  · rintro (h | ⟨t, h, h2, h3⟩)
    · exact Or.inl (Or.inl h)
    · rw [← fuzz_p2_of_same c hAs t] at h2
      rw [← fav_factor_of_same c hAs t] at h3
      exact Or.inl (Or.inr ⟨t, h, h2, h3⟩)

/-- Witness of C1 on the tie state: seed 1 ties with the holder of edge 0. -/
theorem update_bitmap_score_winner_witness :
    (0 < tie_state.map_size ∧ tie_state.trace_bits.getD 0 0 ≠ 0) ∧
    ((update_bitmap_score demo_consts tie_state 1).top_rated 0 = some 1 ↔
      (tie_state.top_rated 0 = none ∨ ∃ t, tie_state.top_rated 0 = some t ∧
        fuzz_p2_of demo_consts tie_state (entry tie_state 1) ≤
          fuzz_p2_of demo_consts tie_state (entry tie_state t) ∧
        fav_factor_of demo_consts tie_state (entry tie_state 1) ≤
          fav_factor_of demo_consts tie_state (entry tie_state t))) :=
  ⟨⟨by decide, by decide⟩,
    update_bitmap_score_winner demo_consts tie_state 1 0 (by decide) (by decide)⟩

/-- C1 as the spec words it fails on a tie: seed 1 is not the holder of edge 0, the
trace hits edge 0, fuzz pressure and `fav_factor` of seed 1 and of the holder are
equal, and yet seed 1 is `top_rated[0]` after `update_bitmap_score`, although the
holder exists, its fuzz pressure is not strictly greater and its `fav_factor` is
not strictly greater. -/
theorem update_bitmap_score_tie_takes_edge :
    0 < tie_state.map_size ∧ tie_state.trace_bits.getD 0 0 ≠ 0 ∧
    tie_state.top_rated 0 ≠ some 1 ∧
    ¬ ((update_bitmap_score demo_consts tie_state 1).top_rated 0 = some 1 ↔
      (tie_state.top_rated 0 = none ∨ ∃ t, tie_state.top_rated 0 = some t ∧
        (fuzz_p2_of demo_consts tie_state (entry tie_state 1) <
            fuzz_p2_of demo_consts tie_state (entry tie_state t) ∨
          (fuzz_p2_of demo_consts tie_state (entry tie_state t) =
              fuzz_p2_of demo_consts tie_state (entry tie_state 1) ∧
            fav_factor_of demo_consts tie_state (entry tie_state 1) <
              fav_factor_of demo_consts tie_state (entry tie_state t))))) := by
  refine ⟨by decide, by decide, by decide, ?_⟩
  intro h
  have hw : (update_bitmap_score demo_consts tie_state 1).top_rated 0 = some 1 := by decide
  rcases h.mp hw with h0 | ⟨t, ht, hlt⟩
  · exact absurd h0 (by decide)
  · have ht0 : t = 0 := by
      have : tie_state.top_rated 0 = some 0 := by decide
      rw [this] at ht
      exact (Option.some.inj ht).symm
    subst ht0
    revert hlt
    decide

/-! ## Reference counts -/

theorem countP_range_update (f : Nat → Option Nat) (n i : Nat) (v x : Option Nat) (h : i < n) :
    (List.range n).countP (fun e => decide ((if e = i then v else f e) = x)) +
        (if f i = x then 1 else 0) =
      (List.range n).countP (fun e => decide (f e = x)) + (if v = x then 1 else 0) := by
  rw [range_split n i h]
  simp only [List.countP_append, List.countP_cons]
  have h1 : (List.range i).countP (fun e => decide ((if e = i then v else f e) = x)) =
      (List.range i).countP (fun e => decide (f e = x)) := by
    apply List.countP_congr
    intro e he
    have : e ≠ i := by
      have := List.mem_range.mp he
      omega
    simp [this]
  have h2 : (List.range' (i + 1) (n - (i + 1))).countP
        (fun e => decide ((if e = i then v else f e) = x)) =
      (List.range' (i + 1) (n - (i + 1))).countP (fun e => decide (f e = x)) := by
    apply List.countP_congr
    intro e he
    have : e ≠ i := by
      have := List.mem_range'.mp he
      omega
    simp [this]
  rw [h1, h2]
  simp only [if_true, decide_eq_true_eq]
  omega

theorem countP_range_lt_of_not (f : Nat → Option Nat) (n i : Nat) (x : Option Nat) (h : i < n)
    (hx : f i ≠ x) : (List.range n).countP (fun e => decide (f e = x)) < n := by
  rw [range_split n i h]
  simp only [List.countP_append, List.countP_cons]
  have h1 := List.countP_le_length (fun e => decide (f e = x)) (l := List.range i)
  have h2 := List.countP_le_length (fun e => decide (f e = x))
    (l := List.range' (i + 1) (n - (i + 1)))
  simp only [List.length_range, List.length_range'] at h1 h2
  simp only [hx, decide_False, Bool.false_eq_true, if_false]
  omega

theorem countP_range_pos_of (f : Nat → Option Nat) (n i : Nat) (x : Option Nat) (h : i < n)
    (hx : f i = x) : 0 < (List.range n).countP (fun e => decide (f e = x)) := by
  apply List.countP_pos_iff.mpr
  exact ⟨i, List.mem_range.mpr h, by simp [hx]⟩

theorem countP_range_le (f : Nat → Option Nat) (n : Nat) (x : Option Nat) :
    (List.range n).countP (fun e => decide (f e = x)) ≤ n := by
  have h1 := List.countP_le_length (fun e => decide (f e = x)) (l := List.range n)
  simpa using h1

/-- The reference count and the compact trace of an entry. -/
theorem entry_record_frontier_core (c : afl_consts) (qi : Nat) (afl : afl_state_t) (e s : Nat) :
    (entry (record_frontier c qi afl e) s).tc_ref = (entry afl s).tc_ref ∧
    (entry (record_frontier c qi afl e) s).trace_mini = (entry afl s).trace_mini := by
  have h1 : ∀ a : afl_state_t, entry (record_frontier_global a e) s = entry a s := by
    intro a
    unfold record_frontier_global
    split <;> rfl
  unfold record_frontier
  rw [h1]
  unfold record_frontier_list
  simp only []
  split
  · exact ⟨entry_set_entry_proj (fun q => q.tc_ref) afl qi s _ rfl,
      entry_set_entry_proj (fun q => q.trace_mini) afl qi s _ rfl⟩
  · exact ⟨rfl, rfl⟩

theorem entry_reset_frontier_list_core (qi : Nat) (afl : afl_state_t) (s : Nat) :
    (entry (reset_frontier_list afl qi) s).tc_ref = (entry afl s).tc_ref ∧
    (entry (reset_frontier_list afl qi) s).trace_mini = (entry afl s).trace_mini := by
  unfold reset_frontier_list
  split
  · exact ⟨entry_set_entry_proj (fun q => q.tc_ref) afl qi s _ rfl,
      entry_set_entry_proj (fun q => q.trace_mini) afl qi s _ rfl⟩
  · exact ⟨rfl, rfl⟩

theorem tc_ref_inv_congr {a b : afl_state_t} (ht : b.top_rated = a.top_rated)
    (hm : b.map_size = a.map_size) (hl : b.queue_buf.length = a.queue_buf.length)
    (hc : ∀ s, (entry b s).tc_ref = (entry a s).tc_ref) (h : tc_ref_inv a) : tc_ref_inv b := by
  intro s hs
  rw [hc s, h s (hl ▸ hs)]
  unfold edges_held
  rw [ht, hm]

theorem tc_ref_release_top (afl : afl_state_t) (t s : Nat) :
    (entry (release_top afl t) s).tc_ref =
      if s = t ∧ t < afl.queue_buf.length then ((entry afl t).tc_ref + 2 ^ 32 - 1) % 2 ^ 32
      else (entry afl s).tc_ref := by
  unfold release_top
  simp only []
  rw [entry_set_entry]
  split <;> rfl

theorem tc_ref_install_top (qi : Nat) (afl : afl_state_t) (i s : Nat) :
    (entry (install_top qi afl i) s).tc_ref =
      if s = qi ∧ qi < afl.queue_buf.length then ((entry afl qi).tc_ref + 1) % 2 ^ 32
      else (entry afl s).tc_ref := by
  unfold install_top
  simp only []
  have hE : ∀ x : queue_entry, entry ({ set_entry { afl with
      top_rated := fun e => if e = i then some qi else afl.top_rated e } qi x with
      score_changed := true }) s = if s = qi ∧ qi < afl.queue_buf.length then x else entry afl s := by
    intro x
    exact entry_set_entry { afl with
      top_rated := fun e => if e = i then some qi else afl.top_rated e } qi s x
  split
  · rw [hE]
    split <;> rfl
  · rw [hE]
    split <;> rfl

theorem length_release_top (afl : afl_state_t) (t : Nat) :
    (release_top afl t).queue_buf.length = afl.queue_buf.length :=
  (same_inputs_release_top afl t).2.2.2.2.2.1

theorem edges_held_install_top (qi : Nat) (afl : afl_state_t) (i s : Nat) (hi : i < afl.map_size) :
    edges_held (install_top qi afl i) s + (if afl.top_rated i = some s then 1 else 0) =
      edges_held afl s + (if some qi = some s then 1 else 0) := by
  unfold edges_held
  have hm : (install_top qi afl i).map_size = afl.map_size :=
    (same_inputs_install_top qi afl i).2.2.2.1
  have ht : (install_top qi afl i).top_rated =
      fun e => if e = i then some qi else afl.top_rated e := by
    funext e
    exact top_rated_install_top qi afl i e
  rw [hm, ht]
  exact countP_range_update afl.top_rated afl.map_size i (some qi) (some s) hi

theorem tc_ref_inv_install_none (qi : Nat) (afl : afl_state_t) (i : Nat) (hi : i < afl.map_size)
    (hm : afl.map_size < 2 ^ 32) (hn : afl.top_rated i = none) (h : tc_ref_inv afl) :
    tc_ref_inv (install_top qi afl i) := by
  intro s hs
  have hl : (install_top qi afl i).queue_buf.length = afl.queue_buf.length :=
    (same_inputs_install_top qi afl i).2.2.2.2.2.1
  rw [hl] at hs
  have hc := edges_held_install_top qi afl i s hi
  rw [hn] at hc
  simp only [Option.some.injEq, if_false] at hc
  have hne : ¬ (none : Option Nat) = some s := by simp
  rw [if_neg hne] at hc
  rw [tc_ref_install_top]
  by_cases hq : s = qi
  · subst hq
    rw [if_pos ⟨rfl, hs⟩, h s hs]
    have hb : edges_held afl s < afl.map_size :=
      countP_range_lt_of_not afl.top_rated afl.map_size i (some s) hi (by rw [hn]; simp)
    rw [if_pos rfl] at hc
    rw [Nat.mod_eq_of_lt (by omega)]
    omega
  · rw [if_neg (fun x => hq x.1), h s hs]
    rw [if_neg (fun x => hq x.symm)] at hc
    omega

theorem tc_ref_inv_install_some (qi : Nat) (afl : afl_state_t) (i t : Nat) (hi : i < afl.map_size)
    (hm : afl.map_size < 2 ^ 32) (hn : afl.top_rated i = some t) (h : tc_ref_inv afl) :
    tc_ref_inv (install_top qi (release_top afl t) i) := by
  intro s hs
  have hl : (install_top qi (release_top afl t) i).queue_buf.length = afl.queue_buf.length :=
    ((same_inputs_install_top qi _ i).2.2.2.2.2.1).trans (length_release_top afl t)
  rw [hl] at hs
  have hmr : (release_top afl t).map_size = afl.map_size := rfl
  have hc := edges_held_install_top qi (release_top afl t) i s (by rw [hmr]; exact hi)
  rw [top_rated_release_top, hn] at hc
  have hE : edges_held (release_top afl t) s = edges_held afl s := rfl
  rw [hE] at hc
  simp only [Option.some.injEq] at hc
  rw [tc_ref_install_top, length_release_top, tc_ref_release_top, tc_ref_release_top]
  have hle : ∀ x, edges_held afl x ≤ afl.map_size := fun x =>
    countP_range_le afl.top_rated afl.map_size (some x)
  have hpos : 0 < edges_held afl t :=
    countP_range_pos_of afl.top_rated afl.map_size i (some t) hi hn
  have hlt : ¬ qi = t → edges_held afl qi < afl.map_size := fun hne =>
    countP_range_lt_of_not afl.top_rated afl.map_size i (some qi) hi
      (by rw [hn]; simp; exact fun x => hne x.symm)
  have hdec : (edges_held afl t + 2 ^ 32 - 1) % 2 ^ 32 = edges_held afl t - 1 := by
    have := hle t
    omega
  have hinc : ∀ x, x < 2 ^ 32 - 1 → (x + 1) % 2 ^ 32 = x + 1 := fun x hx =>
    Nat.mod_eq_of_lt (by omega)
  by_cases hq : s = qi
  · subst hq
    by_cases hts : s = t
    · subst hts
      simp only [true_and, hs, if_true] at hc ⊢
      rw [h s hs, hdec, hinc _ (by have := hle s; omega)]
      omega
    · have hts' : ¬ t = s := fun x => hts x.symm
      simp only [true_and, hs, if_true, hts, hts', false_and, if_false] at hc ⊢
      rw [h s hs, hinc _ (by have := hlt hts; omega)]
      omega
  · have hq' : ¬ qi = s := fun x => hq x.symm
    by_cases hts : s = t
    · subst hts
      simp only [true_and, hs, if_true, hq, hq', false_and, if_false] at hc ⊢
      rw [h s hs, hdec]
      omega
    · have hts' : ¬ t = s := fun x => hts x.symm
      simp only [hts, hts', hq, hq', false_and, if_false] at hc ⊢
      rw [h s hs]
      omega

theorem tc_ref_inv_record_frontier (c : afl_consts) (qi : Nat) (afl : afl_state_t) (e : Nat)
    (h : tc_ref_inv afl) : tc_ref_inv (record_frontier c qi afl e) :=
  tc_ref_inv_congr (top_rated_record_frontier c qi afl e)
    (same_inputs_record_frontier c qi afl e).2.2.2.1
    (same_inputs_record_frontier c qi afl e).2.2.2.2.2.1
    (fun s => (entry_record_frontier_core c qi afl e s).1) h

theorem tc_ref_inv_edge (c : afl_consts) (qi p f : Nat) (afl : afl_state_t) (i : Nat)
    (hi : i < afl.map_size) (hm : afl.map_size < 2 ^ 32) (h : tc_ref_inv afl) :
    tc_ref_inv (update_bitmap_score_edge c qi p f afl i) := by
  unfold update_bitmap_score_edge
  have h1 := tc_ref_inv_record_frontier c qi afl i h
  have hm1 : (record_frontier c qi afl i).map_size = afl.map_size :=
    (same_inputs_record_frontier c qi afl i).2.2.2.1
  generalize record_frontier c qi afl i = afl1 at h1 hm1
  rw [← hm1] at hi hm
  split
  · simp only []
    split
    · next t ht =>
      split
      · exact h1
      · split
        · exact h1
        · exact tc_ref_inv_install_some qi afl1 i t hi hm ht h1
    · next hn => exact tc_ref_inv_install_none qi afl1 i hi hm hn h1
  · exact h

theorem tc_ref_inv_foldl (c : afl_consts) (qi p f : Nat) (l : List Nat) (afl : afl_state_t)
    (hl : ∀ i ∈ l, i < afl.map_size) (hm : afl.map_size < 2 ^ 32) (h : tc_ref_inv afl) :
    tc_ref_inv (l.foldl (update_bitmap_score_edge c qi p f) afl) := by
  induction l generalizing afl with
  | nil => exact h
  | cons x xs ih =>
    rw [List.foldl_cons]
    have hs : (update_bitmap_score_edge c qi p f afl x).map_size = afl.map_size :=
      (same_inputs_edge c qi p f afl x).2.2.2.1
    apply ih
    · intro i hi
      rw [hs]
      exact hl i (List.mem_cons_of_mem _ hi)
    · rw [hs]
      exact hm
    · exact tc_ref_inv_edge c qi p f afl x (hl x (List.mem_cons_self _ _)) hm h

/-- C9: the invariant "for every seed `s`, `s.tc_ref` is the number of edges `e` with
`top_rated[e] = s`" is preserved by `update_bitmap_score` for every seed `q` and every
trace, also when `q` already holds edges (`map_size` is a `u32`, so below `2^32`). -/
theorem update_bitmap_score_tc_ref_inv (c : afl_consts) (afl : afl_state_t) (qi : Nat)
    (hm : afl.map_size < 2 ^ 32) (h : tc_ref_inv afl) :
    tc_ref_inv (update_bitmap_score c afl qi) := by
  unfold update_bitmap_score
  simp only []
  have h0 : tc_ref_inv (reset_frontier_list afl qi) :=
    tc_ref_inv_congr (top_rated_reset_frontier_list afl qi)
      (same_inputs_reset_frontier_list afl qi).2.2.2.1
      (same_inputs_reset_frontier_list afl qi).2.2.2.2.2.1
      (fun s => (entry_reset_frontier_list_core qi afl s).1) h
  have hm0 : (reset_frontier_list afl qi).map_size = afl.map_size :=
    (same_inputs_reset_frontier_list afl qi).2.2.2.1
  rw [← hm0]
  apply tc_ref_inv_foldl
  · intro i hi
    exact List.mem_range.mp hi
  · rw [hm0]
    exact hm
  · exact h0

theorem tc_ref_inv_tie_state : tc_ref_inv tie_state := by
  intro s hs
  have hs' : s < 2 := hs
  interval_cases s <;> decide

/-- Witness of C9: seed 0 already holds edge 0 of the tie state and is scored again. -/
theorem update_bitmap_score_tc_ref_inv_witness :
    (tie_state.map_size < 2 ^ 32 ∧ tc_ref_inv tie_state) ∧
    tc_ref_inv (update_bitmap_score demo_consts tie_state 0) :=
  ⟨⟨by decide, tc_ref_inv_tie_state⟩,
    update_bitmap_score_tc_ref_inv demo_consts tie_state 0 (by decide) tc_ref_inv_tie_state⟩

/-! ## Bits and buffers -/

theorem shr3 (e : Nat) : e >>> 3 = e / 8 := by
  rw [Nat.shiftRight_eq_div_pow]

theorem and7 (e : Nat) : e &&& 7 = e % 8 := by
  have h := Nat.and_pow_two_sub_one_eq_mod e 3
  simpa using h

theorem getD_set_eq {α : Type} (l : List α) (i j : Nat) (v d : α) :
    (l.set i v).getD j d = if j = i ∧ i < l.length then v else l.getD j d := by
  simp only [List.getD_eq_getElem?_getD, List.getElem?_set]
  by_cases h : i = j
  · subst h
    by_cases hl : i < l.length
    · simp [hl]
    · simp [hl, List.getElem?_eq_none (Nat.le_of_not_lt hl)]
  · have h' : ¬ j = i := fun x => h x.symm
    simp [h, h']

theorem testBit_set_bit (x b b' : Nat) :
    (x ||| (1 <<< b)).testBit b' = (x.testBit b' || decide (b = b')) := by
  rw [Nat.testBit_or, Nat.one_shiftLeft, Nat.testBit_two_pow]

theorem testBit_clear_bit (x b b' : Nat) (hb : b' < 8) :
    (x &&& (255 ^^^ (1 <<< b))).testBit b' = (x.testBit b' && !decide (b = b')) := by
  rw [Nat.testBit_and, Nat.testBit_xor, Nat.one_shiftLeft, Nat.testBit_two_pow]
  have h255 : Nat.testBit 255 b' = true := by
    have := Nat.testBit_two_pow_sub_one 8 b'
    simpa [hb] using this
  rw [h255]
  cases decide (b = b') <;> simp

theorem edge_eq_iff (e k : Nat) : e = k ↔ e >>> 3 = k >>> 3 ∧ e &&& 7 = k &&& 7 := by
  rw [shr3, shr3, and7, and7]
  omega

theorem minimize_bits_aux (src : List Nat) (len k : Nat) :
    ((List.range k).foldl
      (fun dst i =>
        if src.getD i 0 ≠ 0 then
          dst.set (i >>> 3) (dst.getD (i >>> 3) 0 ||| (1 <<< (i &&& 7)))
        else dst)
      (List.replicate len 0)).length = len ∧
    ∀ e, e >>> 3 < len →
      (((List.range k).foldl
        (fun dst i =>
          if src.getD i 0 ≠ 0 then
            dst.set (i >>> 3) (dst.getD (i >>> 3) 0 ||| (1 <<< (i &&& 7)))
          else dst)
        (List.replicate len 0)).getD (e >>> 3) 0).testBit (e &&& 7) =
        (decide (e < k) && decide (src.getD e 0 ≠ 0)) := by
  induction k with
  | zero =>
    refine ⟨by simp, ?_⟩
    intro e he
    simp [List.getD_eq_getElem?_getD, List.getElem?_replicate, he]
  | succ k ih =>
    rw [List.range_succ, List.foldl_append, List.foldl_cons, List.foldl_nil]
    obtain ⟨hl, hb⟩ := ih
    generalize (List.range k).foldl
      (fun dst i =>
        if src.getD i 0 ≠ 0 then
          dst.set (i >>> 3) (dst.getD (i >>> 3) 0 ||| (1 <<< (i &&& 7)))
        else dst)
      (List.replicate len 0) = dst at hl hb
    by_cases hs : src.getD k 0 ≠ 0
    · rw [if_pos hs]
      refine ⟨by simp [hl], ?_⟩
      intro e he
      rw [getD_set_eq]
      by_cases h3 : e >>> 3 = k >>> 3
      · rw [if_pos ⟨h3, by rw [hl, ← h3]; exact he⟩, testBit_set_bit, ← h3, hb e he]
        by_cases h7 : k &&& 7 = e &&& 7
        · have hek : e = k := (edge_eq_iff e k).mpr ⟨h3, h7.symm⟩
          subst hek
          have hs' : decide (src.getD e 0 ≠ 0) = true := decide_eq_true hs
          rw [hs']
          simp
        · have hek : ¬ e = k := fun x => h7 (by rw [x])
          have : (decide (e < k + 1)) = decide (e < k) := by
            have : e < k + 1 ↔ e < k := by omega
            simp [this]
          simp [h7, this]
      · rw [if_neg (fun x => h3 x.1), hb e he]
        have hek : ¬ e = k := fun x => h3 (by rw [x])
        have : (decide (e < k + 1)) = decide (e < k) := by
          have : e < k + 1 ↔ e < k := by omega
          simp [this]
        rw [this]
    · rw [if_neg hs]
      refine ⟨hl, ?_⟩
      intro e he
      rw [hb e he]
      by_cases hek : e = k
      · subst hek
        have hs' : decide (src.getD e 0 ≠ 0) = false := decide_eq_false hs
        rw [hs']
        simp
      · have : (decide (e < k + 1)) = decide (e < k) := by
          have : e < k + 1 ↔ e < k := by omega
          simp [this]
        rw [this]

/-- The model of `minimize_bits` sets bit `e` exactly when trace byte `e` is non-zero,
for every position inside the destination buffer. -/
theorem minimize_bits_bit (n : Nat) (src : List Nat) (e : Nat) (he : e >>> 3 < n >>> 3) :
    ((minimize_bits n src).getD (e >>> 3) 0).testBit (e &&& 7) =
      (decide (e < n) && decide (src.getD e 0 ≠ 0)) :=
  (minimize_bits_aux src (n >>> 3) n).2 e he

/-! ## The compact traces of the holders -/

theorem trace_mini_bit_congr {a b : afl_state_t} (hm : b.map_size = a.map_size) (s e : Nat)
    (h : (entry b s).trace_mini = (entry a s).trace_mini) :
    trace_mini_bit b s e = trace_mini_bit a s e := by
  unfold trace_mini_bit
  rw [h, hm]

theorem trace_mini_bit_some {afl : afl_state_t} {s e : Nat} (h : trace_mini_bit afl s e = true) :
    ∃ m, (entry afl s).trace_mini = some m := by
  unfold trace_mini_bit at h
  cases hm : (entry afl s).trace_mini with
  | none => rw [hm] at h; cases h
  | some m => exact ⟨m, rfl⟩

theorem holder_valid {afl : afl_state_t} {s e : Nat} (h : trace_mini_bit afl s e = true) :
    s < afl.queue_buf.length := by
  obtain ⟨m, hm⟩ := trace_mini_bit_some h
  by_contra hlt
  have : entry afl s = default := by
    unfold entry
    rw [List.getD_eq_getElem?_getD, List.getElem?_eq_none (Nat.le_of_not_lt hlt)]
    rfl
  rw [this] at hm
  cases hm

theorem trace_mini_release_top (afl : afl_state_t) (t s : Nat) :
    (entry (release_top afl t) s).trace_mini =
      if s = t ∧ t < afl.queue_buf.length then
        (if ((entry afl t).tc_ref + 2 ^ 32 - 1) % 2 ^ 32 = 0 then none
          else (entry afl t).trace_mini)
      else (entry afl s).trace_mini := by
  unfold release_top
  simp only []
  rw [entry_set_entry]
  by_cases hc : s = t ∧ t < afl.queue_buf.length
  · rw [if_pos hc, if_pos hc]
  · rw [if_neg hc, if_neg hc]

theorem trace_mini_install_top (qi : Nat) (afl : afl_state_t) (i s : Nat) :
    (entry (install_top qi afl i) s).trace_mini =
      if s = qi ∧ qi < afl.queue_buf.length then
        (match (entry afl qi).trace_mini with
          | none => some (minimize_bits afl.map_size afl.trace_bits)
          | some m => some m)
      else (entry afl s).trace_mini := by
  unfold install_top
  simp only []
  have hE : ∀ x : queue_entry, entry ({ set_entry { afl with
      top_rated := fun e => if e = i then some qi else afl.top_rated e } qi x with
      score_changed := true }) s = if s = qi ∧ qi < afl.queue_buf.length then x else entry afl s := by
    intro x
    exact entry_set_entry { afl with
      top_rated := fun e => if e = i then some qi else afl.top_rated e } qi s x
  have hq : entry { afl with
      top_rated := fun e => if e = i then some qi else afl.top_rated e } qi = entry afl qi := rfl
  split
  · next hn =>
    rw [hE]
    rw [hq] at hn
    rw [hn]
    split <;> rfl
  · next m hn =>
    rw [hE]
    rw [hq] at hn
    rw [hn]
    split
    · rw [hq]; exact hn
    · rfl

theorem countP_range_two (f : Nat → Option Nat) (n i e : Nat) (x : Nat) (hi : i < n) (he : e < n)
    (hne : e ≠ i) (hfi : f i = some x) (hfe : f e = some x) :
    2 ≤ (List.range n).countP (fun k => decide (f k = some x)) := by
  have h := countP_range_update f n i none (some x) hi
  rw [if_pos hfi] at h
  have hnone : ¬ (none : Option Nat) = some x := by simp
  rw [if_neg hnone] at h
  have hp : 0 < (List.range n).countP
      (fun k => decide ((if k = i then none else f k) = some x)) :=
    countP_range_pos_of (fun k => if k = i then none else f k) n e (some x) he
      (by simp [hne, hfe])
  omega

theorem fresh_trace_bit (afl : afl_state_t) (qi i : Nat) (hi : i < afl.map_size)
    (h8 : afl.map_size % 8 = 0) (ht : afl.trace_bits.getD i 0 ≠ 0)
    (hq : (entry afl qi).trace_mini = some (minimize_bits afl.map_size afl.trace_bits)) :
    trace_mini_bit afl qi i = true := by
  unfold trace_mini_bit
  rw [hq]
  simp only []
  have h3 : i >>> 3 < afl.map_size >>> 3 := by
    rw [shr3, shr3]
    omega
  rw [minimize_bits_bit afl.map_size afl.trace_bits i h3, decide_eq_true ht,
    decide_eq_true hi, decide_eq_true h3]
  rfl

theorem match_trace_mini_fresh (mb : List Nat) :
    ∀ x : Option (List Nat), (x = none ∨ x = some mb) →
      (match x with
        | none => some mb
        | some m => some m) = some mb := by
  intro x h
  rcases h with h | h <;> subst h <;> rfl

theorem match_trace_mini_some (mb m : List Nat) :
    ∀ x : Option (List Nat), x = some m →
      (match x with
        | none => some mb
        | some m => some m) = x := by
  intro x h
  subst h
  rfl

theorem score_loop_inv_congr {a b : afl_state_t} (qi : Nat) (ht : b.top_rated = a.top_rated)
    (hm : b.map_size = a.map_size) (htb : b.trace_bits = a.trace_bits)
    (hl : b.queue_buf.length = a.queue_buf.length)
    (hc : ∀ s, (entry b s).tc_ref = (entry a s).tc_ref)
    (hx : ∀ s, (entry b s).trace_mini = (entry a s).trace_mini)
    (h : score_loop_inv a qi) : score_loop_inv b qi := by
  obtain ⟨h1, h2, h3⟩ := h
  refine ⟨tc_ref_inv_congr ht hm hl hc h1, ?_, ?_⟩
  · intro e s he hts
    rw [trace_mini_bit_congr hm s e (hx s)]
    rw [hm] at he
    rw [ht] at hts
    exact h2 e s he hts
  · rw [hx qi, hm, htb]
    exact h3

theorem score_loop_inv_install_none (qi : Nat) (afl : afl_state_t) (i : Nat)
    (hi : i < afl.map_size) (hm : afl.map_size < 2 ^ 32) (h8 : afl.map_size % 8 = 0)
    (ht : afl.trace_bits.getD i 0 ≠ 0) (hq : qi < afl.queue_buf.length)
    (hn : afl.top_rated i = none) (h : score_loop_inv afl qi) :
    score_loop_inv (install_top qi afl i) qi := by
  obtain ⟨h1, h2, h3⟩ := h
  have hS := same_inputs_install_top qi afl i
  have hms : (install_top qi afl i).map_size = afl.map_size := hS.2.2.2.1
  have htb : (install_top qi afl i).trace_bits = afl.trace_bits := hS.2.2.2.2.1
  have hqn : (entry (install_top qi afl i) qi).trace_mini =
      some (minimize_bits afl.map_size afl.trace_bits) := by
    rw [trace_mini_install_top, if_pos ⟨rfl, hq⟩]
    exact match_trace_mini_fresh _ _ h3
  refine ⟨tc_ref_inv_install_none qi afl i hi hm hn h1, ?_, ?_⟩
  · intro e s he hts
    rw [hms] at he
    rw [top_rated_install_top] at hts
    by_cases hei : e = i
    · subst hei
      rw [if_pos rfl] at hts
      cases hts
      apply fresh_trace_bit
      · rw [hms]; exact he
      · rw [hms]; exact h8
      · rw [htb]; exact ht
      · rw [hms, htb]; exact hqn
    · rw [if_neg hei] at hts
      have hb := h2 e s he hts
      obtain ⟨m, hm'⟩ := trace_mini_bit_some hb
      rw [trace_mini_bit_congr hms s e, hb]
      rw [trace_mini_install_top]
      split
      · next hc =>
        rw [← hc.1]
        exact match_trace_mini_some _ m _ hm'
      · rfl
  · right
    rw [hms, htb]
    exact hqn

theorem score_loop_inv_install_some (qi : Nat) (afl : afl_state_t) (i t : Nat)
    (hi : i < afl.map_size) (hm : afl.map_size < 2 ^ 32) (h8 : afl.map_size % 8 = 0)
    (ht : afl.trace_bits.getD i 0 ≠ 0) (hq : qi < afl.queue_buf.length)
    (hn : afl.top_rated i = some t) (h : score_loop_inv afl qi) :
    score_loop_inv (install_top qi (release_top afl t) i) qi := by
  obtain ⟨h1, h2, h3⟩ := h
  have hS := same_inputs_trans (same_inputs_install_top qi (release_top afl t) i)
    (same_inputs_release_top afl t)
  have hms : (install_top qi (release_top afl t) i).map_size = afl.map_size := hS.2.2.2.1
  have htb : (install_top qi (release_top afl t) i).trace_bits = afl.trace_bits :=
    hS.2.2.2.2.1
  have hrel : (entry (release_top afl t) qi).trace_mini = none ∨
      (entry (release_top afl t) qi).trace_mini =
        some (minimize_bits afl.map_size afl.trace_bits) := by
    rw [trace_mini_release_top]
    split
    · next hc =>
      split
      · left; rfl
      · rw [← hc.1]; exact h3
    · exact h3
  have hqn : (entry (install_top qi (release_top afl t) i) qi).trace_mini =
      some (minimize_bits afl.map_size afl.trace_bits) := by
    rw [trace_mini_install_top, length_release_top, if_pos ⟨rfl, hq⟩]
    exact match_trace_mini_fresh _ _ hrel
  refine ⟨tc_ref_inv_install_some qi afl i t hi hm hn h1, ?_, ?_⟩
  · intro e s he hts
    rw [hms] at he
    rw [top_rated_install_top, top_rated_release_top] at hts
    by_cases hei : e = i
    · subst hei
      rw [if_pos rfl] at hts
      cases hts
      apply fresh_trace_bit
      · rw [hms]; exact he
      · rw [hms]; exact h8
      · rw [htb]; exact ht
      · rw [hms, htb]; exact hqn
    · rw [if_neg hei] at hts
      have hb := h2 e s he hts
      obtain ⟨m, hm'⟩ := trace_mini_bit_some hb
      have hkeep : (entry (release_top afl t) s).trace_mini = (entry afl s).trace_mini := by
        rw [trace_mini_release_top]
        split
        · next hc =>
          have hst : s = t := hc.1
          subst hst
          have h2e : 2 ≤ edges_held afl s :=
            countP_range_two afl.top_rated afl.map_size i e s hi he hei hn hts
          have hle : edges_held afl s ≤ afl.map_size :=
            countP_range_le afl.top_rated afl.map_size (some s)
          have hr : ¬ ((entry afl s).tc_ref + 2 ^ 32 - 1) % 2 ^ 32 = 0 := by
            rw [h1 s hc.2]
            omega
          rw [if_neg hr]
        · rfl
      rw [trace_mini_bit_congr hms s e, hb]
      rw [trace_mini_install_top]
      split
      · next hc =>
        rw [← hc.1, hkeep]
        exact match_trace_mini_some _ m _ hm'
      · exact hkeep
  · right
    rw [hms, htb]
    exact hqn

theorem score_loop_inv_edge (c : afl_consts) (qi p f : Nat) (afl : afl_state_t) (i : Nat)
    (hi : i < afl.map_size) (hm : afl.map_size < 2 ^ 32) (h8 : afl.map_size % 8 = 0)
    (hq : qi < afl.queue_buf.length) (h : score_loop_inv afl qi) :
    score_loop_inv (update_bitmap_score_edge c qi p f afl i) qi := by
  unfold update_bitmap_score_edge
  have hS := same_inputs_record_frontier c qi afl i
  have h1 : score_loop_inv (record_frontier c qi afl i) qi :=
    score_loop_inv_congr qi (top_rated_record_frontier c qi afl i) hS.2.2.2.1 hS.2.2.2.2.1
      hS.2.2.2.2.2.1 (fun s => (entry_record_frontier_core c qi afl i s).1)
      (fun s => (entry_record_frontier_core c qi afl i s).2) h
  have hm1 : (record_frontier c qi afl i).map_size = afl.map_size := hS.2.2.2.1
  have ht1 : (record_frontier c qi afl i).trace_bits = afl.trace_bits := hS.2.2.2.2.1
  have hl1 : (record_frontier c qi afl i).queue_buf.length = afl.queue_buf.length :=
    hS.2.2.2.2.2.1
  generalize record_frontier c qi afl i = afl1 at h1 hm1 ht1 hl1
  rw [← hm1] at hi hm h8
  rw [← hl1] at hq
  split
  · next htr =>
    rw [← ht1] at htr
    simp only []
    split
    · next t ht =>
      split
      · exact h1
      · split
        · exact h1
        · exact score_loop_inv_install_some qi afl1 i t hi hm h8 htr hq ht h1
    · next hn => exact score_loop_inv_install_none qi afl1 i hi hm h8 htr hq hn h1
  · exact h

theorem score_loop_inv_foldl (c : afl_consts) (qi p f : Nat) (l : List Nat) (afl : afl_state_t)
    (hl : ∀ i ∈ l, i < afl.map_size) (hm : afl.map_size < 2 ^ 32) (h8 : afl.map_size % 8 = 0)
    (hq : qi < afl.queue_buf.length) (h : score_loop_inv afl qi) :
    score_loop_inv (l.foldl (update_bitmap_score_edge c qi p f) afl) qi := by
  induction l generalizing afl with
  | nil => exact h
  | cons x xs ih =>
    rw [List.foldl_cons]
    have hS := same_inputs_edge c qi p f afl x
    have hs : (update_bitmap_score_edge c qi p f afl x).map_size = afl.map_size := hS.2.2.2.1
    apply ih
    · intro i hi
      rw [hs]
      exact hl i (List.mem_cons_of_mem _ hi)
    · rw [hs]; exact hm
    · rw [hs]; exact h8
    · rw [hS.2.2.2.2.2.1]; exact hq
    · exact score_loop_inv_edge c qi p f afl x (hl x (List.mem_cons_self _ _)) hm h8 hq h

/-- Both table invariants hold at the start, when no edge has a top-rated seed and
every `tc_ref` is zero. -/
theorem table_inv_initial (afl : afl_state_t) (ht : ∀ e, afl.top_rated e = none)
    (hz : ∀ s, (entry afl s).tc_ref = 0) : tc_ref_inv afl ∧ trace_mini_inv afl := by
  constructor
  · intro s _
    rw [hz s]
    unfold edges_held
    symm
    rw [List.countP_eq_zero]
    intro e _
    rw [ht e]
    simp
  · intro e s _ hs
    rw [ht e] at hs
    cases hs

/-- C10: in the states that the code reaches, where `tc_ref` of every seed is the
number of edges it holds (the invariant of C9, which the call keeps as well), the
invariant "for every edge `e` with a top-rated seed, that seed has a `trace_mini` and
bit `e` is set in it" is preserved by `update_bitmap_score(q)` for a newly added seed
`q` of the queue (no `trace_mini` yet), when `map_size` is a multiple of 8 (and, being
a `u32`, below `2^32`). -/
theorem update_bitmap_score_trace_mini_inv (c : afl_consts) (afl : afl_state_t) (qi : Nat)
    (hq : qi < afl.queue_buf.length) (hnew : (entry afl qi).trace_mini = none)
    (h8 : afl.map_size % 8 = 0) (hm : afl.map_size < 2 ^ 32) (htc : tc_ref_inv afl)
    (h : trace_mini_inv afl) :
    trace_mini_inv (update_bitmap_score c afl qi) ∧
    tc_ref_inv (update_bitmap_score c afl qi) := by
  unfold update_bitmap_score
  simp only []
  have hS := same_inputs_reset_frontier_list afl qi
  have h0 : score_loop_inv (reset_frontier_list afl qi) qi :=
    score_loop_inv_congr qi (top_rated_reset_frontier_list afl qi) hS.2.2.2.1 hS.2.2.2.2.1
      hS.2.2.2.2.2.1 (fun s => (entry_reset_frontier_list_core qi afl s).1)
      (fun s => (entry_reset_frontier_list_core qi afl s).2) ⟨htc, h, Or.inl hnew⟩
  have hm0 : (reset_frontier_list afl qi).map_size = afl.map_size := hS.2.2.2.1
  rw [← hm0]
  constructor
  · refine (score_loop_inv_foldl c qi _ _ _ _ ?_ ?_ ?_ ?_ h0).2.1
    · intro i hi
      exact List.mem_range.mp hi
    · rw [hm0]; exact hm
    · rw [hm0]; exact h8
    · rw [hS.2.2.2.2.2.1]; exact hq
  · refine (score_loop_inv_foldl c qi _ _ _ _ ?_ ?_ ?_ ?_ h0).1
    · intro i hi
      exact List.mem_range.mp hi
    · rw [hm0]; exact hm
    · rw [hm0]; exact h8
    · rw [hS.2.2.2.2.2.1]; exact hq

theorem tc_ref_inv_fresh_seed_state : tc_ref_inv fresh_seed_state := by
  intro s hs
  have hs' : s < 2 := hs
  interval_cases s <;> decide

theorem trace_mini_inv_fresh_seed_state : trace_mini_inv fresh_seed_state := by
  intro e s he hs
  have hs' : (if e = 0 ∨ e = 1 then some 0 else none) = some s := hs
  split at hs'
  · next h =>
    have h0 : s = 0 := (Option.some.inj hs').symm
    subst h0
    rcases h with h | h <;> subst h <;> decide
  · cases hs'

/-- Witness of C10: seed 1 is new, seed 0 holds edges 0 and 1 with `tc_ref` 2; after
the call seed 1 holds edge 0 and seed 0 keeps edge 1 and its `trace_mini`. -/
theorem update_bitmap_score_trace_mini_inv_witness :
    (1 < fresh_seed_state.queue_buf.length ∧ (entry fresh_seed_state 1).trace_mini = none ∧
      fresh_seed_state.map_size % 8 = 0 ∧ fresh_seed_state.map_size < 2 ^ 32 ∧
      tc_ref_inv fresh_seed_state ∧ trace_mini_inv fresh_seed_state) ∧
    (trace_mini_inv (update_bitmap_score demo_consts fresh_seed_state 1) ∧
      tc_ref_inv (update_bitmap_score demo_consts fresh_seed_state 1)) ∧
    (List.range 2).map (update_bitmap_score demo_consts fresh_seed_state 1).top_rated =
      [some 1, some 0] ∧
    (update_bitmap_score demo_consts fresh_seed_state 1).queue_buf.map
      (fun q => (q.tc_ref, q.trace_mini)) = [(1, some [3]), (1, some [1])] :=
  ⟨⟨by decide, by decide, by decide, by decide, tc_ref_inv_fresh_seed_state,
      trace_mini_inv_fresh_seed_state⟩,
    update_bitmap_score_trace_mini_inv demo_consts fresh_seed_state 1 (by decide) (by decide)
      (by decide) (by decide) tc_ref_inv_fresh_seed_state trace_mini_inv_fresh_seed_state,
    by decide, by decide⟩

/-! ## `cull_queue` -/

theorem and_bit_ne_zero (x b : Nat) : x &&& (1 <<< b) ≠ 0 ↔ x.testBit b = true := by
  rw [Nat.one_shiftLeft]
  constructor
  · intro h
    obtain ⟨i, hi⟩ := Nat.ne_zero_implies_bit_true h
    rw [Nat.testBit_and, Nat.testBit_two_pow] at hi
    simp only [Bool.and_eq_true, decide_eq_true_eq] at hi
    rw [hi.2]
    exact hi.1
  · intro h h0
    have : (x &&& 2 ^ b).testBit b = true := by
      rw [Nat.testBit_and, h, Nat.testBit_two_pow_self]
      rfl
    rw [h0] at this
    simp at this

theorem remove_bits_fold (m : List Nat) (js : List Nat) :
    ∀ tv : List Nat, js.Nodup → (∀ j ∈ js, j < tv.length) →
      (js.foldl
        (fun tv j =>
          if m.getD j 0 ≠ 0 then tv.set j (tv.getD j 0 &&& (255 ^^^ m.getD j 0)) else tv)
        tv).length = tv.length ∧
      ∀ k, (js.foldl
        (fun tv j =>
          if m.getD j 0 ≠ 0 then tv.set j (tv.getD j 0 &&& (255 ^^^ m.getD j 0)) else tv)
        tv).getD k 0 =
        if k ∈ js then
          (if m.getD k 0 ≠ 0 then tv.getD k 0 &&& (255 ^^^ m.getD k 0) else tv.getD k 0)
        else tv.getD k 0 := by
  induction js with
  | nil =>
    intro tv _ _
    exact ⟨rfl, fun k => by simp⟩
  | cons j js ih =>
    intro tv hnd hlt
    rw [List.foldl_cons]
    have hj : j < tv.length := hlt j (List.mem_cons_self _ _)
    have hnd' := (List.nodup_cons.mp hnd)
    by_cases hm : m.getD j 0 ≠ 0
    · rw [if_pos hm]
      have hlen : (tv.set j (tv.getD j 0 &&& (255 ^^^ m.getD j 0))).length = tv.length := by
        simp
      obtain ⟨h1, h2⟩ := ih (tv.set j (tv.getD j 0 &&& (255 ^^^ m.getD j 0))) hnd'.2
        (fun x hx => by rw [hlen]; exact hlt x (List.mem_cons_of_mem _ hx))
      refine ⟨h1.trans hlen, ?_⟩
      intro k
      rw [h2 k, getD_set_eq]
      by_cases hkj : k = j
      · subst hkj
        rw [if_neg hnd'.1, if_pos ⟨rfl, hj⟩, if_pos (List.mem_cons_self _ _), if_pos hm]
      · have : k ∈ j :: js ↔ k ∈ js := by simp [hkj]
        simp only [this, hkj, false_and, if_false]
    · rw [if_neg hm]
      obtain ⟨h1, h2⟩ := ih tv hnd'.2 (fun x hx => hlt x (List.mem_cons_of_mem _ hx))
      refine ⟨h1, ?_⟩
      intro k
      rw [h2 k]
      by_cases hkj : k = j
      · subst hkj
        rw [if_neg hnd'.1, if_pos (List.mem_cons_self _ _), if_neg hm]
      · have : k ∈ j :: js ↔ k ∈ js := by simp [hkj]
        simp only [this]

theorem cull_remove_bits_length (len : Nat) (tv m : List Nat) (hl : len ≤ tv.length) :
    (cull_remove_bits len tv m).length = tv.length := by
  unfold cull_remove_bits
  refine (remove_bits_fold m (List.range len).reverse tv ?_ ?_).1
  · exact List.nodup_reverse.mpr (List.nodup_range len)
  · intro j hj
    have := List.mem_range.mp (List.mem_reverse.mp hj)
    omega

theorem cull_remove_bits_bit (len : Nat) (tv m : List Nat) (hl : len ≤ tv.length) (b : Nat)
    (hb : b >>> 3 < len) :
    ((cull_remove_bits len tv m).getD (b >>> 3) 0).testBit (b &&& 7) =
      ((tv.getD (b >>> 3) 0).testBit (b &&& 7) && !(m.getD (b >>> 3) 0).testBit (b &&& 7)) := by
  unfold cull_remove_bits
  have h := (remove_bits_fold m (List.range len).reverse tv
    (List.nodup_reverse.mpr (List.nodup_range len))
    (fun j hj => by
      have := List.mem_range.mp (List.mem_reverse.mp hj)
      omega)).2 (b >>> 3)
  rw [h, if_pos (List.mem_reverse.mpr (List.mem_range.mpr hb))]
  have h7 : b &&& 7 < 8 := by
    rw [and7]
    omega
  by_cases hm : m.getD (b >>> 3) 0 ≠ 0
  · rw [if_pos hm, Nat.testBit_and, Nat.testBit_xor]
    have h255 : Nat.testBit 255 (b &&& 7) = true := by
      have := Nat.testBit_two_pow_sub_one 8 (b &&& 7)
      simpa [h7] using this
    rw [h255]
    cases (m.getD (b >>> 3) 0).testBit (b &&& 7) <;> simp
  · rw [if_neg hm]
    simp only [ne_eq, Decidable.not_not] at hm
    rw [hm]
    simp

theorem cull_mark_favored_frame (a : afl_state_t) (t : Nat) :
    (cull_mark_favored a t).top_rated = a.top_rated ∧
    (cull_mark_favored a t).map_size = a.map_size ∧
    (cull_mark_favored a t).map_tmp_buf = a.map_tmp_buf ∧
    (cull_mark_favored a t).queue_buf.length = a.queue_buf.length ∧
    ∀ s, entry (cull_mark_favored a t) s =
      if s = t ∧ t < a.queue_buf.length then { entry a t with favored := true }
      else entry a s := by
  unfold cull_mark_favored
  by_cases hf : (entry a t).favored = true
  · simp only [hf, Bool.not_true, Bool.false_eq_true, if_false, true_and]
    intro s
    split
    · next hc =>
      rw [hc.1]
      cases h : entry a t
      rw [h] at hf
      simp only at hf
      simp only [hf]
    · rfl
  · simp only [hf, Bool.not_false, if_true]
    have hE : ∀ s, entry (set_entry a t { entry a t with favored := true }) s =
        if s = t ∧ t < a.queue_buf.length then { entry a t with favored := true }
        else entry a s := fun s => entry_set_entry a t s _
    split
    · split
      · exact ⟨rfl, rfl, rfl, length_set_entry a t _, hE⟩
      · exact ⟨rfl, rfl, rfl, length_set_entry a t _, hE⟩
    · exact ⟨rfl, rfl, rfl, length_set_entry a t _, hE⟩

theorem cull_mark_favored_trace_mini (a : afl_state_t) (t s : Nat) :
    (entry (cull_mark_favored a t) s).trace_mini = (entry a s).trace_mini := by
  rw [(cull_mark_favored_frame a t).2.2.2.2 s]
  split
  · next hc => rw [hc.1]
  · rfl

theorem cull_mark_favored_mono (a : afl_state_t) (t s : Nat)
    (h : (entry a s).favored = true) : (entry (cull_mark_favored a t) s).favored = true := by
  rw [(cull_mark_favored_frame a t).2.2.2.2 s]
  split
  · rfl
  · exact h

theorem cull_mark_favored_self (a : afl_state_t) (t : Nat) (ht : t < a.queue_buf.length) :
    (entry (cull_mark_favored a t) t).favored = true := by
  rw [(cull_mark_favored_frame a t).2.2.2.2 t, if_pos ⟨rfl, ht⟩]

theorem cull_frame_refl (a : afl_state_t) : cull_frame a a :=
  ⟨rfl, rfl, rfl, fun _ => rfl, fun _ h => h⟩

theorem cull_frame_trans {a b c : afl_state_t} (h1 : cull_frame a b) (h2 : cull_frame b c) :
    cull_frame a c :=
  ⟨h2.1.trans h1.1, h2.2.1.trans h1.2.1, h2.2.2.1.trans h1.2.2.1,
    fun s => (h2.2.2.2.1 s).trans (h1.2.2.2.1 s), fun s h => h2.2.2.2.2 s (h1.2.2.2.2 s h)⟩

theorem covered_by_favored_frame {a b : afl_state_t} (h : cull_frame a b) (e : Nat)
    (hc : covered_by_favored a e) : covered_by_favored b e := by
  obtain ⟨f, hf, hfav, hbit⟩ := hc
  refine ⟨f, by rw [h.2.2.1]; exact hf, h.2.2.2.2 f hfav, ?_⟩
  rw [trace_mini_bit_congr h.2.1 f e (h.2.2.2.1 f)]
  exact hbit

theorem trace_mini_inv_frame {a b : afl_state_t} (h : cull_frame a b) (ht : trace_mini_inv a) :
    trace_mini_inv b := by
  intro e s he hs
  rw [trace_mini_bit_congr h.2.1 s e (h.2.2.2.1 s)]
  rw [h.2.1] at he
  rw [h.1] at hs
  exact ht e s he hs

theorem trace_mini_bit_unfold {a : afl_state_t} {s e : Nat} (h : trace_mini_bit a s e = true) :
    ∃ m, (entry a s).trace_mini = some m ∧ e >>> 3 < a.map_size >>> 3 ∧
      (m.getD (e >>> 3) 0).testBit (e &&& 7) = true := by
  unfold trace_mini_bit at h
  cases hm : (entry a s).trace_mini with
  | none => rw [hm] at h; cases h
  | some m =>
    rw [hm] at h
    simp only [Bool.and_eq_true, decide_eq_true_eq] at h
    exact ⟨m, rfl, h.1, h.2⟩

theorem trace_mini_bit_of {a : afl_state_t} {s e : Nat} {m : List Nat}
    (hm : (entry a s).trace_mini = some m) (he : e >>> 3 < a.map_size >>> 3)
    (hb : (m.getD (e >>> 3) 0).testBit (e &&& 7) = true) : trace_mini_bit a s e = true := by
  unfold trace_mini_bit
  rw [hm]
  simp only [Bool.and_eq_true, decide_eq_true_eq]
  exact ⟨he, hb⟩

theorem cull_queue_edge_step (a : afl_state_t) (i : Nat) (hi : i < a.map_size)
    (ht : trace_mini_inv a) (hinv : cull_loop_inv a) :
    ∃ a', cull_queue_edge a i = some a' ∧ cull_frame a a' ∧ cull_loop_inv a' ∧
      ∀ s, a.top_rated i = some s → covered_by_favored a' i := by
  unfold cull_queue_edge
  cases htop : a.top_rated i with
  | none =>
    simp only []
    exact ⟨a, rfl, cull_frame_refl a, hinv, fun s hs => by cases hs⟩
  | some t =>
    simp only []
    have hbit := ht i t hi htop
    have hval := holder_valid hbit
    obtain ⟨m, hm, h3, hmb⟩ := trace_mini_bit_unfold hbit
    by_cases hc : a.map_tmp_buf.getD (i >>> 3) 0 &&& (1 <<< (i &&& 7)) ≠ 0
    · rw [if_pos hc, if_pos hval, hm]
      simp only []
      have hF := cull_mark_favored_frame
        { a with map_tmp_buf := cull_remove_bits (a.map_size >>> 3) a.map_tmp_buf m } t
      have hfr : cull_frame a (cull_mark_favored
          { a with map_tmp_buf := cull_remove_bits (a.map_size >>> 3) a.map_tmp_buf m } t) :=
        ⟨hF.1, hF.2.1, hF.2.2.2.1, fun s => cull_mark_favored_trace_mini _ t s,
          fun s h => cull_mark_favored_mono _ t s h⟩
      have hself : covered_by_favored (cull_mark_favored
          { a with map_tmp_buf := cull_remove_bits (a.map_size >>> 3) a.map_tmp_buf m } t) i := by
        refine ⟨t, by rw [hF.2.2.2.1]; exact hval, cull_mark_favored_self _ t hval, ?_⟩
        rw [trace_mini_bit_congr hfr.2.1 t i (hfr.2.2.2.1 t)]
        exact hbit
      refine ⟨_, rfl, hfr, ⟨?_, ?_⟩, fun s _ => hself⟩
      · rw [hF.2.1, hF.2.2.1]
        simp only []
        rw [cull_remove_bits_length _ _ _ hinv.1]
        exact hinv.1
      · intro b hb3 hbc
        rw [hF.2.1] at hb3
        rw [hF.2.2.1] at hbc
        simp only [] at hb3 hbc
        rw [cull_remove_bits_bit _ _ _ hinv.1 b hb3] at hbc
        by_cases hold : (a.map_tmp_buf.getD (b >>> 3) 0).testBit (b &&& 7) = true
        · rw [hold] at hbc
          simp only [Bool.true_and, Bool.not_eq_false'] at hbc
          refine ⟨t, by rw [hF.2.2.2.1]; exact hval, cull_mark_favored_self _ t hval, ?_⟩
          rw [trace_mini_bit_congr hfr.2.1 t b (hfr.2.2.2.1 t)]
          exact trace_mini_bit_of hm hb3 hbc
        · simp only [Bool.not_eq_true] at hold
          exact covered_by_favored_frame hfr b (hinv.2 b hb3 hold)
    · rw [if_neg hc]
      refine ⟨a, rfl, cull_frame_refl a, hinv, fun s _ => ?_⟩
      have hclear : (a.map_tmp_buf.getD (i >>> 3) 0).testBit (i &&& 7) = false := by
        by_contra hx
        simp only [Bool.not_eq_false] at hx
        exact hc ((and_bit_ne_zero _ _).mpr hx)
      exact hinv.2 i h3 hclear

theorem cull_queue_edges_steps (l : List Nat) :
    ∀ a : afl_state_t, (∀ i ∈ l, i < a.map_size) → trace_mini_inv a → cull_loop_inv a →
      ∃ a', cull_queue_edges l a = some a' ∧ cull_frame a a' ∧ cull_loop_inv a' ∧
        ∀ i ∈ l, ∀ s, a.top_rated i = some s → covered_by_favored a' i := by
  induction l with
  | nil =>
    intro a _ _ hinv
    exact ⟨a, rfl, cull_frame_refl a, hinv, fun i hi => by cases hi⟩
  | cons x xs ih =>
    intro a hl ht hinv
    obtain ⟨a1, h1, hf1, hi1, hc1⟩ :=
      cull_queue_edge_step a x (hl x (List.mem_cons_self _ _)) ht hinv
    obtain ⟨a2, h2, hf2, hi2, hc2⟩ := ih a1
      (fun i hi => by rw [hf1.2.1]; exact hl i (List.mem_cons_of_mem _ hi))
      (trace_mini_inv_frame hf1 ht) hi1
    refine ⟨a2, ?_, cull_frame_trans hf1 hf2, hi2, ?_⟩
    · simp only [cull_queue_edges, h1]
      exact h2
    · intro i hi s hs
      rcases List.mem_cons.mp hi with hix | hix
      · subst hix
        exact covered_by_favored_frame hf2 i (hc1 s hs)
      · exact hc2 i hix s (by rw [hf1.1]; exact hs)

theorem entry_map_favored (a : afl_state_t) (s : Nat) :
    (entry { a with
      score_changed := false
      map_tmp_buf :=
        List.replicate (a.map_size >>> 3) 255 ++ a.map_tmp_buf.drop (a.map_size >>> 3)
      queued_favored := 0
      pending_favored := 0
      queue_buf := a.queue_buf.map (fun q => { q with favored := false })
      smallest_favored := -1 } s).trace_mini = (entry a s).trace_mini := by
  unfold entry
  simp only [List.getD_eq_getElem?_getD, List.getElem?_map]
  cases a.queue_buf[s]? <;> rfl

theorem cull_queue_init_inv (a : afl_state_t) (ht : trace_mini_inv a) :
    trace_mini_inv (cull_queue_init a) ∧ cull_loop_inv (cull_queue_init a) ∧
    (cull_queue_init a).top_rated = a.top_rated ∧ (cull_queue_init a).map_size = a.map_size := by
  unfold cull_queue_init
  refine ⟨?_, ⟨?_, ?_⟩, rfl, rfl⟩
  · intro e s he hs
    have := ht e s he hs
    unfold trace_mini_bit at this ⊢
    rw [entry_map_favored]
    exact this
  · simp
  · intro b hb hclear
    exfalso
    simp only [] at hb hclear
    rw [List.getD_eq_getElem?_getD, List.getElem?_append_left (by simpa using hb),
      List.getElem?_replicate, if_pos hb] at hclear
    simp only [Option.getD_some] at hclear
    have h7 : b &&& 7 < 8 := by
      rw [and7]
      omega
    have h255 : Nat.testBit 255 (b &&& 7) = true := by
      have := Nat.testBit_two_pow_sub_one 8 (b &&& 7)
      simpa [h7] using this
    rw [h255] at hclear
    cases hclear

theorem mark_as_redundant_frame (a : afl_state_t) (i : Nat) (st : Bool) :
    cull_frame a (mark_as_redundant a i st) := by
  unfold mark_as_redundant
  split
  · exact cull_frame_refl a
  · refine ⟨rfl, rfl, length_set_entry a i _, fun s => ?_, fun s h => ?_⟩
    · exact entry_set_entry_proj (fun q => q.trace_mini) a i s _ rfl
    · have := entry_set_entry_proj (fun q => q.favored) a i s
        { entry a i with fs_redundant := st } rfl
      simp only [] at this
      rw [this]
      exact h

theorem cull_mark_redundant_frame (a : afl_state_t) : cull_frame a (cull_mark_redundant a) := by
  unfold cull_mark_redundant
  generalize List.range a.queue_buf.length = l
  induction l generalizing a with
  | nil => exact cull_frame_refl a
  | cons x xs ih =>
    rw [List.foldl_cons]
    refine cull_frame_trans ?_ (ih _)
    split
    · exact mark_as_redundant_frame a x _
    · exact cull_frame_refl a

/-- C2: when `cull_queue` runs (`score_changed` set, instrumented mode) on a state where
every top-rated seed's `trace_mini` has the bit of the edge it holds, it returns, and
afterwards every edge `e` with a top-rated seed has a favored seed of the queue whose
`trace_mini` has bit `e` set. -/
theorem cull_queue_favored_cover (afl : afl_state_t) (hs : afl.score_changed = true)
    (hn : afl.non_instrumented_mode = false) (h : trace_mini_inv afl) :
    ∃ afl', cull_queue afl = some afl' ∧
      ∀ e s, e < afl.map_size → afl'.top_rated e = some s →
        ∃ f, f < afl'.queue_buf.length ∧ (entry afl' f).favored = true ∧
          trace_mini_bit afl' f e = true := by
  obtain ⟨h1, h2, h3, h4⟩ := cull_queue_init_inv afl h
  obtain ⟨a, ha, hf, _, hc⟩ := cull_queue_edges_steps (List.range afl.map_size)
    (cull_queue_init afl) (fun i hi => by rw [h4]; exact List.mem_range.mp hi) h1 h2
  have hfr := cull_mark_redundant_frame a
  have hfr' : cull_frame a { cull_mark_redundant a with reinit_table := true } := hfr
  refine ⟨{ cull_mark_redundant a with reinit_table := true }, ?_, ?_⟩
  · unfold cull_queue
    simp only [hs, hn, Bool.not_true, Bool.or_self, Bool.false_eq_true, if_false, ha]
  · intro e s he hs'
    have htop : (cull_queue_init afl).top_rated e = some s := by
      have : ({ cull_mark_redundant a with reinit_table := true } : afl_state_t).top_rated =
          (cull_queue_init afl).top_rated := hfr'.1.trans hf.1
      rw [← this]
      exact hs'
    exact covered_by_favored_frame hfr' e (hc e (List.mem_range.mpr he) s htop)

theorem trace_mini_inv_cull_demo_state : trace_mini_inv cull_demo_state := by
  intro e s he hs
  have hs' : (if e = 0 ∨ e = 2 then some 2 else if e = 1 then some 1 else none) = some s := hs
  split at hs'
  · next h =>
    have h0 : s = 2 := (Option.some.inj hs').symm
    subst h0
    rcases h with h | h <;> subst h <;> decide
  · split at hs'
    · next h =>
      have h0 : s = 1 := (Option.some.inj hs').symm
      subst h0
      subst h
      decide
    · cases hs'

/-- Witness of C2 on the three-seed state. -/
theorem cull_queue_favored_cover_witness :
    (cull_demo_state.score_changed = true ∧ cull_demo_state.non_instrumented_mode = false ∧
      trace_mini_inv cull_demo_state) ∧
    ∃ afl', cull_queue cull_demo_state = some afl' ∧
      ∀ e s, e < cull_demo_state.map_size → afl'.top_rated e = some s →
        ∃ f, f < afl'.queue_buf.length ∧ (entry afl' f).favored = true ∧
          trace_mini_bit afl' f e = true :=
  ⟨⟨by decide, by decide, trace_mini_inv_cull_demo_state⟩,
    cull_queue_favored_cover cull_demo_state (by decide) (by decide)
      trace_mini_inv_cull_demo_state⟩

/-! ## The alias construction -/

theorem sum_range_update_point (n s : Nat) (g g' : Nat → ℚ) (hs : s < n)
    (h : ∀ j, j ≠ s → g' j = g j) :
    ∑ j in Finset.range n, g' j = ∑ j in Finset.range n, g j + (g' s - g s) := by
  have hm : s ∈ Finset.range n := Finset.mem_range.mpr hs
  rw [← Finset.add_sum_erase (Finset.range n) g' hm, ← Finset.add_sum_erase (Finset.range n) g hm]
  have : ∑ x in (Finset.range n).erase s, g' x = ∑ x in (Finset.range n).erase s, g x := by
    apply Finset.sum_congr rfl
    intro x hx
    exact h x (Finset.ne_of_mem_erase hx)
  rw [this]
  ring

/-- One round of the pairing loop, whichever stack the large index goes back to. -/
theorem alias_inv_step (P0 : List ℚ) (st st' : alias_state_rat) (s l : Nat) (ss ls : List Nat)
    (hS : st.Small = s :: ss) (hL : st.Large = l :: ls)
    (hP : st'.P = st.P.set l (st.P.getD l 0 - (1 - st.P.getD s 0)))
    (hat : st'.alias_table = st.alias_table.set s l)
    (hap : st'.alias_probability = st.alias_probability.set s (st.P.getD s 0))
    (hU : ∀ u, u ∈ st'.Small ++ st'.Large ↔ u ∈ ss ++ l :: ls)
    (hperm : (st'.Small ++ st'.Large).Perm (ss ++ l :: ls))
    (hcS : ∀ x ∈ st'.Small, x ∈ ss ∨ (x = l ∧ st.P.getD l 0 - (1 - st.P.getD s 0) < 1))
    (hcL : ∀ x ∈ st'.Large, x ∈ ls ∨ (x = l ∧ 1 ≤ st.P.getD l 0 - (1 - st.P.getD s 0)))
    (h : alias_inv P0 st) : alias_inv P0 st' := by
  obtain ⟨⟨hl1, hl2, hl3⟩, ⟨hnd, hlt⟩, ⟨hc1, hc2⟩, hmass, hsum⟩ := h
  rw [hS, hL] at hnd hlt hsum
  rw [hS] at hc1
  rw [hL] at hc2
  have hs_lt : s < P0.length := hlt s (by simp)
  have hl_lt : l < P0.length := hlt l (by simp)
  have hnd' : (s :: (ss ++ l :: ls)).Nodup := by simpa using hnd
  have hs_notin : s ∉ ss ++ l :: ls := (List.nodup_cons.mp hnd').1
  have hnd2 : (ss ++ l :: ls).Nodup := (List.nodup_cons.mp hnd').2
  have hsl : s ≠ l := fun x => hs_notin (by rw [x]; simp)
  have hl_notin : l ∉ ss ++ ls := by
    have := List.nodup_middle.mp hnd2
    exact (List.nodup_cons.mp this).1
  have hPget : ∀ k, st'.P.getD k 0 =
      if k = l then st.P.getD l 0 - (1 - st.P.getD s 0) else st.P.getD k 0 := by
    intro k
    rw [hP, getD_set_eq]
    by_cases hk : k = l
    · rw [if_pos ⟨hk, by rw [hl1]; exact hl_lt⟩, if_pos hk]
    · rw [if_neg (fun x => hk x.1), if_neg hk]
  have hapget : ∀ k, st'.alias_probability.getD k 0 =
      if k = s then st.P.getD s 0 else st.alias_probability.getD k 0 := by
    intro k
    rw [hap, getD_set_eq]
    by_cases hk : k = s
    · rw [if_pos ⟨hk, by rw [hl3]; exact hs_lt⟩, if_pos hk]
    · rw [if_neg (fun x => hk x.1), if_neg hk]
  have hatget : ∀ k, st'.alias_table.getD k 0 = if k = s then l else st.alias_table.getD k 0 := by
    intro k
    rw [hat, getD_set_eq]
    by_cases hk : k = s
    · rw [if_pos ⟨hk, by rw [hl2]; exact hs_lt⟩, if_pos hk]
    · rw [if_neg (fun x => hk x.1), if_neg hk]
  have hUold : ∀ u, u ∈ st.Small ++ st.Large ↔ u = s ∨ u ∈ ss ++ l :: ls := by
    intro u
    rw [hS, hL]
    simp
  refine ⟨⟨by rw [hP]; simpa using hl1, by rw [hat]; simpa using hl2,
    by rw [hap]; simpa using hl3⟩, ⟨hperm.nodup_iff.mpr hnd2, ?_⟩, ⟨?_, ?_⟩, ?_, ?_⟩
  · intro u hu
    exact hlt u (by
      have := (hU u).mp hu
      simp at this ⊢
      tauto)
  · intro x hx
    rw [hPget]
    rcases hcS x hx with h1 | ⟨h1, h2⟩
    · have hxl : x ≠ l := fun e => hl_notin (by rw [← e]; simp [h1])
      rw [if_neg hxl]
      exact hc1 x (List.mem_cons_of_mem _ h1)
    · rw [if_pos h1]
      exact h2
  · intro x hx
    rw [hPget]
    rcases hcL x hx with h1 | ⟨h1, h2⟩
    · have hxl : x ≠ l := fun e => hl_notin (by rw [← e]; simp [h1])
      rw [if_neg hxl]
      exact hc2 x (List.mem_cons_of_mem _ h1)
    · rw [if_pos h1]
      exact h2
  · intro i hi
    rw [← hmass i hi]
    unfold alias_mass
    have hmem : ∀ j, j ≠ s → (j ∈ st'.Small ++ st'.Large ↔ j ∈ st.Small ++ st.Large) := by
      intro j hj
      rw [hU, hUold]
      constructor
      · exact Or.inr
      · rintro (h | h)
        · exact absurd h hj
        · exact h
    have hs1 : s ∉ st'.Small ++ st'.Large := fun x => hs_notin ((hU s).mp x)
    have hs2 : s ∈ st.Small ++ st.Large := (hUold s).mpr (Or.inl rfl)
    have hsumeq := sum_range_update_point P0.length s
      (fun j => if j ∈ st.Small ++ st.Large then (0 : ℚ)
        else if st.alias_table.getD j 0 = i then 1 - st.alias_probability.getD j 0 else 0)
      (fun j => if j ∈ st'.Small ++ st'.Large then (0 : ℚ)
        else if st'.alias_table.getD j 0 = i then 1 - st'.alias_probability.getD j 0 else 0)
      hs_lt (by
        intro j hj
        simp only []
        rw [hatget, hapget, if_neg hj, if_neg hj]
        by_cases hjm : j ∈ st.Small ++ st.Large
        · rw [if_pos hjm, if_pos ((hmem j hj).mpr hjm)]
        · rw [if_neg hjm, if_neg (fun x => hjm ((hmem j hj).mp x))])
    simp only [] at hsumeq
    rw [if_neg hs1, if_pos hs2, hatget, hapget, if_pos rfl, if_pos rfl, sub_zero] at hsumeq
    rw [hsumeq]
    by_cases his : i = s
    · subst his
      rw [if_neg hs1, if_pos hs2, hapget, if_pos rfl, if_neg (fun x => hsl x.symm)]
      ring
    · by_cases hil : i = l
      · subst hil
        have h1 : i ∈ st'.Small ++ st'.Large := (hU i).mpr (by simp)
        have h2 : i ∈ st.Small ++ st.Large := (hUold i).mpr (Or.inr (by simp))
        rw [if_pos h1, if_pos h2, hPget, if_pos rfl, if_pos rfl]
        ring
      · rw [if_neg (fun x : l = i => hil x.symm), hPget, hapget, if_neg hil, if_neg his]
        by_cases him : i ∈ st.Small ++ st.Large
        · rw [if_pos him, if_pos ((hmem i his).mpr him)]
          ring
        · rw [if_neg him, if_neg (fun x => him ((hmem i his).mp x))]
          ring
  · rw [(hperm.map _).sum_eq, hperm.length_eq]
    have hmid : (ss ++ l :: ls).Perm (l :: (ss ++ ls)) := List.perm_middle
    rw [(hmid.map _).sum_eq, hmid.length_eq]
    have hold : ((s :: ss ++ l :: ls).map (fun u => st.P.getD u 0)).sum =
        st.P.getD s 0 + (st.P.getD l 0 + ((ss ++ ls).map (fun u => st.P.getD u 0)).sum) := by
      have hp : (s :: ss ++ l :: ls).Perm (s :: l :: (ss ++ ls)) := by
        simp
      rw [(hp.map _).sum_eq]
      simp
    rw [hold] at hsum
    have hrest : ((ss ++ ls).map (fun u => st'.P.getD u 0)).sum =
        ((ss ++ ls).map (fun u => st.P.getD u 0)).sum := by
      congr 1
      apply List.map_congr_left
      intro u hu
      rw [hPget, if_neg (fun e => hl_notin (by rw [← e]; exact hu))]
    rw [List.map_cons, List.sum_cons, hrest, hPget, if_pos rfl]
    have hlen : ((s :: ss ++ l :: ls).length : ℚ) = ((l :: (ss ++ ls)).length : ℚ) + 1 := by
      simp
      ring
    rw [hlen] at hsum
    linarith

/-- Induction over the rounds of the pairing loop: the loop invariant together with
any further property `Q` that each round preserves holds when the loop stops, and
the loop stops with one of the stacks empty. -/
theorem alias_pair_loop_induct (P0 : List ℚ) (Q : alias_state_rat → Prop)
    (hQ : ∀ (st st' : alias_state_rat) (s l : Nat) (ss ls : List Nat),
      st.Small = s :: ss → st.Large = l :: ls →
      st'.P = st.P.set l (st.P.getD l 0 - (1 - st.P.getD s 0)) →
      st'.alias_table = st.alias_table.set s l →
      st'.alias_probability = st.alias_probability.set s (st.P.getD s 0) →
      (∀ u, u ∈ st'.Small ↔ (u ∈ ss ∨ (u = l ∧ st.P.getD l 0 - (1 - st.P.getD s 0) < 1))) →
      (∀ u, u ∈ st'.Large ↔ (u ∈ ls ∨ (u = l ∧ ¬ st.P.getD l 0 - (1 - st.P.getD s 0) < 1))) →
      alias_inv P0 st → Q st → Q st') :
    ∀ (fuel : Nat) (st : alias_state_rat), alias_inv P0 st → Q st →
      st.Small.length + st.Large.length ≤ fuel →
      alias_inv P0 (alias_pair_loop_rat fuel st) ∧ Q (alias_pair_loop_rat fuel st) ∧
        ((alias_pair_loop_rat fuel st).Small = [] ∨ (alias_pair_loop_rat fuel st).Large = []) := by
  intro fuel
  induction fuel with
  | zero =>
    intro st h hq hf
    refine ⟨h, hq, Or.inl ?_⟩
    have : st.Small.length = 0 := by omega
    exact List.length_eq_zero.mp this
  | succ fuel ih =>
    intro st h hq hf
    cases hS : st.Small with
    | nil =>
      have : alias_pair_loop_rat (fuel + 1) st = st := by
        simp only [alias_pair_loop_rat, hS]
      rw [this]
      exact ⟨h, hq, Or.inl hS⟩
    | cons s ss =>
      cases hL : st.Large with
      | nil =>
        have : alias_pair_loop_rat (fuel + 1) st = st := by
          simp only [alias_pair_loop_rat, hS, hL]
        rw [this]
        exact ⟨h, hq, Or.inr hL⟩
      | cons l ls =>
        rw [hS, hL] at hf
        simp only [List.length_cons] at hf
        by_cases hpl : st.P.getD l 0 - (1 - st.P.getD s 0) < 1
        · have : alias_pair_loop_rat (fuel + 1) st = alias_pair_loop_rat fuel
              { P := st.P.set l (st.P.getD l 0 - (1 - st.P.getD s 0))
                Small := l :: ss
                Large := ls
                alias_table := st.alias_table.set s l
                alias_probability := st.alias_probability.set s (st.P.getD s 0) } := by
            simp only [alias_pair_loop_rat, hS, hL, hpl, if_true]
          rw [this]
          apply ih
          · apply alias_inv_step P0 st _ s l ss ls hS hL rfl rfl rfl _ _ _ _ h
            · intro u
              simp only [List.mem_append, List.mem_cons]
              tauto
            · exact (@List.perm_middle Nat l ss ls).symm
            · intro x hx
              rcases List.mem_cons.mp hx with hx | hx
              · exact Or.inr ⟨hx, hpl⟩
              · exact Or.inl hx
            · intro x hx
              exact Or.inl hx
          · apply hQ st _ s l ss ls hS hL rfl rfl rfl _ _ h hq
            · intro u
              simp only [List.mem_cons]
              tauto
            · intro u
              simp only []
              tauto
          · simp only [List.length_cons]
            omega
        · have : alias_pair_loop_rat (fuel + 1) st = alias_pair_loop_rat fuel
              { P := st.P.set l (st.P.getD l 0 - (1 - st.P.getD s 0))
                Small := ss
                Large := l :: ls
                alias_table := st.alias_table.set s l
                alias_probability := st.alias_probability.set s (st.P.getD s 0) } := by
            simp only [alias_pair_loop_rat, hS, hL, hpl, if_false]
          rw [this]
          apply ih
          · apply alias_inv_step P0 st _ s l ss ls hS hL rfl rfl rfl _ _ _ _ h
            · intro u
              exact Iff.rfl
            · exact List.Perm.refl _
            · intro x hx
              exact Or.inl hx
            · intro x hx
              rcases List.mem_cons.mp hx with hx | hx
              · exact Or.inr ⟨hx, not_lt.mp hpl⟩
              · exact Or.inl hx
          · apply hQ st _ s l ss ls hS hL rfl rfl rfl _ _ h hq
            · intro u
              simp only []
              tauto
            · intro u
              simp only [List.mem_cons]
              tauto
          · simp only [List.length_cons]
            omega

theorem alias_pair_loop_inv (P0 : List ℚ) (fuel : Nat) (st : alias_state_rat) (h : alias_inv P0 st)
    (hf : st.Small.length + st.Large.length ≤ fuel) :
    alias_inv P0 (alias_pair_loop_rat fuel st) ∧
      ((alias_pair_loop_rat fuel st).Small = [] ∨ (alias_pair_loop_rat fuel st).Large = []) := by
  obtain ⟨h1, _, h3⟩ := alias_pair_loop_induct P0 (fun _ => True)
    (fun _ _ _ _ _ _ _ _ _ _ _ _ _ _ _ => trivial) fuel st h trivial hf
  exact ⟨h1, h3⟩

theorem map_getD_range (l : List ℚ) : (List.range l.length).map (fun i => l.getD i 0) = l := by
  apply List.ext_getElem
  · simp
  · intro i h1 h2
    simp [List.getD_eq_getElem?_getD, List.getElem?_eq_getElem h2]

theorem alias_partition_fold (P : List ℚ) (js : List Nat) :
    ∀ sl : List Nat × List Nat,
      ((js.foldl
          (fun sl j => if P.getD j 0 < 1 then (j :: sl.1, sl.2) else (sl.1, j :: sl.2)) sl).1 ++
        (js.foldl
          (fun sl j => if P.getD j 0 < 1 then (j :: sl.1, sl.2) else (sl.1, j :: sl.2)) sl).2).Perm
        (js ++ (sl.1 ++ sl.2)) ∧
      (∀ x ∈ (js.foldl
          (fun sl j => if P.getD j 0 < 1 then (j :: sl.1, sl.2) else (sl.1, j :: sl.2)) sl).1,
        x ∈ sl.1 ∨ P.getD x 0 < 1) ∧
      (∀ x ∈ (js.foldl
          (fun sl j => if P.getD j 0 < 1 then (j :: sl.1, sl.2) else (sl.1, j :: sl.2)) sl).2,
        x ∈ sl.2 ∨ 1 ≤ P.getD x 0) := by
  induction js with
  | nil =>
    intro sl
    exact ⟨List.Perm.refl _, fun x hx => Or.inl hx, fun x hx => Or.inl hx⟩
  | cons j js ih =>
    intro sl
    rw [List.foldl_cons]
    by_cases hj : P.getD j 0 < 1
    · rw [if_pos hj]
      obtain ⟨h1, h2, h3⟩ := ih (j :: sl.1, sl.2)
      refine ⟨?_, ?_, h3⟩
      · refine h1.trans ?_
        simp only [List.cons_append]
        exact List.perm_middle
      · intro x hx
        rcases h2 x hx with h | h
        · rcases List.mem_cons.mp h with h | h
          · exact Or.inr (by rw [h]; exact hj)
          · exact Or.inl h
        · exact Or.inr h
    · rw [if_neg hj]
      obtain ⟨h1, h2, h3⟩ := ih (sl.1, j :: sl.2)
      refine ⟨?_, h2, ?_⟩
      · refine h1.trans ?_
        simp only [List.cons_append]
        have : (js ++ (sl.1 ++ j :: sl.2)).Perm (js ++ (j :: (sl.1 ++ sl.2))) :=
          List.Perm.append_left js List.perm_middle
        exact this.trans List.perm_middle
      · intro x hx
        rcases h3 x hx with h | h
        · rcases List.mem_cons.mp h with h | h
          · exact Or.inr (by rw [h]; exact not_lt.mp hj)
          · exact Or.inl h
        · exact Or.inr h

theorem alias_partition_spec (P : List ℚ) :
    ((alias_partition_rat P).1 ++ (alias_partition_rat P).2).Perm (List.range P.length) ∧
    (∀ x ∈ (alias_partition_rat P).1, P.getD x 0 < 1) ∧
    (∀ x ∈ (alias_partition_rat P).2, 1 ≤ P.getD x 0) := by
  obtain ⟨h1, h2, h3⟩ := alias_partition_fold P (List.range P.length).reverse ([], [])
  refine ⟨?_, ?_, ?_⟩
  · unfold alias_partition_rat
    refine h1.trans ?_
    simp only [List.append_nil]
    exact List.reverse_perm _
  · intro x hx
    rcases h2 x hx with h | h
    · cases h
    · exact h
  · intro x hx
    rcases h3 x hx with h | h
    · cases h
    · exact h

theorem alias_inv_init (P0 : List ℚ) :
    alias_inv P0
      { P := P0
        Small := (alias_partition_rat P0).1
        Large := (alias_partition_rat P0).2
        alias_table := List.replicate P0.length 0
        alias_probability := List.replicate P0.length 0 } := by
  obtain ⟨hperm, hc1, hc2⟩ := alias_partition_spec P0
  have hmem : ∀ u, u ∈ (alias_partition_rat P0).1 ++ (alias_partition_rat P0).2 ↔ u < P0.length := by
    intro u
    rw [hperm.mem_iff, List.mem_range]
  refine ⟨⟨rfl, by simp, by simp⟩, ⟨hperm.nodup_iff.mpr (List.nodup_range _), ?_⟩,
    ⟨hc1, hc2⟩, ?_, ?_⟩
  · intro u hu
    exact (hmem u).mp hu
  · intro i hi
    unfold alias_mass
    simp only []
    rw [if_pos ((hmem i).mpr hi)]
    have : (∑ j in Finset.range P0.length,
        if j ∈ (alias_partition_rat P0).1 ++ (alias_partition_rat P0).2 then (0 : ℚ)
        else if (List.replicate P0.length 0).getD j 0 = i then
          1 - (List.replicate P0.length (0 : ℚ)).getD j 0 else 0) = 0 := by
      apply Finset.sum_eq_zero
      intro j hj
      rw [if_pos ((hmem j).mpr (Finset.mem_range.mp hj))]
    rw [this, add_zero]
  · simp only []
    rw [(hperm.map _).sum_eq, hperm.length_eq, map_getD_range, List.length_range]
    ring

theorem sum_lt_length (l : List ℚ) (h : ∀ x ∈ l, x < 1) (hne : l ≠ []) :
    l.sum < (l.length : ℚ) := by
  induction l with
  | nil => exact absurd rfl hne
  | cons a t ih =>
    rw [List.sum_cons, List.length_cons]
    push_cast
    have ha : a < 1 := h a (List.mem_cons_self _ _)
    by_cases ht : t = []
    · subst ht
      simp
      exact ha
    · have := ih (fun x hx => h x (List.mem_cons_of_mem _ hx)) ht
      linarith

theorem eq_one_of_sum_eq_length (l : List ℚ) (h : ∀ x ∈ l, 1 ≤ x) (hs : l.sum = (l.length : ℚ)) :
    ∀ x ∈ l, x = 1 := by
  induction l with
  | nil => intro x hx; cases hx
  | cons a t ih =>
    have hge : ∀ t' : List ℚ, (∀ x ∈ t', 1 ≤ x) → (t'.length : ℚ) ≤ t'.sum := by
      intro t'
      induction t' with
      | nil => intro _; simp
      | cons b u ihu =>
        intro hb
        rw [List.sum_cons, List.length_cons]
        push_cast
        have := ihu (fun x hx => hb x (List.mem_cons_of_mem _ hx))
        have := hb b (List.mem_cons_self _ _)
        linarith
    rw [List.sum_cons, List.length_cons] at hs
    push_cast at hs
    have ha : 1 ≤ a := h a (List.mem_cons_self _ _)
    have ht := hge t (fun x hx => h x (List.mem_cons_of_mem _ hx))
    have ha1 : a = 1 := by linarith
    have hts : t.sum = (t.length : ℚ) := by linarith
    intro x hx
    rcases List.mem_cons.mp hx with hx | hx
    · rw [hx]; exact ha1
    · exact ih (fun y hy => h y (List.mem_cons_of_mem _ hy)) hts x hx

theorem set_one_fold (L : List Nat) :
    ∀ ap : List ℚ, (L.foldl (fun ap l => ap.set l 1) ap).length = ap.length ∧
      ∀ k, (L.foldl (fun ap l => ap.set l 1) ap).getD k 0 =
        if k ∈ L ∧ k < ap.length then 1 else ap.getD k 0 := by
  induction L with
  | nil =>
    intro ap
    exact ⟨rfl, fun k => by simp⟩
  | cons a t ih =>
    intro ap
    rw [List.foldl_cons]
    obtain ⟨h1, h2⟩ := ih (ap.set a 1)
    refine ⟨by rw [h1]; simp, ?_⟩
    intro k
    rw [h2 k, getD_set_eq]
    simp only [List.length_set, List.mem_cons]
    by_cases hk : k < ap.length
    · by_cases hka : k = a
      · subst hka
        simp [hk]
      · by_cases hkt : k ∈ t
        · simp [hk, hkt]
        · simp [hk, hkt, hka]
    · simp only [hk, and_false, if_false]
      rw [if_neg]
      rintro ⟨h, h'⟩
      rw [h] at hk
      exact hk h'

theorem alias_loop_result (P0 : List ℚ) :
    alias_inv P0 (alias_pair_loop_rat P0.length
      { P := P0
        Small := (alias_partition_rat P0).1
        Large := (alias_partition_rat P0).2
        alias_table := List.replicate P0.length 0
        alias_probability := List.replicate P0.length 0 }) ∧
    ((alias_pair_loop_rat P0.length
      { P := P0
        Small := (alias_partition_rat P0).1
        Large := (alias_partition_rat P0).2
        alias_table := List.replicate P0.length 0
        alias_probability := List.replicate P0.length 0 }).Small = [] ∨
     (alias_pair_loop_rat P0.length
      { P := P0
        Small := (alias_partition_rat P0).1
        Large := (alias_partition_rat P0).2
        alias_table := List.replicate P0.length 0
        alias_probability := List.replicate P0.length 0 }).Large = []) := by
  apply alias_pair_loop_inv P0 P0.length _ (alias_inv_init P0)
  have := (alias_partition_spec P0).1.length_eq
  simp only [List.length_append, List.length_range] at this
  simp only []
  omega

theorem alias_finish_getD (P0 : List ℚ) (st : alias_state_rat) (h : alias_inv P0 st) (k : Nat)
    (hk : k < P0.length) :
    (alias_finish_rat st).2.getD k 0 =
      if k ∈ st.Small ++ st.Large then 1 else st.alias_probability.getD k 0 := by
  unfold alias_finish_rat
  simp only []
  obtain ⟨⟨_, _, hl3⟩, _⟩ := h
  have h1 := set_one_fold st.Small st.alias_probability
  have h2 := set_one_fold st.Large (st.Small.foldl (fun ap s => ap.set s 1) st.alias_probability)
  rw [h2.2 k, h1.2 k, h1.1, hl3]
  simp only [hk, and_true, List.mem_append]
  by_cases hL : k ∈ st.Large
  · simp [hL]
  · by_cases hS : k ∈ st.Small
    · simp [hS]
    · simp [hL, hS]

/-- The alias tables built from an array `P` whose entries sum to its length sample
index `i` with probability `P[i] / n`. -/
theorem alias_build_exact (P0 : List ℚ) (hsum : P0.sum = (P0.length : ℚ)) (i : Nat)
    (hi : i < P0.length) :
    select_probability (alias_build_rat P0).1 (alias_build_rat P0).2 P0.length i =
      P0.getD i 0 / (P0.length : ℚ) := by
  obtain ⟨hinv, hexit⟩ := alias_loop_result P0
  unfold alias_build_rat
  generalize alias_pair_loop_rat P0.length
      { P := P0
        Small := (alias_partition_rat P0).1
        Large := (alias_partition_rat P0).2
        alias_table := List.replicate P0.length 0
        alias_probability := List.replicate P0.length 0 } = st at hinv hexit
  have hfin := alias_finish_getD P0 st hinv
  obtain ⟨_, _, ⟨hc1, hc2⟩, hmass, hs⟩ := hinv
  rw [hsum, sub_self, add_zero] at hs
  have hone : ∀ u ∈ st.Small ++ st.Large, st.P.getD u 0 = 1 := by
    rcases hexit with hS | hL
    · rw [hS] at hs ⊢
      simp only [List.nil_append] at hs ⊢
      intro u hu
      exact eq_one_of_sum_eq_length (st.Large.map (fun u => st.P.getD u 0))
        (by
          intro x hx
          obtain ⟨y, hy, rfl⟩ := List.mem_map.mp hx
          exact hc2 y hy)
        (by rw [hs]; simp) _ (List.mem_map.mpr ⟨u, hu, rfl⟩)
    · rw [hL] at hs ⊢
      simp only [List.append_nil] at hs ⊢
      by_cases hne : st.Small = []
      · rw [hne]
        intro u hu
        cases hu
      · exfalso
        have := sum_lt_length (st.Small.map (fun u => st.P.getD u 0))
          (by
            intro x hx
            obtain ⟨y, hy, rfl⟩ := List.mem_map.mp hx
            exact hc1 y hy)
          (by simpa using hne)
        rw [hs] at this
        simp at this
  unfold select_probability
  congr 1
  rw [← hmass i hi]
  unfold alias_mass
  have hat : (alias_finish_rat st).1 = st.alias_table := rfl
  rw [hat, hfin i hi]
  congr 1
  · by_cases hm : i ∈ st.Small ++ st.Large
    · rw [if_pos hm, if_pos hm, hone i hm]
    · rw [if_neg hm, if_neg hm]
  · apply Finset.sum_congr rfl
    intro j hj
    rw [hfin j (Finset.mem_range.mp hj)]
    by_cases hm : j ∈ st.Small ++ st.Large
    · rw [if_pos hm, if_pos hm]
      simp
    · rw [if_neg hm, if_neg hm]

/-! ## Arithmetic on `fval` -/

theorem fval_add_zero (x : fval) : x.add (fval.fin 0) = x := by
  cases x <;> simp [fval.add]

theorem fval_add_nan (x : fval) : x.add fval.nan = fval.nan := by
  cases x <;> rfl

theorem fval_nan_add (x : fval) : fval.nan.add x = fval.nan := by
  cases x <;> rfl

theorem fval_add_eq_fin {x y : fval} {z : ℚ} (h : x.add y = fval.fin z) :
    ∃ a b, x = fval.fin a ∧ y = fval.fin b ∧ a + b = z := by
  cases x <;> cases y <;> simp [fval.add] at h
  exact ⟨_, _, rfl, rfl, h⟩

theorem fval_sub_fin (a b : ℚ) : (fval.fin a).sub (fval.fin b) = fval.fin (a - b) := by
  simp [fval.sub, fval.neg, fval.add, sub_eq_add_neg]

theorem fval_lt_fin (a b : ℚ) : (fval.fin a).lt (fval.fin b) = decide (a < b) := rfl

theorem fval_lt_one_cases {x : fval} (h : x.lt (fval.fin 1) = true) :
    x = fval.ninf ∨ ∃ a, a < 1 ∧ x = fval.fin a := by
  cases x with
  | fin a =>
    right
    simp only [fval.lt, decide_eq_true_eq] at h
    exact ⟨a, h, rfl⟩
  | pinf => simp [fval.lt] at h
  | ninf => exact Or.inl rfl
  | nan => simp [fval.lt] at h

/-- A NaN or plus infinity stays one when `1 - x` is subtracted, whatever `x` is. -/
theorem is_sink_sub {w : fval} (h : is_sink w) (x : fval) :
    is_sink (w.sub ((fval.fin 1).sub x)) := by
  rcases h with h | h <;> subst h <;> cases x <;>
    simp [is_sink, fval.sub, fval.neg, fval.add]

theorem is_sink_not_lt {w : fval} (h : is_sink w) (y : fval) : w.lt y = false := by
  rcases h with h | h <;> subst h <;> cases y <;> rfl

theorem fval_mul_eq_fin {x : fval} {n y : ℚ} (h : x.mul (fval.fin n) = fval.fin y) :
    ∃ a, x = fval.fin a ∧ a * n = y := by
  cases x with
  | fin a =>
    simp only [fval.mul, fval.fin.injEq] at h
    exact ⟨a, rfl, h⟩
  | pinf =>
    simp only [fval.mul] at h
    split at h
    · cases h
    · split at h <;> cases h
  | ninf =>
    simp only [fval.mul] at h
    split at h
    · cases h
    · split at h <;> cases h
  | nan => simp [fval.mul] at h

theorem fval_div_eq_fin {x : fval} {s y : ℚ} (hs : s ≠ 0)
    (h : x.div (fval.fin s) = fval.fin y) : ∃ a, x = fval.fin a ∧ a / s = y := by
  cases x with
  | fin a =>
    simp only [fval.div, if_neg hs, fval.fin.injEq] at h
    exact ⟨a, rfl, h⟩
  | pinf =>
    simp only [fval.div] at h
    split at h <;> cases h
  | ninf =>
    simp only [fval.div] at h
    split at h <;> cases h
  | nan => simp [fval.div] at h

/-- A quotient that is a finite number other than zero has a finite dividend and a
finite divisor other than zero. -/
theorem fval_div_eq_fin_ne {x S : fval} {y : ℚ} (hy : y ≠ 0) (h : x.div S = fval.fin y) :
    ∃ a s, x = fval.fin a ∧ S = fval.fin s ∧ s ≠ 0 ∧ a / s = y := by
  cases x with
  | fin a =>
    cases S with
    | fin s =>
      by_cases hs : s = 0
      · simp only [fval.div, if_pos hs] at h
        split at h
        · cases h
        · split at h <;> cases h
      · simp only [fval.div, if_neg hs, fval.fin.injEq] at h
        exact ⟨a, s, rfl, rfl, hs, h⟩
    | pinf =>
      simp only [fval.div, fval.fin.injEq] at h
      exact absurd h.symm hy
    | ninf =>
      simp only [fval.div, fval.fin.injEq] at h
      exact absurd h.symm hy
    | nan => simp [fval.div] at h
  | pinf =>
    cases S with
    | fin s =>
      simp only [fval.div] at h
      split at h <;> cases h
    | pinf => simp [fval.div] at h
    | ninf => simp [fval.div] at h
    | nan => simp [fval.div] at h
  | ninf =>
    cases S with
    | fin s =>
      simp only [fval.div] at h
      split at h <;> cases h
    | pinf => simp [fval.div] at h
    | ninf => simp [fval.div] at h
    | nan => simp [fval.div] at h
  | nan => cases S <;> simp [fval.div] at h

/-! ## Sums -/

theorem fsum_from_fin (l : List ℚ) (a : ℚ) :
    (l.map fval.fin).foldl fval.add (fval.fin a) = fval.fin (a + l.sum) := by
  induction l generalizing a with
  | nil => simp
  | cons x t ih =>
    rw [List.map_cons, List.foldl_cons, List.sum_cons]
    show (List.map fval.fin t).foldl fval.add (fval.fin (a + x)) = _
    rw [ih, add_assoc]

theorem fsum_map_fin (l : List ℚ) : fsum (l.map fval.fin) = fval.fin l.sum := by
  unfold fsum
  rw [fsum_from_fin, zero_add]

theorem fsum_from_eq_fin (l : List fval) :
    ∀ (acc : fval) (z : ℚ), l.foldl fval.add acc = fval.fin z →
      ∃ (a : ℚ) (l' : List ℚ), acc = fval.fin a ∧ l = l'.map fval.fin ∧ a + l'.sum = z := by
  induction l with
  | nil =>
    intro acc z h
    exact ⟨z, [], h, rfl, by simp⟩
  | cons x t ih =>
    intro acc z h
    rw [List.foldl_cons] at h
    obtain ⟨a', t', h1, h2, h3⟩ := ih _ z h
    obtain ⟨a, b, ha, hb, hab⟩ := fval_add_eq_fin h1
    refine ⟨a, b :: t', ha, ?_, ?_⟩
    · rw [hb, h2, List.map_cons]
    · rw [List.sum_cons, ← add_assoc, hab]
      exact h3

/-- A sum that is a finite number is a sum of finite numbers. -/
theorem fsum_eq_fin {l : List fval} {z : ℚ} (h : fsum l = fval.fin z) :
    ∃ l' : List ℚ, l = l'.map fval.fin ∧ l'.sum = z := by
  obtain ⟨a, l', ha, hl, hs⟩ := fsum_from_eq_fin l _ z h
  have : a = 0 := (fval.fin.inj ha).symm
  subst this
  exact ⟨l', hl, by rw [← hs, zero_add]⟩

theorem fsum_from_nan (l : List fval) : l.foldl fval.add fval.nan = fval.nan := by
  induction l with
  | nil => rfl
  | cons x t ih =>
    rw [List.foldl_cons, fval_nan_add]
    exact ih

/-! ## Lists of finite values -/

theorem getD_map_fin (l : List ℚ) (i : Nat) :
    (l.map fval.fin).getD i (fval.fin 0) = fval.fin (l.getD i 0) := by
  simp only [List.getD_eq_getElem?_getD, List.getElem?_map]
  cases l[i]? <;> rfl

theorem set_map_fin (l : List ℚ) (i : Nat) (x : ℚ) :
    (l.map fval.fin).set i (fval.fin x) = (l.set i x).map fval.fin := by
  rw [List.map_set]

/-! ## The construction on finite values -/

theorem alias_partition_lift (P : List ℚ) :
    alias_partition (P.map fval.fin) = alias_partition_rat P := by
  unfold alias_partition alias_partition_rat
  rw [List.length_map]
  congr 1
  funext sl j
  rw [getD_map_fin, fval_lt_fin]
  by_cases h : P.getD j 0 < 1
  · simp [h]
  · simp [h]

theorem alias_pair_loop_lift (fuel : Nat) :
    ∀ st : alias_state_rat,
      alias_pair_loop fuel (alias_lift st) = alias_lift (alias_pair_loop_rat fuel st) := by
  induction fuel with
  | zero =>
    intro st
    rfl
  | succ k ih =>
    intro st
    cases hS : st.Small with
    | nil =>
      have h1 : alias_pair_loop (k + 1) (alias_lift st) = alias_lift st := by
        have : (alias_lift st).Small = [] := hS
        simp only [alias_pair_loop, this]
      have h2 : alias_pair_loop_rat (k + 1) st = st := by
        simp only [alias_pair_loop_rat, hS]
      rw [h1, h2]
    | cons s ss =>
      cases hL : st.Large with
      | nil =>
        have h1 : alias_pair_loop (k + 1) (alias_lift st) = alias_lift st := by
          have e1 : (alias_lift st).Small = s :: ss := hS
          have e2 : (alias_lift st).Large = [] := hL
          simp only [alias_pair_loop, e1, e2]
        have h2 : alias_pair_loop_rat (k + 1) st = st := by
          simp only [alias_pair_loop_rat, hS, hL]
        rw [h1, h2]
      | cons l ls =>
        have e1 : (alias_lift st).Small = s :: ss := hS
        have e2 : (alias_lift st).Large = l :: ls := hL
        have eP : (alias_lift st).P = st.P.map fval.fin := rfl
        have eT : (alias_lift st).alias_table = st.alias_table := rfl
        have eA : (alias_lift st).alias_probability = st.alias_probability.map fval.fin := rfl
        have hpl : ((alias_lift st).P.getD l (fval.fin 0)).sub
            ((fval.fin 1).sub ((alias_lift st).P.getD s (fval.fin 0))) =
            fval.fin (st.P.getD l 0 - (1 - st.P.getD s 0)) := by
          rw [eP, getD_map_fin, getD_map_fin, fval_sub_fin, fval_sub_fin]
        by_cases hlt : st.P.getD l 0 - (1 - st.P.getD s 0) < 1
        · have h2 : alias_pair_loop_rat (k + 1) st = alias_pair_loop_rat k
              { P := st.P.set l (st.P.getD l 0 - (1 - st.P.getD s 0))
                Small := l :: ss
                Large := ls
                alias_table := st.alias_table.set s l
                alias_probability := st.alias_probability.set s (st.P.getD s 0) } := by
            simp only [alias_pair_loop_rat, hS, hL, hlt, if_true]
          have h1 : alias_pair_loop (k + 1) (alias_lift st) = alias_pair_loop k
              (alias_lift
                { P := st.P.set l (st.P.getD l 0 - (1 - st.P.getD s 0))
                  Small := l :: ss
                  Large := ls
                  alias_table := st.alias_table.set s l
                  alias_probability := st.alias_probability.set s (st.P.getD s 0) }) := by
            simp only [alias_pair_loop, e1, e2, hpl, fval_lt_fin, hlt, decide_True, if_true]
            congr 1
            unfold alias_lift
            simp only [eP, eT, eA, getD_map_fin, set_map_fin]
          rw [h1, h2, ih]
        · have h2 : alias_pair_loop_rat (k + 1) st = alias_pair_loop_rat k
              { P := st.P.set l (st.P.getD l 0 - (1 - st.P.getD s 0))
                Small := ss
                Large := l :: ls
                alias_table := st.alias_table.set s l
                alias_probability := st.alias_probability.set s (st.P.getD s 0) } := by
            simp only [alias_pair_loop_rat, hS, hL, hlt, if_false]
          have h1 : alias_pair_loop (k + 1) (alias_lift st) = alias_pair_loop k
              (alias_lift
                { P := st.P.set l (st.P.getD l 0 - (1 - st.P.getD s 0))
                  Small := ss
                  Large := l :: ls
                  alias_table := st.alias_table.set s l
                  alias_probability := st.alias_probability.set s (st.P.getD s 0) }) := by
            simp only [alias_pair_loop, e1, e2, hpl, fval_lt_fin, hlt, decide_False,
              Bool.false_eq_true, if_false]
            congr 1
            unfold alias_lift
            simp only [eP, eT, eA, getD_map_fin, set_map_fin]
          rw [h1, h2, ih]

theorem set_one_map_fin (L : List Nat) :
    ∀ ap : List ℚ, L.foldl (fun ap l => ap.set l (fval.fin 1)) (ap.map fval.fin) =
      (L.foldl (fun ap l => ap.set l 1) ap).map fval.fin := by
  induction L with
  | nil =>
    intro ap
    rfl
  | cons a t ih =>
    intro ap
    rw [List.foldl_cons, List.foldl_cons, set_map_fin, ih]

theorem alias_finish_lift (st : alias_state_rat) :
    alias_finish (alias_lift st) =
      ((alias_finish_rat st).1, (alias_finish_rat st).2.map fval.fin) := by
  unfold alias_finish alias_finish_rat alias_lift
  simp only []
  rw [set_one_map_fin, set_one_map_fin]

/-- On finite values the construction is the construction over the rationals. -/
theorem alias_build_lift (P : List ℚ) :
    alias_build (P.map fval.fin) =
      ((alias_build_rat P).1, (alias_build_rat P).2.map fval.fin) := by
  unfold alias_build alias_build_rat
  rw [alias_partition_lift, List.length_map]
  have h : ({ P := P.map fval.fin
              Small := (alias_partition_rat P).1
              Large := (alias_partition_rat P).2
              alias_table := List.replicate P.length 0
              alias_probability := List.replicate P.length (fval.fin 0) } : alias_state) =
      alias_lift
        { P := P
          Small := (alias_partition_rat P).1
          Large := (alias_partition_rat P).2
          alias_table := List.replicate P.length 0
          alias_probability := List.replicate P.length 0 } := by
    unfold alias_lift
    simp only [List.map_replicate]
  rw [h, alias_pair_loop_lift, alias_finish_lift]

theorem alias_P_length (c : afl_consts) (m : score_model) (afl : afl_state_t) :
    (alias_P c m afl).length = afl.queue_buf.length := by
  simp [alias_P]

theorem alias_P_getD (c : afl_consts) (m : score_model) (afl : afl_state_t) (i : Nat)
    (hi : i < afl.queue_buf.length) :
    (alias_P c m afl).getD i (fval.fin 0) =
      if (entry (alias_weights c m afl).1 i).disabled = true then fval.fin 0
      else
        ((alias_final_weight c (alias_weights c m afl).1 i).mul
          (fval.fin (afl.queue_buf.length : ℚ))).div (alias_weights c m afl).2 := by
  unfold alias_P
  rw [List.getD_eq_getElem?_getD, List.getElem?_map, List.getElem?_range hi]
  rfl

theorem list_sum_pos_exists (l : List ℚ) (h : 0 < l.sum) : ∃ j, j < l.length ∧ l.getD j 0 ≠ 0 := by
  induction l with
  | nil => simp at h
  | cons x t ih =>
    by_cases hx : x = 0
    · rw [List.sum_cons, hx, zero_add] at h
      obtain ⟨j, hj, hne⟩ := ih h
      exact ⟨j + 1, by simp only [List.length_cons]; omega, by simpa using hne⟩
    · exact ⟨0, by simp, by simpa using hx⟩

/-- When every `P[i]` is finite and one of them is not zero, `sum` is a finite number
other than zero and the weight of every seed is finite. -/
theorem alias_P_finite (c : afl_consts) (m : score_model) (afl : afl_state_t) (l : List ℚ)
    (hP : alias_P c m afl = l.map fval.fin) (j : Nat) (hj : j < afl.queue_buf.length)
    (hne : l.getD j 0 ≠ 0) :
    ∃ s : ℚ, s ≠ 0 ∧ (alias_weights c m afl).2 = fval.fin s ∧
      ∀ i, i < afl.queue_buf.length →
        (alias_final_weight c (alias_weights c m afl).1 i).div (alias_weights c m afl).2 =
          fval.fin (l.getD i 0 / (afl.queue_buf.length : ℚ)) := by
  have hn : (afl.queue_buf.length : ℚ) ≠ 0 := by
    have : 0 < afl.queue_buf.length := by omega
    exact_mod_cast this.ne'
  have hget : ∀ i, i < afl.queue_buf.length →
      (if (entry (alias_weights c m afl).1 i).disabled = true then fval.fin 0
        else
          ((alias_final_weight c (alias_weights c m afl).1 i).mul
            (fval.fin (afl.queue_buf.length : ℚ))).div (alias_weights c m afl).2) =
        fval.fin (l.getD i 0) := by
    intro i hi
    rw [← alias_P_getD c m afl i hi, hP, getD_map_fin]
  have hj1 := hget j hj
  have hjact : ¬ (entry (alias_weights c m afl).1 j).disabled = true := by
    intro hd
    rw [if_pos hd] at hj1
    exact hne (fval.fin.inj hj1).symm
  rw [if_neg hjact] at hj1
  obtain ⟨_, s, _, hS, hs0, _⟩ := fval_div_eq_fin_ne hne hj1
  refine ⟨s, hs0, hS, ?_⟩
  intro i hi
  have hi1 := hget i hi
  rw [hS] at hi1 ⊢
  by_cases hd : (entry (alias_weights c m afl).1 i).disabled = true
  · rw [if_pos hd] at hi1
    have h0 : l.getD i 0 = 0 := (fval.fin.inj hi1).symm
    have hw : alias_final_weight c (alias_weights c m afl).1 i = fval.fin 0 := by
      unfold alias_final_weight
      rw [if_pos hd]
    rw [hw, h0]
    simp [fval.div, hs0]
  · rw [if_neg hd] at hi1
    obtain ⟨a, ha, has⟩ := fval_div_eq_fin hs0 hi1
    obtain ⟨w, hw, hwn⟩ := fval_mul_eq_fin ha
    rw [hw]
    simp only [fval.div, if_neg hs0, fval.fin.injEq]
    rw [← has, ← hwn]
    field_simp
    ring

/-- C3: over exact rational arithmetic, for every queue of `n ≥ 1` seeds whose
normalised weights `P[i] = w_i * n / sum` add up to `n`, after `create_alias_table`
every `alias_probability` is a finite number and the probability that
`select_next_queue_entry` returns seed `i`,
`(alias_probability[i] + Σ_{alias_table[j] = i} (1 - alias_probability[j])) / n`,
is `w_i / sum`, where `w_i` is the weight the code feeds into `P[i]` and `sum` the sum
it divides by. -/
theorem create_alias_table_exact (c : afl_consts) (m : score_model) (afl : afl_state_t)
    (hsum : fsum (alias_P c m afl) = fval.fin (afl.queue_buf.length : ℚ)) (i : Nat)
    (hi : i < afl.queue_buf.length) :
    ∃ ap : List ℚ,
      (create_alias_table c m afl).alias_probability = ap.map fval.fin ∧
      fval.fin (select_probability (create_alias_table c m afl).alias_table ap
          afl.queue_buf.length i) =
        (alias_final_weight c (alias_weights c m afl).1 i).div (alias_weights c m afl).2 := by
  obtain ⟨l, hl, hls⟩ := fsum_eq_fin hsum
  have hlen : l.length = afl.queue_buf.length := by
    rw [← alias_P_length c m afl, hl, List.length_map]
  have hpos : 0 < l.sum := by
    rw [hls]
    have : 0 < afl.queue_buf.length := by omega
    exact_mod_cast this
  obtain ⟨j, hj, hne⟩ := list_sum_pos_exists l hpos
  obtain ⟨s, _, _, hw⟩ := alias_P_finite c m afl l hl j (by rw [← hlen]; exact hj) hne
  have hex := alias_build_exact l (by rw [hls, hlen]) i (by rw [hlen]; exact hi)
  have hb := alias_build_lift l
  have hat : (create_alias_table c m afl).alias_table = (alias_build (alias_P c m afl)).1 := rfl
  have hap : (create_alias_table c m afl).alias_probability =
      (alias_build (alias_P c m afl)).2 := rfl
  refine ⟨(alias_build_rat l).2, ?_, ?_⟩
  · rw [hap, hl, hb]
  · rw [hat, hl, hb, hw i hi]
    simp only []
    rw [← hlen, hex]

/-- Witness of C3: the weights 1, 1, 2, 4 of four active seeds give the sampling
probabilities 1/8, 1/8, 1/4, 1/2 exactly. -/
theorem create_alias_table_exact_witness :
    (fsum (alias_P demo_consts demo_model alias_demo_state) =
        fval.fin (alias_demo_state.queue_buf.length : ℚ) ∧
      3 < alias_demo_state.queue_buf.length) ∧
    (∃ ap : List ℚ,
      (create_alias_table demo_consts demo_model alias_demo_state).alias_probability =
        ap.map fval.fin ∧
      fval.fin (select_probability
          (create_alias_table demo_consts demo_model alias_demo_state).alias_table ap
          alias_demo_state.queue_buf.length 3) =
        (alias_final_weight demo_consts
          (alias_weights demo_consts demo_model alias_demo_state).1 3).div
          (alias_weights demo_consts demo_model alias_demo_state).2) ∧
    (List.range 4).map
        (alias_final_weight demo_consts
          (alias_weights demo_consts demo_model alias_demo_state).1) =
      [fval.fin 1, fval.fin 1, fval.fin 2, fval.fin 4] ∧
    (create_alias_table demo_consts demo_model alias_demo_state).alias_probability =
      [(1 / 2 : ℚ), 1 / 2, 1 / 2, 1].map fval.fin ∧
    (List.range 4).map
        (select_probability
          (create_alias_table demo_consts demo_model alias_demo_state).alias_table
          [1 / 2, 1 / 2, 1 / 2, 1] 4) =
      [1 / 8, 1 / 8, 1 / 4, 1 / 2] :=
  ⟨⟨by decide!, by decide⟩,
    create_alias_table_exact demo_consts demo_model alias_demo_state (by decide!) 3 (by decide),
    by decide!, by decide!, by decide!⟩

/-! ## Indices of weight zero -/

theorem alias_zero_inv_step (P0 : List ℚ) (d : Nat) (st st' : alias_state_rat) (s l : Nat)
    (ss ls : List Nat) (hS : st.Small = s :: ss) (hL : st.Large = l :: ls)
    (hP : st'.P = st.P.set l (st.P.getD l 0 - (1 - st.P.getD s 0)))
    (hat : st'.alias_table = st.alias_table.set s l)
    (hap : st'.alias_probability = st.alias_probability.set s (st.P.getD s 0))
    (hS' : ∀ u, u ∈ st'.Small ↔ (u ∈ ss ∨ (u = l ∧ st.P.getD l 0 - (1 - st.P.getD s 0) < 1)))
    (hL' : ∀ u, u ∈ st'.Large ↔ (u ∈ ls ∨ (u = l ∧ ¬ st.P.getD l 0 - (1 - st.P.getD s 0) < 1)))
    (h : alias_inv P0 st) (hz : alias_zero_inv P0.length d st) :
    alias_zero_inv P0.length d st' := by
  obtain ⟨⟨hl1, hl2, hl3⟩, ⟨hnd, hlt⟩, _, _, _⟩ := h
  rw [hS, hL] at hnd hlt
  have hs_lt : s < P0.length := hlt s (by simp)
  have hl_lt : l < P0.length := hlt l (by simp)
  have hnd' : (s :: (ss ++ l :: ls)).Nodup := by simpa using hnd
  have hs_notin : s ∉ ss ++ l :: ls := (List.nodup_cons.mp hnd').1
  have hnd2 : (ss ++ l :: ls).Nodup := (List.nodup_cons.mp hnd').2
  have hsl : s ≠ l := fun x => hs_notin (by rw [x]; simp)
  have hl_notin : l ∉ ss ++ ls := by
    have := List.nodup_middle.mp hnd2
    exact (List.nodup_cons.mp this).1
  have hU' : ∀ u, u ∈ st'.Small ++ st'.Large ↔ u ∈ ss ++ l :: ls := by
    intro u
    simp only [List.mem_append, hS' u, hL' u, List.mem_cons]
    tauto
  have hUold : ∀ u, u ∈ st.Small ++ st.Large ↔ u = s ∨ u ∈ ss ++ l :: ls := by
    intro u
    rw [hS, hL]
    simp
  have hPget : ∀ k, st'.P.getD k 0 =
      if k = l then st.P.getD l 0 - (1 - st.P.getD s 0) else st.P.getD k 0 := by
    intro k
    rw [hP, getD_set_eq]
    by_cases hk : k = l
    · rw [if_pos ⟨hk, by rw [hl1]; exact hl_lt⟩, if_pos hk]
    · rw [if_neg (fun x => hk x.1), if_neg hk]
  have hapget : ∀ k, st'.alias_probability.getD k 0 =
      if k = s then st.P.getD s 0 else st.alias_probability.getD k 0 := by
    intro k
    rw [hap, getD_set_eq]
    by_cases hk : k = s
    · rw [if_pos ⟨hk, by rw [hl3]; exact hs_lt⟩, if_pos hk]
    · rw [if_neg (fun x => hk x.1), if_neg hk]
  have hatget : ∀ k, st'.alias_table.getD k 0 = if k = s then l else st.alias_table.getD k 0 := by
    intro k
    rw [hat, getD_set_eq]
    by_cases hk : k = s
    · rw [if_pos ⟨hk, by rw [hl2]; exact hs_lt⟩, if_pos hk]
    · rw [if_neg (fun x => hk x.1), if_neg hk]
  obtain ⟨hz1, hz2⟩ := hz
  have hdl : d ≠ l := by
    rcases hz1 with ⟨hd, _⟩ | ⟨hd, _⟩
    · rw [hS] at hd
      rcases List.mem_cons.mp hd with hd | hd
      · rw [hd]; exact hsl
      · intro e
        exact hl_notin (by rw [← e]; simp [hd])
    · intro e
      exact hd ((hUold d).mpr (Or.inr (by rw [e]; simp)))
  refine ⟨?_, ?_⟩
  · rcases hz1 with ⟨hd, hp⟩ | ⟨hd, hp⟩
    · rw [hS] at hd
      rcases List.mem_cons.mp hd with hd | hd
      · right
        refine ⟨fun x => hs_notin (by rw [← hd]; exact (hU' d).mp x), ?_⟩
        rw [hapget, if_pos hd, ← hd]
        exact hp
      · left
        refine ⟨(hS' d).mpr (Or.inl hd), ?_⟩
        rw [hPget, if_neg hdl]
        exact hp
    · right
      have hds : d ≠ s := fun e => hd ((hUold d).mpr (Or.inl e))
      refine ⟨fun x => hd ((hUold d).mpr (Or.inr ((hU' d).mp x))), ?_⟩
      rw [hapget, if_neg hds]
      exact hp
  · intro j hj hjn
    rw [hatget]
    by_cases hjs : j = s
    · rw [if_pos hjs]
      exact fun e => hdl e.symm
    · rw [if_neg hjs]
      apply hz2 j hj
      intro x
      rcases (hUold j).mp x with h | h
      · exact hjs h
      · exact hjn ((hU' j).mpr h)

/-- When the entries of `P` sum to at least its length, an index `d` with `P[d] = 0`
ends with `alias_probability[d] = 0`, and no bucket with `alias_probability < 1`
aliases to it. -/
theorem alias_build_zero (P0 : List ℚ) (hsum : (P0.length : ℚ) ≤ P0.sum) (d : Nat)
    (hd : d < P0.length) (h0 : P0.getD d 0 = 0) :
    (alias_build_rat P0).2.getD d 0 = 0 ∧
    ∀ j, j < P0.length → (alias_build_rat P0).2.getD j 0 < 1 → (alias_build_rat P0).1.getD j 0 ≠ d := by
  obtain ⟨hperm, hc1, hc2⟩ := alias_partition_spec P0
  have hmem : ∀ u, u ∈ (alias_partition_rat P0).1 ++ (alias_partition_rat P0).2 ↔ u < P0.length := by
    intro u
    rw [hperm.mem_iff, List.mem_range]
  have hinit : alias_zero_inv P0.length d
      { P := P0
        Small := (alias_partition_rat P0).1
        Large := (alias_partition_rat P0).2
        alias_table := List.replicate P0.length 0
        alias_probability := List.replicate P0.length 0 } := by
    refine ⟨Or.inl ⟨?_, h0⟩, ?_⟩
    · rcases List.mem_append.mp ((hmem d).mpr hd) with h | h
      · exact h
      · have := hc2 d h
        rw [h0] at this
        norm_num at this
    · intro j hj hjn
      exact absurd ((hmem j).mpr hj) hjn
  have hlen : (alias_partition_rat P0).1.length + (alias_partition_rat P0).2.length ≤ P0.length := by
    have := hperm.length_eq
    simp only [List.length_append, List.length_range] at this
    omega
  obtain ⟨hinv, hz, hexit⟩ := alias_pair_loop_induct P0 (alias_zero_inv P0.length d)
    (fun st st' s l ss ls a1 a2 a3 a4 a5 a6 a7 a8 a9 =>
      alias_zero_inv_step P0 d st st' s l ss ls a1 a2 a3 a4 a5 a6 a7 a8 a9)
    P0.length _ (alias_inv_init P0) hinit hlen
  unfold alias_build_rat
  generalize alias_pair_loop_rat P0.length
      { P := P0
        Small := (alias_partition_rat P0).1
        Large := (alias_partition_rat P0).2
        alias_table := List.replicate P0.length 0
        alias_probability := List.replicate P0.length 0 } = st at hinv hz hexit
  have hfin := alias_finish_getD P0 st hinv
  have hat : (alias_finish_rat st).1 = st.alias_table := rfl
  obtain ⟨_, _, ⟨hk1, hk2⟩, _, hs⟩ := hinv
  have hSnil : st.Small = [] := by
    rcases hexit with h | hL
    · exact h
    · by_contra hne
      rw [hL] at hs
      simp only [List.append_nil] at hs
      have := sum_lt_length (st.Small.map (fun u => st.P.getD u 0))
        (by
          intro x hx
          obtain ⟨y, hy, rfl⟩ := List.mem_map.mp hx
          exact hk1 y hy)
        (by simpa using hne)
      rw [hs] at this
      simp only [List.length_map] at this
      linarith
  obtain ⟨hz1, hz2⟩ := hz
  have hdU : d ∉ st.Small ++ st.Large ∧ st.alias_probability.getD d 0 = 0 := by
    rcases hz1 with ⟨hd', _⟩ | h
    · rw [hSnil] at hd'
      cases hd'
    · exact h
  refine ⟨?_, ?_⟩
  · rw [hfin d hd, if_neg hdU.1]
    exact hdU.2
  · intro j hj hlt
    rw [hat]
    rw [hfin j hj] at hlt
    by_cases hm : j ∈ st.Small ++ st.Large
    · rw [if_pos hm] at hlt
      norm_num at hlt
    · exact hz2 j hj hm

/-! ## The weights that enter the alias construction -/

theorem weight_class_mul {w : fval} (h : weight_class w) (k : ℚ) (hk : 0 < k) :
    weight_class (w.mul (fval.fin k)) := by
  rcases h with h | h | ⟨x, hx, h⟩
  · subst h
    left
    simp [fval.mul, hk.ne', hk]
  · subst h
    right; left
    rfl
  · subst h
    right; right
    exact ⟨x * k, mul_pos hx hk, rfl⟩

theorem weight_class_floor (w : fval) :
    weight_class (if w.lt (fval.fin (1 / 10)) = true then fval.fin (1 / 10) else w) := by
  cases w with
  | fin a =>
    by_cases h : a < 1 / 10
    · rw [if_pos (by simp only [fval.lt, decide_eq_true_eq]; exact h)]
      exact Or.inr (Or.inr ⟨1 / 10, by norm_num, rfl⟩)
    · rw [if_neg (by simp only [fval.lt, decide_eq_true_eq]; exact h)]
      exact Or.inr (Or.inr ⟨a, by linarith [not_lt.mp h], rfl⟩)
  | pinf =>
    rw [if_neg (by simp [fval.lt])]
    exact Or.inl rfl
  | ninf =>
    rw [if_pos (by simp [fval.lt])]
    exact Or.inr (Or.inr ⟨1 / 10, by norm_num, rfl⟩)
  | nan =>
    rw [if_neg (by simp [fval.lt])]
    exact Or.inr (Or.inl rfl)

/-- The weight that `compute_weight` returns is a positive number, plus infinity or
NaN. -/
theorem compute_weight_class (c : afl_consts) (m : score_model) (afl : afl_state_t)
    (q : queue_entry) (a1 a2 a3 : fval) : weight_class (compute_weight c m afl q a1 a2 a3) := by
  unfold compute_weight
  simp only []
  generalize (((if c.FAST ≤ afl.schedule ∧ afl.schedule ≤ c.RARE then
      if afl.n_fuzz.getD q.n_fuzz_entry 0 ≠ 0 then
        (fval.fin 1).div ((fval.fin (m.log10 (afl.n_fuzz.getD q.n_fuzz_entry 0))).add (fval.fin 1))
      else fval.fin 1
    else fval.fin 1 : fval))) = w1
  generalize (if afl.schedule < c.RARE then w1.mul (a1.div (fval.fin (q.exec_us : ℚ))) else w1) = w2
  generalize ((w2.mul ((flog m q.bitmap_size).div a2)).mul
    ((fval.fin 1).add ((fval.fin (q.tc_ref : ℚ)).div a3))) = w4
  have h5 := weight_class_floor w4
  generalize (if w4.lt (fval.fin (1 / 10)) = true then fval.fin (1 / 10) else w4) = w5 at h5
  have h6 : weight_class (if q.favored = true then w5.mul (fval.fin 5) else w5) := by
    split
    · exact weight_class_mul h5 5 (by norm_num)
    · exact h5
  generalize (if q.favored = true then w5.mul (fval.fin 5) else w5) = w6 at h6
  have h7 : weight_class (if (!q.was_fuzzed) = true then w6.mul (fval.fin 2) else w6) := by
    split
    · exact weight_class_mul h6 2 (by norm_num)
    · exact h6
  generalize (if (!q.was_fuzzed) = true then w6.mul (fval.fin 2) else w6) = w7 at h7
  split
  · exact weight_class_mul h7 (8 / 10) (by norm_num)
  · exact h7

theorem list_sum_range_map (f : Nat → ℚ) (k : Nat) :
    ((List.range k).map f).sum = ∑ i in Finset.range k, f i := by
  induction k with
  | zero => simp
  | succ k ih =>
    rw [List.range_succ, List.map_append, List.sum_append, ih, Finset.sum_range_succ]
    simp

/-- The indices below `k` of the entries that are not disabled. -/
theorem active_range_succ (afl : afl_state_t) (k : Nat) :
    (List.range (k + 1)).filter (fun i => !(entry afl i).disabled) =
      (List.range k).filter (fun i => !(entry afl i).disabled) ++
        (if (entry afl k).disabled = true then [] else [k]) := by
  rw [List.range_succ, List.filter_append]
  congr 1
  by_cases h : (entry afl k).disabled = true
  · rw [if_pos h]
    simp [h]
  · rw [if_neg h]
    simp [h]

/-- A loop over the queue indices that, at index `i`, rewrites only entry `i`, keeps
its `disabled` flag and adds the stored value `val` of an active entry to `sum`. -/
theorem weights_fold (f : afl_state_t × fval → Nat → afl_state_t × fval)
    (val : queue_entry → fval) (good : queue_entry → Prop)
    (h_other : ∀ st i j, j ≠ i → entry (f st i).1 j = entry st.1 j)
    (h_len : ∀ st i, (f st i).1.queue_buf.length = st.1.queue_buf.length)
    (h_sched : ∀ st i, (f st i).1.schedule = st.1.schedule)
    (h_dis : ∀ st i, (entry (f st i).1 i).disabled = (entry st.1 i).disabled)
    (h_sum : ∀ st i, i < st.1.queue_buf.length → (f st i).2 =
      (if (entry st.1 i).disabled = true then st.2
        else st.2.add (val (entry (f st i).1 i))))
    (h_good : ∀ st i, i < st.1.queue_buf.length → (entry st.1 i).disabled = false →
      good (entry (f st i).1 i))
    (st : afl_state_t × fval) :
    ∀ k, k ≤ st.1.queue_buf.length →
      ((List.range k).foldl f st).1.queue_buf.length = st.1.queue_buf.length ∧
      ((List.range k).foldl f st).1.schedule = st.1.schedule ∧
      (∀ j, k ≤ j → entry ((List.range k).foldl f st).1 j = entry st.1 j) ∧
      (∀ j, (entry ((List.range k).foldl f st).1 j).disabled = (entry st.1 j).disabled) ∧
      ((List.range k).foldl f st).2 =
        (((List.range k).filter (fun i => !(entry st.1 i).disabled)).map
          (fun i => val (entry ((List.range k).foldl f st).1 i))).foldl fval.add st.2 ∧
      (∀ i, i < k → (entry st.1 i).disabled = false →
        good (entry ((List.range k).foldl f st).1 i)) := by
  intro k
  induction k with
  | zero =>
    intro _
    exact ⟨rfl, rfl, fun _ _ => rfl, fun _ => rfl, rfl, fun i hi => absurd hi (by omega)⟩
  | succ k ih =>
    intro hk
    rw [active_range_succ]
    rw [List.range_succ, List.foldl_append, List.foldl_cons, List.foldl_nil]
    obtain ⟨i1, i2, i3, i4, i5, i6⟩ := ih (by omega)
    generalize (List.range k).foldl f st = r at i1 i2 i3 i4 i5 i6
    refine ⟨(h_len r k).trans i1, (h_sched r k).trans i2, ?_, ?_, ?_, ?_⟩
    · intro j hj
      rw [h_other r k j (by omega)]
      exact i3 j (by omega)
    · intro j
      by_cases hjk : j = k
      · subst hjk
        rw [h_dis, i4]
      · rw [h_other r k j hjk, i4]
    · rw [List.map_append, List.foldl_append]
      have hmap : ((List.range k).filter (fun i => !(entry st.1 i).disabled)).map
            (fun i => val (entry (f r k).1 i)) =
          ((List.range k).filter (fun i => !(entry st.1 i).disabled)).map
            (fun i => val (entry r.1 i)) := by
        apply List.map_congr_left
        intro x hx
        have hxk : x < k := List.mem_range.mp (List.mem_filter.mp hx).1
        rw [h_other r k x (by omega)]
      rw [hmap, ← i5, h_sum r k (by rw [i1]; omega), i4 k]
      by_cases hd : (entry st.1 k).disabled = true
      · rw [if_pos hd, if_pos hd]
        rfl
      · rw [if_neg hd, if_neg hd]
        rfl
    · intro i hi hd
      by_cases hik : i = k
      · subst hik
        exact h_good r i (by rw [i1]; omega) (by rw [i4]; exact hd)
      · rw [h_other r k i hik]
        exact i6 i (by omega) hd

theorem entry_self_set_entry (afl : afl_state_t) (i : Nat) (x : queue_entry)
    (hi : i < afl.queue_buf.length) : entry (set_entry afl i x) i = x := by
  rw [entry_set_entry, if_pos ⟨rfl, hi⟩]

theorem entry_other_set_entry (afl : afl_state_t) (i j : Nat) (x : queue_entry) (h : j ≠ i) :
    entry (set_entry afl i x) j = entry afl j := by
  rw [entry_set_entry, if_neg (fun c => h c.1)]

theorem alias_weight_step_spec (c : afl_consts) (m : score_model) (avg : fval × fval × fval)
    (st : afl_state_t × fval) (i : Nat) :
    (∀ j, j ≠ i → entry (alias_weight_step c m avg st i).1 j = entry st.1 j) ∧
    (alias_weight_step c m avg st i).1.queue_buf.length = st.1.queue_buf.length ∧
    (alias_weight_step c m avg st i).1.schedule = st.1.schedule ∧
    (entry (alias_weight_step c m avg st i).1 i).disabled = (entry st.1 i).disabled ∧
    (i < st.1.queue_buf.length → (alias_weight_step c m avg st i).2 =
      (if (entry st.1 i).disabled = true then st.2
        else st.2.add (entry (alias_weight_step c m avg st i).1 i).weight)) ∧
    (i < st.1.queue_buf.length → (entry st.1 i).disabled = false →
      weight_class (entry (alias_weight_step c m avg st i).1 i).weight) := by
  unfold alias_weight_step
  simp only []
  by_cases hd : (entry st.1 i).disabled = true
  · have hc : ¬ (!(entry st.1 i).disabled) = true := by rw [hd]; simp
    rw [if_neg hc]
    refine ⟨fun _ _ => rfl, rfl, rfl, rfl, fun _ => ?_, fun _ h => ?_⟩
    · rw [if_pos hd]
    · rw [hd] at h
      cases h
  · have hd' : (entry st.1 i).disabled = false := by simpa using hd
    have hc : (!(entry st.1 i).disabled) = true := by rw [hd']; rfl
    rw [if_pos hc]
    refine ⟨?_, ?_, rfl, ?_, ?_, ?_⟩
    · intro j hj
      rw [entry_other_set_entry _ i j _ hj, entry_other_set_entry _ i j _ hj]
    · rw [length_set_entry, length_set_entry]
    · by_cases hi : i < st.1.queue_buf.length
      · rw [entry_self_set_entry _ i _ (by rw [length_set_entry]; exact hi)]
      · rw [entry_set_entry, if_neg (fun c => hi (by rw [length_set_entry] at c; exact c.2)),
          entry_set_entry, if_neg (fun c => hi c.2)]
    · intro hi
      rw [entry_self_set_entry _ i _ (by rw [length_set_entry]; exact hi), if_neg hd]
    · intro hi _
      rw [entry_self_set_entry _ i _ (by rw [length_set_entry]; exact hi)]
      exact compute_weight_class c m st.1 (entry st.1 i) avg.1 avg.2.1 avg.2.2

theorem alias_score_step_spec (m : score_model) (st : afl_state_t × fval) (i : Nat) :
    (∀ j, j ≠ i → entry (alias_score_step m st i).1 j = entry st.1 j) ∧
    (alias_score_step m st i).1.queue_buf.length = st.1.queue_buf.length ∧
    (alias_score_step m st i).1.schedule = st.1.schedule ∧
    (entry (alias_score_step m st i).1 i).disabled = (entry st.1 i).disabled ∧
    (i < st.1.queue_buf.length → (alias_score_step m st i).2 =
      (if (entry st.1 i).disabled = true then st.2
        else st.2.add (fval.fin (entry (alias_score_step m st i).1 i).perf_score))) := by
  unfold alias_score_step
  simp only []
  by_cases hd : (entry st.1 i).disabled = true
  · have hc : ¬ (!(entry st.1 i).disabled) = true := by rw [hd]; simp
    rw [if_neg hc]
    refine ⟨fun _ _ => rfl, rfl, rfl, rfl, fun _ => ?_⟩
    rw [if_pos hd]
  · have hd' : (entry st.1 i).disabled = false := by simpa using hd
    have hc : (!(entry st.1 i).disabled) = true := by rw [hd']; rfl
    rw [if_pos hc]
    refine ⟨?_, ?_, rfl, ?_, ?_⟩
    · intro j hj
      rw [entry_other_set_entry _ i j _ hj]
    · rw [length_set_entry]
    · exact entry_set_entry_proj (fun q => q.disabled) st.1 i i _ rfl
    · intro hi
      rw [entry_self_set_entry _ i _ hi, if_neg hd]

/-! ## The final weights and the accumulated `sum` -/

theorem weight_ge_refl {w : fval} (h : weight_class w) : weight_ge w w := by
  rcases h with h | h | ⟨x, hx, h⟩
  · exact Or.inr (Or.inl ⟨h, h⟩)
  · exact Or.inl ⟨h, h⟩
  · exact Or.inr (Or.inr ⟨x, x, hx, le_refl _, h, h⟩)

theorem weight_ge_double {w w' : fval} (h : weight_ge w w') :
    weight_ge w (w'.mul (fval.fin 2)) := by
  rcases h with ⟨h1, h2⟩ | ⟨h1, h2⟩ | ⟨x, x', hx, hle, h1, h2⟩
  · subst h2
    exact Or.inl ⟨h1, rfl⟩
  · subst h2
    exact Or.inr (Or.inl ⟨h1, by simp [fval.mul]⟩)
  · subst h2
    exact Or.inr (Or.inr ⟨x, x' * 2, hx, by linarith, h1, rfl⟩)

theorem weight_ge_class {w w' : fval} (h : weight_ge w w') : weight_class w' := by
  rcases h with ⟨_, h2⟩ | ⟨_, h2⟩ | ⟨x, x', hx, hle, _, h2⟩
  · exact Or.inr (Or.inl h2)
  · exact Or.inl h2
  · exact Or.inr (Or.inr ⟨x', lt_of_lt_of_le hx hle, h2⟩)

theorem weight_ge_trans {a b d : fval} (h1 : weight_ge a b) (h2 : weight_ge b d) :
    weight_ge a d := by
  rcases h1 with ⟨p1, p2⟩ | ⟨p1, p2⟩ | ⟨x, x', hx, hle, p1, p2⟩
  · rcases h2 with ⟨q1, q2⟩ | ⟨q1, q2⟩ | ⟨y, y', hy, hle2, q1, q2⟩
    · exact Or.inl ⟨p1, q2⟩
    · rw [p2] at q1
      cases q1
    · rw [p2] at q1
      cases q1
  · rcases h2 with ⟨q1, q2⟩ | ⟨q1, q2⟩ | ⟨y, y', hy, hle2, q1, q2⟩
    · rw [p2] at q1
      cases q1
    · exact Or.inr (Or.inl ⟨p1, q2⟩)
    · rw [p2] at q1
      cases q1
  · rcases h2 with ⟨q1, q2⟩ | ⟨q1, q2⟩ | ⟨y, y', hy, hle2, q1, q2⟩
    · rw [p2] at q1
      cases q1
    · rw [p2] at q1
      cases q1
    · rw [p2] at q1
      have hxy : x' = y := fval.fin.inj q1
      exact Or.inr (Or.inr ⟨x, y', hx, by rw [← hxy] at hle2; exact le_trans hle hle2, p1, q2⟩)

theorem alias_mmopt_double_spec (c : afl_consts) (afl : afl_state_t) :
    (alias_mmopt_double c afl).queue_buf.length = afl.queue_buf.length ∧
    (alias_mmopt_double c afl).schedule = afl.schedule ∧
    (∀ j, (entry (alias_mmopt_double c afl) j).disabled = (entry afl j).disabled) ∧
    ∀ j, weight_class (entry afl j).weight →
      weight_ge (entry afl j).weight (entry (alias_mmopt_double c afl) j).weight := by
  have hfold : ∀ (L : List Nat) (a : afl_state_t),
      (L.foldl (fun a i =>
        if !(entry a i).disabled then
          set_entry a i { entry a i with weight := (entry a i).weight.mul (fval.fin 2) }
        else a) a).queue_buf.length = a.queue_buf.length ∧
      (L.foldl (fun a i =>
        if !(entry a i).disabled then
          set_entry a i { entry a i with weight := (entry a i).weight.mul (fval.fin 2) }
        else a) a).schedule = a.schedule ∧
      (∀ j, (entry (L.foldl (fun a i =>
        if !(entry a i).disabled then
          set_entry a i { entry a i with weight := (entry a i).weight.mul (fval.fin 2) }
        else a) a) j).disabled = (entry a j).disabled) ∧
      ∀ j, weight_class (entry a j).weight →
        weight_ge (entry a j).weight (entry (L.foldl (fun a i =>
          if !(entry a i).disabled then
            set_entry a i { entry a i with weight := (entry a i).weight.mul (fval.fin 2) }
          else a) a) j).weight := by
    intro L
    induction L with
    | nil =>
      intro a
      exact ⟨rfl, rfl, fun _ => rfl, fun _ h => weight_ge_refl h⟩
    | cons x xs ih =>
      intro a
      rw [List.foldl_cons]
      by_cases hc : (!(entry a x).disabled) = true
      · rw [if_pos hc]
        obtain ⟨h1, h2, h3, h4⟩ :=
          ih (set_entry a x { entry a x with weight := (entry a x).weight.mul (fval.fin 2) })
        refine ⟨h1.trans (length_set_entry _ _ _), h2, ?_, ?_⟩
        · intro j
          rw [h3 j]
          exact entry_set_entry_proj (fun q => q.disabled) a x j _ rfl
        · intro j hj
          have hstep : weight_ge (entry a j).weight
              (entry (set_entry a x
                { entry a x with weight := (entry a x).weight.mul (fval.fin 2) }) j).weight := by
            rw [entry_set_entry]
            split
            · next hcj =>
              rw [hcj.1] at hj ⊢
              exact weight_ge_double (weight_ge_refl hj)
            · exact weight_ge_refl hj
          exact weight_ge_trans hstep (h4 j (weight_ge_class hstep))
      · rw [if_neg hc]
        exact ih a
  unfold alias_mmopt_double
  split
  · exact hfold _ afl
  · exact ⟨rfl, rfl, fun _ => rfl, fun _ h => weight_ge_refl h⟩

theorem alias_weights_frame (c : afl_consts) (m : score_model) (afl : afl_state_t) :
    (alias_weights c m afl).1.queue_buf.length = afl.queue_buf.length ∧
    (alias_weights c m afl).1.schedule = afl.schedule ∧
    ∀ j, (entry (alias_weights c m afl).1 j).disabled = (entry afl j).disabled := by
  unfold alias_weights
  split
  · have h := weights_fold (alias_weight_step c m (alias_averages m afl)) (fun q => q.weight)
      (fun q => weight_class q.weight)
      (fun st i => (alias_weight_step_spec c m _ st i).1)
      (fun st i => (alias_weight_step_spec c m _ st i).2.1)
      (fun st i => (alias_weight_step_spec c m _ st i).2.2.1)
      (fun st i => (alias_weight_step_spec c m _ st i).2.2.2.1)
      (fun st i => (alias_weight_step_spec c m _ st i).2.2.2.2.1)
      (fun st i => (alias_weight_step_spec c m _ st i).2.2.2.2.2)
      (afl, fval.fin 0) afl.queue_buf.length (le_refl _)
    obtain ⟨h1, h2, _, h4, _, _⟩ := h
    obtain ⟨d1, d2, d3, _⟩ := alias_mmopt_double_spec c
      ((List.range afl.queue_buf.length).foldl
        (alias_weight_step c m (alias_averages m afl)) (afl, fval.fin 0)).1
    exact ⟨d1.trans h1, d2.trans h2, fun j => (d3 j).trans (h4 j)⟩
  · have h := weights_fold (alias_score_step m) (fun q => fval.fin q.perf_score) (fun _ => True)
      (fun st i => (alias_score_step_spec m st i).1)
      (fun st i => (alias_score_step_spec m st i).2.1)
      (fun st i => (alias_score_step_spec m st i).2.2.1)
      (fun st i => (alias_score_step_spec m st i).2.2.2.1)
      (fun st i => (alias_score_step_spec m st i).2.2.2.2)
      (fun _ _ _ _ => trivial)
      (afl, fval.fin 0) afl.queue_buf.length (le_refl _)
    obtain ⟨h1, h2, _, h4, _, _⟩ := h
    exact ⟨h1, h2, h4⟩

/-- Below RARE, `sum` is the sum of the weights `w0` that the weight loop stores in the
active seeds, in queue order, and the final weight of an active seed is `w0` or its
double. -/
theorem alias_weights_sum_weight (c : afl_consts) (m : score_model) (afl : afl_state_t)
    (hs : afl.schedule < c.RARE) :
    ∃ w0 : Nat → fval,
      (alias_weights c m afl).2 =
        fsum (((List.range afl.queue_buf.length).filter
          (fun i => !(entry afl i).disabled)).map w0) ∧
      ∀ i, i < afl.queue_buf.length → (entry afl i).disabled = false →
        weight_class (w0 i) ∧
        weight_ge (w0 i) (alias_final_weight c (alias_weights c m afl).1 i) := by
  obtain ⟨_, hsched, hdis⟩ := alias_weights_frame c m afl
  have hw : (alias_weights c m afl) =
      (alias_mmopt_double c ((List.range afl.queue_buf.length).foldl
        (alias_weight_step c m (alias_averages m afl)) (afl, fval.fin 0)).1,
       ((List.range afl.queue_buf.length).foldl
        (alias_weight_step c m (alias_averages m afl)) (afl, fval.fin 0)).2) := by
    unfold alias_weights
    rw [if_pos hs]
  have h := weights_fold (alias_weight_step c m (alias_averages m afl)) (fun q => q.weight)
    (fun q => weight_class q.weight)
    (fun st i => (alias_weight_step_spec c m _ st i).1)
    (fun st i => (alias_weight_step_spec c m _ st i).2.1)
    (fun st i => (alias_weight_step_spec c m _ st i).2.2.1)
    (fun st i => (alias_weight_step_spec c m _ st i).2.2.2.1)
    (fun st i => (alias_weight_step_spec c m _ st i).2.2.2.2.1)
    (fun st i => (alias_weight_step_spec c m _ st i).2.2.2.2.2)
    (afl, fval.fin 0) afl.queue_buf.length (le_refl _)
  obtain ⟨_, _, _, _, h5, h6⟩ := h
  obtain ⟨_, _, _, d4⟩ := alias_mmopt_double_spec c
    ((List.range afl.queue_buf.length).foldl
      (alias_weight_step c m (alias_averages m afl)) (afl, fval.fin 0)).1
  rw [hw] at hsched hdis ⊢
  generalize (List.range afl.queue_buf.length).foldl
      (alias_weight_step c m (alias_averages m afl)) (afl, fval.fin 0) = r
    at h5 h6 d4 hdis hsched
  simp only [] at h5 h6 d4 hdis hsched ⊢
  refine ⟨fun i => (entry r.1 i).weight, h5, ?_⟩
  intro i hi hd
  refine ⟨h6 i hi hd, ?_⟩
  have hfw : alias_final_weight c (alias_mmopt_double c r.1) i =
      (entry (alias_mmopt_double c r.1) i).weight := by
    unfold alias_final_weight
    rw [if_neg (by rw [hdis i, hd]; simp), if_pos (by rw [hsched]; exact hs)]
  rw [hfw]
  exact d4 i (h6 i hi hd)

/-- From RARE on, `sum` is the sum of the scores stored in the active seeds. -/
theorem alias_weights_sum_score (c : afl_consts) (m : score_model) (afl : afl_state_t)
    (hs : ¬ afl.schedule < c.RARE) :
    (alias_weights c m afl).2 =
        fval.fin (((List.range afl.queue_buf.length).filter
          (fun i => !(entry afl i).disabled)).map
            (fun i => (entry (alias_weights c m afl).1 i).perf_score)).sum ∧
      ∀ i, (entry afl i).disabled = false →
        alias_final_weight c (alias_weights c m afl).1 i =
          fval.fin (entry (alias_weights c m afl).1 i).perf_score := by
  obtain ⟨_, hsched, hdis⟩ := alias_weights_frame c m afl
  have hw : (alias_weights c m afl) =
      (List.range afl.queue_buf.length).foldl (alias_score_step m) (afl, fval.fin 0) := by
    unfold alias_weights
    rw [if_neg hs]
  have h := weights_fold (alias_score_step m) (fun q => fval.fin q.perf_score) (fun _ => True)
    (fun st i => (alias_score_step_spec m st i).1)
    (fun st i => (alias_score_step_spec m st i).2.1)
    (fun st i => (alias_score_step_spec m st i).2.2.1)
    (fun st i => (alias_score_step_spec m st i).2.2.2.1)
    (fun st i => (alias_score_step_spec m st i).2.2.2.2)
    (fun _ _ _ _ => trivial)
    (afl, fval.fin 0) afl.queue_buf.length (le_refl _)
  obtain ⟨_, _, _, _, h5, _⟩ := h
  rw [← hw] at h5
  simp only [] at h5
  constructor
  · rw [h5, ← fsum_map_fin, List.map_map]
    rfl
  · intro i hd
    unfold alias_final_weight
    rw [if_neg (by rw [hdis i, hd]; simp), if_neg (by rw [hsched]; exact hs)]

theorem sum_active (afl : afl_state_t) (f : Nat → ℚ) (n : Nat) :
    (((List.range n).filter (fun i => !(entry afl i).disabled)).map f).sum =
      ∑ i in Finset.range n, if (entry afl i).disabled = true then 0 else f i := by
  induction n with
  | zero => simp
  | succ k ih =>
    rw [active_range_succ, List.map_append, List.sum_append, ih, Finset.sum_range_succ]
    congr 1
    by_cases h : (entry afl k).disabled = true
    · rw [if_pos h, if_pos h]
      simp
    · rw [if_neg h, if_neg h]
      simp

theorem foldl_add_pinf (l : List fval) :
    ∀ acc, l.foldl fval.add acc = fval.pinf → acc = fval.pinf ∨ ∃ w ∈ l, w = fval.pinf := by
  induction l with
  | nil =>
    intro acc h
    exact Or.inl h
  | cons x t ih =>
    intro acc h
    rw [List.foldl_cons] at h
    rcases ih _ h with h1 | ⟨w, hw, hw2⟩
    · have : acc = fval.pinf ∨ x = fval.pinf := by
        cases acc <;> cases x <;> simp [fval.add] at h1 ⊢
      rcases this with h2 | h2
      · exact Or.inl h2
      · exact Or.inr ⟨x, List.mem_cons_self _ _, h2⟩
    · exact Or.inr ⟨w, List.mem_cons_of_mem _ hw, hw2⟩

theorem foldl_add_ninf (l : List fval) :
    ∀ acc, l.foldl fval.add acc = fval.ninf → acc = fval.ninf ∨ ∃ w ∈ l, w = fval.ninf := by
  induction l with
  | nil =>
    intro acc h
    exact Or.inl h
  | cons x t ih =>
    intro acc h
    rw [List.foldl_cons] at h
    rcases ih _ h with h1 | ⟨w, hw, hw2⟩
    · have : acc = fval.ninf ∨ x = fval.ninf := by
        cases acc <;> cases x <;> simp [fval.add] at h1 ⊢
      rcases this with h2 | h2
      · exact Or.inl h2
      · exact Or.inr ⟨x, List.mem_cons_self _ _, h2⟩
    · exact Or.inr ⟨w, List.mem_cons_of_mem _ hw, hw2⟩

theorem fin_to_rat_of_fin {w : fval} (h : ∃ x : ℚ, w = fval.fin x) : fval.fin w.to_rat = w := by
  obtain ⟨x, rfl⟩ := h
  rfl

theorem list_all_fin (l : List fval) (h : ∀ w ∈ l, ∃ x : ℚ, w = fval.fin x) :
    l = (l.map fval.to_rat).map fval.fin := by
  rw [List.map_map]
  conv_lhs => rw [← List.map_id l]
  apply List.map_congr_left
  intro w hw
  exact (fin_to_rat_of_fin (h w hw)).symm

theorem mem_active (afl : afl_state_t) (i : Nat) (hi : i < afl.queue_buf.length)
    (hd : (entry afl i).disabled = false) :
    i ∈ (List.range afl.queue_buf.length).filter (fun i => !(entry afl i).disabled) := by
  rw [List.mem_filter]
  exact ⟨List.mem_range.mpr hi, by rw [hd]; rfl⟩

/-- The array `P` of a queue with an active seed: either every `P[i]` is finite and
their sum is at least `n`, or some `P[k]` is NaN or plus infinity. -/
theorem alias_P_cases (c : afl_consts) (m : score_model) (afl : afl_state_t)
    (hact : ∃ i, i < afl.queue_buf.length ∧ (entry afl i).disabled = false) :
    (∃ l : List ℚ, alias_P c m afl = l.map fval.fin ∧ (afl.queue_buf.length : ℚ) ≤ l.sum) ∨
    ∃ k, k < afl.queue_buf.length ∧ is_sink ((alias_P c m afl).getD k (fval.fin 0)) := by
  obtain ⟨hlen, hsched, hdis⟩ := alias_weights_frame c m afl
  obtain ⟨i0, hi0, hd0⟩ := hact
  have hnpos : (0 : ℚ) < (afl.queue_buf.length : ℚ) := by
    have : 0 < afl.queue_buf.length := by omega
    exact_mod_cast this
  have hPact : ∀ i, i < afl.queue_buf.length → (entry afl i).disabled = false →
      (alias_P c m afl).getD i (fval.fin 0) =
        ((alias_final_weight c (alias_weights c m afl).1 i).mul
          (fval.fin (afl.queue_buf.length : ℚ))).div (alias_weights c m afl).2 := by
    intro i hi hd
    rw [alias_P_getD c m afl i hi, if_neg (by rw [hdis i, hd]; simp)]
  have hPdis : ∀ i, i < afl.queue_buf.length → (entry afl i).disabled = true →
      (alias_P c m afl).getD i (fval.fin 0) = fval.fin 0 := by
    intro i hi hd
    rw [alias_P_getD c m afl i hi, if_pos (by rw [hdis i, hd])]
  -- the finite case, from the values of `P`
  have hfinite : ∀ (s : ℚ) (x x' : Nat → ℚ), 0 < s →
      s = ∑ i in Finset.range afl.queue_buf.length,
        (if (entry afl i).disabled = true then 0 else x i) →
      (∀ i, i < afl.queue_buf.length → (entry afl i).disabled = false →
        x i * (afl.queue_buf.length : ℚ) / s ≤ x' i * (afl.queue_buf.length : ℚ) / s ∧
        (alias_P c m afl).getD i (fval.fin 0) =
          fval.fin (x' i * (afl.queue_buf.length : ℚ) / s)) →
      ∃ l : List ℚ, alias_P c m afl = l.map fval.fin ∧ (afl.queue_buf.length : ℚ) ≤ l.sum := by
    intro s x x' hspos hsum hx
    have hP : alias_P c m afl = (List.range afl.queue_buf.length).map
        (fun i => fval.fin (if (entry afl i).disabled = true then 0
          else x' i * (afl.queue_buf.length : ℚ) / s)) := by
      apply List.ext_getElem
      · rw [alias_P_length, List.length_map, List.length_range]
      · intro i h1 h2
        have hi : i < afl.queue_buf.length := by rw [alias_P_length] at h1; exact h1
        have hg := List.getD_eq_getElem (alias_P c m afl) (fval.fin 0) h1
        rw [← hg, List.getElem_map, List.getElem_range]
        by_cases hd : (entry afl i).disabled = true
        · rw [hPdis i hi hd, if_pos hd]
        · rw [if_neg hd]
          exact (hx i hi (by simpa using hd)).2
    refine ⟨(List.range afl.queue_buf.length).map
        (fun i => if (entry afl i).disabled = true then 0
          else x' i * (afl.queue_buf.length : ℚ) / s), ?_, ?_⟩
    · rw [hP, List.map_map]
      rfl
    · rw [list_sum_range_map]
      have hlow : ∑ i in Finset.range afl.queue_buf.length,
          (if (entry afl i).disabled = true then (0 : ℚ)
            else x i * (afl.queue_buf.length : ℚ) / s) = (afl.queue_buf.length : ℚ) := by
        have : ∀ i ∈ Finset.range afl.queue_buf.length,
            (if (entry afl i).disabled = true then (0 : ℚ)
              else x i * (afl.queue_buf.length : ℚ) / s) =
            (if (entry afl i).disabled = true then 0 else x i) *
              ((afl.queue_buf.length : ℚ) / s) := by
          intro i _
          split
          · rw [zero_mul]
          · rw [mul_div_assoc]
        rw [Finset.sum_congr rfl this, ← Finset.sum_mul, ← hsum]
        field_simp
      refine le_trans (le_of_eq hlow.symm) ?_
      apply Finset.sum_le_sum
      intro i hi
      by_cases hd : (entry afl i).disabled = true
      · rw [if_pos hd, if_pos hd]
      · rw [if_neg hd, if_neg hd]
        exact (hx i (Finset.mem_range.mp hi) (by simpa using hd)).1
  by_cases hs : afl.schedule < c.RARE
  · obtain ⟨w0, hS, hw⟩ := alias_weights_sum_weight c m afl hs
    have hmem := mem_active afl i0 hi0 hd0
    cases hsv : (alias_weights c m afl).2 with
    | nan =>
      right
      refine ⟨i0, hi0, ?_⟩
      rw [hPact i0 hi0 hd0, hsv]
      left
      cases ((alias_final_weight c (alias_weights c m afl).1 i0).mul
        (fval.fin (afl.queue_buf.length : ℚ))) <;> rfl
    | pinf =>
      right
      rw [hsv] at hS
      unfold fsum at hS
      rcases foldl_add_pinf _ _ hS.symm with h | ⟨w, hwm, hwp⟩
      · cases h
      · obtain ⟨k, hk, hkw⟩ := List.mem_map.mp hwm
        have hkn : k < afl.queue_buf.length := List.mem_range.mp (List.mem_filter.mp hk).1
        have hkd : (entry afl k).disabled = false := by
          have := (List.mem_filter.mp hk).2
          simpa using this
        refine ⟨k, hkn, ?_⟩
        rw [hPact k hkn hkd, hsv]
        obtain ⟨_, hge⟩ := hw k hkn hkd
        rw [hkw, hwp] at hge
        rcases hge with ⟨h1, _⟩ | ⟨_, h2⟩ | ⟨_, _, _, _, h1, _⟩
        · cases h1
        · rw [h2]
          left
          simp [fval.mul, hnpos.ne', hnpos, fval.div]
        · cases h1
    | ninf =>
      exfalso
      rw [hsv] at hS
      unfold fsum at hS
      rcases foldl_add_ninf _ _ hS.symm with h | ⟨w, hwm, hwp⟩
      · cases h
      · obtain ⟨k, hk, hkw⟩ := List.mem_map.mp hwm
        have hkn : k < afl.queue_buf.length := List.mem_range.mp (List.mem_filter.mp hk).1
        have hkd : (entry afl k).disabled = false := by
          have := (List.mem_filter.mp hk).2
          simpa using this
        obtain ⟨hcl, _⟩ := hw k hkn hkd
        rw [hkw, hwp] at hcl
        rcases hcl with h | h | ⟨_, _, h⟩ <;> cases h
    | fin s =>
      left
      rw [hsv] at hS
      obtain ⟨l', hl', hls⟩ := fsum_eq_fin hS.symm
      have hfin : ∀ i, i < afl.queue_buf.length → (entry afl i).disabled = false →
          ∃ x : ℚ, 0 < x ∧ w0 i = fval.fin x := by
        intro i hi hd
        have hm : w0 i ∈ l'.map fval.fin := by
          rw [← hl']
          exact List.mem_map.mpr ⟨i, mem_active afl i hi hd, rfl⟩
        obtain ⟨x, _, hx⟩ := List.mem_map.mp hm
        rcases (hw i hi hd).1 with h | h | ⟨y, hy, h⟩
        · rw [h] at hx
          cases hx
        · rw [h] at hx
          cases hx
        · exact ⟨y, hy, h⟩
      have hl2 : l' = ((List.range afl.queue_buf.length).filter
          (fun i => !(entry afl i).disabled)).map (fun i => (w0 i).to_rat) := by
        have h1 := congrArg (List.map fval.to_rat) hl'
        rw [List.map_map, List.map_map] at h1
        have h2 : (fval.to_rat ∘ fval.fin) = id := by
          funext x
          rfl
        rw [h2, List.map_id] at h1
        rw [← h1]
        rfl
      have hsum : s = ∑ i in Finset.range afl.queue_buf.length,
          (if (entry afl i).disabled = true then 0 else (w0 i).to_rat) := by
        rw [← hls, hl2, sum_active]
      have hspos : 0 < s := by
        rw [hsum]
        apply Finset.sum_pos'
        · intro i hi
          split
          · exact le_refl _
          · next hd =>
            obtain ⟨x, hx, hxe⟩ := hfin i (Finset.mem_range.mp hi) (by simpa using hd)
            rw [hxe]
            exact le_of_lt hx
        · refine ⟨i0, Finset.mem_range.mpr hi0, ?_⟩
          rw [if_neg (by rw [hd0]; simp)]
          obtain ⟨x, hx, hxe⟩ := hfin i0 hi0 hd0
          rw [hxe]
          exact hx
      refine hfinite s (fun i => (w0 i).to_rat)
        (fun i => (alias_final_weight c (alias_weights c m afl).1 i).to_rat) hspos hsum ?_
      intro i hi hd
      obtain ⟨x, hx, hxe⟩ := hfin i hi hd
      have hge := (hw i hi hd).2
      rw [hxe] at hge
      rcases hge with ⟨h1, _⟩ | ⟨h1, _⟩ | ⟨y, y', hy, hle, h1, h2⟩
      · cases h1
      · cases h1
      · have hxy : x = y := fval.fin.inj h1
        subst hxy
        constructor
        · simp only []
          rw [hxe, h2]
          show x * (afl.queue_buf.length : ℚ) / s ≤ y' * (afl.queue_buf.length : ℚ) / s
          apply div_le_div_of_nonneg_right _ (le_of_lt hspos)
          exact mul_le_mul_of_nonneg_right hle (le_of_lt hnpos)
        · simp only []
          rw [hPact i hi hd, hsv, h2]
          simp only [fval.mul, fval.div, if_neg hspos.ne']
          rfl
  · obtain ⟨hS, hfw⟩ := alias_weights_sum_score c m afl hs
    rw [sum_active] at hS
    generalize hsdef : (∑ i in Finset.range afl.queue_buf.length,
        if (entry afl i).disabled = true then 0
        else (entry (alias_weights c m afl).1 i).perf_score) = s at hS
    by_cases hs0 : s = 0
    · right
      subst hs0
      by_cases hall : ∀ i, i < afl.queue_buf.length → (entry afl i).disabled = false →
          (entry (alias_weights c m afl).1 i).perf_score = 0
      · refine ⟨i0, hi0, ?_⟩
        rw [hPact i0 hi0 hd0, hS, hfw i0 hd0, hall i0 hi0 hd0]
        left
        simp [fval.mul, fval.div]
      · have hpos : ∃ j, j < afl.queue_buf.length ∧ (entry afl j).disabled = false ∧
            0 < (entry (alias_weights c m afl).1 j).perf_score := by
          by_contra hno
          apply hall
          intro i hi hd
          have hnonpos : ∀ j ∈ Finset.range afl.queue_buf.length,
              (if (entry afl j).disabled = true then (0 : ℚ)
                else (entry (alias_weights c m afl).1 j).perf_score) ≤ 0 := by
            intro j hj
            split
            · exact le_refl _
            · next hdj =>
              by_contra hgt
              exact hno ⟨j, Finset.mem_range.mp hj, by simpa using hdj, not_le.mp hgt⟩
          have hz := (Finset.sum_eq_zero_iff_of_nonpos hnonpos).mp hsdef i
            (Finset.mem_range.mpr hi)
          rw [if_neg (by rw [hd]; simp)] at hz
          exact hz
        obtain ⟨j, hj, hdj, hpj⟩ := hpos
        refine ⟨j, hj, ?_⟩
        rw [hPact j hj hdj, hS, hfw j hdj]
        right
        have hprod : 0 < (entry (alias_weights c m afl).1 j).perf_score *
            (afl.queue_buf.length : ℚ) := mul_pos hpj hnpos
        simp [fval.mul, fval.div, hprod.ne', hprod]
    · left
      -- the sum of `P` is `n`: the argument of the finite case with a divisor of either sign
      have hP : alias_P c m afl = (List.range afl.queue_buf.length).map
          (fun i => fval.fin (if (entry afl i).disabled = true then 0
            else (entry (alias_weights c m afl).1 i).perf_score *
              (afl.queue_buf.length : ℚ) / s)) := by
        apply List.ext_getElem
        · rw [alias_P_length, List.length_map, List.length_range]
        · intro i h1 h2
          have hi : i < afl.queue_buf.length := by rw [alias_P_length] at h1; exact h1
          have hg := List.getD_eq_getElem (alias_P c m afl) (fval.fin 0) h1
          rw [← hg, List.getElem_map, List.getElem_range]
          by_cases hd : (entry afl i).disabled = true
          · rw [hPdis i hi hd, if_pos hd]
          · rw [if_neg hd, hPact i hi (by simpa using hd), hS, hfw i (by simpa using hd)]
            simp only [fval.mul, fval.div, if_neg hs0]
      refine ⟨(List.range afl.queue_buf.length).map
          (fun i => if (entry afl i).disabled = true then 0
            else (entry (alias_weights c m afl).1 i).perf_score *
              (afl.queue_buf.length : ℚ) / s), ?_, ?_⟩
      · rw [hP, List.map_map]
        rfl
      · rw [list_sum_range_map]
        have : ∀ i ∈ Finset.range afl.queue_buf.length,
            (if (entry afl i).disabled = true then (0 : ℚ)
              else (entry (alias_weights c m afl).1 i).perf_score *
                (afl.queue_buf.length : ℚ) / s) =
            (if (entry afl i).disabled = true then 0
              else (entry (alias_weights c m afl).1 i).perf_score) *
              ((afl.queue_buf.length : ℚ) / s) := by
          intro i _
          split
          · rw [zero_mul]
          · rw [mul_div_assoc]
        rw [Finset.sum_congr rfl this, ← Finset.sum_mul, hsdef]
        apply le_of_eq
        field_simp

/-! ## The alias construction when some `P[k]` is NaN or infinite -/

theorem alias_partition_fold_fval (P : List fval) (js : List Nat) :
    ∀ sl : List Nat × List Nat,
      ((js.foldl
          (fun sl j =>
            if (P.getD j (fval.fin 0)).lt (fval.fin 1) then (j :: sl.1, sl.2)
            else (sl.1, j :: sl.2)) sl).1 ++
        (js.foldl
          (fun sl j =>
            if (P.getD j (fval.fin 0)).lt (fval.fin 1) then (j :: sl.1, sl.2)
            else (sl.1, j :: sl.2)) sl).2).Perm
        (js ++ (sl.1 ++ sl.2)) ∧
      (∀ x ∈ (js.foldl
          (fun sl j =>
            if (P.getD j (fval.fin 0)).lt (fval.fin 1) then (j :: sl.1, sl.2)
            else (sl.1, j :: sl.2)) sl).1,
        x ∈ sl.1 ∨ (P.getD x (fval.fin 0)).lt (fval.fin 1) = true) ∧
      (∀ x ∈ (js.foldl
          (fun sl j =>
            if (P.getD j (fval.fin 0)).lt (fval.fin 1) then (j :: sl.1, sl.2)
            else (sl.1, j :: sl.2)) sl).2,
        x ∈ sl.2 ∨ (P.getD x (fval.fin 0)).lt (fval.fin 1) = false) := by
  induction js with
  | nil =>
    intro sl
    exact ⟨List.Perm.refl _, fun x hx => Or.inl hx, fun x hx => Or.inl hx⟩
  | cons j js ih =>
    intro sl
    rw [List.foldl_cons]
    by_cases hj : (P.getD j (fval.fin 0)).lt (fval.fin 1) = true
    · rw [if_pos hj]
      obtain ⟨h1, h2, h3⟩ := ih (j :: sl.1, sl.2)
      refine ⟨?_, ?_, h3⟩
      · refine h1.trans ?_
        simp only [List.cons_append]
        exact List.perm_middle
      · intro x hx
        rcases h2 x hx with h | h
        · rcases List.mem_cons.mp h with h | h
          · exact Or.inr (by rw [h]; exact hj)
          · exact Or.inl h
        · exact Or.inr h
    · rw [if_neg hj]
      obtain ⟨h1, h2, h3⟩ := ih (sl.1, j :: sl.2)
      refine ⟨?_, h2, ?_⟩
      · refine h1.trans ?_
        simp only [List.cons_append]
        have : (js ++ (sl.1 ++ j :: sl.2)).Perm (js ++ (j :: (sl.1 ++ sl.2))) :=
          List.Perm.append_left js List.perm_middle
        exact this.trans List.perm_middle
      · intro x hx
        rcases h3 x hx with h | h
        · rcases List.mem_cons.mp h with h | h
          · exact Or.inr (by rw [h]; simpa using hj)
          · exact Or.inl h
        · exact Or.inr h

theorem alias_partition_spec_fval (P : List fval) :
    ((alias_partition P).1 ++ (alias_partition P).2).Perm (List.range P.length) ∧
    (∀ x ∈ (alias_partition P).1, (P.getD x (fval.fin 0)).lt (fval.fin 1) = true) ∧
    (∀ x ∈ (alias_partition P).2, (P.getD x (fval.fin 0)).lt (fval.fin 1) = false) := by
  obtain ⟨h1, h2, h3⟩ := alias_partition_fold_fval P (List.range P.length).reverse ([], [])
  refine ⟨?_, ?_, ?_⟩
  · unfold alias_partition
    refine h1.trans ?_
    simp only [List.append_nil]
    exact List.reverse_perm _
  · intro x hx
    rcases h2 x hx with h | h
    · cases h
    · exact h
  · intro x hx
    rcases h3 x hx with h | h
    · cases h
    · exact h

theorem alias_pair_loop_succ (fuel : Nat) (st : alias_state) (s l : Nat) (ss ls : List Nat)
    (hS : st.Small = s :: ss) (hL : st.Large = l :: ls) :
    alias_pair_loop (fuel + 1) st = alias_pair_loop fuel (alias_pair_round st s l ss ls) := by
  simp only [alias_pair_loop, hS, hL, alias_pair_round]
  split <;> rfl

theorem alias_pair_loop_small_nil (fuel : Nat) (st : alias_state) (hS : st.Small = []) :
    alias_pair_loop fuel st = st := by
  cases fuel with
  | zero => rfl
  | succ f => simp only [alias_pair_loop, hS]

theorem alias_sink_inv_round (n d k : Nat) (st : alias_state) (s l : Nat) (ss ls : List Nat)
    (hS : st.Small = s :: ss) (hL : st.Large = l :: ls) (h : alias_sink_inv n d k st) :
    alias_sink_inv n d k (alias_pair_round st s l ss ls) := by
  obtain ⟨⟨hl1, hl2, hl3⟩, hnd, hlt, ⟨hkL, hkS⟩, hsm, hz, hp⟩ := h
  rw [hS, hL] at hnd hlt
  rw [hL] at hkL
  rw [hS] at hsm
  have hs_lt : s < n := hlt s (by simp)
  have hl_lt : l < n := hlt l (by simp)
  have hnd' : (s :: (ss ++ l :: ls)).Nodup := by simpa using hnd
  have hs_notin : s ∉ ss ++ l :: ls := (List.nodup_cons.mp hnd').1
  have hnd2 : (ss ++ l :: ls).Nodup := (List.nodup_cons.mp hnd').2
  have hsl : s ≠ l := fun x => hs_notin (by rw [x]; simp)
  have hnd3 : (l :: (ss ++ ls)).Nodup := List.nodup_middle.mp hnd2
  have hl_notin : l ∉ ss ++ ls := (List.nodup_cons.mp hnd3).1
  have hUold : ∀ u, u ∈ st.Small ++ st.Large ↔ u = s ∨ u ∈ ss ++ l :: ls := by
    intro u
    rw [hS, hL]
    simp
  generalize hpl : (st.P.getD l (fval.fin 0)).sub
      ((fval.fin 1).sub (st.P.getD s (fval.fin 0))) = pl
  have hdl : d ≠ l := by
    rcases hz with ⟨hd, _⟩ | ⟨hd, _⟩
    · rw [hS] at hd
      rcases List.mem_cons.mp hd with hd | hd
      · rw [hd]; exact hsl
      · intro e
        exact hl_notin (by rw [← e]; simp [hd])
    · intro e
      exact hd ((hUold d).mpr (Or.inr (by rw [e]; simp)))
  -- the fields of the state after the round
  have key : ∀ st' : alias_state, st'.P = st.P.set l pl →
      st'.alias_table = st.alias_table.set s l →
      st'.alias_probability = st.alias_probability.set s (st.P.getD s (fval.fin 0)) →
      (∀ u, u ∈ st'.Small ↔ (u ∈ ss ∨ (u = l ∧ pl.lt (fval.fin 1) = true))) →
      (∀ u, u ∈ st'.Large ↔ (u ∈ ls ∨ (u = l ∧ ¬ pl.lt (fval.fin 1) = true))) →
      (st'.Small ++ st'.Large).Nodup → alias_sink_inv n d k st' := by
    intro st' hP hat hap hS' hL' hndn
    have hU' : ∀ u, u ∈ st'.Small ++ st'.Large ↔ u ∈ ss ++ l :: ls := by
      intro u
      simp only [List.mem_append, hS' u, hL' u, List.mem_cons]
      tauto
    have hPget : ∀ j, st'.P.getD j (fval.fin 0) =
        if j = l then pl else st.P.getD j (fval.fin 0) := by
      intro j
      rw [hP, getD_set_eq]
      by_cases hj : j = l
      · rw [if_pos ⟨hj, by rw [hl1]; exact hl_lt⟩, if_pos hj]
      · rw [if_neg (fun x => hj x.1), if_neg hj]
    have hapget : ∀ j, st'.alias_probability.getD j (fval.fin 0) =
        if j = s then st.P.getD s (fval.fin 0)
        else st.alias_probability.getD j (fval.fin 0) := by
      intro j
      rw [hap, getD_set_eq]
      by_cases hj : j = s
      · rw [if_pos ⟨hj, by rw [hl3]; exact hs_lt⟩, if_pos hj]
      · rw [if_neg (fun x => hj x.1), if_neg hj]
    have hatget : ∀ j, st'.alias_table.getD j 0 =
        if j = s then l else st.alias_table.getD j 0 := by
      intro j
      rw [hat, getD_set_eq]
      by_cases hj : j = s
      · rw [if_pos ⟨hj, by rw [hl2]; exact hs_lt⟩, if_pos hj]
      · rw [if_neg (fun x => hj x.1), if_neg hj]
    refine ⟨⟨?_, ?_, ?_⟩, hndn, ?_, ?_, ?_, ?_, ?_⟩
    · rw [hP, List.length_set]; exact hl1
    · rw [hat, List.length_set]; exact hl2
    · rw [hap, List.length_set]; exact hl3
    · intro u hu
      exact hlt u (by
        have := (hU' u).mp hu
        simp only [List.cons_append, List.mem_cons]
        exact Or.inr this)
    · by_cases hkl : k = l
      · have hsk : is_sink pl := by
          rw [← hpl, ← hkl]
          exact is_sink_sub hkS _
        refine ⟨(hL' k).mpr (Or.inr ⟨hkl, ?_⟩), ?_⟩
        · rw [is_sink_not_lt hsk]
          simp
        · rw [hPget, if_pos hkl]
          exact hsk
      · have hkls : k ∈ ls := by
          rcases List.mem_cons.mp hkL with h | h
          · exact absurd h hkl
          · exact h
        refine ⟨(hL' k).mpr (Or.inl hkls), ?_⟩
        rw [hPget, if_neg hkl]
        exact hkS
    · intro x hx
      rcases (hS' x).mp hx with h | ⟨h1, h2⟩
      · have hxl : x ≠ l := fun e => hl_notin (by rw [← e]; simp [h])
        rw [hPget, if_neg hxl]
        exact hsm x (List.mem_cons_of_mem _ h)
      · rw [hPget, if_pos h1]
        exact h2
    · rcases hz with ⟨hd, hp0⟩ | ⟨hd, hp0⟩
      · rw [hS] at hd
        rcases List.mem_cons.mp hd with hd | hd
        · right
          refine ⟨fun x => hs_notin (by rw [← hd]; exact (hU' d).mp x), ?_⟩
          rw [hapget, if_pos hd, ← hd]
          exact hp0
        · left
          refine ⟨(hS' d).mpr (Or.inl hd), ?_⟩
          rw [hPget, if_neg hdl]
          exact hp0
      · right
        have hds : d ≠ s := fun e => hd ((hUold d).mpr (Or.inl e))
        refine ⟨fun x => hd ((hUold d).mpr (Or.inr ((hU' d).mp x))), ?_⟩
        rw [hapget, if_neg hds]
        exact hp0
    · intro j hj hjn
      rw [hatget, hapget]
      by_cases hjs : j = s
      · rw [if_pos hjs, if_pos hjs]
        exact ⟨hsm s (List.mem_cons_self _ _), fun e => hdl e.symm⟩
      · rw [if_neg hjs, if_neg hjs]
        apply hp j hj
        intro x
        rcases (hUold j).mp x with h | h
        · exact hjs h
        · exact hjn ((hU' j).mpr h)
  unfold alias_pair_round
  simp only []
  rw [hpl]
  by_cases hlt1 : pl.lt (fval.fin 1) = true
  · rw [if_pos hlt1]
    apply key _ rfl rfl rfl
    · intro u
      simp only [List.mem_cons]
      constructor
      · rintro (h | h)
        · exact Or.inr ⟨h, hlt1⟩
        · exact Or.inl h
      · rintro (h | ⟨h, _⟩)
        · exact Or.inr h
        · exact Or.inl h
    · intro u
      simp only []
      constructor
      · intro h
        exact Or.inl h
      · rintro (h | ⟨_, h⟩)
        · exact h
        · exact absurd hlt1 h
    · simp only [List.cons_append]
      exact hnd3
  · rw [if_neg hlt1]
    apply key _ rfl rfl rfl
    · intro u
      simp only []
      constructor
      · intro h
        exact Or.inl h
      · rintro (h | ⟨_, h⟩)
        · exact h
        · exact absurd h hlt1
    · intro u
      simp only [List.mem_cons]
      constructor
      · rintro (h | h)
        · exact Or.inr ⟨h, hlt1⟩
        · exact Or.inl h
      · rintro (h | ⟨h, _⟩)
        · exact Or.inr h
        · exact Or.inl h
    · exact hnd2

/-- With a NaN or an infinity on `Large` the pairing loop runs until `Small` is empty,
within the rounds that the fuel allows. -/
theorem alias_pair_loop_sink (n d k : Nat) :
    ∀ (fuel : Nat) (st : alias_state), alias_sink_inv n d k st →
      st.Small.length + st.Large.length ≤ fuel + 1 →
      alias_sink_inv n d k (alias_pair_loop fuel st) ∧ (alias_pair_loop fuel st).Small = [] := by
  intro fuel
  induction fuel with
  | zero =>
    intro st h hf
    have hL : 0 < st.Large.length := List.length_pos_of_mem h.sink.1
    have hS : st.Small = [] := List.length_eq_zero.mp (by omega)
    exact ⟨h, hS⟩
  | succ fuel ih =>
    intro st h hf
    cases hS : st.Small with
    | nil =>
      rw [alias_pair_loop_small_nil _ _ hS]
      exact ⟨h, hS⟩
    | cons s ss =>
      cases hL : st.Large with
      | nil =>
        have := h.sink.1
        rw [hL] at this
        cases this
      | cons l ls =>
        rw [alias_pair_loop_succ fuel st s l ss ls hS hL]
        have hr := alias_sink_inv_round n d k st s l ss ls hS hL h
        have hlen : (alias_pair_round st s l ss ls).Small.length +
            (alias_pair_round st s l ss ls).Large.length ≤ fuel + 1 := by
          rw [hS, hL] at hf
          simp only [List.length_cons] at hf
          unfold alias_pair_round
          simp only []
          split
          · simp only [List.length_cons]
            omega
          · simp only [List.length_cons]
            omega
        exact ih _ hr hlen

theorem set_one_fold_fval (L : List Nat) :
    ∀ ap : List fval, (L.foldl (fun ap l => ap.set l (fval.fin 1)) ap).length = ap.length ∧
      ∀ k, (L.foldl (fun ap l => ap.set l (fval.fin 1)) ap).getD k (fval.fin 0) =
        if k ∈ L ∧ k < ap.length then fval.fin 1 else ap.getD k (fval.fin 0) := by
  induction L with
  | nil =>
    intro ap
    exact ⟨rfl, fun k => by simp⟩
  | cons a t ih =>
    intro ap
    rw [List.foldl_cons]
    obtain ⟨h1, h2⟩ := ih (ap.set a (fval.fin 1))
    refine ⟨by rw [h1]; simp, ?_⟩
    intro k
    rw [h2 k, getD_set_eq]
    simp only [List.length_set, List.mem_cons]
    by_cases hk : k < ap.length
    · by_cases hka : k = a
      · subst hka
        simp [hk]
      · by_cases hkt : k ∈ t
        · simp [hk, hkt]
        · simp [hk, hka, hkt]
    · have : ¬ (k = a ∧ a < ap.length) := fun x => hk (by rw [x.1]; exact x.2)
      simp [hk, this]

/-- When some `P[k]` is NaN or plus infinity, an index `d` with `P[d] = 0` ends with
`alias_probability[d] = 0`; every other probability is 1 or is below 1 with an alias
other than `d`. -/
theorem alias_build_sink (P : List fval) (d k : Nat) (hd : d < P.length) (hk : k < P.length)
    (h0 : P.getD d (fval.fin 0) = fval.fin 0) (hsink : is_sink (P.getD k (fval.fin 0))) :
    (alias_build P).2.getD d (fval.fin 0) = fval.fin 0 ∧
    ∀ j, j < P.length →
      (alias_build P).2.getD j (fval.fin 0) = fval.fin 1 ∨
      (((alias_build P).2.getD j (fval.fin 0)).lt (fval.fin 1) = true ∧
        (alias_build P).1.getD j 0 ≠ d) := by
  obtain ⟨hperm, hc1, hc2⟩ := alias_partition_spec_fval P
  have hmem : ∀ u, u ∈ (alias_partition P).1 ++ (alias_partition P).2 ↔ u < P.length := by
    intro u
    rw [hperm.mem_iff, List.mem_range]
  have hinit : alias_sink_inv P.length d k
      { P := P
        Small := (alias_partition P).1
        Large := (alias_partition P).2
        alias_table := List.replicate P.length 0
        alias_probability := List.replicate P.length (fval.fin 0) } := by
    refine ⟨⟨rfl, by simp, by simp⟩, hperm.nodup_iff.mpr (List.nodup_range _), ?_, ⟨?_, hsink⟩,
      hc1, Or.inl ⟨?_, h0⟩, ?_⟩
    · intro u hu
      exact (hmem u).mp hu
    · rcases List.mem_append.mp ((hmem k).mpr hk) with h | h
      · have := hc1 k h
        rw [is_sink_not_lt hsink] at this
        cases this
      · exact h
    · rcases List.mem_append.mp ((hmem d).mpr hd) with h | h
      · exact h
      · have := hc2 d h
        rw [h0] at this
        simp [fval.lt] at this
    · intro j hj hjn
      exact absurd ((hmem j).mpr hj) hjn
  have hlen : (alias_partition P).1.length + (alias_partition P).2.length ≤ P.length + 1 := by
    have := hperm.length_eq
    simp only [List.length_append, List.length_range] at this
    omega
  obtain ⟨hinv, hSnil⟩ := alias_pair_loop_sink P.length d k P.length _ hinit hlen
  unfold alias_build
  generalize alias_pair_loop P.length
      { P := P
        Small := (alias_partition P).1
        Large := (alias_partition P).2
        alias_table := List.replicate P.length 0
        alias_probability := List.replicate P.length (fval.fin 0) } = st at hinv hSnil
  obtain ⟨⟨_, _, hl3⟩, _, _, _, _, hz, hp⟩ := hinv
  have hfin : ∀ j, j < P.length → (alias_finish st).2.getD j (fval.fin 0) =
      if j ∈ st.Large then fval.fin 1 else st.alias_probability.getD j (fval.fin 0) := by
    intro j hj
    unfold alias_finish
    simp only []
    rw [hSnil, List.foldl_nil, (set_one_fold_fval st.Large st.alias_probability).2 j, hl3]
    simp only [hj, and_true]
  have hat : (alias_finish st).1 = st.alias_table := rfl
  rw [hSnil, List.nil_append] at hz hp
  have hdU : d ∉ st.Large ∧ st.alias_probability.getD d (fval.fin 0) = fval.fin 0 := by
    rcases hz with ⟨hd', _⟩ | h
    · cases hd'
    · exact h
  refine ⟨?_, ?_⟩
  · rw [hfin d hd, if_neg hdU.1]
    exact hdU.2
  · intro j hj
    rw [hfin j hj, hat]
    by_cases hm : j ∈ st.Large
    · rw [if_pos hm]
      exact Or.inl rfl
    · rw [if_neg hm]
      exact Or.inr (hp j hj hm)

/-- C4: for every queue that contains an active seed, after `create_alias_table` every
disabled seed `d` has `alias_probability[d] = 0`, no entry `j` with
`alias_probability[j] < 1` has `alias_table[j] = d`, and `select_next_queue_entry`
does not return `d` for any bucket `s` and any draw `p` in `[0, 1)`. This holds for
every value of the weights, also when they or their sum are zero, infinite or NaN. -/
theorem create_alias_table_disabled_zero (c : afl_consts) (m : score_model) (afl : afl_state_t)
    (hact : ∃ i, i < afl.queue_buf.length ∧ (entry afl i).disabled = false)
    (d : Nat) (hd : d < afl.queue_buf.length) (hdis : (entry afl d).disabled = true) :
    (create_alias_table c m afl).alias_probability.getD d (fval.fin 0) = fval.fin 0 ∧
    (∀ j, j < afl.queue_buf.length →
      ((create_alias_table c m afl).alias_probability.getD j (fval.fin 0)).lt (fval.fin 1)
        = true →
      (create_alias_table c m afl).alias_table.getD j 0 ≠ d) ∧
    ∀ s p, s < afl.queue_buf.length → 0 ≤ p → p < 1 →
      select_next_queue_entry (create_alias_table c m afl) s p ≠ d := by
  have hlen := alias_P_length c m afl
  have h0 : (alias_P c m afl).getD d (fval.fin 0) = fval.fin 0 := by
    rw [alias_P_getD c m afl d hd, if_pos (by rw [(alias_weights_frame c m afl).2.2 d]; exact hdis)]
  have hat : (create_alias_table c m afl).alias_table = (alias_build (alias_P c m afl)).1 := rfl
  have hap : (create_alias_table c m afl).alias_probability =
      (alias_build (alias_P c m afl)).2 := rfl
  have hboth : (alias_build (alias_P c m afl)).2.getD d (fval.fin 0) = fval.fin 0 ∧
      ∀ j, j < afl.queue_buf.length →
        (∃ a : ℚ, 1 ≤ a ∧ (alias_build (alias_P c m afl)).2.getD j (fval.fin 0) = fval.fin a) ∨
        (((alias_build (alias_P c m afl)).2.getD j (fval.fin 0)).lt (fval.fin 1) = true ∧
          (alias_build (alias_P c m afl)).1.getD j 0 ≠ d) := by
    rcases alias_P_cases c m afl hact with ⟨l, hl, hge⟩ | ⟨k, hk, hsink⟩
    · have hll : l.length = afl.queue_buf.length := by
        rw [← hlen, hl, List.length_map]
      have h0l : l.getD d 0 = 0 := by
        rw [hl, getD_map_fin] at h0
        exact fval.fin.inj h0
      obtain ⟨h1, h2⟩ := alias_build_zero l (by rw [hll]; exact hge) d (by rw [hll]; exact hd) h0l
      rw [hl, alias_build_lift]
      simp only [getD_map_fin]
      refine ⟨by rw [h1], ?_⟩
      intro j hj
      by_cases hlt : (alias_build_rat l).2.getD j 0 < 1
      · right
        exact ⟨by rw [fval_lt_fin]; exact decide_eq_true hlt, h2 j (by rw [hll]; exact hj) hlt⟩
      · left
        exact ⟨_, not_lt.mp hlt, rfl⟩
    · obtain ⟨h1, h2⟩ := alias_build_sink (alias_P c m afl) d k (by rw [hlen]; exact hd)
        (by rw [hlen]; exact hk) h0 hsink
      refine ⟨h1, ?_⟩
      intro j hj
      rcases h2 j (by rw [hlen]; exact hj) with h | h
      · exact Or.inl ⟨1, le_refl _, h⟩
      · exact Or.inr h
  obtain ⟨h1, h2⟩ := hboth
  rw [hat, hap]
  refine ⟨h1, ?_, ?_⟩
  · intro j hj hlt
    rcases h2 j hj with ⟨a, ha, hja⟩ | ⟨_, hne⟩
    · rw [hja, fval_lt_fin] at hlt
      exact absurd (of_decide_eq_true hlt) (not_lt.mpr ha)
    · exact hne
  · intro s p hs hp0 hp1
    unfold select_next_queue_entry
    rw [hat, hap]
    split
    · next hlt =>
      intro hsd
      rw [hsd, h1, fval_lt_fin] at hlt
      exact absurd (of_decide_eq_true hlt) (not_lt.mpr hp0)
    · next hnlt =>
      rcases h2 s hs with ⟨a, ha, hsa⟩ | ⟨_, hne⟩
      · exfalso
        apply hnlt
        rw [hsa, fval_lt_fin]
        exact decide_eq_true (lt_of_lt_of_le hp1 ha)
      · exact hne

/-- Witness of C4: seed 0 of three is disabled, with finite weights in
`alias_disabled_state` and with NaN weights in `alias_nan_state`. -/
theorem create_alias_table_disabled_zero_witness :
    ((∃ i, i < alias_disabled_state.queue_buf.length ∧
        (entry alias_disabled_state i).disabled = false) ∧
      0 < alias_disabled_state.queue_buf.length ∧
      (entry alias_disabled_state 0).disabled = true) ∧
    ((create_alias_table demo_consts demo_model alias_disabled_state).alias_probability.getD 0
        (fval.fin 0) = fval.fin 0 ∧
      (∀ j, j < alias_disabled_state.queue_buf.length →
        ((create_alias_table demo_consts demo_model alias_disabled_state).alias_probability.getD
          j (fval.fin 0)).lt (fval.fin 1) = true →
        (create_alias_table demo_consts demo_model alias_disabled_state).alias_table.getD j 0
          ≠ 0) ∧
      ∀ s p, s < alias_disabled_state.queue_buf.length → 0 ≤ p → p < 1 →
        select_next_queue_entry
          (create_alias_table demo_consts demo_model alias_disabled_state) s p ≠ 0) ∧
    (create_alias_table demo_consts demo_model alias_disabled_state).alias_table = [1, 2, 0] ∧
    (create_alias_table demo_consts demo_model alias_disabled_state).alias_probability =
      [fval.fin 0, fval.fin 0, fval.fin 1] ∧
    alias_P demo_consts demo_model alias_nan_state = [fval.fin 0, fval.nan, fval.nan] ∧
    (create_alias_table demo_consts demo_model alias_nan_state).alias_table = [1, 0, 0] ∧
    (create_alias_table demo_consts demo_model alias_nan_state).alias_probability =
      [fval.fin 0, fval.fin 1, fval.fin 1] ∧
    ∀ s p, s < alias_nan_state.queue_buf.length → 0 ≤ p → p < 1 →
      select_next_queue_entry (create_alias_table demo_consts demo_model alias_nan_state) s p
        ≠ 0 :=
  ⟨⟨⟨1, by decide, by decide⟩, by decide, by decide⟩,
    create_alias_table_disabled_zero demo_consts demo_model alias_disabled_state
      ⟨1, by decide, by decide⟩ 0 (by decide) (by decide),
    by decide!, by decide!, by decide!, by decide!, by decide!,
    (create_alias_table_disabled_zero demo_consts demo_model alias_nan_state
      ⟨1, by decide, by decide⟩ 0 (by decide) (by decide)).2.2⟩

/-! ## Frontier bitmaps -/

theorem BITMAP_CHECK_lt {t : List Nat} {e : Nat} (h : BITMAP_CHECK t e = true) :
    e >>> 3 < t.length := by
  by_contra hlt
  unfold BITMAP_CHECK at h
  rw [List.getD_eq_getElem?_getD, List.getElem?_eq_none (Nat.le_of_not_lt hlt)] at h
  simp at h

theorem BITMAP_CLEAR_length (t : List Nat) (e : Nat) : (BITMAP_CLEAR t e).length = t.length := by
  simp [BITMAP_CLEAR]

theorem BITMAP_CHECK_CLEAR (t : List Nat) (e e' : Nat) (he : e >>> 3 < t.length) :
    BITMAP_CHECK (BITMAP_CLEAR t e) e' = (BITMAP_CHECK t e' && !decide (e' = e)) := by
  unfold BITMAP_CHECK BITMAP_CLEAR
  rw [getD_set_eq]
  have h7 : e' &&& 7 < 8 := by
    rw [and7]
    omega
  by_cases h3 : e' >>> 3 = e >>> 3
  · rw [if_pos ⟨h3, he⟩, testBit_clear_bit _ _ _ h7, h3]
    by_cases hb : e &&& 7 = e' &&& 7
    · have : e' = e := (edge_eq_iff e' e).mpr ⟨h3, hb.symm⟩
      simp [hb, this]
    · have : ¬ e' = e := fun x => hb (by rw [x])
      simp [hb, this]
  · rw [if_neg (fun x => h3 x.1)]
    have : ¬ e' = e := fun x => h3 (by rw [x])
    simp [this]

theorem countP_range_point (p p' : Nat → Bool) (n i : Nat) (hi : i < n)
    (h : ∀ j, j ≠ i → p' j = p j) :
    (List.range n).countP p' + (if p i = true then 1 else 0) =
      (List.range n).countP p + (if p' i = true then 1 else 0) := by
  rw [range_split n i hi]
  simp only [List.countP_append, List.countP_cons]
  have h1 : (List.range i).countP p' = (List.range i).countP p := by
    apply List.countP_congr
    intro x hx
    have : x ≠ i := by
      have := List.mem_range.mp hx
      omega
    rw [h x this]
  have h2 : (List.range' (i + 1) (n - (i + 1))).countP p' =
      (List.range' (i + 1) (n - (i + 1))).countP p := by
    apply List.countP_congr
    intro x hx
    have : x ≠ i := by
      have := List.mem_range'.mp hx
      omega
    rw [h x this]
  rw [h1, h2]
  omega

theorem bitmap_count_CLEAR (t : List Nat) (e : Nat) (h : BITMAP_CHECK t e = true) :
    bitmap_count (BITMAP_CLEAR t e) + 1 = bitmap_count t := by
  have he := BITMAP_CHECK_lt h
  unfold bitmap_count
  rw [BITMAP_CLEAR_length]
  have hlt : e < 8 * t.length := by
    rw [shr3] at he
    omega
  have := countP_range_point (fun x => BITMAP_CHECK t x)
    (fun x => BITMAP_CHECK (BITMAP_CLEAR t e) x) (8 * t.length) e hlt
    (by
      intro j hj
      simp only []
      rw [BITMAP_CHECK_CLEAR t e j he]
      simp [hj])
  simp only [] at this
  have h2 : BITMAP_CHECK (BITMAP_CLEAR t e) e = false := by
    rw [BITMAP_CHECK_CLEAR t e e he]
    simp
  rw [if_pos h, if_neg (by rw [h2]; simp)] at this
  omega

theorem set_cover_clear_fold_pos (edges : List Nat) :
    ∀ tn : List Nat × Nat,
      tn.2 ≤ (edges.foldl
        (fun tn e => if BITMAP_CHECK tn.1 e then (BITMAP_CLEAR tn.1 e, tn.2 + 1) else tn)
        tn).2 ∧
      ((∃ e, e ∈ edges ∧ BITMAP_CHECK tn.1 e = true) →
        tn.2 < (edges.foldl
          (fun tn e => if BITMAP_CHECK tn.1 e then (BITMAP_CLEAR tn.1 e, tn.2 + 1) else tn)
          tn).2) := by
  induction edges with
  | nil =>
    intro tn
    refine ⟨Nat.le_refl _, ?_⟩
    rintro ⟨e, he, _⟩
    cases he
  | cons x xs ih =>
    intro tn
    rw [List.foldl_cons]
    by_cases hx : BITMAP_CHECK tn.1 x = true
    · rw [if_pos hx]
      have h := (ih (BITMAP_CLEAR tn.1 x, tn.2 + 1)).1
      simp only [] at h
      refine ⟨by omega, fun _ => by omega⟩
    · rw [if_neg hx]
      refine ⟨(ih tn).1, ?_⟩
      rintro ⟨e, he, hc⟩
      apply (ih tn).2
      rcases List.mem_cons.mp he with he | he
      · rw [he] at hc
        exact absurd hc hx
      · exact ⟨e, he, hc⟩

theorem set_cover_clear_pos (temp edges : List Nat)
    (h : ∃ e, e ∈ edges ∧ BITMAP_CHECK temp e = true) :
    (set_cover_clear temp edges).2 ≠ 0 := by
  have := (set_cover_clear_fold_pos edges (temp, 0)).2 h
  unfold set_cover_clear
  omega

theorem set_cover_gain_pos (temp : List Nat) (q : queue_entry) :
    0 < set_cover_gain temp q ↔ ∃ e, e ∈ covered_edges q ∧ BITMAP_CHECK temp e = true := by
  unfold set_cover_gain
  rw [List.countP_pos_iff]

theorem getD_mem_of_lt (l : List Nat) (i : Nat) (hi : i < l.length) : l.getD i 0 ∈ l := by
  rw [List.getD_eq_getElem?_getD, List.getElem?_eq_getElem hi]
  exact List.getElem_mem hi

theorem covered_edges_default : covered_edges (default : queue_entry) = [] := rfl

theorem entry_set_cover_init (afl : afl_state_t) (s : Nat) :
    entry (set_cover_init afl).afl s = { entry afl s with set_covered := false } := by
  unfold entry set_cover_init
  simp only [List.getD_eq_getElem?_getD, List.getElem?_map]
  cases afl.queue_buf[s]? with
  | none => rfl
  | some q => rfl

/-- C6 (evaluation at the failing input): with `set_favored_id = 0` from an earlier
round, seed 0 without frontier edges and seed 1 covering the frontier {3}, the cover
list is `[1]`, only seed 1 is marked `set_covered`, and `set_favored_id` is still 0. -/
theorem set_cover_reduction_final_keeps_set_favored_id :
    (set_cover_reduction_final demo_consts 0 stale_favored_state).map
        (fun r => (r.2, r.1.set_favored_id, r.1.queue_buf.map (fun q => (q.id, q.set_covered)))) =
      some ([1], 0, [(0, false), (1, true)]) := by
  decide

/-! ## The binary search `keep_index` -/

theorem getD_lt_of_pairwise {arr : List Nat} (hs : arr.Pairwise (fun a b => a < b))
    {x y : Nat} (hxy : x < y) (hy : y < arr.length) : arr.getD x 0 < arr.getD y 0 := by
  have hx : x < arr.length := by omega
  rw [List.getD_eq_getElem?_getD, List.getD_eq_getElem?_getD, List.getElem?_eq_getElem hx,
    List.getElem?_eq_getElem hy]
  exact List.pairwise_iff_getElem.mp hs x y hx hy hxy

theorem getD_le_of_pairwise {arr : List Nat} (hs : arr.Pairwise (fun a b => a < b))
    {x y : Nat} (hxy : x ≤ y) (hy : y < arr.length) : arr.getD x 0 ≤ arr.getD y 0 := by
  rcases Nat.lt_or_eq_of_le hxy with h | h
  · exact Nat.le_of_lt (getD_lt_of_pairwise hs h hy)
  · rw [h]

theorem shr1_bounds (lo hi : Nat) (h : lo < hi) :
    lo ≤ lo + ((hi - lo) >>> 1) ∧ lo + ((hi - lo) >>> 1) < hi := by
  rw [Nat.shiftRight_eq_div_pow]
  have : (hi - lo) / 2 ^ 1 = (hi - lo) / 2 := by norm_num
  rw [this]
  omega

/-- The loop of `keep_index` ends at the lower bound of `key` in an ascending array. -/
theorem keep_index_loop_spec (arr : List Nat) (key : Nat)
    (hs : arr.Pairwise (fun a b => a < b)) :
    ∀ (fuel lo hi : Nat), hi - lo ≤ fuel → lo ≤ hi → hi ≤ arr.length →
      (∀ x, x < lo → arr.getD x 0 < key) →
      (∀ x, hi ≤ x → x < arr.length → key ≤ arr.getD x 0) →
      keep_index_loop arr key fuel lo hi ≤ arr.length ∧
      (∀ x, x < keep_index_loop arr key fuel lo hi → arr.getD x 0 < key) ∧
      (∀ x, keep_index_loop arr key fuel lo hi ≤ x → x < arr.length → key ≤ arr.getD x 0) := by
  intro fuel
  induction fuel with
  | zero =>
    intro lo hi hf hle hn h1 h2
    have : lo = hi := by omega
    subst this
    exact ⟨hn, h1, h2⟩
  | succ fuel ih =>
    intro lo hi hf hle hn h1 h2
    rw [keep_index_loop]
    by_cases hlt : lo < hi
    · rw [if_pos hlt]
      simp only []
      obtain ⟨hm1, hm2⟩ := shr1_bounds lo hi hlt
      by_cases hc : arr.getD (lo + ((hi - lo) >>> 1)) 0 < key
      · rw [if_pos hc]
        apply ih _ _ (by omega) (by omega) hn _ h2
        intro x hx
        exact Nat.lt_of_le_of_lt (getD_le_of_pairwise hs (by omega) (by omega)) hc
      · rw [if_neg hc]
        apply ih _ _ (by omega) (by omega) (by omega) h1
        intro x hx hxn
        exact Nat.le_trans (Nat.le_of_not_lt hc) (getD_le_of_pairwise hs hx hxn)
    · rw [if_neg hlt]
      have : lo = hi := by omega
      subst this
      exact ⟨hn, h1, h2⟩

theorem u32_to_int_nonneg {x : Nat} (h : 0 ≤ u32_to_int x) :
    u32_to_int x = ((x % 2 ^ 32 : Nat) : Int) ∧ (u32_to_int x).toNat ≤ x := by
  unfold u32_to_int at h ⊢
  by_cases hc : x % 2 ^ 32 < 2 ^ 31
  · rw [if_pos hc]
    refine ⟨rfl, ?_⟩
    rw [Int.toNat_ofNat]
    exact Nat.mod_le _ _
  · rw [if_neg hc] at h
    have : (x % 2 ^ 32 : Nat) < 2 ^ 32 := Nat.mod_lt _ (by norm_num)
    omega

theorem u32_to_int_small {x : Nat} (h : x < 2 ^ 31) : u32_to_int x = (x : Int) := by
  unfold u32_to_int
  have h1 : x % 2 ^ 32 = x := Nat.mod_eq_of_lt (by omega)
  rw [h1, if_pos h]

/-- A position returned by `keep_index` holds the key. -/
theorem keep_index_nonneg {arr : List Nat} {n key : Nat} (h : 0 ≤ keep_index arr n key) :
    (keep_index arr n key).toNat < n ∧
      ∃ lo, lo < n ∧ arr.getD lo 0 = key ∧ keep_index arr n key = u32_to_int lo := by
  unfold keep_index at h ⊢
  simp only [] at h ⊢
  by_cases hc : keep_index_loop arr key n 0 n < n ∧
      arr.getD (keep_index_loop arr key n 0 n) 0 = key
  · rw [if_pos hc] at h ⊢
    have := (u32_to_int_nonneg h).2
    exact ⟨by omega, _, hc.1, hc.2, rfl⟩
  · rw [if_neg hc] at h
    omega

/-- In an ascending array of fewer than `2^31` hashes `keep_index` finds every key
of the array, at the position of the key. -/
theorem keep_index_found {arr : List Nat} {key : Nat}
    (hs : arr.Pairwise (fun a b => a < b)) (hn : arr.length < 2 ^ 31) (hk : key ∈ arr) :
    ∃ lo, lo < arr.length ∧ arr.getD lo 0 = key ∧ keep_index arr arr.length key = (lo : Int) := by
  obtain ⟨h0, h1, h2⟩ := keep_index_loop_spec arr key hs arr.length 0 arr.length
    (by omega) (Nat.zero_le _) (Nat.le_refl _) (fun x hx => by omega)
    (fun x hx hxn => by omega)
  obtain ⟨x, hx, hxe⟩ := List.mem_iff_getElem.mp hk
  have hxD : arr.getD x 0 = key := by
    rw [List.getD_eq_getElem?_getD, List.getElem?_eq_getElem hx]
    exact hxe
  generalize hr : keep_index_loop arr key arr.length 0 arr.length = r at *
  have hrx : r ≤ x := by
    by_contra hc
    have := h1 x (by omega)
    omega
  have hrn : r < arr.length := by omega
  have hre : arr.getD r 0 = key := by
    have a1 := h2 r (Nat.le_refl _) hrn
    have a2 := getD_le_of_pairwise hs hrx hx
    omega
  refine ⟨r, hrn, hre, ?_⟩
  unfold keep_index
  simp only []
  rw [hr, if_pos ⟨hrn, hre⟩]
  exact u32_to_int_small (by omega)

/-! ## The entry loop of `apply_filter_to_snapshot` -/

theorem getD_ne_of_nodup {l : List Nat} (hnd : l.Nodup) {i k : Nat} (hi : i < l.length)
    (hk : k < l.length) (hik : i ≠ k) : l.getD i 0 ≠ l.getD k 0 := by
  rw [List.getD_eq_getElem?_getD, List.getD_eq_getElem?_getD, List.getElem?_eq_getElem hi,
    List.getElem?_eq_getElem hk]
  intro h
  exact hik ((List.Nodup.getElem_inj_iff hnd).mp h)

theorem entry_disabled_set (afl : afl_state_t) (q s : Nat) (b : Bool)
    (hq : q < afl.queue_buf.length) :
    (entry (set_entry afl q { entry afl q with disabled := b }) s).disabled =
      if s = q then b else (entry afl s).disabled := by
  rw [entry_set_entry]
  by_cases h : s = q
  · rw [if_pos ⟨h, hq⟩, if_pos h]
  · rw [if_neg (fun hc => h hc.1), if_neg h]

theorem apply_filter_entry_inv (afl0 : afl_state_t) (snap : cmin_snapshot_t)
    (keep : List Nat) (keep_n : Nat) (hwf : snapshot_wf afl0 snap) (k : Nat)
    (hk : k < snap.count) (v : apply_filter_vars)
    (hinv : apply_filter_inv afl0 snap keep keep_n k v) :
    apply_filter_inv afl0 snap keep keep_n (k + 1) (apply_filter_entry snap keep keep_n v k) := by
  obtain ⟨hel, _, hnd, hbd⟩ := hwf
  have hkl : k < snap.entries.length := by omega
  have hq : snap.entries.getD k 0 < v.afl.queue_buf.length := by
    rw [hinv.len]
    apply hbd
    rw [List.getD_eq_getElem?_getD, List.getElem?_eq_getElem hkl]
    exact List.getElem_mem hkl
  have hold : ∀ (b : Bool) (i : Nat), i < k →
      (entry (set_entry v.afl (snap.entries.getD k 0)
        { entry v.afl (snap.entries.getD k 0) with disabled := b })
        (snap.entries.getD i 0)).disabled = (entry v.afl (snap.entries.getD i 0)).disabled := by
    intro b i hi
    rw [entry_disabled_set _ _ _ _ hq,
      if_neg (getD_ne_of_nodup hnd (by omega) hkl (by omega))]
  have hnew : ∀ (b : Bool),
      (entry (set_entry v.afl (snap.entries.getD k 0)
        { entry v.afl (snap.entries.getD k 0) with disabled := b })
        (snap.entries.getD k 0)).disabled = b := by
    intro b
    rw [entry_disabled_set _ _ _ _ hq, if_pos rfl]
  -- the `else` branch, when the hash is not found at a free slot
  have hdis : (v.keep_used = none ∨ ∃ ku, v.keep_used = some ku ∧
        ¬ (0 ≤ keep_index keep keep_n (snap.hashes.getD k 0) ∧
          ku.getD (keep_index keep keep_n (snap.hashes.getD k 0)).toNat 0 = 0)) →
      apply_filter_inv afl0 snap keep keep_n (k + 1)
        (apply_filter_disable v (snap.entries.getD k 0)) := by
    intro hcase
    have hnot : ¬ (0 ≤ keep_index keep keep_n (snap.hashes.getD k 0) ∧
        ∀ j, j < k → keep_index keep keep_n (snap.hashes.getD j 0) ≠
          keep_index keep keep_n (snap.hashes.getD k 0)) := by
      rintro ⟨h0, hall⟩
      have hlt := (keep_index_nonneg h0).1
      rcases hcase with hnone | ⟨ku, hku, hn⟩
      · have := hinv.used_none hnone
        omega
      · apply hn
        refine ⟨h0, ?_⟩
        rw [hinv.used_some ku hku _ hlt, Int.toNat_of_nonneg h0]
        exact hall
    constructor
    · exact (length_set_entry _ _ _).trans hinv.len
    · exact hinv.used_none
    · exact hinv.used_len
    · intro ku hku x hx
      have hku' : v.keep_used = some ku := hku
      rw [hinv.used_some ku hku' x hx]
      constructor
      · intro h j hj
        rcases Nat.lt_or_eq_of_le (Nat.lt_succ_iff.mp hj) with hj | hj
        · exact h j hj
        · rw [hj]
          intro he
          apply hnot
          refine ⟨by rw [he]; exact Int.ofNat_nonneg _, ?_⟩
          rw [he]
          exact h
      · intro h j hj
        exact h j (by omega)
    · intro i hi
      rcases Nat.lt_or_eq_of_le (Nat.lt_succ_iff.mp hi) with hi | hi
      · exact (iff_of_eq (congrArg (fun b => b = false) (hold true i hi))).trans (hinv.act i hi)
      · rw [hi]
        constructor
        · intro h
          have h2 := hnew true
          have h3 : (entry (apply_filter_disable v (snap.entries.getD k 0)).afl
            (snap.entries.getD k 0)).disabled = true := h2
          rw [h3] at h
          cases h
        · intro h
          exact absurd h hnot
  unfold apply_filter_entry
  simp only []
  cases hku : v.keep_used with
  | none =>
    simp only []
    exact hdis (Or.inl hku)
  | some ku =>
    simp only []
    by_cases hc : 0 ≤ keep_index keep keep_n (snap.hashes.getD k 0) ∧
        ku.getD (keep_index keep keep_n (snap.hashes.getD k 0)).toNat 0 = 0
    · rw [if_pos hc]
      obtain ⟨h0, hfree⟩ := hc
      have hlt := (keep_index_nonneg h0).1
      have hall := (hinv.used_some ku hku _ hlt).mp hfree
      rw [Int.toNat_of_nonneg h0] at hall
      constructor
      · exact (length_set_entry _ _ _).trans hinv.len
      · intro h
        cases h
      · intro ku' hku'
        have hk2 : ku.set (keep_index keep keep_n (snap.hashes.getD k 0)).toNat 1 = ku' :=
          Option.some.inj hku'
        rw [← hk2, List.length_set]
        exact hinv.used_len ku hku
      · intro ku' hku' x hx
        have hk2 : ku.set (keep_index keep keep_n (snap.hashes.getD k 0)).toNat 1 = ku' :=
          Option.some.inj hku'
        rw [← hk2, List.getD_eq_getElem?_getD, List.getElem?_set]
        by_cases hx2 : (keep_index keep keep_n (snap.hashes.getD k 0)).toNat = x
        · have hxl : (keep_index keep keep_n (snap.hashes.getD k 0)).toNat < ku.length := by
            rw [hinv.used_len ku hku]
            exact hlt
          rw [if_pos hx2, if_pos hxl]
          constructor
          · intro h
            cases h
          · intro h
            exfalso
            apply h k (Nat.lt_succ_self k)
            rw [← hx2]
            exact (Int.toNat_of_nonneg h0).symm
        · rw [if_neg hx2, ← List.getD_eq_getElem?_getD, hinv.used_some ku hku x hx]
          constructor
          · intro h j hj
            rcases Nat.lt_or_eq_of_le (Nat.lt_succ_iff.mp hj) with hj | hj
            · exact h j hj
            · rw [hj]
              intro he
              apply hx2
              rw [he]
              rfl
          · intro h j hj
            exact h j (by omega)
      · intro i hi
        rcases Nat.lt_or_eq_of_le (Nat.lt_succ_iff.mp hi) with hi | hi
        · exact (iff_of_eq (congrArg (fun b => b = false) (hold false i hi))).trans
            (hinv.act i hi)
        · rw [hi]
          constructor
          · intro _
            exact ⟨h0, hall⟩
          · intro _
            exact hnew false
    · rw [if_neg hc]
      exact hdis (Or.inr ⟨ku, hku, hc⟩)

theorem apply_filter_loop_inv (afl0 : afl_state_t) (snap : cmin_snapshot_t)
    (keep : List Nat) (keep_n : Nat) (hwf : snapshot_wf afl0 snap) :
    ∀ k, k ≤ snap.count →
      apply_filter_inv afl0 snap keep keep_n k
        ((List.range k).foldl (apply_filter_entry snap keep keep_n)
          { afl := afl0
            keep_used := if keep_n ≠ 0 then some (List.replicate keep_n 0) else none
            kept := 0
            disabled := 0 }) := by
  intro k
  induction k with
  | zero =>
    intro _
    constructor
    · rfl
    · intro h
      by_contra hn
      have h2 : (if keep_n ≠ 0 then some (List.replicate keep_n 0) else none) = none := h
      rw [if_pos hn] at h2
      cases h2
    · intro ku hku
      have h2 : (if keep_n ≠ 0 then some (List.replicate keep_n 0) else none) = some ku := hku
      by_cases hn : keep_n ≠ 0
      · rw [if_pos hn] at h2
        rw [← Option.some.inj h2, List.length_replicate]
      · rw [if_neg hn] at h2
        cases h2
    · intro ku hku x hx
      have h2 : (if keep_n ≠ 0 then some (List.replicate keep_n 0) else none) = some ku := hku
      by_cases hn : keep_n ≠ 0
      · rw [if_pos hn] at h2
        rw [← Option.some.inj h2]
        constructor
        · intro _ j hj
          omega
        · intro _
          rw [List.getD_eq_getElem?_getD, List.getElem?_replicate, if_pos hx]
          rfl
      · rw [if_neg hn] at h2
        cases h2
    · intro i hi
      omega
  | succ k ih =>
    intro hk
    rw [List.range_succ, List.foldl_append]
    exact apply_filter_entry_inv afl0 snap keep keep_n hwf k (by omega) _ (ih (by omega))

/-- After `apply_filter_to_snapshot`, a snapshot entry is active exactly when
`keep_index` found its hash at a slot that it found for no earlier entry. -/
theorem apply_filter_to_snapshot_slots (cull : afl_state_t → afl_state_t)
    (hcull : ∀ a s, (entry (cull a) s).disabled = (entry a s).disabled)
    (afl : afl_state_t) (snap : cmin_snapshot_t) (keep : List Nat) (keep_n : Nat)
    (hwf : snapshot_wf afl snap) (i : Nat) (hi : i < snap.count) :
    (entry (apply_filter_to_snapshot cull afl snap keep keep_n)
        (snap.entries.getD i 0)).disabled = false ↔
      (0 ≤ keep_index keep keep_n (snap.hashes.getD i 0) ∧
        ∀ j, j < i → keep_index keep keep_n (snap.hashes.getD j 0) ≠
          keep_index keep keep_n (snap.hashes.getD i 0)) := by
  have hinv := apply_filter_loop_inv afl snap keep keep_n hwf snap.count (Nat.le_refl _)
  have hc : ¬ snap.count = 0 := by omega
  unfold apply_filter_to_snapshot
  rw [if_neg hc]
  simp only []
  refine Iff.trans (iff_of_eq (congrArg (fun b => b = false) ?_)) (hinv.act i hi)
  exact hcull _ _

/-- C7: after `apply_filter_to_snapshot`, two different entries of the snapshot with
the same content hash are not both active, for every snapshot of distinct queue
entries and every keep-set (`cull` stands for `cull_queue`, which leaves `disabled`
alone). -/
theorem apply_filter_to_snapshot_unique_hash (cull : afl_state_t → afl_state_t)
    (hcull : ∀ a s, (entry (cull a) s).disabled = (entry a s).disabled)
    (afl : afl_state_t) (snap : cmin_snapshot_t) (keep : List Nat)
    (hwf : snapshot_wf afl snap) (i j : Nat) (hi : i < snap.count) (hj : j < snap.count)
    (hij : i ≠ j) (hh : snap.hashes.getD i 0 = snap.hashes.getD j 0) :
    ¬ ((entry (apply_filter_to_snapshot cull afl snap keep keep.length)
          (snap.entries.getD i 0)).disabled = false ∧
        (entry (apply_filter_to_snapshot cull afl snap keep keep.length)
          (snap.entries.getD j 0)).disabled = false) := by
  rintro ⟨hai, haj⟩
  have h1 := (apply_filter_to_snapshot_slots cull hcull afl snap keep keep.length hwf i hi).mp hai
  have h2 := (apply_filter_to_snapshot_slots cull hcull afl snap keep keep.length hwf j hj).mp haj
  rcases Nat.lt_or_gt_of_ne hij with hlt | hlt
  · apply h2.2 i hlt
    rw [hh]
  · apply h1.2 j hlt
    rw [hh]

/-- An instance of C7: of the two seeds with contents aa (hash 11), positions 0 and 2
of the snapshot, not both are active after the keep-set {11, 33} is applied. -/
theorem apply_filter_to_snapshot_unique_hash_witness :
    ¬ ((entry (apply_filter_to_snapshot (fun a => a) cmin_demo_state cmin_demo_snapshot
          [11, 33] 2) 0).disabled = false ∧
        (entry (apply_filter_to_snapshot (fun a => a) cmin_demo_state cmin_demo_snapshot
          [11, 33] 2) 2).disabled = false) :=
  apply_filter_to_snapshot_unique_hash (fun a => a) (fun _ _ => rfl) cmin_demo_state
    cmin_demo_snapshot [11, 33] (by unfold snapshot_wf; decide) 0 2 (by decide) (by decide) (by decide) rfl

/-- C8: for a keep-set in ascending order without duplicates (fewer than `2^31`
hashes) and a snapshot of distinct queue entries, a snapshot entry is active after
`apply_filter_to_snapshot` if and only if its hash is in the keep-set and no earlier
snapshot entry has the same hash; otherwise it is disabled (`disabled` is a
boolean). -/
theorem apply_filter_to_snapshot_exact (cull : afl_state_t → afl_state_t)
    (hcull : ∀ a s, (entry (cull a) s).disabled = (entry a s).disabled)
    (afl : afl_state_t) (snap : cmin_snapshot_t) (keep : List Nat)
    (hwf : snapshot_wf afl snap) (hs : keep.Pairwise (fun a b => a < b))
    (hn : keep.length < 2 ^ 31) (i : Nat) (hi : i < snap.count) :
    ((entry (apply_filter_to_snapshot cull afl snap keep keep.length)
        (snap.entries.getD i 0)).disabled = false ↔
      (snap.hashes.getD i 0 ∈ keep ∧
        ∀ j, j < i → snap.hashes.getD j 0 ≠ snap.hashes.getD i 0)) ∧
    ((entry (apply_filter_to_snapshot cull afl snap keep keep.length)
        (snap.entries.getD i 0)).disabled = true ↔
      ¬ (snap.hashes.getD i 0 ∈ keep ∧
        ∀ j, j < i → snap.hashes.getD j 0 ≠ snap.hashes.getD i 0)) := by
  have key : ((entry (apply_filter_to_snapshot cull afl snap keep keep.length)
        (snap.entries.getD i 0)).disabled = false ↔
      (snap.hashes.getD i 0 ∈ keep ∧
        ∀ j, j < i → snap.hashes.getD j 0 ≠ snap.hashes.getD i 0)) := by
    rw [apply_filter_to_snapshot_slots cull hcull afl snap keep keep.length hwf i hi]
    constructor
    · rintro ⟨h0, hall⟩
      obtain ⟨_, lo, hlo, hkey, _⟩ := keep_index_nonneg h0
      refine ⟨?_, ?_⟩
      · rw [← hkey, List.getD_eq_getElem?_getD, List.getElem?_eq_getElem hlo]
        exact List.getElem_mem hlo
      · intro j hj he
        apply hall j hj
        rw [he]
    · rintro ⟨hmem, hall⟩
      obtain ⟨lo, hlo, hkey, hidx⟩ := keep_index_found hs hn hmem
      refine ⟨by rw [hidx]; exact Int.ofNat_nonneg _, ?_⟩
      intro j hj he
      have h0 : 0 ≤ keep_index keep keep.length (snap.hashes.getD j 0) := by
        rw [he, hidx]
        exact Int.ofNat_nonneg _
      obtain ⟨_, lo2, hlo2, hkey2, hidx2⟩ := keep_index_nonneg h0
      rw [u32_to_int_small (by omega)] at hidx2
      rw [hidx2, hidx] at he
      have : lo2 = lo := by omega
      apply hall j hj
      rw [← hkey2, ← hkey, this]
  refine ⟨key, ?_⟩
  rw [← key]
  cases (entry (apply_filter_to_snapshot cull afl snap keep keep.length)
    (snap.entries.getD i 0)).disabled <;> simp

/-- An instance of C8, the scenario of the spec: contents aa, bb, aa, cc (hashes 11,
22, 11, 33) with the keep-set {11, 33}. The second aa (position 2) follows the
theorem; seeds 0 and 3 end active, seeds 1 and 2 disabled, and `pending_not_fuzzed`
is 2. -/
theorem apply_filter_to_snapshot_exact_witness :
    (((entry (apply_filter_to_snapshot (fun a => a) cmin_demo_state cmin_demo_snapshot
          [11, 33] 2) 2).disabled = false ↔
        ((11 : Nat) ∈ [11, 33] ∧
          ∀ j, j < 2 → cmin_demo_snapshot.hashes.getD j 0 ≠ 11)) ∧
      ((entry (apply_filter_to_snapshot (fun a => a) cmin_demo_state cmin_demo_snapshot
          [11, 33] 2) 2).disabled = true ↔
        ¬ ((11 : Nat) ∈ [11, 33] ∧
          ∀ j, j < 2 → cmin_demo_snapshot.hashes.getD j 0 ≠ 11))) ∧
    (apply_filter_to_snapshot (fun a => a) cmin_demo_state cmin_demo_snapshot
        [11, 33] 2).queue_buf.map (fun q => q.disabled) = [false, true, true, false] ∧
    (apply_filter_to_snapshot (fun a => a) cmin_demo_state cmin_demo_snapshot
        [11, 33] 2).pending_not_fuzzed = 2 :=
  ⟨apply_filter_to_snapshot_exact (fun a => a) (fun _ _ => rfl) cmin_demo_state
      cmin_demo_snapshot [11, 33] (by unfold snapshot_wf; decide) (by decide) (by decide) 2
      (by decide),
    by decide, by decide⟩

/-! ## The redundancy pass of `cull_queue` -/

theorem cull_queue_runs (afl : afl_state_t) (hs : afl.score_changed = true)
    (hn : afl.non_instrumented_mode = false) (h : trace_mini_inv afl) :
    ∃ a, cull_queue_edges (List.range afl.map_size) (cull_queue_init afl) = some a ∧
      cull_queue afl = some { cull_mark_redundant a with reinit_table := true } := by
  obtain ⟨h1, h2, _, h4⟩ := cull_queue_init_inv afl h
  obtain ⟨a, ha, _, _, _⟩ := cull_queue_edges_steps (List.range afl.map_size)
    (cull_queue_init afl) (fun i hi => by rw [h4]; exact List.mem_range.mp hi) h1 h2
  refine ⟨a, ha, ?_⟩
  unfold cull_queue
  simp only [hs, hn, Bool.not_true, Bool.or_self, Bool.false_eq_true, if_false, ha]

theorem entry_mark_as_redundant (a : afl_state_t) (i : Nat) (st : Bool) (s : Nat) :
    entry (mark_as_redundant a i st) s =
      if s = i ∧ i < a.queue_buf.length then { entry a i with fs_redundant := st }
      else entry a s := by
  unfold mark_as_redundant
  by_cases h : st = (entry a i).fs_redundant
  · rw [if_pos h]
    split
    · next hc =>
      rw [hc.1, h]
    · rfl
  · rw [if_neg h]
    exact entry_set_entry a i s _

theorem length_mark_as_redundant (a : afl_state_t) (i : Nat) (st : Bool) :
    (mark_as_redundant a i st).queue_buf.length = a.queue_buf.length := by
  unfold mark_as_redundant
  split
  · rfl
  · exact length_set_entry a i _

/-- The redundancy pass over the first `k` entries: an active entry gets
`fs_redundant = !favored`, everything else is as before. -/
theorem cull_mark_redundant_fold (a : afl_state_t) :
    ∀ k, k ≤ a.queue_buf.length →
      ((List.range k).foldl
        (fun a i =>
          if !(entry a i).disabled then mark_as_redundant a i (!(entry a i).favored) else a)
        a).queue_buf.length = a.queue_buf.length ∧
      ∀ s, entry ((List.range k).foldl
        (fun a i =>
          if !(entry a i).disabled then mark_as_redundant a i (!(entry a i).favored) else a)
        a) s =
        if s < k ∧ (entry a s).disabled = false then
          { entry a s with fs_redundant := !(entry a s).favored }
        else entry a s := by
  intro k
  induction k with
  | zero =>
    intro _
    refine ⟨rfl, fun s => ?_⟩
    rw [if_neg (by omega)]
    rfl
  | succ k ih =>
    intro hk
    obtain ⟨hl, he⟩ := ih (by omega)
    rw [List.range_succ, List.foldl_append]
    simp only [List.foldl_cons, List.foldl_nil]
    generalize (List.range k).foldl
      (fun a i =>
        if !(entry a i).disabled then mark_as_redundant a i (!(entry a i).favored) else a)
      a = b at hl he
    have hk0 : entry b k = entry a k := by
      rw [he k, if_neg (by omega)]
    by_cases hd : (entry a k).disabled = false
    · have hc : (!(entry b k).disabled) = true := by rw [hk0, hd]; rfl
      rw [if_pos hc]
      refine ⟨(length_mark_as_redundant b k _).trans hl, fun s => ?_⟩
      rw [entry_mark_as_redundant, hk0]
      by_cases hsk : s = k
      · rw [if_pos ⟨hsk, by rw [hl]; omega⟩, hsk, if_pos ⟨by omega, hd⟩]
      · rw [if_neg (fun hc => hsk hc.1), he s]
        by_cases hlt : s < k
        · by_cases hds : (entry a s).disabled = false
          · rw [if_pos ⟨hlt, hds⟩, if_pos ⟨by omega, hds⟩]
          · rw [if_neg (fun hc => hds hc.2), if_neg (fun hc => hds hc.2)]
        · rw [if_neg (fun hc => hlt hc.1), if_neg (fun hc => by omega)]
    · have hc : ¬ (!(entry b k).disabled) = true := by
        rw [hk0]
        simpa using hd
      rw [if_neg hc]
      refine ⟨hl, fun s => ?_⟩
      rw [he s]
      by_cases hsk : s = k
      · rw [hsk, if_neg (by omega), if_neg (fun hc => hd hc.2)]
      · by_cases hlt : s < k
        · by_cases hds : (entry a s).disabled = false
          · rw [if_pos ⟨hlt, hds⟩, if_pos ⟨by omega, hds⟩]
          · rw [if_neg (fun hc => hds hc.2), if_neg (fun hc => hds hc.2)]
        · rw [if_neg (fun hc => hlt hc.1), if_neg (fun hc => by omega)]

theorem entry_cull_mark_redundant (a : afl_state_t) (s : Nat) :
    entry (cull_mark_redundant a) s =
      if s < a.queue_buf.length ∧ (entry a s).disabled = false then
        { entry a s with fs_redundant := !(entry a s).favored }
      else entry a s :=
  (cull_mark_redundant_fold a a.queue_buf.length (Nat.le_refl _)).2 s

theorem length_cull_mark_redundant (a : afl_state_t) :
    (cull_mark_redundant a).queue_buf.length = a.queue_buf.length :=
  (cull_mark_redundant_fold a a.queue_buf.length (Nat.le_refl _)).1

/-! ## What `cull_queue` leaves of `score_changed` -/

theorem cull_mark_favored_flags (a : afl_state_t) (t : Nat) :
    (cull_mark_favored a t).score_changed = a.score_changed ∧
    (cull_mark_favored a t).non_instrumented_mode = a.non_instrumented_mode := by
  unfold cull_mark_favored
  simp only []
  split
  · split
    · split
      · exact ⟨rfl, rfl⟩
      · exact ⟨rfl, rfl⟩
    · exact ⟨rfl, rfl⟩
  · exact ⟨rfl, rfl⟩

theorem cull_queue_edge_flags (a a' : afl_state_t) (i : Nat)
    (h : cull_queue_edge a i = some a') :
    a'.score_changed = a.score_changed ∧
    a'.non_instrumented_mode = a.non_instrumented_mode := by
  unfold cull_queue_edge at h
  split at h
  · split at h
    · split at h
      · split at h
        · rw [← Option.some.inj h]
          exact cull_mark_favored_flags _ _
        · split at h
          · rw [← Option.some.inj h]
            exact cull_mark_favored_flags _ _
          · cases h
      · cases h
    · rw [← Option.some.inj h]
      exact ⟨rfl, rfl⟩
  · rw [← Option.some.inj h]
    exact ⟨rfl, rfl⟩

theorem cull_queue_edges_flags (l : List Nat) :
    ∀ a a' : afl_state_t, cull_queue_edges l a = some a' →
      a'.score_changed = a.score_changed ∧
      a'.non_instrumented_mode = a.non_instrumented_mode := by
  induction l with
  | nil =>
    intro a a' h
    rw [← Option.some.inj h]
    exact ⟨rfl, rfl⟩
  | cons x xs ih =>
    intro a a' h
    rw [cull_queue_edges] at h
    cases h1 : cull_queue_edge a x with
    | none =>
      rw [h1] at h
      cases h
    | some b =>
      rw [h1] at h
      obtain ⟨e1, e2⟩ := cull_queue_edge_flags a b x h1
      obtain ⟨f1, f2⟩ := ih b a' h
      exact ⟨f1.trans e1, f2.trans e2⟩

theorem mark_as_redundant_flags (a : afl_state_t) (i : Nat) (st : Bool) :
    (mark_as_redundant a i st).score_changed = a.score_changed := by
  unfold mark_as_redundant
  split <;> rfl

theorem cull_mark_redundant_flags (a : afl_state_t) :
    (cull_mark_redundant a).score_changed = a.score_changed := by
  unfold cull_mark_redundant
  generalize List.range a.queue_buf.length = l
  induction l generalizing a with
  | nil => rfl
  | cons x xs ih =>
    rw [List.foldl_cons, ih]
    split
    · exact mark_as_redundant_flags a x _
    · rfl

/-- A call of `cull_queue` that runs and returns leaves `score_changed` cleared. -/
theorem cull_queue_clears_score_changed (afl afl' : afl_state_t)
    (hs : afl.score_changed = true) (hn : afl.non_instrumented_mode = false)
    (h : cull_queue afl = some afl') : afl'.score_changed = false := by
  unfold cull_queue at h
  simp only [hs, hn, Bool.not_true, Bool.or_self, Bool.false_eq_true, if_false] at h
  cases h1 : cull_queue_edges (List.range afl.map_size) (cull_queue_init afl) with
  | none =>
    rw [h1] at h
    cases h
  | some a =>
    rw [h1] at h
    rw [← Option.some.inj h]
    have := (cull_queue_edges_flags _ _ _ h1).1
    show (cull_mark_redundant a).score_changed = false
    rw [cull_mark_redundant_flags, this]
    rfl

theorem cull_queue_skip (afl : afl_state_t)
    (h : afl.score_changed = false ∨ afl.non_instrumented_mode = true) :
    cull_queue afl = some afl := by
  unfold cull_queue
  rcases h with h | h
  · rw [h]
    rfl
  · rw [h, Bool.or_true]
    rfl

/-- Once `cull_queue` has returned, a second call changes nothing. -/
theorem cull_queue_again (afl afl' : afl_state_t) (h : cull_queue afl = some afl') :
    cull_queue afl' = some afl' := by
  by_cases hs : afl.score_changed = true
  · by_cases hn : afl.non_instrumented_mode = false
    · exact cull_queue_skip afl' (Or.inl (cull_queue_clears_score_changed afl afl' hs hn h))
    · have hn' : afl.non_instrumented_mode = true := by simpa using hn
      have := cull_queue_skip afl (Or.inr hn')
      rw [this] at h
      rw [← Option.some.inj h]
      exact this
  · have hs' : afl.score_changed = false := by simpa using hs
    have := cull_queue_skip afl (Or.inl hs')
    rw [this] at h
    rw [← Option.some.inj h]
    exact this

/-- C11: a call of `cull_queue` that runs (`score_changed` set, instrumented mode; every
top-rated seed has its `trace_mini`) returns, and afterwards every seed that is not
disabled has `fs_redundant = !favored`. -/
theorem cull_queue_redundant_not_favored (afl : afl_state_t) (hs : afl.score_changed = true)
    (hn : afl.non_instrumented_mode = false) (h : trace_mini_inv afl) :
    ∃ afl', cull_queue afl = some afl' ∧
      ∀ s, s < afl'.queue_buf.length → (entry afl' s).disabled = false →
        (entry afl' s).fs_redundant = !(entry afl' s).favored := by
  obtain ⟨a, _, hq⟩ := cull_queue_runs afl hs hn h
  refine ⟨_, hq, ?_⟩
  intro s hlt hd
  have hlen : s < a.queue_buf.length := by
    have : (cull_mark_redundant a).queue_buf.length = a.queue_buf.length :=
      length_cull_mark_redundant a
    have h2 : s < (cull_mark_redundant a).queue_buf.length := hlt
    omega
  have he : entry { cull_mark_redundant a with reinit_table := true } s =
      entry (cull_mark_redundant a) s := rfl
  rw [he, entry_cull_mark_redundant] at hd ⊢
  by_cases hda : (entry a s).disabled = false
  · rw [if_pos ⟨hlen, hda⟩]
  · rw [if_neg (fun hc => hda hc.2)] at hd
    exact absurd hd hda

/-- Witness of C11 on the three-seed state. -/
theorem cull_queue_redundant_not_favored_witness :
    ∃ afl', cull_queue cull_demo_state = some afl' ∧
      ∀ s, s < afl'.queue_buf.length → (entry afl' s).disabled = false →
        (entry afl' s).fs_redundant = !(entry afl' s).favored :=
  cull_queue_redundant_not_favored cull_demo_state (by decide) (by decide)
    trace_mini_inv_cull_demo_state

/-- C20 (amended): a call of `cull_queue` that runs returns, and afterwards every seed
that is not disabled and is marked favored has `fs_redundant = false`. -/
theorem cull_queue_favored_not_redundant (afl : afl_state_t) (hs : afl.score_changed = true)
    (hn : afl.non_instrumented_mode = false) (h : trace_mini_inv afl) :
    ∃ afl', cull_queue afl = some afl' ∧
      ∀ s, s < afl'.queue_buf.length → (entry afl' s).disabled = false →
        (entry afl' s).favored = true → (entry afl' s).fs_redundant = false := by
  obtain ⟨a, _, hq⟩ := cull_queue_runs afl hs hn h
  refine ⟨_, hq, ?_⟩
  intro s hlt hd hf
  have hlen : s < a.queue_buf.length := by
    have : (cull_mark_redundant a).queue_buf.length = a.queue_buf.length :=
      length_cull_mark_redundant a
    have h2 : s < (cull_mark_redundant a).queue_buf.length := hlt
    omega
  have he : entry { cull_mark_redundant a with reinit_table := true } s =
      entry (cull_mark_redundant a) s := rfl
  rw [he, entry_cull_mark_redundant] at hd hf ⊢
  by_cases hda : (entry a s).disabled = false
  · rw [if_pos ⟨hlen, hda⟩] at hf ⊢
    have hf' : (entry a s).favored = true := hf
    show (!(entry a s).favored) = false
    rw [hf']
    rfl
  · rw [if_neg (fun hc => hda hc.2)] at hd
    exact absurd hd hda

/-- Witness of C20 (amended) on the state with a disabled holder. -/
theorem cull_queue_favored_not_redundant_witness :
    ∃ afl', cull_queue disabled_holder_state = some afl' ∧
      ∀ s, s < afl'.queue_buf.length → (entry afl' s).disabled = false →
        (entry afl' s).favored = true → (entry afl' s).fs_redundant = false :=
  cull_queue_favored_not_redundant disabled_holder_state (by decide) (by decide)
    (by
      intro e s he hs
      have hs' : (if e = 0 then some 0 else if e = 1 then some 1 else none) = some s := hs
      split at hs'
      · next h =>
        have h0 : s = 0 := (Option.some.inj hs').symm
        subst h0
        subst h
        decide
      · split at hs'
        · next h =>
          have h0 : s = 1 := (Option.some.inj hs').symm
          subst h0
          subst h
          decide
        · cases hs')

/-- C20 (as stated) fails for a disabled seed: seed 0 is disabled, was marked redundant
and holds edge 0; `cull_queue` marks it favored and the redundancy pass skips it, so
it ends disabled, favored and with `fs_redundant` set (the triples are `disabled`,
`favored`, `fs_redundant`). -/
theorem cull_queue_disabled_favored_redundant :
    (cull_queue disabled_holder_state).map
        (fun a => a.queue_buf.map (fun q => (q.disabled, q.favored, q.fs_redundant))) =
      some [(true, true, true), (false, true, false)] := by
  decide

/-- C13: `cull_queue` is idempotent. For every state, a second call directly after
the first leaves what the first call left; with `score_changed` clear the call changes
nothing; a call that runs clears `score_changed`; and where every top-rated seed has
its `trace_mini` both calls return. -/
theorem cull_queue_idempotent (afl : afl_state_t) :
    (cull_queue afl).bind cull_queue = cull_queue afl ∧
    (afl.score_changed = false → cull_queue afl = some afl) ∧
    (∀ afl', cull_queue afl = some afl' → afl.score_changed = true →
      afl.non_instrumented_mode = false → afl'.score_changed = false) ∧
    ((afl.score_changed = true → afl.non_instrumented_mode = false → trace_mini_inv afl) →
      ∃ afl', cull_queue afl = some afl' ∧ cull_queue afl' = some afl') := by
  refine ⟨?_, fun h => cull_queue_skip afl (Or.inl h), ?_, ?_⟩
  · cases h : cull_queue afl with
    | none => rfl
    | some a => exact cull_queue_again afl a h
  · intro afl' h hs hn
    exact cull_queue_clears_score_changed afl afl' hs hn h
  · intro h
    by_cases hs : afl.score_changed = true
    · by_cases hn : afl.non_instrumented_mode = false
      · obtain ⟨a, _, hq⟩ := cull_queue_runs afl hs hn (h hs hn)
        exact ⟨_, hq, cull_queue_again afl _ hq⟩
      · have hn' : afl.non_instrumented_mode = true := by simpa using hn
        exact ⟨afl, cull_queue_skip afl (Or.inr hn'), cull_queue_skip afl (Or.inr hn')⟩
    · have hs' : afl.score_changed = false := by simpa using hs
      exact ⟨afl, cull_queue_skip afl (Or.inl hs'), cull_queue_skip afl (Or.inl hs')⟩

/-- An instance of C13: on the three-seed state both calls return and the second
changes nothing. -/
theorem cull_queue_idempotent_witness :
    ∃ afl', cull_queue cull_demo_state = some afl' ∧ cull_queue afl' = some afl' :=
  (cull_queue_idempotent cull_demo_state).2.2.2 (fun _ _ => trace_mini_inv_cull_demo_state)

/-- C14: the scenario "favored minimality". After the three seeds are scored in the
order 0, 1, 2 with traces {0,1}, {1,2}, {0,2} and `cull_queue` has run, exactly seeds 1
and 2 are favored (`queued_favored = 2`), seed 0 is not favored and has `fs_redundant`
set, and each of the edges 0, 1, 2 has its bit in the `trace_mini` of a favored seed
(edge 0 in seed 2, edge 1 in seed 1, edge 2 in both). -/
theorem cull_queue_favored_minimality :
    (cull_queue favored_demo_scored).map
        (fun a => (a.queue_buf.map (fun q => (q.favored, q.fs_redundant)), a.queued_favored)) =
      some ([(false, true), (true, false), (true, false)], 2) ∧
    (cull_queue favored_demo_scored).map
        (fun a => (List.range 3).map (fun e =>
          (List.range a.queue_buf.length).filter
            (fun f => (entry a f).favored && trace_mini_bit a f e))) =
      some [[2], [1], [1, 2]] := by
  decide

/-- The holder of a hit edge after the loop body: the seed, when it is not beaten by
the previous holder on either key, and the previous holder otherwise. -/
theorem top_rated_edge_value (c : afl_consts) (qi p f : Nat) (afl : afl_state_t) (i : Nat)
    (ht : afl.trace_bits.getD i 0 ≠ 0) :
    ((∀ t, afl.top_rated i = some t →
        p ≤ fuzz_p2_of c afl (entry afl t) ∧ f ≤ fav_factor_of c afl (entry afl t)) →
      (update_bitmap_score_edge c qi p f afl i).top_rated i = some qi) ∧
    (¬ (∀ t, afl.top_rated i = some t →
        p ≤ fuzz_p2_of c afl (entry afl t) ∧ f ≤ fav_factor_of c afl (entry afl t)) →
      (update_bitmap_score_edge c qi p f afl i).top_rated i = afl.top_rated i) := by
  unfold update_bitmap_score_edge
  rw [if_pos ht]
  simp only []
  have hr := same_inputs_record_frontier c qi afl i
  rw [top_rated_record_frontier]
  cases hq : afl.top_rated i with
  | none =>
    simp only []
    refine ⟨fun _ => ?_, fun h => ?_⟩
    · rw [top_rated_install_top, if_pos rfl]
    · exfalso
      apply h
      intro t ht'
      cases ht'
  | some t =>
    simp only []
    rw [fuzz_p2_of_same c hr t, fav_factor_of_same c hr t]
    by_cases h1 : p > fuzz_p2_of c afl (entry afl t)
    · rw [if_pos h1, top_rated_record_frontier, hq]
      refine ⟨fun h => ?_, fun _ => rfl⟩
      have := (h t rfl).1
      omega
    · rw [if_neg h1]
      by_cases h2 : f > fav_factor_of c afl (entry afl t)
      · rw [if_pos h2, top_rated_record_frontier, hq]
        refine ⟨fun h => ?_, fun _ => rfl⟩
        have := (h t rfl).2
        omega
      · rw [if_neg h2, top_rated_install_top, if_pos rfl]
        refine ⟨fun _ => rfl, fun h => ?_⟩
        exfalso
        apply h
        intro t' ht'
        rw [← Option.some.inj ht']
        exact ⟨by omega, by omega⟩

theorem foldl_edge_skip (c : afl_consts) (qi p f : Nat) (afl : afl_state_t) (i : Nat)
    (ht : ¬ afl.trace_bits.getD i 0 ≠ 0) :
    update_bitmap_score_edge c qi p f afl i = afl := by
  unfold update_bitmap_score_edge
  rw [if_neg ht]

/-- The holder of every edge after `update_bitmap_score(q)`: `q` for a hit edge of the
map whose previous holder, if any, beats `q` on neither key; the previous holder
elsewhere. -/
theorem top_rated_update_bitmap_score (c : afl_consts) (afl : afl_state_t) (qi e : Nat) :
    ((e < afl.map_size ∧ afl.trace_bits.getD e 0 ≠ 0 ∧
        ∀ t, afl.top_rated e = some t →
          fuzz_p2_of c afl (entry afl qi) ≤ fuzz_p2_of c afl (entry afl t) ∧
          fav_factor_of c afl (entry afl qi) ≤ fav_factor_of c afl (entry afl t)) →
      (update_bitmap_score c afl qi).top_rated e = some qi) ∧
    (¬ (e < afl.map_size ∧ afl.trace_bits.getD e 0 ≠ 0 ∧
        ∀ t, afl.top_rated e = some t →
          fuzz_p2_of c afl (entry afl qi) ≤ fuzz_p2_of c afl (entry afl t) ∧
          fav_factor_of c afl (entry afl qi) ≤ fav_factor_of c afl (entry afl t)) →
      (update_bitmap_score c afl qi).top_rated e = afl.top_rated e) := by
  unfold update_bitmap_score
  simp only []
  have h0 : same_inputs (reset_frontier_list afl qi) afl := same_inputs_reset_frontier_list afl qi
  have ht0 : (reset_frontier_list afl qi).top_rated = afl.top_rated :=
    top_rated_reset_frontier_list afl qi
  generalize reset_frontier_list afl qi = afl0 at h0 ht0
  by_cases he : e < afl.map_size
  · rw [range_split afl.map_size e he, List.foldl_append, List.foldl_cons]
    generalize hA : (List.range e).foldl
      (update_bitmap_score_edge c qi (fuzz_p2_of c afl (entry afl qi))
        (fav_factor_of c afl (entry afl qi))) afl0 = A
    have hAs : same_inputs A afl := by
      rw [← hA]
      exact same_inputs_trans (same_inputs_foldl _ _ _ _ _ _) h0
    have hAt : A.top_rated e = afl.top_rated e := by
      rw [← hA, top_rated_foldl_other _ _ _ _ _ _ e (by simp), ht0]
    rw [top_rated_foldl_other _ _ _ _ _ _ e
      (by simp only [List.mem_range']; rintro ⟨x, _, hx⟩; omega)]
    by_cases ht : afl.trace_bits.getD e 0 ≠ 0
    · have hAtr : A.trace_bits.getD e 0 ≠ 0 := by
        rw [hAs.2.2.2.2.1]
        exact ht
      obtain ⟨v1, v2⟩ := top_rated_edge_value c qi (fuzz_p2_of c afl (entry afl qi))
        (fav_factor_of c afl (entry afl qi)) A e hAtr
      have hiff : (∀ t, A.top_rated e = some t →
            fuzz_p2_of c afl (entry afl qi) ≤ fuzz_p2_of c A (entry A t) ∧
            fav_factor_of c afl (entry afl qi) ≤ fav_factor_of c A (entry A t)) ↔
          (∀ t, afl.top_rated e = some t →
            fuzz_p2_of c afl (entry afl qi) ≤ fuzz_p2_of c afl (entry afl t) ∧
            fav_factor_of c afl (entry afl qi) ≤ fav_factor_of c afl (entry afl t)) := by
        rw [hAt]
        constructor
        · intro h t htt
          have := h t htt
          rw [fuzz_p2_of_same c hAs t, fav_factor_of_same c hAs t] at this
          exact this
        · intro h t htt
          have := h t htt
          rw [fuzz_p2_of_same c hAs t, fav_factor_of_same c hAs t]
          exact this
      refine ⟨fun h => v1 (hiff.mpr h.2.2), fun h => ?_⟩
      rw [v2 (fun hc => h ⟨he, ht, hiff.mp hc⟩), hAt]
    · have hAtr : ¬ A.trace_bits.getD e 0 ≠ 0 := by
        rw [hAs.2.2.2.2.1]
        exact ht
      rw [foldl_edge_skip c qi _ _ A e hAtr, hAt]
      exact ⟨fun h => absurd h.2.1 ht, fun _ => rfl⟩
  · rw [top_rated_foldl_other _ _ _ _ _ _ e (by simpa using he), ht0]
    exact ⟨fun h => absurd h.1 he, fun _ => rfl⟩

theorem same_inputs_update_bitmap_score (c : afl_consts) (afl : afl_state_t) (qi : Nat) :
    same_inputs (update_bitmap_score c afl qi) afl := by
  unfold update_bitmap_score
  simp only []
  exact same_inputs_trans (same_inputs_foldl _ _ _ _ _ _) (same_inputs_reset_frontier_list afl qi)

theorem keys_score_seed (c : afl_consts) (afl : afl_state_t) (tr : List Nat) (q s : Nat) :
    fuzz_p2_of c (score_seed c afl tr q) (entry (score_seed c afl tr q) s) =
      fuzz_p2_of c afl (entry afl s) ∧
    fav_factor_of c (score_seed c afl tr q) (entry (score_seed c afl tr q) s) =
      fav_factor_of c afl (entry afl s) := by
  have h := same_inputs_update_bitmap_score c { afl with trace_bits := tr } q
  exact ⟨fuzz_p2_of_same c h s, fav_factor_of_same c h s⟩

theorem top_rated_score_seed_win (c : afl_consts) (afl : afl_state_t) (tr : List Nat)
    (q e : Nat) (he : e < afl.map_size) (ht : tr.getD e 0 ≠ 0)
    (hw : ∀ t, afl.top_rated e = some t →
      fuzz_p2_of c afl (entry afl q) ≤ fuzz_p2_of c afl (entry afl t) ∧
      fav_factor_of c afl (entry afl q) ≤ fav_factor_of c afl (entry afl t)) :
    (score_seed c afl tr q).top_rated e = some q :=
  (top_rated_update_bitmap_score c { afl with trace_bits := tr } q e).1 ⟨he, ht, hw⟩

theorem top_rated_score_seed_lose (c : afl_consts) (afl : afl_state_t) (tr : List Nat)
    (q e t : Nat) (htop : afl.top_rated e = some t)
    (hl : ¬ (fuzz_p2_of c afl (entry afl q) ≤ fuzz_p2_of c afl (entry afl t) ∧
      fav_factor_of c afl (entry afl q) ≤ fav_factor_of c afl (entry afl t))) :
    (score_seed c afl tr q).top_rated e = some t := by
  have h := (top_rated_update_bitmap_score c { afl with trace_bits := tr } q e).2
    (fun hc => hl (hc.2.2 t htop))
  exact h.trans htop

theorem fav_factor_of_speed (c : afl_consts) (afl : afl_state_t) (q : queue_entry)
    (hs : afl.schedule < c.RARE) (hf : afl.fixed_seed = false) :
    fav_factor_of c afl q = (q.exec_us * q.len) % 2 ^ 64 := by
  unfold fav_factor_of
  rw [if_neg]
  rintro (h | h)
  · omega
  · rw [hf] at h
    cases h

theorem entry_key_score_seed (c : afl_consts) (afl : afl_state_t) (tr : List Nat) (q s : Nat) :
    entry_key (entry (score_seed c afl tr q) s) = entry_key (entry afl s) :=
  (same_inputs_update_bitmap_score c { afl with trace_bits := tr } q).2.2.2.2.2.2 s

theorem frame_score_seed (c : afl_consts) (afl : afl_state_t) (tr : List Nat) (q : Nat) :
    (score_seed c afl tr q).schedule = afl.schedule ∧
    (score_seed c afl tr q).fixed_seed = afl.fixed_seed ∧
    (score_seed c afl tr q).n_fuzz = afl.n_fuzz ∧
    (score_seed c afl tr q).map_size = afl.map_size ∧
    (score_seed c afl tr q).queue_buf.length = afl.queue_buf.length := by
  obtain ⟨h1, h2, h3, h4, _, h6, _⟩ :=
    same_inputs_update_bitmap_score c { afl with trace_bits := tr } q
  exact ⟨h1, h2, h3, h4, h6⟩

/-- C15 (amended): speed beats size. Under a schedule below RARE without a fixed seed, for two
seeds `a` and `b` of equal non-zero `len` and equal fuzz pressure, `a` with the
strictly smaller `exec_us` (products within `u64`), and an edge `e` hit by both
traces and held by neither a third seed: after `update_bitmap_score` has run for
both, in either order, `top_rated[e]` is `a`; and when `exec_us` of `b` has then
dropped below that of `a`, running `update_bitmap_score` for `b` again makes `b` the
holder. -/
theorem update_bitmap_score_speed_beats_size (c : afl_consts) (afl : afl_state_t)
    (a b e : Nat) (ta tb : List Nat)
    (hs : afl.schedule < c.RARE) (hf : afl.fixed_seed = false)
    (hp : fuzz_p2_of c afl (entry afl a) = fuzz_p2_of c afl (entry afl b))
    (hlen : (entry afl a).len = (entry afl b).len) (hpos : 0 < (entry afl a).len)
    (hfast : (entry afl a).exec_us < (entry afl b).exec_us)
    (hov : (entry afl b).exec_us * (entry afl b).len < 2 ^ 64)
    (he : e < afl.map_size) (hta : ta.getD e 0 ≠ 0) (htb : tb.getD e 0 ≠ 0)
    (hhold : afl.top_rated e = none ∨ afl.top_rated e = some a ∨ afl.top_rated e = some b) :
    (score_seed c (score_seed c afl ta a) tb b).top_rated e = some a ∧
    (score_seed c (score_seed c afl tb b) ta a).top_rated e = some a ∧
    ∀ x, x < (entry afl a).exec_us →
      (score_seed c
        (set_entry (score_seed c (score_seed c afl ta a) tb b) b
          { entry (score_seed c (score_seed c afl ta a) tb b) b with exec_us := x })
        tb b).top_rated e = some b := by
  have hFa : fav_factor_of c afl (entry afl a) = (entry afl a).exec_us * (entry afl a).len := by
    rw [fav_factor_of_speed c afl _ hs hf]
    apply Nat.mod_eq_of_lt
    have : (entry afl a).exec_us * (entry afl a).len ≤
        (entry afl b).exec_us * (entry afl b).len := by
      rw [hlen]
      exact Nat.mul_le_mul_right _ (Nat.le_of_lt hfast)
    omega
  have hFb : fav_factor_of c afl (entry afl b) = (entry afl b).exec_us * (entry afl b).len := by
    rw [fav_factor_of_speed c afl _ hs hf]
    exact Nat.mod_eq_of_lt hov
  have hlt : fav_factor_of c afl (entry afl a) < fav_factor_of c afl (entry afl b) := by
    rw [hFa, hFb, hlen]
    exact Nat.mul_lt_mul_of_pos_right hfast (by rw [← hlen]; exact hpos)
  have hab : a ≠ b := by
    intro h
    rw [h] at hfast
    omega
  -- `a` is not beaten by any of the possible holders
  have hwa : ∀ (S : afl_state_t),
      (∀ s, fuzz_p2_of c S (entry S s) = fuzz_p2_of c afl (entry afl s) ∧
        fav_factor_of c S (entry S s) = fav_factor_of c afl (entry afl s)) →
      (S.top_rated e = none ∨ S.top_rated e = some a ∨ S.top_rated e = some b) →
      ∀ t, S.top_rated e = some t →
        fuzz_p2_of c S (entry S a) ≤ fuzz_p2_of c S (entry S t) ∧
        fav_factor_of c S (entry S a) ≤ fav_factor_of c S (entry S t) := by
    intro S hk hh t ht
    rw [(hk a).1, (hk a).2, (hk t).1, (hk t).2]
    rcases hh with h | h | h
    · rw [h] at ht
      cases ht
    · rw [h] at ht
      rw [← Option.some.inj ht]
      exact ⟨Nat.le_refl _, Nat.le_refl _⟩
    · rw [h] at ht
      rw [← Option.some.inj ht]
      exact ⟨Nat.le_of_eq hp, Nat.le_of_lt hlt⟩
  have hk0 : ∀ s, fuzz_p2_of c afl (entry afl s) = fuzz_p2_of c afl (entry afl s) ∧
      fav_factor_of c afl (entry afl s) = fav_factor_of c afl (entry afl s) :=
    fun _ => ⟨rfl, rfl⟩
  -- order a, b
  have h1 : (score_seed c afl ta a).top_rated e = some a :=
    top_rated_score_seed_win c afl ta a e he hta (hwa afl hk0 hhold)
  have hk1 : ∀ s, fuzz_p2_of c (score_seed c afl ta a) (entry (score_seed c afl ta a) s) =
        fuzz_p2_of c afl (entry afl s) ∧
      fav_factor_of c (score_seed c afl ta a) (entry (score_seed c afl ta a) s) =
        fav_factor_of c afl (entry afl s) := fun s => keys_score_seed c afl ta a s
  have h2 : (score_seed c (score_seed c afl ta a) tb b).top_rated e = some a := by
    apply top_rated_score_seed_lose c _ tb b e a h1
    rw [(hk1 a).2, (hk1 b).2]
    intro hc
    omega
  -- order b, a
  have hk1' : ∀ s, fuzz_p2_of c (score_seed c afl tb b) (entry (score_seed c afl tb b) s) =
        fuzz_p2_of c afl (entry afl s) ∧
      fav_factor_of c (score_seed c afl tb b) (entry (score_seed c afl tb b) s) =
        fav_factor_of c afl (entry afl s) := fun s => keys_score_seed c afl tb b s
  have h1' : (score_seed c afl tb b).top_rated e = none ∨
      (score_seed c afl tb b).top_rated e = some a ∨
      (score_seed c afl tb b).top_rated e = some b := by
    rcases hhold with h | h | h
    · refine Or.inr (Or.inr (top_rated_score_seed_win c afl tb b e he htb ?_))
      intro t ht
      rw [h] at ht
      cases ht
    · refine Or.inr (Or.inl (top_rated_score_seed_lose c afl tb b e a h ?_))
      intro hc
      omega
    · refine Or.inr (Or.inr (top_rated_score_seed_win c afl tb b e he htb ?_))
      intro t ht
      rw [h] at ht
      rw [← Option.some.inj ht]
      exact ⟨Nat.le_refl _, Nat.le_refl _⟩
  have h2' : (score_seed c (score_seed c afl tb b) ta a).top_rated e = some a :=
    top_rated_score_seed_win c _ ta a e (by rw [(frame_score_seed c afl tb b).2.2.2.1]; exact he)
      hta (hwa _ hk1' h1')
  refine ⟨h2, h2', ?_⟩
  -- the re-run of b after its exec_us has dropped
  intro x hx
  generalize hS : score_seed c (score_seed c afl ta a) tb b = S at h2
  have hkey : ∀ s, entry_key (entry S s) = entry_key (entry afl s) := by
    intro s
    rw [← hS, entry_key_score_seed, entry_key_score_seed]
  have hfr : S.schedule = afl.schedule ∧ S.fixed_seed = afl.fixed_seed ∧
      S.n_fuzz = afl.n_fuzz ∧ S.map_size = afl.map_size ∧
      S.queue_buf.length = afl.queue_buf.length := by
    rw [← hS]
    obtain ⟨a1, a2, a3, a4, a5⟩ := frame_score_seed c (score_seed c afl ta a) tb b
    obtain ⟨b1, b2, b3, b4, b5⟩ := frame_score_seed c afl ta a
    exact ⟨a1.trans b1, a2.trans b2, a3.trans b3, a4.trans b4, a5.trans b5⟩
  have hbl : b < S.queue_buf.length := by
    rw [hfr.2.2.2.2]
    by_contra hge
    have hd : entry afl b = default := by
      unfold entry
      rw [List.getD_eq_getElem?_getD, List.getElem?_eq_none (Nat.le_of_not_lt hge)]
      rfl
    rw [hd] at hfast
    exact Nat.not_lt_zero _ hfast
  have hka := hkey a
  have hkb := hkey b
  simp only [entry_key, Prod.mk.injEq] at hka hkb
  apply top_rated_score_seed_win c _ tb b e (by show S.map_size > e; rw [hfr.2.2.2.1]; exact he) htb
  intro t ht
  have ht' : S.top_rated e = some t := ht
  rw [h2] at ht'
  rw [← Option.some.inj ht']
  have eb : entry (set_entry S b { entry S b with exec_us := x }) b =
      { entry S b with exec_us := x } := by
    rw [entry_set_entry, if_pos ⟨rfl, hbl⟩]
  have ea : entry (set_entry S b { entry S b with exec_us := x }) a = entry S a := by
    rw [entry_set_entry, if_neg (fun hc => hab hc.1)]
  rw [eb, ea]
  constructor
  · apply Nat.le_of_eq
    have e1 : fuzz_p2_of c (set_entry S b { entry S b with exec_us := x })
        { entry S b with exec_us := x } = fuzz_p2_of c afl (entry afl b) := by
      unfold fuzz_p2_of
      show (if c.FAST ≤ S.schedule ∧ S.schedule < c.RARE then 0
        else if S.schedule = c.RARE then c.next_pow2 (S.n_fuzz.getD (entry S b).n_fuzz_entry 0)
        else (entry S b).fuzz_level) = _
      rw [hfr.1, hfr.2.2.1, hkb.2.2.1, hkb.2.2.2]
    have e2 : fuzz_p2_of c (set_entry S b { entry S b with exec_us := x }) (entry S a) =
        fuzz_p2_of c afl (entry afl a) := by
      unfold fuzz_p2_of
      show (if c.FAST ≤ S.schedule ∧ S.schedule < c.RARE then 0
        else if S.schedule = c.RARE then c.next_pow2 (S.n_fuzz.getD (entry S a).n_fuzz_entry 0)
        else (entry S a).fuzz_level) = _
      rw [hfr.1, hfr.2.2.1, hka.2.2.1, hka.2.2.2]
    rw [e1, e2, hp]
  · have hs' : (set_entry S b { entry S b with exec_us := x }).schedule < c.RARE := by
      show S.schedule < c.RARE
      rw [hfr.1]
      exact hs
    have hf' : (set_entry S b { entry S b with exec_us := x }).fixed_seed = false := by
      show S.fixed_seed = false
      rw [hfr.2.1]
      exact hf
    rw [fav_factor_of_speed c _ _ hs' hf', fav_factor_of_speed c _ _ hs' hf']
    show (x * (entry S b).len) % 2 ^ 64 ≤ ((entry S a).exec_us * (entry S a).len) % 2 ^ 64
    rw [hkb.1, hka.1, hka.2.1, ← hlen]
    have hle : x * (entry afl a).len ≤ (entry afl a).exec_us * (entry afl a).len :=
      Nat.mul_le_mul_right _ (Nat.le_of_lt hx)
    have hb2 : (entry afl a).exec_us * (entry afl a).len < 2 ^ 64 := by
      rw [← hFa]
      unfold fav_factor_of
      split
      · exact Nat.lt_of_lt_of_le (Nat.mod_lt _ (by norm_num)) (by norm_num)
      · exact Nat.mod_lt _ (by norm_num)
    rw [Nat.mod_eq_of_lt (by omega), Nat.mod_eq_of_lt hb2]
    exact hle

/-- Witness of C15 (amended), the scenario of the spec: edge 5, `len = 100`, `exec_us` 50 (seed 0)
and 200 (seed 1); in either order seed 0 holds edge 5, and once seed 1 runs in 40 its
new score takes the edge. -/
theorem update_bitmap_score_speed_beats_size_witness :
    (score_seed demo_consts
        (score_seed demo_consts speed_demo_state [0, 0, 0, 0, 0, 1, 0, 0] 0)
        [0, 0, 0, 0, 0, 1, 0, 0] 1).top_rated 5 = some 0 ∧
    (score_seed demo_consts
        (score_seed demo_consts speed_demo_state [0, 0, 0, 0, 0, 1, 0, 0] 1)
        [0, 0, 0, 0, 0, 1, 0, 0] 0).top_rated 5 = some 0 ∧
    (score_seed demo_consts
        (set_entry
          (score_seed demo_consts
            (score_seed demo_consts speed_demo_state [0, 0, 0, 0, 0, 1, 0, 0] 0)
            [0, 0, 0, 0, 0, 1, 0, 0] 1) 1
          { entry
              (score_seed demo_consts
                (score_seed demo_consts speed_demo_state [0, 0, 0, 0, 0, 1, 0, 0] 0)
                [0, 0, 0, 0, 0, 1, 0, 0] 1) 1 with exec_us := 40 })
        [0, 0, 0, 0, 0, 1, 0, 0] 1).top_rated 5 = some 1 :=
  have h := update_bitmap_score_speed_beats_size demo_consts speed_demo_state 0 1 5
    [0, 0, 0, 0, 0, 1, 0, 0] [0, 0, 0, 0, 0, 1, 0, 0] (by decide) (by decide) (by decide)
    (by decide) (by decide) (by decide) (by decide) (by decide) (by decide) (by decide)
    (Or.inl rfl)
  ⟨h.1, h.2.1, h.2.2 40 (by decide)⟩

/-- Counterexample to C15: the two seeds of the spec (`len = 100`, `exec_us` 50 and
200, equal fuzz pressure, under EXPLORE without a fixed seed) both cover edge 5, which
a third seed of `len = 1` and `exec_us = 1` holds: in either order of the two calls
`top_rated[5]` stays the third seed, not the seed with the smaller `exec_us`. And for
two seeds of `len = 0` the products `exec_us * len` tie at 0, so that the seed scored
last takes the edge: scored after seed 0, the slower seed 1 holds it. -/
theorem update_bitmap_score_speed_third_holder :
    (speed_third_state.schedule < demo_consts.RARE ∧ speed_third_state.fixed_seed = false ∧
      fuzz_p2_of demo_consts speed_third_state (entry speed_third_state 0) =
        fuzz_p2_of demo_consts speed_third_state (entry speed_third_state 1) ∧
      (entry speed_third_state 0).len = (entry speed_third_state 1).len ∧
      (entry speed_third_state 0).exec_us < (entry speed_third_state 1).exec_us) ∧
    (score_seed demo_consts
        (score_seed demo_consts speed_third_state [0, 0, 0, 0, 0, 1, 0, 0] 0)
        [0, 0, 0, 0, 0, 1, 0, 0] 1).top_rated 5 = some 2 ∧
    (score_seed demo_consts
        (score_seed demo_consts speed_third_state [0, 0, 0, 0, 0, 1, 0, 0] 1)
        [0, 0, 0, 0, 0, 1, 0, 0] 0).top_rated 5 = some 2 ∧
    (speed_empty_state.schedule < demo_consts.RARE ∧ speed_empty_state.fixed_seed = false ∧
      fuzz_p2_of demo_consts speed_empty_state (entry speed_empty_state 0) =
        fuzz_p2_of demo_consts speed_empty_state (entry speed_empty_state 1) ∧
      (entry speed_empty_state 0).len = (entry speed_empty_state 1).len ∧
      (entry speed_empty_state 0).exec_us < (entry speed_empty_state 1).exec_us) ∧
    (score_seed demo_consts
        (score_seed demo_consts speed_empty_state [0, 0, 0, 0, 0, 1, 0, 0] 0)
        [0, 0, 0, 0, 0, 1, 0, 0] 1).top_rated 5 = some 1 := by
  refine ⟨⟨by decide, by decide, by decide, by decide, by decide⟩, by decide, by decide,
    ⟨by decide, by decide, by decide, by decide, by decide⟩, by decide⟩

/-! ## The interval gate and the minimization round -/

/-- C17: the interval gate. `sched_cmin_maybe_run` calls `run_cmin_once_blocking` if and
only if the gate was initialised, is not running, and the `u64` difference
`now - last_ms` is at least 300000; in every other case the state is unchanged; the
first call sets `inited` and records `now` and nothing else; an initialised gate that
does not fire, a running one included, is left as it was; when it fires, the state is
the one `run_cmin_once_blocking` leaves, `running` is 0 on return and `last_ms` is the
time read after the round. For `last_ms <= now < 2^64` the `u64` difference is the
plain difference. -/
theorem sched_cmin_maybe_run_gate (cull : afl_state_t → afl_state_t) (env : cmin_round_env)
    (now now_after : Nat) (g : cmin_gate) (afl : afl_state_t) :
    ((sched_cmin_maybe_run cull env now now_after g afl).2.2 = true ↔
      (g.inited = true ∧ g.running = false ∧ 300000 ≤ u64_sub now g.last_ms)) ∧
    ((sched_cmin_maybe_run cull env now now_after g afl).2.2 = false →
      (sched_cmin_maybe_run cull env now now_after g afl).2.1 = afl) ∧
    (g.inited = false →
      (sched_cmin_maybe_run cull env now now_after g afl).1 =
        { g with inited := true, last_ms := now % 2 ^ 64 }) ∧
    (g.inited = true → (sched_cmin_maybe_run cull env now now_after g afl).2.2 = false →
      (sched_cmin_maybe_run cull env now now_after g afl).1 = g) ∧
    (g.inited = true → g.running = true →
      sched_cmin_maybe_run cull env now now_after g afl = (g, afl, false)) ∧
    ((sched_cmin_maybe_run cull env now now_after g afl).2.2 = true →
      (sched_cmin_maybe_run cull env now now_after g afl).2.1 =
          run_cmin_once_blocking cull env afl ∧
        (sched_cmin_maybe_run cull env now now_after g afl).1 =
          { inited := true, running := false, last_ms := now_after % 2 ^ 64 }) ∧
    (g.last_ms ≤ now → now < 2 ^ 64 → u64_sub now g.last_ms = now - g.last_ms) := by
  have hI : SCHED_CMIN_INTERVAL_SEC * 1000 = 300000 := rfl
  unfold sched_cmin_maybe_run
  rw [hI]
  refine ⟨?_, ?_, ?_, ?_, ?_, ?_, ?_⟩
  · by_cases hi : g.inited = true
    · by_cases hr : g.running = true
      · simp [hi, hr]
      · by_cases hd : u64_sub now g.last_ms < 300000
        · simp [hi, hr, hd]
        · simp [hi, hr, hd]
          omega
    · simp [hi]
  · by_cases hi : g.inited = true
    · by_cases hr : g.running = true
      · simp [hi, hr]
      · by_cases hd : u64_sub now g.last_ms < 300000
        · simp [hi, hr, hd]
        · simp [hi, hr, hd]
    · simp [hi]
  · intro hi
    simp [hi]
  · intro hi
    by_cases hr : g.running = true
    · simp [hi, hr]
    · by_cases hd : u64_sub now g.last_ms < 300000
      · simp [hi, hr, hd]
      · simp [hi, hr, hd]
  · intro hi hr
    simp [hi, hr]
  · by_cases hi : g.inited = true
    · by_cases hr : g.running = true
      · simp [hi, hr]
      · by_cases hd : u64_sub now g.last_ms < 300000
        · simp [hi, hr, hd]
        · simp [hi, hr, hd]
    · simp [hi]
  · intro h1 h2
    unfold u64_sub
    have h3 : g.last_ms % 2 ^ 64 = g.last_ms := Nat.mod_eq_of_lt (by omega)
    have h4 : now % 2 ^ 64 = now := Nat.mod_eq_of_lt h2
    rw [h3, h4]
    omega

/-- The scenario of C17: with the first call at 5000 ms, the call 10 s later does not
fire and the call 301 s after the first one fires; the round then applies the keep-set
of the minimization scenario, and the gate holds the time read after the round. -/
theorem sched_cmin_maybe_run_gate_witness :
    (sched_cmin_maybe_run (fun a => a) cmin_demo_env 5000 5000 {} cmin_demo_state).2.2 = false ∧
    (sched_cmin_maybe_run (fun a => a) cmin_demo_env 5000 5000 {} cmin_demo_state).1 =
      { inited := true, running := false, last_ms := 5000 } ∧
    (sched_cmin_maybe_run (fun a => a) cmin_demo_env 15000 15000
      { inited := true, running := false, last_ms := 5000 } cmin_demo_state).2.2 = false ∧
    (sched_cmin_maybe_run (fun a => a) cmin_demo_env 15000 15000
      { inited := true, running := false, last_ms := 5000 } cmin_demo_state).1 =
      { inited := true, running := false, last_ms := 5000 } ∧
    ((sched_cmin_maybe_run (fun a => a) cmin_demo_env 306000 306500
        { inited := true, running := false, last_ms := 5000 } cmin_demo_state).2.2 = true ↔
      ((true : Bool) = true ∧ (false : Bool) = false ∧ 300000 ≤ u64_sub 306000 5000)) ∧
    (sched_cmin_maybe_run (fun a => a) cmin_demo_env 306000 306500
      { inited := true, running := false, last_ms := 5000 } cmin_demo_state).2.2 = true ∧
    (sched_cmin_maybe_run (fun a => a) cmin_demo_env 306000 306500
      { inited := true, running := false, last_ms := 5000 } cmin_demo_state).1 =
      { inited := true, running := false, last_ms := 306500 } ∧
    (sched_cmin_maybe_run (fun a => a) cmin_demo_env 306000 306500
      { inited := true, running := false, last_ms := 5000 } cmin_demo_state).2.1.queue_buf.map
        (fun q => q.disabled) = [false, true, true, false] :=
  ⟨by decide, by decide, by decide, by decide,
    (sched_cmin_maybe_run_gate (fun a => a) cmin_demo_env 306000 306500
      { inited := true, running := false, last_ms := 5000 } cmin_demo_state).1,
    by decide, by decide, by decide⟩

/-- C18: a minimization round whose minimizer does not exit with status 0, or whose
keep-set cannot be collected, or which snapshots nothing, leaves the whole state as it
was: no `disabled` flag changes, and `pending_not_fuzzed`, `pending_favored` and
`reinit_table` keep their values. -/
theorem run_cmin_once_blocking_atomic (cull : afl_state_t → afl_state_t)
    (env : cmin_round_env) (afl : afl_state_t)
    (h : (env.wifexited = false ∨ env.wexitstatus ≠ 0) ∨ collect_keep_hashes env = none ∨
      (snapshot_queue_copy env afl).2 ≤ 0) :
    run_cmin_once_blocking cull env afl = afl := by
  unfold run_cmin_once_blocking
  by_cases hm : (!env.mkdtemp_ok) = true
  · rw [if_pos hm]
  · rw [if_neg hm]
    simp only []
    by_cases hc : (snapshot_queue_copy env afl).2 ≤ 0
    · rw [if_pos hc]
    · rw [if_neg hc]
      by_cases hsp : spawn_afl_cmin_and_wait env = 0
      · rw [if_pos hsp]
        rcases h with h | h | h
        · exfalso
          unfold spawn_afl_cmin_and_wait at hsp
          rcases h with h | h
          · rw [h] at hsp
            simp at hsp
          · rw [if_pos (by simp [h])] at hsp
            simp at hsp
        · rw [h]
        · exact absurd h hc
      · rw [if_neg hsp]

/-- Witness of C18: the minimizer of the scenario exits with status 1 and the four
seeds stay as they were. -/
theorem run_cmin_once_blocking_atomic_witness :
    run_cmin_once_blocking (fun a => a) cmin_failed_env cmin_demo_state = cmin_demo_state :=
  run_cmin_once_blocking_atomic (fun a => a) cmin_failed_env cmin_demo_state
    (Or.inl (Or.inr (by decide)))

/-! ## What `cull_queue` and `apply_filter_to_snapshot` leave of `top_rated` and `disabled` -/

theorem entry_cull_queue_init (a : afl_state_t) (s : Nat) :
    entry (cull_queue_init a) s = { entry a s with favored := false } := by
  unfold entry cull_queue_init
  simp only [List.getD_eq_getElem?_getD, List.getElem?_map]
  cases a.queue_buf[s]? <;> rfl

theorem cull_queue_edge_keeps (a a' : afl_state_t) (i : Nat)
    (h : cull_queue_edge a i = some a') :
    a'.top_rated = a.top_rated ∧ ∀ s, (entry a' s).disabled = (entry a s).disabled := by
  have key : ∀ b : afl_state_t, b.top_rated = a.top_rated → (∀ s, entry b s = entry a s) →
      ∀ t, (cull_mark_favored b t).top_rated = a.top_rated ∧
        ∀ s, (entry (cull_mark_favored b t) s).disabled = (entry a s).disabled := by
    intro b hb he t
    obtain ⟨h1, _, _, _, h5⟩ := cull_mark_favored_frame b t
    refine ⟨h1.trans hb, fun s => ?_⟩
    rw [h5 s]
    split
    · next hc =>
      rw [hc.1]
      show (entry b t).disabled = _
      rw [he t]
    · rw [he s]
  unfold cull_queue_edge at h
  split at h
  · split at h
    · split at h
      · split at h
        · rw [← Option.some.inj h]
          apply key
          · rfl
          · intro s
            rfl
        · split at h
          · rw [← Option.some.inj h]
            apply key
            · rfl
            · intro s
              rfl
          · cases h
      · cases h
    · rw [← Option.some.inj h]
      exact ⟨rfl, fun _ => rfl⟩
  · rw [← Option.some.inj h]
    exact ⟨rfl, fun _ => rfl⟩

theorem cull_queue_edges_keeps (l : List Nat) :
    ∀ a a' : afl_state_t, cull_queue_edges l a = some a' →
      a'.top_rated = a.top_rated ∧ ∀ s, (entry a' s).disabled = (entry a s).disabled := by
  induction l with
  | nil =>
    intro a a' h
    rw [← Option.some.inj h]
    exact ⟨rfl, fun _ => rfl⟩
  | cons x xs ih =>
    intro a a' h
    rw [cull_queue_edges] at h
    cases h1 : cull_queue_edge a x with
    | none =>
      rw [h1] at h
      cases h
    | some b =>
      rw [h1] at h
      obtain ⟨e1, e2⟩ := cull_queue_edge_keeps a b x h1
      obtain ⟨f1, f2⟩ := ih b a' h
      exact ⟨f1.trans e1, fun s => (f2 s).trans (e2 s)⟩

/-- The function `cull_queue` changes neither `top_rated` nor a `disabled` flag. -/
theorem cull_queue_keeps (afl afl' : afl_state_t) (h : cull_queue afl = some afl') :
    afl'.top_rated = afl.top_rated ∧
    ∀ s, (entry afl' s).disabled = (entry afl s).disabled := by
  unfold cull_queue at h
  split at h
  · rw [← Option.some.inj h]
    exact ⟨rfl, fun _ => rfl⟩
  · cases h1 : cull_queue_edges (List.range afl.map_size) (cull_queue_init afl) with
    | none =>
      rw [h1] at h
      cases h
    | some a =>
      rw [h1] at h
      rw [← Option.some.inj h]
      obtain ⟨e1, e2⟩ := cull_queue_edges_keeps _ _ _ h1
      refine ⟨?_, fun s => ?_⟩
      · show (cull_mark_redundant a).top_rated = afl.top_rated
        rw [(cull_mark_redundant_frame a).1, e1]
        rfl
      · show (entry (cull_mark_redundant a) s).disabled = _
        have h3 : (entry (cull_mark_redundant a) s).disabled = (entry a s).disabled := by
          rw [entry_cull_mark_redundant]
          split <;> rfl
        rw [h3, e2 s, entry_cull_queue_init]

theorem cull_queue_getD_keeps (afl : afl_state_t) :
    ((cull_queue afl).getD afl).top_rated = afl.top_rated ∧
    ∀ s, (entry ((cull_queue afl).getD afl) s).disabled = (entry afl s).disabled := by
  cases h : cull_queue afl with
  | none => exact ⟨rfl, fun _ => rfl⟩
  | some a => exact cull_queue_keeps afl a h

theorem apply_filter_entry_afl (snap : cmin_snapshot_t) (keep : List Nat) (keep_n : Nat)
    (v : apply_filter_vars) (i : Nat) :
    ∃ b, (apply_filter_entry snap keep keep_n v i).afl =
      set_entry v.afl (snap.entries.getD i 0)
        { entry v.afl (snap.entries.getD i 0) with disabled := b } := by
  unfold apply_filter_entry apply_filter_disable
  simp only []
  split
  · exact ⟨true, rfl⟩
  · split
    · exact ⟨false, rfl⟩
    · exact ⟨true, rfl⟩

/-- The entry loop changes `disabled` of snapshot entries only, and nothing of
`top_rated`. -/
theorem apply_filter_loop_keeps (snap : cmin_snapshot_t) (keep : List Nat) (keep_n : Nat)
    (v0 : apply_filter_vars) :
    ∀ k,
      ((List.range k).foldl (apply_filter_entry snap keep keep_n) v0).afl.top_rated =
        v0.afl.top_rated ∧
      ∀ s, (∀ i, i < k → snap.entries.getD i 0 ≠ s) →
        (entry ((List.range k).foldl (apply_filter_entry snap keep keep_n) v0).afl s).disabled =
          (entry v0.afl s).disabled := by
  intro k
  induction k with
  | zero => exact ⟨rfl, fun _ _ => rfl⟩
  | succ k ih =>
    rw [List.range_succ, List.foldl_append]
    simp only [List.foldl_cons, List.foldl_nil]
    obtain ⟨b, hb⟩ := apply_filter_entry_afl snap keep keep_n
      ((List.range k).foldl (apply_filter_entry snap keep keep_n) v0) k
    rw [hb]
    refine ⟨ih.1, fun s hs => ?_⟩
    rw [entry_set_entry, if_neg (fun hc => hs k (Nat.lt_succ_self k) hc.1.symm)]
    exact ih.2 s (fun i hi => hs i (by omega))

theorem no_disabled_top_cmin_top_state : no_disabled_top cmin_top_state := by
  intro e s _ hs
  have hs' : (if e = 0 then some 0 else if e = 1 then some 1 else none) = some s := hs
  split at hs'
  · rw [← Option.some.inj hs']
    rfl
  · split at hs'
    · rw [← Option.some.inj hs']
      rfl
    · cases hs'

/-- C19 (amended): `apply_filter_to_snapshot` leaves `top_rated` as it was (`cull`
stands for `cull_queue`, which changes neither `top_rated` nor `disabled`); and when
no disabled seed was top-rated before the round, every seed that is disabled and
top-rated after it is a seed of the snapshot that was active before the round. -/
theorem apply_filter_to_snapshot_top_rated (cull : afl_state_t → afl_state_t)
    (hd : ∀ a s, (entry (cull a) s).disabled = (entry a s).disabled)
    (ht : ∀ a, (cull a).top_rated = a.top_rated)
    (afl : afl_state_t) (snap : cmin_snapshot_t) (keep : List Nat)
    (hinv : no_disabled_top afl) :
    (apply_filter_to_snapshot cull afl snap keep keep.length).top_rated = afl.top_rated ∧
    ∀ e s, e < afl.map_size →
      (apply_filter_to_snapshot cull afl snap keep keep.length).top_rated e = some s →
      (entry (apply_filter_to_snapshot cull afl snap keep keep.length) s).disabled = true →
      (entry afl s).disabled = false ∧ ∃ i, i < snap.count ∧ snap.entries.getD i 0 = s := by
  have htop : (apply_filter_to_snapshot cull afl snap keep keep.length).top_rated =
      afl.top_rated := by
    unfold apply_filter_to_snapshot
    split
    · rfl
    · simp only []
      show (cull _).top_rated = _
      rw [ht]
      exact (apply_filter_loop_keeps snap keep keep.length _ snap.count).1
  refine ⟨htop, ?_⟩
  intro e s he hs hdis
  rw [htop] at hs
  have hact := hinv e s he hs
  refine ⟨hact, ?_⟩
  by_contra hno
  have hall : ∀ i, i < snap.count → snap.entries.getD i 0 ≠ s :=
    fun i hi hc => hno ⟨i, hi, hc⟩
  have hsame : (entry (apply_filter_to_snapshot cull afl snap keep keep.length) s).disabled =
      (entry afl s).disabled := by
    unfold apply_filter_to_snapshot
    split
    · rfl
    · simp only []
      show (entry (cull _) s).disabled = _
      rw [hd]
      exact (apply_filter_loop_keeps snap keep keep.length _ snap.count).2 s hall
  rw [hsame, hact] at hdis
  cases hdis

/-- Witness of C19 (amended), with the `cull_queue` of the queue file: seed 1 of the
snapshot is the disabled holder of edge 1. -/
theorem apply_filter_to_snapshot_top_rated_witness :
    (apply_filter_to_snapshot (fun a => (cull_queue a).getD a) cmin_top_state
        cmin_top_snapshot [11] [11].length).top_rated = cmin_top_state.top_rated ∧
    ∀ e s, e < cmin_top_state.map_size →
      (apply_filter_to_snapshot (fun a => (cull_queue a).getD a) cmin_top_state
        cmin_top_snapshot [11] [11].length).top_rated e = some s →
      (entry (apply_filter_to_snapshot (fun a => (cull_queue a).getD a) cmin_top_state
        cmin_top_snapshot [11] [11].length) s).disabled = true →
      (entry cmin_top_state s).disabled = false ∧
        ∃ i, i < cmin_top_snapshot.count ∧ cmin_top_snapshot.entries.getD i 0 = s :=
  apply_filter_to_snapshot_top_rated (fun a => (cull_queue a).getD a)
    (fun a s => (cull_queue_getD_keeps a).2 s) (fun a => (cull_queue_getD_keeps a).1)
    cmin_top_state cmin_top_snapshot [11] no_disabled_top_cmin_top_state

/-- C19 (as stated) fails: before the round no disabled seed is top-rated; the round
keeps only the hash of seed 0, so seed 1 is disabled, and it is still `top_rated[1]`
after `apply_filter_to_snapshot` and the `cull_queue` it calls. -/
theorem apply_filter_to_snapshot_disabled_top :
    no_disabled_top cmin_top_state ∧
    ¬ no_disabled_top
      (apply_filter_to_snapshot (fun a => (cull_queue a).getD a) cmin_top_state
        cmin_top_snapshot [11] 1) := by
  refine ⟨no_disabled_top_cmin_top_state, ?_⟩
  intro h
  have h1 := h 1 1 (by decide) (by decide)
  revert h1
  decide

/-! ## What `update_bitmap_score` leaves for `cull_queue` -/

theorem same_flags_refl (a : afl_state_t) : same_flags a a := ⟨rfl, rfl, fun _ => rfl⟩

theorem same_flags_trans {a b c : afl_state_t} (h1 : same_flags a b) (h2 : same_flags b c) :
    same_flags a c :=
  ⟨h1.1.trans h2.1, h1.2.1.trans h2.2.1, fun s => (h1.2.2 s).trans (h2.2.2 s)⟩

theorem same_flags_set_entry (afl : afl_state_t) (i : Nat) (e : queue_entry)
    (h : e.favored = (entry afl i).favored) : same_flags (set_entry afl i e) afl :=
  ⟨rfl, rfl, fun s => entry_set_entry_proj (fun q => q.favored) afl i s e h⟩

theorem same_flags_record_frontier (c : afl_consts) (qi : Nat) (afl : afl_state_t) (e : Nat) :
    same_flags (record_frontier c qi afl e) afl ∧
    (record_frontier c qi afl e).score_changed = afl.score_changed := by
  have h1 : ∀ a : afl_state_t, same_flags (record_frontier_global a e) a ∧
      (record_frontier_global a e).score_changed = a.score_changed := by
    intro a
    unfold record_frontier_global
    split
    · exact ⟨⟨rfl, rfl, fun _ => rfl⟩, rfl⟩
    · exact ⟨same_flags_refl a, rfl⟩
  have h2 : same_flags (record_frontier_list c qi afl e) afl ∧
      (record_frontier_list c qi afl e).score_changed = afl.score_changed := by
    unfold record_frontier_list
    simp only []
    split
    · exact ⟨same_flags_set_entry afl qi _ rfl, rfl⟩
    · exact ⟨same_flags_refl afl, rfl⟩
  unfold record_frontier
  exact ⟨same_flags_trans (h1 _).1 h2.1, (h1 _).2.trans h2.2⟩

theorem same_flags_release_top (afl : afl_state_t) (t : Nat) :
    same_flags (release_top afl t) afl := by
  unfold release_top
  simp only []
  exact same_flags_set_entry afl t _ rfl

theorem favored_install_top (qi : Nat) (afl : afl_state_t) (i s : Nat) :
    (entry (install_top qi afl i) s).favored = (entry afl s).favored := by
  unfold install_top
  simp only []
  have hE : ∀ x : queue_entry, entry ({ set_entry { afl with
      top_rated := fun e => if e = i then some qi else afl.top_rated e } qi x with
      score_changed := true }) s = if s = qi ∧ qi < afl.queue_buf.length then x else entry afl s := by
    intro x
    exact entry_set_entry { afl with
      top_rated := fun e => if e = i then some qi else afl.top_rated e } qi s x
  split
  · rw [hE]
    split
    · next hc =>
      rw [hc.1]
      rfl
    · rfl
  · rw [hE]
    split
    · next hc =>
      rw [hc.1]
      rfl
    · rfl

theorem same_flags_install_top (qi : Nat) (afl : afl_state_t) (i : Nat) :
    same_flags (install_top qi afl i) afl ∧ (install_top qi afl i).score_changed = true := by
  refine ⟨⟨?_, ?_, fun s => favored_install_top qi afl i s⟩, ?_⟩
  · unfold install_top
    rfl
  · unfold install_top
    rfl
  · unfold install_top
    rfl

theorem same_flags_reset_frontier_list (afl : afl_state_t) (qi : Nat) :
    same_flags (reset_frontier_list afl qi) afl ∧
    (reset_frontier_list afl qi).score_changed = afl.score_changed := by
  unfold reset_frontier_list
  split
  · exact ⟨same_flags_set_entry afl qi _ rfl, rfl⟩
  · exact ⟨same_flags_refl afl, rfl⟩

/-- One pass of the loop body: the flags are kept, and either table and `score_changed`
are as before, or the edge has a holder and `score_changed` is set. -/
theorem same_flags_edge (c : afl_consts) (qi p f : Nat) (afl : afl_state_t) (i : Nat) :
    same_flags (update_bitmap_score_edge c qi p f afl i) afl ∧
    (((update_bitmap_score_edge c qi p f afl i).top_rated = afl.top_rated ∧
        (update_bitmap_score_edge c qi p f afl i).score_changed = afl.score_changed) ∨
      ((update_bitmap_score_edge c qi p f afl i).top_rated i = some qi ∧
        (update_bitmap_score_edge c qi p f afl i).score_changed = true)) := by
  unfold update_bitmap_score_edge
  obtain ⟨hr, hrs⟩ := same_flags_record_frontier c qi afl i
  have hrt := top_rated_record_frontier c qi afl i
  split
  · simp only []
    split
    · split
      · exact ⟨hr, Or.inl ⟨hrt, hrs⟩⟩
      · split
        · exact ⟨hr, Or.inl ⟨hrt, hrs⟩⟩
        · refine ⟨same_flags_trans (same_flags_install_top qi _ i).1
            (same_flags_trans (same_flags_release_top _ _) hr), Or.inr ⟨?_, ?_⟩⟩
          · rw [top_rated_install_top, if_pos rfl]
          · exact (same_flags_install_top qi _ i).2
    · refine ⟨same_flags_trans (same_flags_install_top qi _ i).1 hr, Or.inr ⟨?_, ?_⟩⟩
      · rw [top_rated_install_top, if_pos rfl]
      · exact (same_flags_install_top qi _ i).2
  · exact ⟨same_flags_refl afl, Or.inl ⟨rfl, rfl⟩⟩

theorem top_rated_edge_mono (c : afl_consts) (qi p f : Nat) (afl : afl_state_t) (i e : Nat)
    (h : afl.top_rated e ≠ none) :
    (update_bitmap_score_edge c qi p f afl i).top_rated e ≠ none := by
  by_cases hei : e = i
  · rcases (same_flags_edge c qi p f afl i).2 with h1 | h1
    · rw [h1.1]
      exact h
    · rw [hei, h1.1]
      simp
  · rw [top_rated_edge_other c qi p f afl i e hei]
    exact h

theorem score_changed_inv_edge (c : afl_consts) (qi p f : Nat) (a0 afl : afl_state_t) (i : Nat)
    (h : score_changed_inv a0 afl) :
    score_changed_inv a0 (update_bitmap_score_edge c qi p f afl i) := by
  rcases (same_flags_edge c qi p f afl i).2 with h1 | h1
  · unfold score_changed_inv
    rw [h1.1, h1.2]
    exact h
  · exact ⟨fun _ => h1.2, Or.inr ⟨i, by rw [h1.1]; simp⟩⟩

theorem frame_foldl_edge (c : afl_consts) (qi p f : Nat) (a0 : afl_state_t) (l : List Nat) :
    ∀ afl : afl_state_t, score_changed_inv a0 afl →
      same_flags (l.foldl (update_bitmap_score_edge c qi p f) afl) afl ∧
      score_changed_inv a0 (l.foldl (update_bitmap_score_edge c qi p f) afl) := by
  induction l with
  | nil => exact fun afl h => ⟨same_flags_refl afl, h⟩
  | cons x xs ih =>
    intro afl h
    rw [List.foldl_cons]
    obtain ⟨h1, h2⟩ := ih _ (score_changed_inv_edge c qi p f a0 afl x h)
    exact ⟨same_flags_trans h1 (same_flags_edge c qi p f afl x).1, h2⟩

/-- The call `score_seed` keeps the flags and the link between `score_changed` and the
table. -/
theorem frame_score_seed_flags (c : afl_consts) (a0 afl : afl_state_t) (tr : List Nat)
    (qi : Nat) (h : score_changed_inv a0 afl) :
    same_flags (score_seed c afl tr qi) afl ∧ score_changed_inv a0 (score_seed c afl tr qi) := by
  unfold score_seed update_bitmap_score
  simp only []
  obtain ⟨r1, r2⟩ := same_flags_reset_frontier_list { afl with trace_bits := tr } qi
  have r3 := top_rated_reset_frontier_list { afl with trace_bits := tr } qi
  have h0 : score_changed_inv a0 (reset_frontier_list { afl with trace_bits := tr } qi) := by
    unfold score_changed_inv
    rw [r3, r2]
    exact h
  obtain ⟨h1, h2⟩ := frame_foldl_edge c qi _ _ a0 (List.range afl.map_size) _ h0
  exact ⟨same_flags_trans h1 (same_flags_trans r1 ⟨rfl, rfl, fun _ => rfl⟩), h2⟩

/-! ## Reference counts and `trace_mini` while seeds are scored -/

theorem trace_mini_of_trace_congr (tr : Nat → List Nat) {a b : afl_state_t}
    (hm : b.map_size = a.map_size) (hl : b.queue_buf.length = a.queue_buf.length)
    (hc : ∀ s, (entry b s).tc_ref = (entry a s).tc_ref)
    (hx : ∀ s, (entry b s).trace_mini = (entry a s).trace_mini)
    (h : trace_mini_of_trace tr a) : trace_mini_of_trace tr b := by
  intro s hs
  rw [hx s, hc s, hm]
  exact h s (hl ▸ hs)

theorem trace_mini_of_trace_install_none (tr : Nat → List Nat) (qi : Nat) (afl : afl_state_t)
    (i : Nat) (hi : i < afl.map_size) (hm : afl.map_size < 2 ^ 32)
    (htb : afl.trace_bits = tr qi) (hn : afl.top_rated i = none)
    (h1 : tc_ref_inv afl) (h2 : trace_mini_of_trace tr afl) :
    trace_mini_of_trace tr (install_top qi afl i) := by
  intro s hs
  have hS := same_inputs_install_top qi afl i
  have hms : (install_top qi afl i).map_size = afl.map_size := hS.2.2.2.1
  have hl : (install_top qi afl i).queue_buf.length = afl.queue_buf.length := hS.2.2.2.2.2.1
  rw [hl] at hs
  rw [trace_mini_install_top, tc_ref_install_top, hms]
  by_cases hq : s = qi
  · subst hq
    have hc1 : s = s ∧ s < afl.queue_buf.length := ⟨rfl, hs⟩
    rw [if_pos hc1, if_pos hc1]
    have hlt : edges_held afl s < afl.map_size :=
      countP_range_lt_of_not afl.top_rated afl.map_size i (some s) hi (by rw [hn]; simp)
    have hne : ¬ ((entry afl s).tc_ref + 1) % 2 ^ 32 = 0 := by
      rw [h1 s hs]
      omega
    rw [if_neg hne, ← htb]
    apply match_trace_mini_fresh
    rw [h2 s hs, htb]
    by_cases h0 : (entry afl s).tc_ref = 0
    · rw [if_pos h0]
      exact Or.inl rfl
    · rw [if_neg h0]
      exact Or.inr rfl
  · have hc1 : ¬ (s = qi ∧ qi < afl.queue_buf.length) := fun hc => hq hc.1
    rw [if_neg hc1, if_neg hc1]
    exact h2 s hs

theorem trace_mini_of_trace_install_some (tr : Nat → List Nat) (qi : Nat) (afl : afl_state_t)
    (i t : Nat) (hi : i < afl.map_size) (hm : afl.map_size < 2 ^ 32)
    (htb : afl.trace_bits = tr qi) (hn : afl.top_rated i = some t)
    (h1 : tc_ref_inv afl) (h2 : trace_mini_of_trace tr afl) :
    trace_mini_of_trace tr (install_top qi (release_top afl t) i) := by
  intro s hs
  have hS := same_inputs_trans (same_inputs_install_top qi (release_top afl t) i)
    (same_inputs_release_top afl t)
  have hms : (install_top qi (release_top afl t) i).map_size = afl.map_size := hS.2.2.2.1
  have hl : (install_top qi (release_top afl t) i).queue_buf.length = afl.queue_buf.length :=
    hS.2.2.2.2.2.1
  have hmr : (release_top afl t).map_size = afl.map_size := rfl
  have htr : (release_top afl t).trace_bits = afl.trace_bits := rfl
  rw [hl] at hs
  rw [trace_mini_install_top, tc_ref_install_top, length_release_top, hms, hmr, htr,
    trace_mini_release_top, tc_ref_release_top, trace_mini_release_top, tc_ref_release_top]
  have hle : ∀ x, edges_held afl x ≤ afl.map_size := fun x =>
    countP_range_le afl.top_rated afl.map_size (some x)
  have hpos : 0 < edges_held afl t :=
    countP_range_pos_of afl.top_rated afl.map_size i (some t) hi hn
  have hlt : ¬ qi = t → edges_held afl qi < afl.map_size := fun hne =>
    countP_range_lt_of_not afl.top_rated afl.map_size i (some qi) hi
      (by rw [hn]; simp; exact fun x => hne x.symm)
  have hform := h2 s hs
  have hcnt := h1 s hs
  by_cases hq : s = qi
  · subst hq
    have hc1 : s = s ∧ s < afl.queue_buf.length := ⟨rfl, hs⟩
    rw [if_pos hc1, if_pos hc1]
    by_cases hts : s = t
    · subst hts
      rw [if_pos hc1, if_pos hc1, hcnt]
      have hdec : (edges_held afl s + 2 ^ 32 - 1) % 2 ^ 32 = edges_held afl s - 1 := by
        have := hle s
        omega
      rw [hdec]
      have hne : ¬ (edges_held afl s - 1 + 1) % 2 ^ 32 = 0 := by
        have := hle s
        omega
      rw [if_neg hne, ← htb]
      apply match_trace_mini_fresh
      by_cases h0 : edges_held afl s - 1 = 0
      · rw [if_pos h0]
        exact Or.inl rfl
      · have h1' : ¬ edges_held afl s = 0 := by omega
        rw [if_neg h0, hform, hcnt, if_neg h1', htb]
        exact Or.inr rfl
    · have hc2 : ¬ (s = t ∧ t < afl.queue_buf.length) := fun hc => hts hc.1
      rw [if_neg hc2, if_neg hc2, hcnt]
      have hne : ¬ (edges_held afl s + 1) % 2 ^ 32 = 0 := by
        have := hlt hts
        omega
      rw [if_neg hne, ← htb]
      apply match_trace_mini_fresh
      rw [hform, hcnt, htb]
      by_cases h0 : edges_held afl s = 0
      · rw [if_pos h0]
        exact Or.inl rfl
      · rw [if_neg h0]
        exact Or.inr rfl
  · have hc1 : ¬ (s = qi ∧ qi < afl.queue_buf.length) := fun hc => hq hc.1
    rw [if_neg hc1, if_neg hc1]
    by_cases hts : s = t
    · subst hts
      have hc2 : s = s ∧ s < afl.queue_buf.length := ⟨rfl, hs⟩
      rw [if_pos hc2, if_pos hc2, hcnt]
      have hdec : (edges_held afl s + 2 ^ 32 - 1) % 2 ^ 32 = edges_held afl s - 1 := by
        have := hle s
        omega
      rw [hdec]
      by_cases h0 : edges_held afl s - 1 = 0
      · rw [if_pos h0, if_pos h0]
      · have h1' : ¬ edges_held afl s = 0 := by omega
        rw [if_neg h0, if_neg h0, hform, hcnt, if_neg h1']
    · have hc2 : ¬ (s = t ∧ t < afl.queue_buf.length) := fun hc => hts hc.1
      rw [if_neg hc2, if_neg hc2]
      exact hform

theorem trace_mini_of_trace_edge (c : afl_consts) (tr : Nat → List Nat) (qi p f : Nat)
    (afl : afl_state_t) (i : Nat) (hi : i < afl.map_size) (hm : afl.map_size < 2 ^ 32)
    (htb : afl.trace_bits = tr qi) (h1 : tc_ref_inv afl) (h2 : trace_mini_of_trace tr afl) :
    trace_mini_of_trace tr (update_bitmap_score_edge c qi p f afl i) := by
  unfold update_bitmap_score_edge
  have hR := same_inputs_record_frontier c qi afl i
  have g1 := tc_ref_inv_record_frontier c qi afl i h1
  have g2 : trace_mini_of_trace tr (record_frontier c qi afl i) :=
    trace_mini_of_trace_congr tr hR.2.2.2.1 hR.2.2.2.2.2.1
      (fun s => (entry_record_frontier_core c qi afl i s).1)
      (fun s => (entry_record_frontier_core c qi afl i s).2) h2
  have hm1 : (record_frontier c qi afl i).map_size = afl.map_size := hR.2.2.2.1
  have htb1 : (record_frontier c qi afl i).trace_bits = tr qi := hR.2.2.2.2.1.trans htb
  generalize record_frontier c qi afl i = afl1 at g1 g2 hm1 htb1
  rw [← hm1] at hi hm
  split
  · simp only []
    split
    · next t ht =>
      split
      · exact g2
      · split
        · exact g2
        · exact trace_mini_of_trace_install_some tr qi afl1 i t hi hm htb1 ht g1 g2
    · next hn => exact trace_mini_of_trace_install_none tr qi afl1 i hi hm htb1 hn g1 g2
  · exact h2

theorem tables_foldl_edge (c : afl_consts) (tr : Nat → List Nat) (qi p f : Nat) (l : List Nat) :
    ∀ afl : afl_state_t, (∀ i ∈ l, i < afl.map_size) → afl.map_size < 2 ^ 32 →
      afl.trace_bits = tr qi → tc_ref_inv afl → trace_mini_of_trace tr afl →
      tc_ref_inv (l.foldl (update_bitmap_score_edge c qi p f) afl) ∧
      trace_mini_of_trace tr (l.foldl (update_bitmap_score_edge c qi p f) afl) := by
  induction l with
  | nil => exact fun afl _ _ _ h1 h2 => ⟨h1, h2⟩
  | cons x xs ih =>
    intro afl hl hm htb h1 h2
    rw [List.foldl_cons]
    have hS := same_inputs_edge c qi p f afl x
    apply ih
    · intro i hi
      rw [hS.2.2.2.1]
      exact hl i (List.mem_cons_of_mem _ hi)
    · rw [hS.2.2.2.1]
      exact hm
    · rw [hS.2.2.2.2.1]
      exact htb
    · exact tc_ref_inv_edge c qi p f afl x (hl x (List.mem_cons_self _ _)) hm h1
    · exact trace_mini_of_trace_edge c tr qi p f afl x (hl x (List.mem_cons_self _ _)) hm htb h1 h2

/-- Scoring a seed with its trace keeps both table invariants. -/
theorem tables_score_seed (c : afl_consts) (tr : Nat → List Nat) (afl : afl_state_t) (qi : Nat)
    (hm : afl.map_size < 2 ^ 32) (h1 : tc_ref_inv afl) (h2 : trace_mini_of_trace tr afl) :
    tc_ref_inv (score_seed c afl (tr qi) qi) ∧
    trace_mini_of_trace tr (score_seed c afl (tr qi) qi) := by
  unfold score_seed update_bitmap_score
  simp only []
  have hR := same_inputs_reset_frontier_list { afl with trace_bits := tr qi } qi
  have g1 : tc_ref_inv (reset_frontier_list { afl with trace_bits := tr qi } qi) :=
    tc_ref_inv_congr (top_rated_reset_frontier_list _ qi) hR.2.2.2.1 hR.2.2.2.2.2.1
      (fun s => (entry_reset_frontier_list_core qi _ s).1) h1
  have g2 : trace_mini_of_trace tr (reset_frontier_list { afl with trace_bits := tr qi } qi) :=
    trace_mini_of_trace_congr tr hR.2.2.2.1 hR.2.2.2.2.2.1
      (fun s => (entry_reset_frontier_list_core qi _ s).1)
      (fun s => (entry_reset_frontier_list_core qi _ s).2) h2
  have hm0 : (reset_frontier_list { afl with trace_bits := tr qi } qi).map_size = afl.map_size :=
    hR.2.2.2.1
  exact tables_foldl_edge c tr qi _ _ _ _
    (fun i hi => by rw [hm0]; exact List.mem_range.mp hi) (by rw [hm0]; exact hm)
    hR.2.2.2.2.1 g1 g2

/-! ## The table after scoring a list of seeds -/

theorem scored_inv_init (c : afl_consts) (tr : Nat → List Nat) (afl0 : afl_state_t)
    (hf : fresh_table afl0) : scored_inv c tr afl0 [] afl0 := by
  refine ⟨⟨rfl, rfl⟩, fun _ => ⟨rfl, rfl⟩, same_flags_refl _, ?_, ?_, ?_, ?_, ?_⟩
  · refine ⟨?_, Or.inl rfl⟩
    rintro ⟨e, he⟩
    exact absurd (hf.1 e) he
  · intro s _
    rw [(hf.2 s).1]
    unfold edges_held
    symm
    rw [List.countP_eq_zero]
    intro e _
    rw [hf.1 e]
    simp
  · intro s _
    rw [(hf.2 s).2, (hf.2 s).1, if_pos rfl]
  · intro e s h
    rw [hf.1 e] at h
    cases h
  · intro e s hs
    cases hs

theorem scored_inv_step (c : afl_consts) (tr : Nat → List Nat) (afl0 : afl_state_t)
    (l : List Nat) (a : afl_state_t) (q : Nat) (hm : afl0.map_size < 2 ^ 32)
    (hP : ∀ s, s ∈ l →
      fuzz_p2_of c afl0 (entry afl0 s) = fuzz_p2_of c afl0 (entry afl0 q))
    (hF : ∀ s, s ∈ l →
      fav_factor_of c afl0 (entry afl0 s) ≠ fav_factor_of c afl0 (entry afl0 q))
    (h : scored_inv c tr afl0 l a) :
    scored_inv c tr afl0 (l ++ [q]) (score_seed c a (tr q) q) := by
  obtain ⟨f1, f2, f3, f4, f5⟩ := frame_score_seed c a (tr q) q
  obtain ⟨g1, g2⟩ := frame_score_seed_flags c afl0 a (tr q) q h.changed
  obtain ⟨t1, t2⟩ := tables_score_seed c tr a q (by rw [h.size.1]; exact hm) h.refs h.minis
  obtain ⟨v1, v2⟩ : (∀ e, _) ∧ (∀ e, _) :=
    ⟨fun e => (top_rated_update_bitmap_score c { a with trace_bits := tr q } q e).1,
      fun e => (top_rated_update_bitmap_score c { a with trace_bits := tr q } q e).2⟩
  have hkey : ∀ s, fuzz_p2_of c { a with trace_bits := tr q }
        (entry { a with trace_bits := tr q } s) = fuzz_p2_of c afl0 (entry afl0 s) ∧
      fav_factor_of c { a with trace_bits := tr q }
        (entry { a with trace_bits := tr q } s) = fav_factor_of c afl0 (entry afl0 s) :=
    fun s => h.keys s
  refine ⟨⟨f4.trans h.size.1, f5.trans h.size.2⟩, ?_, same_flags_trans g1 h.flags, g2, t1, t2,
    ?_, ?_⟩
  · intro s
    obtain ⟨k1, k2⟩ := keys_score_seed c a (tr q) q s
    exact ⟨k1.trans (h.keys s).1, k2.trans (h.keys s).2⟩
  · intro e s hs
    by_cases hw : e < ({ a with trace_bits := tr q } : afl_state_t).map_size ∧
        ({ a with trace_bits := tr q } : afl_state_t).trace_bits.getD e 0 ≠ 0 ∧
        ∀ t, ({ a with trace_bits := tr q } : afl_state_t).top_rated e = some t →
          fuzz_p2_of c { a with trace_bits := tr q } (entry { a with trace_bits := tr q } q) ≤
            fuzz_p2_of c { a with trace_bits := tr q } (entry { a with trace_bits := tr q } t) ∧
          fav_factor_of c { a with trace_bits := tr q } (entry { a with trace_bits := tr q } q) ≤
            fav_factor_of c { a with trace_bits := tr q } (entry { a with trace_bits := tr q } t)
    · have hq : (score_seed c a (tr q) q).top_rated e = some q := v1 e hw
      rw [hq] at hs
      rw [← Option.some.inj hs]
      obtain ⟨w1, w2, w3⟩ := hw
      refine ⟨List.mem_append_right _ (List.mem_singleton_self _), ?_, w2, ?_⟩
      · have : e < a.map_size := w1
        rw [h.size.1] at this
        exact this
      · intro s' hs' hit'
        rcases List.mem_append.mp hs' with hl | hl
        · have hne := h.held e s' hl (by have : e < a.map_size := w1; rw [← h.size.1]; exact this)
            hit'
          cases ht : a.top_rated e with
          | none => exact absurd ht hne
          | some t =>
            have hle := (w3 t ht).2
            rw [(hkey q).2, (hkey t).2] at hle
            exact Nat.le_trans hle ((h.holder e t ht).2.2.2 s' hl hit')
        · rw [List.mem_singleton.mp hl]
    · have hq : (score_seed c a (tr q) q).top_rated e = a.top_rated e := v2 e hw
      rw [hq] at hs
      obtain ⟨o1, o2, o3, o4⟩ := h.holder e s hs
      refine ⟨List.mem_append_left _ o1, o2, o3, ?_⟩
      intro s' hs' hit'
      rcases List.mem_append.mp hs' with hl | hl
      · exact o4 s' hl hit'
      · rw [List.mem_singleton.mp hl]
        by_contra hgt
        apply hw
        refine ⟨by show e < a.map_size; rw [h.size.1]; exact o2, ?_, ?_⟩
        · rw [List.mem_singleton.mp hl] at hit'
          exact hit'
        · intro t ht
          have ht' : a.top_rated e = some t := ht
          rw [hs] at ht'
          rw [← Option.some.inj ht', (hkey q).1, (hkey s).1, (hkey q).2, (hkey s).2, hP s o1]
          have hne := hF s o1
          refine ⟨Nat.le_refl _, ?_⟩
          omega
  · intro e s hs he hit
    by_cases hw : e < ({ a with trace_bits := tr q } : afl_state_t).map_size ∧
        ({ a with trace_bits := tr q } : afl_state_t).trace_bits.getD e 0 ≠ 0 ∧
        ∀ t, ({ a with trace_bits := tr q } : afl_state_t).top_rated e = some t →
          fuzz_p2_of c { a with trace_bits := tr q } (entry { a with trace_bits := tr q } q) ≤
            fuzz_p2_of c { a with trace_bits := tr q } (entry { a with trace_bits := tr q } t) ∧
          fav_factor_of c { a with trace_bits := tr q } (entry { a with trace_bits := tr q } q) ≤
            fav_factor_of c { a with trace_bits := tr q } (entry { a with trace_bits := tr q } t)
    · have hq : (score_seed c a (tr q) q).top_rated e = some q := v1 e hw
      rw [hq]
      simp
    · have hq : (score_seed c a (tr q) q).top_rated e = a.top_rated e := v2 e hw
      rw [hq]
      rcases List.mem_append.mp hs with hl | hl
      · exact h.held e s hl he hit
      · intro hnone
        apply hw
        refine ⟨by show e < a.map_size; rw [h.size.1]; exact he, ?_, ?_⟩
        · rw [List.mem_singleton.mp hl] at hit
          exact hit
        · intro t ht
          have ht' : a.top_rated e = some t := ht
          rw [hnone] at ht'
          cases ht'

theorem scored_inv_foldl (c : afl_consts) (tr : Nat → List Nat) (afl0 : afl_state_t)
    (hm : afl0.map_size < 2 ^ 32) (l2 : List Nat) :
    ∀ (l1 : List Nat) (a : afl_state_t), (l1 ++ l2).Nodup →
      (∀ s, s ∈ l1 ++ l2 → ∀ s', s' ∈ l1 ++ l2 →
        fuzz_p2_of c afl0 (entry afl0 s) = fuzz_p2_of c afl0 (entry afl0 s')) →
      (∀ s, s ∈ l1 ++ l2 → ∀ s', s' ∈ l1 ++ l2 →
        fav_factor_of c afl0 (entry afl0 s) = fav_factor_of c afl0 (entry afl0 s') → s = s') →
      scored_inv c tr afl0 l1 a →
      scored_inv c tr afl0 (l1 ++ l2) (l2.foldl (fun a s => score_seed c a (tr s) s) a) := by
  induction l2 with
  | nil =>
    intro l1 a _ _ _ h
    rw [List.append_nil]
    exact h
  | cons q rest ih =>
    intro l1 a hnd hP hF h
    rw [List.foldl_cons]
    have e1 : l1 ++ q :: rest = (l1 ++ [q]) ++ rest := by simp
    rw [e1] at hnd hP hF ⊢
    apply ih (l1 ++ [q]) _ hnd hP hF
    apply scored_inv_step c tr afl0 l1 a q hm
    · intro s hs
      exact hP s (List.mem_append_left _ (List.mem_append_left _ hs)) q
        (List.mem_append_left _ (List.mem_append_right _ (List.mem_singleton_self _)))
    · intro s hs heq
      have hsq := hF s (List.mem_append_left _ (List.mem_append_left _ hs)) q
        (List.mem_append_left _ (List.mem_append_right _ (List.mem_singleton_self _))) heq
      have hnd1 : (l1 ++ [q]).Nodup := (List.nodup_append.mp hnd).1
      have hdis := (List.nodup_append.mp hnd1).2.2
      rw [hsq] at hs
      exact List.disjoint_left.mp hdis hs (List.mem_singleton_self _)
    · exact h

/-- The state after scoring the seeds of `l` from a fresh table, for seeds of equal
fuzz pressure and pairwise different `fav_factor`. -/
theorem scored_inv_score_seeds (c : afl_consts) (tr : Nat → List Nat) (afl0 : afl_state_t)
    (l : List Nat) (hm : afl0.map_size < 2 ^ 32) (hf : fresh_table afl0) (hnd : l.Nodup)
    (hP : ∀ s, s ∈ l → ∀ s', s' ∈ l →
      fuzz_p2_of c afl0 (entry afl0 s) = fuzz_p2_of c afl0 (entry afl0 s'))
    (hF : ∀ s, s ∈ l → ∀ s', s' ∈ l →
      fav_factor_of c afl0 (entry afl0 s) = fav_factor_of c afl0 (entry afl0 s') → s = s') :
    scored_inv c tr afl0 l (score_seeds c tr afl0 l) := by
  have h := scored_inv_foldl c tr afl0 hm l [] afl0 (by simpa using hnd)
    (by simpa using hP) (by simpa using hF) (scored_inv_init c tr afl0 hf)
  simpa using h

/-- Two states that scored the same seeds, in whatever order, look the same to
`cull_queue`. -/
theorem cull_same_of_scored (c : afl_consts) (tr : Nat → List Nat) (afl0 : afl_state_t)
    (l1 l2 : List Nat) (a1 a2 : afl_state_t) (hperm : l1.Perm l2)
    (hF : ∀ s, s ∈ l1 → ∀ s', s' ∈ l1 →
      fav_factor_of c afl0 (entry afl0 s) = fav_factor_of c afl0 (entry afl0 s') → s = s')
    (h1 : scored_inv c tr afl0 l1 a1) (h2 : scored_inv c tr afl0 l2 a2) :
    cull_same a1 a2 := by
  have htop : a1.top_rated = a2.top_rated := by
    funext e
    cases t1 : a1.top_rated e with
    | none =>
      cases t2 : a2.top_rated e with
      | none => rfl
      | some s2 =>
        obtain ⟨m, he, hit, _⟩ := h2.holder e s2 t2
        exact absurd t1 (h1.held e s2 (hperm.mem_iff.mpr m) he hit)
    | some s1 =>
      obtain ⟨m1, he, hit1, min1⟩ := h1.holder e s1 t1
      cases t2 : a2.top_rated e with
      | none => exact absurd t2 (h2.held e s1 (hperm.mem_iff.mp m1) he hit1)
      | some s2 =>
        obtain ⟨m2, _, hit2, min2⟩ := h2.holder e s2 t2
        have le1 := min1 s2 (hperm.mem_iff.mpr m2) hit2
        have le2 := min2 s1 (hperm.mem_iff.mp m1) hit1
        rw [hF s1 m1 s2 (hperm.mem_iff.mpr m2) (Nat.le_antisymm le1 le2)]
  have hms : a1.map_size = a2.map_size := h1.size.1.trans h2.size.1.symm
  have hlen : a1.queue_buf.length = a2.queue_buf.length := h1.size.2.trans h2.size.2.symm
  have hsc : a1.score_changed = a2.score_changed := by
    by_cases hex : ∃ e, a1.top_rated e ≠ none
    · rw [h1.changed.1 hex, h2.changed.1 (by rw [← htop]; exact hex)]
    · rcases h1.changed.2 with c1 | c1
      · rcases h2.changed.2 with c2 | c2
        · rw [c1, c2]
        · rw [← htop] at c2
          exact absurd c2 hex
      · exact absurd c1 hex
  refine ⟨htop, hms, h1.flags.2.1.trans h2.flags.2.1.symm, hlen, hsc,
    h1.flags.1.trans h2.flags.1.symm, fun s => ⟨?_, (h1.flags.2.2 s).trans (h2.flags.2.2 s).symm⟩⟩
  by_cases hs : s < a1.queue_buf.length
  · have hs2 : s < a2.queue_buf.length := by rw [← hlen]; exact hs
    have hc : (entry a1 s).tc_ref = (entry a2 s).tc_ref := by
      rw [h1.refs s hs, h2.refs s hs2]
      unfold edges_held
      rw [htop, hms]
    rw [h1.minis s hs, h2.minis s hs2, hc, hms]
  · have hs2 : ¬ s < a2.queue_buf.length := by rw [← hlen]; exact hs
    have d1 : entry a1 s = default := by
      unfold entry
      rw [List.getD_eq_getElem?_getD, List.getElem?_eq_none (Nat.le_of_not_lt hs)]
      rfl
    have d2 : entry a2 s = default := by
      unfold entry
      rw [List.getD_eq_getElem?_getD, List.getElem?_eq_none (Nat.le_of_not_lt hs2)]
      rfl
    rw [d1, d2]

/-! ## `cull_queue` on two states with the same table -/

theorem cull_same_init {a b : afl_state_t} (h : cull_same a b) :
    cull_same (cull_queue_init a) (cull_queue_init b) := by
  obtain ⟨h1, h2, h3, h4, _, h6, h7⟩ := h
  refine ⟨h1, h2, ?_, ?_, rfl, h6, fun s => ?_⟩
  · show List.replicate (a.map_size >>> 3) 255 ++ a.map_tmp_buf.drop (a.map_size >>> 3) =
      List.replicate (b.map_size >>> 3) 255 ++ b.map_tmp_buf.drop (b.map_size >>> 3)
    rw [h2, h3]
  · show (a.queue_buf.map _).length = (b.queue_buf.map _).length
    rw [List.length_map, List.length_map, h4]
  · rw [entry_cull_queue_init, entry_cull_queue_init]
    exact ⟨(h7 s).1, rfl⟩

theorem cull_same_mark_favored {a b : afl_state_t} (h : cull_same a b) (t : Nat) :
    cull_same (cull_mark_favored a t) (cull_mark_favored b t) := by
  obtain ⟨h1, h2, h3, h4, h5, h6, h7⟩ := h
  obtain ⟨a1, a2, a3, a4, a5⟩ := cull_mark_favored_frame a t
  obtain ⟨b1, b2, b3, b4, b5⟩ := cull_mark_favored_frame b t
  obtain ⟨a6, a7⟩ := cull_mark_favored_flags a t
  obtain ⟨b6, b7⟩ := cull_mark_favored_flags b t
  refine ⟨by rw [a1, b1, h1], by rw [a2, b2, h2], by rw [a3, b3, h3], by rw [a4, b4, h4],
    by rw [a6, b6, h5], by rw [a7, b7, h6], fun s => ?_⟩
  rw [a5 s, b5 s, h4]
  by_cases hc : s = t ∧ t < b.queue_buf.length
  · rw [if_pos hc, if_pos hc]
    exact ⟨(h7 t).1, rfl⟩
  · rw [if_neg hc, if_neg hc]
    exact h7 s

theorem cull_queue_edge_none (a : afl_state_t) (i : Nat) (h : a.top_rated i = none) :
    cull_queue_edge a i = some a := by
  unfold cull_queue_edge
  rw [h]

theorem cull_queue_edge_clear (a : afl_state_t) (i t : Nat) (h : a.top_rated i = some t)
    (hc : ¬ a.map_tmp_buf.getD (i >>> 3) 0 &&& (1 <<< (i &&& 7)) ≠ 0) :
    cull_queue_edge a i = some a := by
  unfold cull_queue_edge
  rw [h]
  simp only []
  rw [if_neg hc]

theorem cull_queue_edge_invalid (a : afl_state_t) (i t : Nat) (h : a.top_rated i = some t)
    (hc : a.map_tmp_buf.getD (i >>> 3) 0 &&& (1 <<< (i &&& 7)) ≠ 0)
    (hl : ¬ t < a.queue_buf.length) : cull_queue_edge a i = none := by
  unfold cull_queue_edge
  rw [h]
  simp only []
  rw [if_pos hc, if_neg hl]

theorem cull_queue_edge_some (a : afl_state_t) (i t : Nat) (m : List Nat)
    (h : a.top_rated i = some t)
    (hc : a.map_tmp_buf.getD (i >>> 3) 0 &&& (1 <<< (i &&& 7)) ≠ 0)
    (hl : t < a.queue_buf.length) (hm : (entry a t).trace_mini = some m) :
    cull_queue_edge a i = some (cull_mark_favored
      { a with map_tmp_buf := cull_remove_bits (a.map_size >>> 3) a.map_tmp_buf m } t) := by
  unfold cull_queue_edge
  rw [h]
  simp only []
  rw [if_pos hc, if_pos hl, hm]

theorem cull_queue_edge_null (a : afl_state_t) (i t : Nat) (h : a.top_rated i = some t)
    (hc : a.map_tmp_buf.getD (i >>> 3) 0 &&& (1 <<< (i &&& 7)) ≠ 0)
    (hl : t < a.queue_buf.length) (hm : (entry a t).trace_mini = none) :
    cull_queue_edge a i =
      if a.map_size >>> 3 = 0 then some (cull_mark_favored a t) else none := by
  unfold cull_queue_edge
  rw [h]
  simp only []
  rw [if_pos hc, if_pos hl, hm]

theorem cull_same_edge {a b : afl_state_t} (h : cull_same a b) (i : Nat) :
    (cull_queue_edge a i = none ∧ cull_queue_edge b i = none) ∨
    ∃ a' b', cull_queue_edge a i = some a' ∧ cull_queue_edge b i = some b' ∧ cull_same a' b' := by
  have h' := h
  obtain ⟨h1, h2, h3, h4, h5, h6, h7⟩ := h
  cases ht : a.top_rated i with
  | none =>
    exact Or.inr ⟨a, b, cull_queue_edge_none a i ht,
      cull_queue_edge_none b i (by rw [← h1]; exact ht), h'⟩
  | some t =>
    have htb : b.top_rated i = some t := by rw [← h1]; exact ht
    by_cases hc : a.map_tmp_buf.getD (i >>> 3) 0 &&& (1 <<< (i &&& 7)) ≠ 0
    · have hcb : b.map_tmp_buf.getD (i >>> 3) 0 &&& (1 <<< (i &&& 7)) ≠ 0 := by
        rw [← h3]
        exact hc
      by_cases hl : t < a.queue_buf.length
      · have hlb : t < b.queue_buf.length := by rw [← h4]; exact hl
        cases hm : (entry a t).trace_mini with
        | some m =>
          have hmb : (entry b t).trace_mini = some m := by rw [← (h7 t).1]; exact hm
          refine Or.inr ⟨_, _, cull_queue_edge_some a i t m ht hc hl hm,
            cull_queue_edge_some b i t m htb hcb hlb hmb, cull_same_mark_favored ?_ t⟩
          refine ⟨h1, h2, ?_, h4, h5, h6, h7⟩
          show cull_remove_bits (a.map_size >>> 3) a.map_tmp_buf m =
            cull_remove_bits (b.map_size >>> 3) b.map_tmp_buf m
          rw [h2, h3]
        | none =>
          have hmb : (entry b t).trace_mini = none := by rw [← (h7 t).1]; exact hm
          rw [cull_queue_edge_null a i t ht hc hl hm, cull_queue_edge_null b i t htb hcb hlb hmb,
            ← h2]
          by_cases hz : a.map_size >>> 3 = 0
          · rw [if_pos hz, if_pos hz]
            exact Or.inr ⟨_, _, rfl, rfl, cull_same_mark_favored h' t⟩
          · rw [if_neg hz, if_neg hz]
            exact Or.inl ⟨rfl, rfl⟩
      · have hlb : ¬ t < b.queue_buf.length := by rw [← h4]; exact hl
        exact Or.inl ⟨cull_queue_edge_invalid a i t ht hc hl,
          cull_queue_edge_invalid b i t htb hcb hlb⟩
    · have hcb : ¬ b.map_tmp_buf.getD (i >>> 3) 0 &&& (1 <<< (i &&& 7)) ≠ 0 := by
        rw [← h3]
        exact hc
      exact Or.inr ⟨a, b, cull_queue_edge_clear a i t ht hc,
        cull_queue_edge_clear b i t htb hcb, h'⟩

theorem cull_same_edges (l : List Nat) :
    ∀ a b : afl_state_t, cull_same a b →
      (cull_queue_edges l a = none ∧ cull_queue_edges l b = none) ∨
      ∃ a' b', cull_queue_edges l a = some a' ∧ cull_queue_edges l b = some b' ∧
        cull_same a' b' := by
  induction l with
  | nil => exact fun a b h => Or.inr ⟨a, b, rfl, rfl, h⟩
  | cons x xs ih =>
    intro a b h
    rw [cull_queue_edges, cull_queue_edges]
    rcases cull_same_edge h x with ⟨e1, e2⟩ | ⟨a', b', e1, e2, h'⟩
    · rw [e1, e2]
      exact Or.inl ⟨rfl, rfl⟩
    · rw [e1, e2]
      exact ih a' b' h'

theorem favored_cull_mark_redundant (a : afl_state_t) (s : Nat) :
    (entry (cull_mark_redundant a) s).favored = (entry a s).favored := by
  rw [entry_cull_mark_redundant]
  split <;> rfl

/-- On two states with the same table `cull_queue` returns alike and marks the same
seeds favored. -/
theorem cull_same_cull_queue {a b : afl_state_t} (h : cull_same a b) :
    (cull_queue a = none ∧ cull_queue b = none) ∨
    ∃ a' b', cull_queue a = some a' ∧ cull_queue b = some b' ∧
      ∀ s, (entry a' s).favored = (entry b' s).favored := by
  by_cases hc : (!a.score_changed || a.non_instrumented_mode) = true
  · have hcb : (!b.score_changed || b.non_instrumented_mode) = true := by
      rw [← h.2.2.2.2.1, ← h.2.2.2.2.2.1]
      exact hc
    have ea : cull_queue a = some a := by
      unfold cull_queue
      rw [if_pos hc]
    have eb : cull_queue b = some b := by
      unfold cull_queue
      rw [if_pos hcb]
    exact Or.inr ⟨a, b, ea, eb, fun s => (h.2.2.2.2.2.2 s).2⟩
  · have hcb : ¬ (!b.score_changed || b.non_instrumented_mode) = true := by
      rw [← h.2.2.2.2.1, ← h.2.2.2.2.2.1]
      exact hc
    have hi := cull_same_init h
    have hms : (List.range b.map_size) = List.range a.map_size := by rw [h.2.1]
    rcases cull_same_edges (List.range a.map_size) _ _ hi with ⟨e1, e2⟩ | ⟨a', b', e1, e2, h'⟩
    · refine Or.inl ⟨?_, ?_⟩
      · unfold cull_queue
        rw [if_neg hc, e1]
      · unfold cull_queue
        rw [if_neg hcb, hms, e2]
    · refine Or.inr ⟨{ cull_mark_redundant a' with reinit_table := true },
        { cull_mark_redundant b' with reinit_table := true }, ?_, ?_, fun s => ?_⟩
      · unfold cull_queue
        rw [if_neg hc, e1]
      · unfold cull_queue
        rw [if_neg hcb, hms, e2]
      · show (entry (cull_mark_redundant a') s).favored =
          (entry (cull_mark_redundant b') s).favored
        rw [favored_cull_mark_redundant, favored_cull_mark_redundant]
        exact (h'.2.2.2.2.2.2 s).2

/-- After scoring, every holder has the bit of its edge in its `trace_mini`. -/
theorem trace_mini_inv_of_scored (c : afl_consts) (tr : Nat → List Nat) (afl0 : afl_state_t)
    (l : List Nat) (a : afl_state_t) (h8 : afl0.map_size % 8 = 0)
    (hq : ∀ s, s ∈ l → s < afl0.queue_buf.length) (h : scored_inv c tr afl0 l a) :
    trace_mini_inv a := by
  intro e s he hs
  obtain ⟨m, _, hit, _⟩ := h.holder e s hs
  have hsl : s < a.queue_buf.length := by
    rw [h.size.2]
    exact hq s m
  have hpos : 0 < edges_held a s := countP_range_pos_of a.top_rated a.map_size e (some s) he hs
  have hmini : (entry a s).trace_mini = some (minimize_bits a.map_size (tr s)) := by
    rw [h.minis s hsl, h.refs s hsl, if_neg (by omega)]
  exact fresh_trace_bit { a with trace_bits := tr s } s e he (by rw [← h.size.1] at h8; exact h8)
    hit hmini

theorem cull_queue_returns (a : afl_state_t) (h : trace_mini_inv a) :
    ∃ a', cull_queue a = some a' := by
  by_cases hs : a.score_changed = true
  · by_cases hn : a.non_instrumented_mode = false
    · obtain ⟨x, _, hx⟩ := cull_queue_runs a hs hn h
      exact ⟨_, hx⟩
    · exact ⟨a, cull_queue_skip a (Or.inr (by simpa using hn))⟩
  · exact ⟨a, cull_queue_skip a (Or.inl (by simpa using hs))⟩

/-- C12 (amended): from a state in which nothing is scored yet, for distinct seeds of
the queue with equal fuzz pressure and pairwise different `fav_factor`, each scored
with its own trace, the `cull_queue` that follows returns and marks the same seeds
favored whichever of two orders the seeds were scored in (`map_size` a multiple of 8
below `2^32`). -/
theorem cull_queue_order_independent (c : afl_consts) (tr : Nat → List Nat)
    (afl0 : afl_state_t) (l1 l2 : List Nat) (hperm : l1.Perm l2) (hnd : l1.Nodup)
    (hq : ∀ s, s ∈ l1 → s < afl0.queue_buf.length) (hf : fresh_table afl0)
    (hm : afl0.map_size < 2 ^ 32) (h8 : afl0.map_size % 8 = 0)
    (hP : ∀ s, s ∈ l1 → ∀ s', s' ∈ l1 →
      fuzz_p2_of c afl0 (entry afl0 s) = fuzz_p2_of c afl0 (entry afl0 s'))
    (hF : ∀ s, s ∈ l1 → ∀ s', s' ∈ l1 →
      fav_factor_of c afl0 (entry afl0 s) = fav_factor_of c afl0 (entry afl0 s') → s = s') :
    ∃ a1 a2, cull_queue (score_seeds c tr afl0 l1) = some a1 ∧
      cull_queue (score_seeds c tr afl0 l2) = some a2 ∧
      ∀ s, (entry a1 s).favored = (entry a2 s).favored := by
  have i1 := scored_inv_score_seeds c tr afl0 l1 hm hf hnd hP hF
  have i2 := scored_inv_score_seeds c tr afl0 l2 hm hf (hperm.nodup_iff.mp hnd)
    (fun s hs s' hs' => hP s (hperm.mem_iff.mpr hs) s' (hperm.mem_iff.mpr hs'))
    (fun s hs s' hs' => hF s (hperm.mem_iff.mpr hs) s' (hperm.mem_iff.mpr hs'))
  have hsame := cull_same_of_scored c tr afl0 l1 l2 _ _ hperm hF i1 i2
  obtain ⟨x, hx⟩ := cull_queue_returns _ (trace_mini_inv_of_scored c tr afl0 l1 _ h8 hq i1)
  rcases cull_same_cull_queue hsame with ⟨e1, _⟩ | ⟨a1, a2, e1, e2, hfav⟩
  · rw [hx] at e1
    cases e1
  · exact ⟨a1, a2, e1, e2, hfav⟩

theorem fresh_table_paced_demo_start : fresh_table paced_demo_start :=
  ⟨fun _ => rfl, fun s =>
    match s with
    | 0 => ⟨rfl, rfl⟩
    | 1 => ⟨rfl, rfl⟩
    | 2 => ⟨rfl, rfl⟩
    | _ + 3 => ⟨rfl, rfl⟩⟩

/-- Witness of C12 (amended): the three seeds with `exec_us` 100, 200, 300 scored in the
orders 0, 1, 2 and 2, 1, 0. -/
theorem cull_queue_order_independent_witness :
    ∃ a1 a2,
      cull_queue (score_seeds demo_consts favored_demo_traces paced_demo_start [0, 1, 2]) =
        some a1 ∧
      cull_queue (score_seeds demo_consts favored_demo_traces paced_demo_start [2, 1, 0]) =
        some a2 ∧
      ∀ s, (entry a1 s).favored = (entry a2 s).favored :=
  cull_queue_order_independent demo_consts favored_demo_traces paced_demo_start [0, 1, 2]
    [2, 1, 0] (by decide) (by decide) (by decide) fresh_table_paced_demo_start (by decide)
    (by decide) (by decide) (by decide)

/-- C12 (as stated) fails. With equal `exec_us` and `len` the traces {0,1}, {1,2}, {0,2}
scored in the order 0, 1, 2 leave seeds 1 and 2 favored, and scored in the order
2, 1, 0 leave seeds 0 and 1 favored, because a tie takes the edge. And two seeds that
hit the same edge, the faster one with the higher `fuzz_level` under EXPLORE, leave
favored whichever was scored first, because each is skipped by one of the two
guards. -/
theorem cull_queue_order_dependent :
    ((cull_queue (score_seeds demo_consts favored_demo_traces favored_demo_start
          [0, 1, 2])).map (fun a => a.queue_buf.map (fun q => q.favored)) =
        some [false, true, true] ∧
      (cull_queue (score_seeds demo_consts favored_demo_traces favored_demo_start
          [2, 1, 0])).map (fun a => a.queue_buf.map (fun q => q.favored)) =
        some [true, true, false]) ∧
    ((cull_queue (score_seeds demo_consts (fun _ => [1, 0, 0, 0, 0, 0, 0, 0])
          pressure_demo_start [0, 1])).map (fun a => a.queue_buf.map (fun q => q.favored)) =
        some [true, false] ∧
      (cull_queue (score_seeds demo_consts (fun _ => [1, 0, 0, 0, 0, 0, 0, 0])
          pressure_demo_start [1, 0])).map (fun a => a.queue_buf.map (fun q => q.favored)) =
        some [false, true]) := by
  decide

/-! ## `add_to_queue` keeps ids equal to indices -/

theorem entry_append_lt (afl : afl_state_t) (l : List queue_entry) (x : queue_entry) (i : Nat)
    (h : afl.queue_buf = l ++ [x]) (hi : i < l.length) : entry afl i = l.getD i default := by
  unfold entry
  rw [h, List.getD_eq_getElem?_getD, List.getD_eq_getElem?_getD, List.getElem?_append_left hi]

theorem entry_append_last (afl : afl_state_t) (l : List queue_entry) (x : queue_entry)
    (h : afl.queue_buf = l ++ [x]) : entry afl l.length = x := by
  unfold entry
  rw [h, List.getD_eq_getElem?_getD, List.getElem?_append_right (le_refl _)]
  simp

/-- C21: in a state where `queue_buf[i]->id == i` for every `i < queued_items` and the
`u32` counters have room for one more, `add_to_queue` returns; the new seed is stored at
the previous `queued_items` with that value as its id; `queued_items`, `active_items` and
`pending_not_fuzzed` each grow by one; every earlier entry is unchanged; and the
invariant holds in the new state. -/
theorem add_to_queue_preserves_id_inv (afl : afl_state_t) (len : Nat) (passed_det : Bool)
    (hq : queued_items afl + 1 < 2 ^ 32) (ha : afl.active_items + 1 < 2 ^ 32)
    (hp : afl.pending_not_fuzzed + 1 < 2 ^ 32) (hinv : id_inv afl) :
    ∃ afl1, add_to_queue afl len passed_det = some afl1 ∧
      (entry afl1 (queued_items afl)).id = queued_items afl ∧
      (entry afl1 (queued_items afl)).len = len ∧
      queued_items afl1 = queued_items afl + 1 ∧
      afl1.active_items = afl.active_items + 1 ∧
      afl1.pending_not_fuzzed = afl.pending_not_fuzzed + 1 ∧
      (∀ i, i < queued_items afl → entry afl1 i = entry afl i) ∧
      id_inv afl1 := by
  unfold queued_items at hq
  have hm : (afl.queue_buf.length + 1) % 2 ^ 32 = afl.queue_buf.length + 1 := Nat.mod_eq_of_lt hq
  unfold add_to_queue
  simp only []
  rw [if_pos hm]
  refine ⟨_, rfl, ?_, ?_, ?_, ?_, ?_, ?_, ?_⟩
  · unfold queued_items
    rw [entry_append_last _ afl.queue_buf _ rfl]
    show (afl.queue_buf.length + 1) % 2 ^ 32 - 1 = afl.queue_buf.length
    rw [hm]
    rfl
  · unfold queued_items
    rw [entry_append_last _ afl.queue_buf _ rfl]
  · unfold queued_items
    show (afl.queue_buf ++ [_]).length = afl.queue_buf.length + 1
    rw [List.length_append]
    rfl
  · exact Nat.mod_eq_of_lt ha
  · exact Nat.mod_eq_of_lt hp
  · intro i hi
    unfold queued_items at hi
    rw [entry_append_lt _ afl.queue_buf _ i rfl hi]
    rfl
  · intro i hi
    have hlen : i < afl.queue_buf.length + 1 := by
      unfold queued_items at hi
      simp only [List.length_append, List.length_singleton] at hi
      exact hi
    by_cases hlt : i < afl.queue_buf.length
    · rw [entry_append_lt _ afl.queue_buf _ i rfl hlt]
      exact hinv i hlt
    · have hie : i = afl.queue_buf.length := by omega
      subst hie
      rw [entry_append_last _ afl.queue_buf _ rfl]
      show (afl.queue_buf.length + 1) % 2 ^ 32 - 1 = afl.queue_buf.length
      rw [hm]
      rfl

theorem id_inv_two_seed_queue : id_inv two_seed_queue := by
  intro i hi
  have h2 : i < 2 := hi
  interval_cases i <;> rfl

/-- Witness of C21: a third seed of length 5 added to a queue of two seeds. -/
theorem add_to_queue_preserves_id_inv_witness :
    ∃ afl1, add_to_queue two_seed_queue 5 false = some afl1 ∧
      (entry afl1 (queued_items two_seed_queue)).id = queued_items two_seed_queue ∧
      (entry afl1 (queued_items two_seed_queue)).len = 5 ∧
      queued_items afl1 = queued_items two_seed_queue + 1 ∧
      afl1.active_items = two_seed_queue.active_items + 1 ∧
      afl1.pending_not_fuzzed = two_seed_queue.pending_not_fuzzed + 1 ∧
      (∀ i, i < queued_items two_seed_queue → entry afl1 i = entry two_seed_queue i) ∧
      id_inv afl1 :=
  add_to_queue_preserves_id_inv two_seed_queue 5 false (by decide) (by decide) (by decide)
    id_inv_two_seed_queue

/-! ## `smallest_favored` and the holders of the favored seeds -/

theorem cull_mark_favored_smallest (a : afl_state_t) (t : Nat) :
    (cull_mark_favored a t).smallest_favored =
      if (entry a t).favored = false ∧ (entry a t).was_fuzzed = false ∧ a.smallest_favored < 0
      then ((entry a t).id : Int) else a.smallest_favored := by
  have hE : ∀ x : afl_state_t, x.queue_buf = a.queue_buf.set t { entry a t with favored := true } →
      (entry x t).was_fuzzed = (entry a t).was_fuzzed ∧ (entry x t).id = (entry a t).id := by
    intro x hx
    have hx' : entry x t = entry (set_entry a t { entry a t with favored := true }) t := by
      show x.queue_buf.getD t default = (a.queue_buf.set t _).getD t default
      rw [hx]
    rw [hx', entry_set_entry]
    split <;> exact ⟨rfl, rfl⟩
  unfold cull_mark_favored
  by_cases hf : (entry a t).favored = true
  · have hc : ¬ (!(entry a t).favored) = true := by rw [hf]; simp
    rw [if_neg hc, if_neg (fun h => by rw [hf] at h; cases h.1)]
  · have hf' : (entry a t).favored = false := by simpa using hf
    have hc : (!(entry a t).favored) = true := by rw [hf']; rfl
    rw [if_pos hc]
    simp only []
    obtain ⟨hw, hid⟩ := hE
      { set_entry a t { entry a t with favored := true } with
        queued_favored :=
          ((set_entry a t { entry a t with favored := true }).queued_favored + 1) % 2 ^ 32 } rfl
    obtain ⟨_, hid3⟩ := hE
      { set_entry a t { entry a t with favored := true } with
        queued_favored :=
          ((set_entry a t { entry a t with favored := true }).queued_favored + 1) % 2 ^ 32
        pending_favored :=
          ((set_entry a t { entry a t with favored := true }).pending_favored + 1) % 2 ^ 32 } rfl
    by_cases hz : (entry a t).was_fuzzed = true
    · have hc2 : ¬ (!(entry
          { set_entry a t { entry a t with favored := true } with
            queued_favored :=
              ((set_entry a t { entry a t with favored := true }).queued_favored + 1) % 2 ^ 32 }
          t).was_fuzzed) = true := by rw [hw, hz]; simp
      rw [if_neg hc2, if_neg (fun h => by rw [hz] at h; cases h.2.1)]
      rfl
    · have hz' : (entry a t).was_fuzzed = false := by simpa using hz
      have hc2 : (!(entry
          { set_entry a t { entry a t with favored := true } with
            queued_favored :=
              ((set_entry a t { entry a t with favored := true }).queued_favored + 1) % 2 ^ 32 }
          t).was_fuzzed) = true := by rw [hw, hz']; rfl
      rw [if_pos hc2]
      by_cases hs : a.smallest_favored < 0
      · have hs3 : ({ set_entry a t { entry a t with favored := true } with
            queued_favored :=
              ((set_entry a t { entry a t with favored := true }).queued_favored + 1) % 2 ^ 32
            pending_favored :=
              ((set_entry a t { entry a t with favored := true }).pending_favored + 1) % 2 ^ 32 }
            : afl_state_t).smallest_favored < 0 := hs
        rw [if_pos hs3, if_pos ⟨hf', hz', hs⟩]
        show ((entry _ t).id : Int) = _
        rw [hid3]
      · have hs3 : ¬ ({ set_entry a t { entry a t with favored := true } with
            queued_favored :=
              ((set_entry a t { entry a t with favored := true }).queued_favored + 1) % 2 ^ 32
            pending_favored :=
              ((set_entry a t { entry a t with favored := true }).pending_favored + 1) % 2 ^ 32 }
            : afl_state_t).smallest_favored < 0 := hs
        rw [if_neg hs3, if_neg (fun h => hs h.2.2)]
        rfl

theorem smallest_favored_inv_mark (a : afl_state_t) (t : Nat) (ht : t < a.queue_buf.length)
    (h : smallest_favored_inv a) : smallest_favored_inv (cull_mark_favored a t) := by
  obtain ⟨_, _, _, hlen, hent⟩ := cull_mark_favored_frame a t
  have hsm := cull_mark_favored_smallest a t
  have hself : entry (cull_mark_favored a t) t = { entry a t with favored := true } := by
    rw [hent t, if_pos ⟨rfl, ht⟩]
  have hother : ∀ s, s ≠ t → entry (cull_mark_favored a t) s = entry a s := by
    intro s hs
    rw [hent s, if_neg (fun c => hs c.1)]
  by_cases hf : (entry a t).favored = true
  · -- nothing changes
    have hsame : ∀ s, entry (cull_mark_favored a t) s = entry a s := by
      intro s
      by_cases hst : s = t
      · subst hst
        rw [hself]
        cases hq : entry a s
        rw [hq] at hf
        simp only at hf
        subst hf
        rfl
      · exact hother s hst
    rw [if_neg (fun c => by rw [hf] at c; cases c.1)] at hsm
    rcases h with ⟨h1, h2⟩ | ⟨s, hs, h1, h2, h3⟩
    · left
      refine ⟨hsm.trans h1, ?_⟩
      intro s hs
      rw [hsame s]
      exact h2 s (by rw [← hlen]; exact hs)
    · right
      refine ⟨s, by rw [hlen]; exact hs, ?_, ?_, ?_⟩
      · rw [hsame s]; exact h1
      · rw [hsame s]; exact h2
      · rw [hsame s, hsm]; exact h3
  · have hf' : (entry a t).favored = false := by simpa using hf
    by_cases hz : (entry a t).was_fuzzed = true
    · rw [if_neg (fun c => by rw [hz] at c; cases c.2.1)] at hsm
      rcases h with ⟨h1, h2⟩ | ⟨s, hs, h1, h2, h3⟩
      · left
        refine ⟨hsm.trans h1, ?_⟩
        intro s hs hfav
        by_cases hst : s = t
        · subst hst
          rw [hself]
          exact hz
        · rw [hother s hst] at hfav ⊢
          exact h2 s (by rw [← hlen]; exact hs) hfav
      · right
        have hst : s ≠ t := by
          intro c
          subst c
          rw [hf'] at h1
          cases h1
        refine ⟨s, by rw [hlen]; exact hs, ?_, ?_, ?_⟩
        · rw [hother s hst]; exact h1
        · rw [hother s hst]; exact h2
        · rw [hother s hst, hsm]; exact h3
    · have hz' : (entry a t).was_fuzzed = false := by simpa using hz
      right
      by_cases hneg : a.smallest_favored < 0
      · rw [if_pos ⟨hf', hz', hneg⟩] at hsm
        refine ⟨t, by rw [hlen]; exact ht, ?_, ?_, ?_⟩
        · rw [hself]
        · rw [hself]; exact hz'
        · rw [hself, hsm]
      · rw [if_neg (fun c => hneg c.2.2)] at hsm
        rcases h with ⟨h1, _⟩ | ⟨s, hs, h1, h2, h3⟩
        · exact absurd (by rw [h1]; decide) hneg
        · have hst : s ≠ t := by
            intro c
            subst c
            rw [hf'] at h1
            cases h1
          refine ⟨s, by rw [hlen]; exact hs, ?_, ?_, ?_⟩
          · rw [hother s hst]; exact h1
          · rw [hother s hst]; exact h2
          · rw [hother s hst, hsm]; exact h3

theorem favored_held_inv_mark (a : afl_state_t) (t i : Nat) (hi : i < a.map_size)
    (htop : a.top_rated i = some t) (h : favored_held_inv a) :
    favored_held_inv (cull_mark_favored a t) := by
  obtain ⟨htr, hms, _, hlen, hent⟩ := cull_mark_favored_frame a t
  intro s hs hfav
  rw [htr, hms]
  by_cases hst : s = t
  · subst hst
    exact ⟨i, hi, htop⟩
  · rw [hent s, if_neg (fun c => hst c.1)] at hfav
    exact h s (by rw [← hlen]; exact hs) hfav

/-- The outcomes of one step of the edge walk: nothing changes, or the top-rated
seed of the edge, an entry of the queue, is marked in a state that differs from the
old one in `temp_v` only. -/
theorem cull_queue_edge_cases (a a' : afl_state_t) (i : Nat)
    (h : cull_queue_edge a i = some a') :
    a' = a ∨ ∃ t m, a.top_rated i = some t ∧ t < a.queue_buf.length ∧
      a' = cull_mark_favored { a with map_tmp_buf := m } t := by
  unfold cull_queue_edge at h
  split at h
  · next t htop =>
    split at h
    · split at h
      · next hlt =>
        split at h
        · next m _ =>
          exact Or.inr ⟨t, _, htop, hlt, (Option.some.inj h).symm⟩
        · split at h
          · exact Or.inr ⟨t, a.map_tmp_buf, htop, hlt, (Option.some.inj h).symm⟩
          · cases h
      · cases h
    · exact Or.inl (Option.some.inj h).symm
  · exact Or.inl (Option.some.inj h).symm

theorem smallest_favored_inv_tmp (a : afl_state_t) (m : List Nat)
    (h : smallest_favored_inv a) : smallest_favored_inv { a with map_tmp_buf := m } := h

theorem favored_held_inv_tmp (a : afl_state_t) (m : List Nat)
    (h : favored_held_inv a) : favored_held_inv { a with map_tmp_buf := m } := h

theorem cull_queue_edges_favored_inv (l : List Nat) :
    ∀ a a' : afl_state_t, (∀ i ∈ l, i < a.map_size) → cull_queue_edges l a = some a' →
      smallest_favored_inv a → favored_held_inv a →
      smallest_favored_inv a' ∧ favored_held_inv a' := by
  induction l with
  | nil =>
    intro a a' _ h h1 h2
    have : a' = a := (Option.some.inj h).symm
    subst this
    exact ⟨h1, h2⟩
  | cons i rest ih =>
    intro a a' hl h h1 h2
    unfold cull_queue_edges at h
    split at h
    · next a1 he =>
      have hi : i < a.map_size := hl i (List.mem_cons_self _ _)
      have hstep : smallest_favored_inv a1 ∧ favored_held_inv a1 ∧ a1.map_size = a.map_size := by
        rcases cull_queue_edge_cases a a1 i he with h0 | ⟨t, m, htop, hlt, h0⟩
        · subst h0
          exact ⟨h1, h2, rfl⟩
        · subst h0
          refine ⟨smallest_favored_inv_mark _ t hlt (smallest_favored_inv_tmp a m h1),
            favored_held_inv_mark _ t i hi htop (favored_held_inv_tmp a m h2), ?_⟩
          exact (cull_mark_favored_frame { a with map_tmp_buf := m } t).2.1
      exact ih a1 a' (fun j hj => by rw [hstep.2.2]; exact hl j (List.mem_cons_of_mem _ hj)) h
        hstep.1 hstep.2.1
    · cases h

theorem cull_mark_redundant_smallest (a : afl_state_t) :
    (cull_mark_redundant a).smallest_favored = a.smallest_favored := by
  have key : ∀ (l : List Nat) (x : afl_state_t),
      (l.foldl (fun a i =>
        if !(entry a i).disabled then mark_as_redundant a i (!(entry a i).favored) else a)
        x).smallest_favored = x.smallest_favored := by
    intro l
    induction l with
    | nil => intro x; rfl
    | cons i rest ih =>
      intro x
      rw [List.foldl_cons, ih]
      split
      · unfold mark_as_redundant
        split <;> rfl
      · rfl
  exact key _ a

theorem cull_queue_init_favored_inv (afl : afl_state_t) :
    smallest_favored_inv (cull_queue_init afl) ∧ favored_held_inv (cull_queue_init afl) := by
  refine ⟨Or.inl ⟨rfl, ?_⟩, ?_⟩
  · intro s _ hf
    rw [entry_cull_queue_init] at hf
    cases hf
  · intro s _ hf
    rw [entry_cull_queue_init] at hf
    cases hf

/-! ## The edge walk of `cull_queue`, position by position -/

theorem cull_queue_edges_append (l : List Nat) (i : Nat) :
    ∀ a : afl_state_t, cull_queue_edges (l ++ [i]) a =
      match cull_queue_edges l a with
      | some x => cull_queue_edge x i
      | none => none := by
  induction l with
  | nil =>
    intro a
    show cull_queue_edges [i] a = cull_queue_edge a i
    unfold cull_queue_edges
    cases cull_queue_edge a i with
    | none => rfl
    | some x => rfl
  | cons j rest ih =>
    intro a
    show cull_queue_edges (j :: (rest ++ [i])) a = _
    unfold cull_queue_edges
    cases cull_queue_edge a j with
    | none => rfl
    | some x => exact ih x

theorem cull_walk_succ (afl : afl_state_t) (e : Nat) :
    cull_walk afl (e + 1) =
      match cull_walk afl e with
      | some x => cull_queue_edge x e
      | none => none := by
  unfold cull_walk
  rw [List.range_succ, cull_queue_edges_append]

theorem cull_walk_step (afl : afl_state_t) (e : Nat) (a a' : afl_state_t)
    (hw : cull_walk afl e = some a) (he : cull_queue_edge a e = some a') :
    cull_walk afl (e + 1) = some a' := by
  rw [cull_walk_succ, hw]
  exact he

theorem cull_walk_prev (afl : afl_state_t) (e : Nat) (a' : afl_state_t)
    (hw : cull_walk afl (e + 1) = some a') :
    ∃ a, cull_walk afl e = some a ∧ cull_queue_edge a e = some a' := by
  rw [cull_walk_succ] at hw
  cases h : cull_walk afl e with
  | none =>
    rw [h] at hw
    cases hw
  | some a =>
    rw [h] at hw
    exact ⟨a, rfl, hw⟩

/-- One step of the edge walk, exactly: nothing changes, or the bit of the position
is still set in `temp_v`, the bits of the `trace_mini` of its top-rated seed are taken
out of `temp_v` and the seed is marked. -/
theorem cull_queue_edge_exact (a a' : afl_state_t) (i : Nat)
    (hl : a.map_size >>> 3 ≤ a.map_tmp_buf.length) (h : cull_queue_edge a i = some a') :
    a' = a ∨ ∃ t tmp, a.top_rated i = some t ∧ t < a.queue_buf.length ∧
      (a.map_tmp_buf.getD (i >>> 3) 0).testBit (i &&& 7) = true ∧
      a' = cull_mark_favored { a with map_tmp_buf := tmp } t ∧
      a.map_size >>> 3 ≤ tmp.length ∧
      ∀ b, b >>> 3 < a.map_size >>> 3 →
        (tmp.getD (b >>> 3) 0).testBit (b &&& 7) =
          ((a.map_tmp_buf.getD (b >>> 3) 0).testBit (b &&& 7) && !trace_mini_bit a t b) := by
  unfold cull_queue_edge at h
  split at h
  · next t htop =>
    split at h
    · next hbit =>
      have hbit' := (and_bit_ne_zero _ _).mp hbit
      split at h
      · next hlt =>
        split at h
        · next m hm =>
          refine Or.inr ⟨t, _, htop, hlt, hbit', (Option.some.inj h).symm, ?_, ?_⟩
          · rw [cull_remove_bits_length _ _ _ hl]
            exact hl
          · intro b hb
            rw [cull_remove_bits_bit _ _ _ hl b hb]
            unfold trace_mini_bit
            rw [hm]
            simp only [hb, decide_True, Bool.true_and]
        · next hm =>
          split at h
          · next h0 =>
            refine Or.inr ⟨t, a.map_tmp_buf, htop, hlt, hbit', (Option.some.inj h).symm, hl, ?_⟩
            intro b hb
            rw [h0] at hb
            exact absurd hb (Nat.not_lt_zero _)
          · cases h
      · cases h
    · exact Or.inl (Option.some.inj h).symm
  · exact Or.inl (Option.some.inj h).symm

theorem favored_lt_length {a : afl_state_t} {s : Nat} (h : (entry a s).favored = true) :
    s < a.queue_buf.length := by
  by_contra hlt
  have : entry a s = default := by
    unfold entry
    rw [List.getD_eq_getElem?_getD, List.getElem?_eq_none (Nat.le_of_not_lt hlt)]
    rfl
  rw [this] at h
  cases h

theorem first_pending_inv_mono (afl : afl_state_t) (k : Nat) (a : afl_state_t)
    (h : first_pending_inv afl k a) : first_pending_inv afl (k + 1) a := by
  rcases h with h | ⟨e, s, ae, he, h⟩
  · exact Or.inl h
  · exact Or.inr ⟨e, s, ae, by omega, h⟩

theorem greedy_inv_mono (afl : afl_state_t) (k : Nat) (a : afl_state_t)
    (h : greedy_inv afl k a) : greedy_inv afl (k + 1) a := by
  refine ⟨h.1, ?_⟩
  intro s hs hf
  obtain ⟨e, ae, he, h2⟩ := h.2 s hs hf
  exact ⟨e, ae, by omega, h2⟩

theorem cull_walk_inv_init (afl : afl_state_t) : cull_walk_inv afl 0 (cull_queue_init afl) := by
  refine ⟨rfl, rfl, ?_, ?_, ?_, ?_, ?_⟩
  · simp [cull_queue_init]
  · intro s
    rw [entry_cull_queue_init]
    exact ⟨rfl, rfl, rfl⟩
  · simp [cull_queue_init]
  · refine Or.inl ⟨rfl, ?_⟩
    intro f _ hf
    rw [entry_cull_queue_init] at hf
    cases hf
  · refine ⟨?_, ?_⟩
    · rintro b _ ⟨f, _, hf, _⟩
      rw [entry_cull_queue_init] at hf
      cases hf
    · intro s _ hf
      rw [entry_cull_queue_init] at hf
      cases hf

/-- The properties of the walk pass from the state in front of position `k` to the
state behind it. -/
theorem cull_walk_inv_step (afl : afl_state_t) (k : Nat) (a a' : afl_state_t)
    (hw : cull_walk afl k = some a) (he : cull_queue_edge a k = some a')
    (h : cull_walk_inv afl k a) : cull_walk_inv afl (k + 1) a' := by
  have hw' := cull_walk_step afl k a a' hw he
  obtain ⟨htop, hsize, hlen, hfields, htmp, hfirst, hgreedy⟩ := h
  rcases cull_queue_edge_exact a a' k htmp he with h0 | ⟨t, tmp, htk, htl, hbit, ha', htl', hbits⟩
  · subst h0
    exact ⟨htop, hsize, hlen, hfields, htmp, first_pending_inv_mono afl k _ hfirst,
      greedy_inv_mono afl k _ hgreedy⟩
  · obtain ⟨f1, f2, f3, f4, f5⟩ := cull_mark_favored_frame { a with map_tmp_buf := tmp } t
    rw [← ha'] at f1 f2 f3 f4 f5
    have hsm := cull_mark_favored_smallest { a with map_tmp_buf := tmp } t
    rw [← ha'] at hsm
    have hent : ∀ s, entry a' s =
        if s = t then { entry a t with favored := true } else entry a s := by
      intro s
      rw [f5 s]
      by_cases hst : s = t
      · rw [if_pos ⟨hst, htl⟩, if_pos hst]
        rfl
      · rw [if_neg (fun c => hst c.1), if_neg hst]
        rfl
    have hself : entry a' t = { entry a t with favored := true } := by
      rw [hent t, if_pos rfl]
    have hother : ∀ s, s ≠ t → entry a' s = entry a s := by
      intro s hs
      rw [hent s, if_neg hs]
    have hkeep : ∀ s, (entry a' s).trace_mini = (entry a s).trace_mini ∧
        (entry a' s).was_fuzzed = (entry a s).was_fuzzed ∧ (entry a' s).id = (entry a s).id := by
      intro s
      rw [hent s]
      split
      · next hst =>
        rw [hst]
        exact ⟨rfl, rfl, rfl⟩
      · exact ⟨rfl, rfl, rfl⟩
    have hfav : ∀ s, (entry a' s).favored = true → (entry a s).favored = true ∨ s = t := by
      intro s hs
      by_cases hst : s = t
      · exact Or.inr hst
      · rw [hother s hst] at hs
        exact Or.inl hs
    have hfav' : ∀ s, (entry a s).favored = true → (entry a' s).favored = true := by
      intro s hs
      by_cases hst : s = t
      · rw [hst, hself]
      · rw [hother s hst]
        exact hs
    have hsize' : a'.map_size = a.map_size := f2
    have hlen' : a'.queue_buf.length = a.queue_buf.length := f4
    have htmp' : a'.map_tmp_buf = tmp := f3
    have hbit_eq : ∀ f b, trace_mini_bit a' f b = trace_mini_bit a f b := fun f b =>
      trace_mini_bit_congr hsize' f b (hkeep f).1
    -- no seed that is favored in front of `k` covers `k`
    have hfresh : ∀ f, f < a.queue_buf.length → (entry a f).favored = true →
        trace_mini_bit a f k = false := by
      intro f hf hfv
      by_contra hne
      have hb : trace_mini_bit a f k = true := by simpa using hne
      obtain ⟨_, _, hk3, _⟩ := trace_mini_bit_unfold hb
      have := hgreedy.1 k hk3 ⟨f, hf, hfv, hb⟩
      rw [hbit] at this
      cases this
    have htaken : (entry a t).favored = false → taken_at afl k t a := by
      intro hnf
      exact ⟨hw, by rw [← htop]; exact htk, hnf, a', hw', by rw [hself]⟩
    refine ⟨f1.trans htop, hsize'.trans hsize, hlen'.trans hlen, ?_, ?_, ?_, ?_⟩
    · intro s
      obtain ⟨k1, k2, k3⟩ := hkeep s
      obtain ⟨g1, g2, g3⟩ := hfields s
      exact ⟨k1.trans g1, k2.trans g2, k3.trans g3⟩
    · rw [hsize', htmp']
      exact htl'
    · -- the seed taken first among those not yet fuzzed
      have hsm' : a'.smallest_favored =
          if (entry a t).favored = false ∧ (entry a t).was_fuzzed = false ∧
            a.smallest_favored < 0 then ((entry a t).id : Int) else a.smallest_favored := hsm
      by_cases hnew : (entry a t).favored = false ∧ (entry a t).was_fuzzed = false ∧
          a.smallest_favored < 0
      · rw [if_pos hnew] at hsm'
        have hnp : no_pending_favored a := by
          rcases hfirst with ⟨_, h2⟩ | ⟨e, s, ae, _, _, _, _, _, _, h3⟩
          · exact h2
          · exfalso
            have := hnew.2.2
            rw [h3] at this
            omega
        refine Or.inr ⟨k, t, a, Nat.lt_succ_self k, htaken hnew.1, hnp, by rw [hlen']; exact htl,
          by rw [hself], ?_, ?_⟩
        · rw [(hkeep t).2.1]
          exact hnew.2.1
        · rw [hsm', (hkeep t).2.2]
      · rw [if_neg hnew] at hsm'
        rcases hfirst with ⟨h1, h2⟩ | ⟨e, s, ae, he1, h1, h2, h3, h4, h5, h6⟩
        · refine Or.inl ⟨hsm'.trans h1, ?_⟩
          intro f hf hfv
          rw [(hkeep f).2.1]
          rcases hfav f hfv with hold | hft
          · exact h2 f (by rw [← hlen']; exact hf) hold
          · subst hft
            by_cases hfa : (entry a f).favored = true
            · exact h2 f htl hfa
            · by_contra hwz
              apply hnew
              refine ⟨by simpa using hfa, by simpa using hwz, ?_⟩
              rw [h1]
              decide
        · refine Or.inr ⟨e, s, ae, by omega, h1, h2, by rw [hlen']; exact h3, hfav' s h4, ?_, ?_⟩
          · rw [(hkeep s).2.1]
            exact h5
          · rw [hsm', (hkeep s).2.2]
            exact h6
    · refine ⟨?_, ?_⟩
      · intro b hb hcov
        rw [hsize'] at hb
        rw [htmp', hbits b hb]
        obtain ⟨f, hf, hfv, hfb⟩ := hcov
        rw [hbit_eq] at hfb
        by_cases hft : f = t
        · rw [← hft, hfb]
          simp
        · have hfa : (entry a f).favored = true := by
            rcases hfav f hfv with h | h
            · exact h
            · exact absurd h hft
          rw [hgreedy.1 b hb ⟨f, by rw [← hlen']; exact hf, hfa, hfb⟩]
          rfl
      · intro s hs hfv
        by_cases hold : (entry a s).favored = true
        · obtain ⟨e, ae, he1, h2⟩ := hgreedy.2 s (by rw [← hlen']; exact hs) hold
          exact ⟨e, ae, by omega, h2⟩
        · have hst : s = t := by
            rcases hfav s hfv with h | h
            · exact absurd h hold
            · exact h
          subst hst
          exact ⟨k, a, Nat.lt_succ_self k, htaken (by simpa using hold), hfresh⟩

theorem cull_walk_inv_all (afl : afl_state_t) :
    ∀ k a, cull_walk afl k = some a → cull_walk_inv afl k a := by
  intro k
  induction k with
  | zero =>
    intro a h
    have : a = cull_queue_init afl := (Option.some.inj h).symm
    rw [this]
    exact cull_walk_inv_init afl
  | succ k ih =>
    intro a' h
    obtain ⟨a, hw, he⟩ := cull_walk_prev afl k a' h
    exact cull_walk_inv_step afl k a a' hw he (ih a hw)

/-- On a state whose top-rated seeds have their `trace_mini` the walk reaches every
position, and keeps the invariant of the loop. -/
theorem cull_walk_exists (afl : afl_state_t) (h : trace_mini_inv afl) (e : Nat)
    (he : e ≤ afl.map_size) :
    ∃ ae, cull_walk afl e = some ae ∧ cull_frame (cull_queue_init afl) ae ∧
      cull_loop_inv ae := by
  obtain ⟨h1, h2, _, h4⟩ := cull_queue_init_inv afl h
  obtain ⟨a, ha, hf, hl, _⟩ := cull_queue_edges_steps (List.range e) (cull_queue_init afl)
    (fun i hi => by
      rw [h4]
      have := List.mem_range.mp hi
      omega) h1 h2
  exact ⟨a, ha, hf, hl⟩

/-- The rule of the walk at a map position `e` with a top-rated seed `t`: when a seed
that is favored in front of `e` covers `e` the state is left as it is, and otherwise
`t` is marked favored and the flags of the other seeds are left as they are. -/
theorem cull_walk_rule (afl : afl_state_t) (h : trace_mini_inv afl) (e t : Nat)
    (he : e < afl.map_size) (ht : afl.top_rated e = some t) :
    ∃ ae ae1, cull_walk afl e = some ae ∧ cull_walk afl (e + 1) = some ae1 ∧
      (covered_by_favored ae e → ae1 = ae) ∧
      (¬ covered_by_favored ae e →
        (entry ae1 t).favored = true ∧ ∀ s, s ≠ t → entry ae1 s = entry ae s) := by
  obtain ⟨ae, hw, hf, hl⟩ := cull_walk_exists afl h e (Nat.le_of_lt he)
  obtain ⟨h1, _, _, _⟩ := cull_queue_init_inv afl h
  have hti : trace_mini_inv ae := trace_mini_inv_frame hf h1
  have hinv := cull_walk_inv_all afl e ae hw
  have htop : ae.top_rated e = some t := by rw [hinv.top]; exact ht
  have hem : e < ae.map_size := by rw [hinv.size]; exact he
  have hbit := hti e t hem htop
  have hval := holder_valid hbit
  obtain ⟨m, hm, h3, _⟩ := trace_mini_bit_unfold hbit
  by_cases hc : ae.map_tmp_buf.getD (e >>> 3) 0 &&& (1 <<< (e &&& 7)) ≠ 0
  · -- the bit is left in `temp_v`: no favored seed covers `e`, and `t` is marked
    have hstep : cull_queue_edge ae e = some (cull_mark_favored
        { ae with map_tmp_buf := cull_remove_bits (ae.map_size >>> 3) ae.map_tmp_buf m } t) := by
      unfold cull_queue_edge
      rw [htop]
      simp only []
      rw [if_pos hc, if_pos hval, hm]
    refine ⟨ae, _, hw, cull_walk_step afl e ae _ hw hstep, ?_, ?_⟩
    · intro hcov
      exfalso
      have := hinv.greedy.1 e h3 hcov
      rw [(and_bit_ne_zero _ _).mp hc] at this
      cases this
    · intro _
      obtain ⟨_, _, _, _, f5⟩ := cull_mark_favored_frame
        { ae with map_tmp_buf := cull_remove_bits (ae.map_size >>> 3) ae.map_tmp_buf m } t
      refine ⟨cull_mark_favored_self _ t hval, ?_⟩
      intro s hs
      rw [f5 s, if_neg (fun c => hs c.1)]
      rfl
  · -- the bit was taken out: some favored seed covers `e`, nothing changes
    have hstep : cull_queue_edge ae e = some ae := by
      unfold cull_queue_edge
      rw [htop]
      simp only []
      rw [if_neg hc]
    refine ⟨ae, ae, hw, cull_walk_step afl e ae ae hw hstep, fun _ => rfl, ?_⟩
    intro hnc
    exfalso
    apply hnc
    have hclear : (ae.map_tmp_buf.getD (e >>> 3) 0).testBit (e &&& 7) = false := by
      by_contra hx
      simp only [Bool.not_eq_false] at hx
      exact hc ((and_bit_ne_zero _ _).mpr hx)
    exact hl.2 e h3 hclear

theorem cull_queue_favored_inv (afl : afl_state_t) (hs : afl.score_changed = true)
    (hn : afl.non_instrumented_mode = false) (h : trace_mini_inv afl) :
    ∃ a, cull_queue_edges (List.range afl.map_size) (cull_queue_init afl) = some a ∧
      cull_queue afl = some { cull_mark_redundant a with reinit_table := true } ∧
      a.map_size = afl.map_size ∧
      smallest_favored_inv a ∧ favored_held_inv a := by
  obtain ⟨a, ha, hc⟩ := cull_queue_runs afl hs hn h
  obtain ⟨h1, h2, _, h4⟩ := cull_queue_init_inv afl h
  obtain ⟨a2, ha2, hf, _, _⟩ := cull_queue_edges_steps (List.range afl.map_size)
    (cull_queue_init afl) (fun i hi => by rw [h4]; exact List.mem_range.mp hi) h1 h2
  have he : a2 = a := Option.some.inj (ha2.symm.trans ha)
  subst he
  obtain ⟨i1, i2⟩ := cull_queue_init_favored_inv afl
  obtain ⟨j1, j2⟩ := cull_queue_edges_favored_inv (List.range afl.map_size)
    (cull_queue_init afl) a2 (fun i hi => by rw [h4]; exact List.mem_range.mp hi) ha i1 i2
  exact ⟨a2, ha, hc, hf.2.1.trans h4, j1, j2⟩

theorem entry_final_fields (a : afl_state_t) (s : Nat) :
    (entry ({ cull_mark_redundant a with reinit_table := true } : afl_state_t) s).favored =
      (entry a s).favored ∧
    (entry ({ cull_mark_redundant a with reinit_table := true } : afl_state_t) s).was_fuzzed =
      (entry a s).was_fuzzed ∧
    (entry ({ cull_mark_redundant a with reinit_table := true } : afl_state_t) s).id =
      (entry a s).id := by
  have h : entry ({ cull_mark_redundant a with reinit_table := true } : afl_state_t) s =
      entry (cull_mark_redundant a) s := rfl
  rw [h, entry_cull_mark_redundant]
  split <;> exact ⟨rfl, rfl, rfl⟩

/-- C23 (amended): a `cull_queue` call that runs on a state whose top-rated seeds have
their `trace_mini` returns, and afterwards `smallest_favored` is `-1` exactly when no
favored seed is unfuzzed; otherwise it is the id of the first seed, in the order of the
edge walk, that is marked favored while not yet fuzzed: the seed `s` is the top-rated
seed of a map position `e` at which the walk marks it, in front of `e` no favored seed
is unfuzzed, and `s` is not fuzzed. The guard `smallest_favored < 0` keeps this first
seed, whatever the ids of the later ones. -/
theorem cull_queue_smallest_favored (afl : afl_state_t) (hs : afl.score_changed = true)
    (hn : afl.non_instrumented_mode = false) (h : trace_mini_inv afl) :
    ∃ afl1, cull_queue afl = some afl1 ∧
      (afl1.smallest_favored = -1 ↔
        ∀ s, s < afl1.queue_buf.length → (entry afl1 s).favored = true →
          (entry afl1 s).was_fuzzed = true) ∧
      (afl1.smallest_favored ≠ -1 →
        ∃ e s ae, e < afl.map_size ∧ taken_at afl e s ae ∧ no_pending_favored ae ∧
          s < afl1.queue_buf.length ∧ (entry afl1 s).favored = true ∧
          (entry afl1 s).was_fuzzed = false ∧
          afl1.smallest_favored = ((entry afl1 s).id : Int)) := by
  obtain ⟨a, ha, hc, _, hinv, _⟩ := cull_queue_favored_inv afl hs hn h
  have hwalk : cull_walk afl afl.map_size = some a := ha
  have hfirst := (cull_walk_inv_all afl afl.map_size a hwalk).first
  have hlen : ({ cull_mark_redundant a with reinit_table := true } : afl_state_t).queue_buf.length
      = a.queue_buf.length := length_cull_mark_redundant a
  have hsm : ({ cull_mark_redundant a with reinit_table := true } : afl_state_t).smallest_favored
      = a.smallest_favored := cull_mark_redundant_smallest a
  refine ⟨_, hc, ?_, ?_⟩
  · rw [hsm, hlen]
    rcases hinv with ⟨h1, h2⟩ | ⟨s, hs1, h1, h2, h3⟩
    · refine ⟨fun _ s hs1 hf => ?_, fun _ => h1⟩
      obtain ⟨e1, e2, _⟩ := entry_final_fields a s
      rw [e1] at hf
      rw [e2]
      exact h2 s hs1 hf
    · refine ⟨fun hm => ?_, fun hall => ?_⟩
      · rw [h3] at hm
        omega
      · obtain ⟨e1, e2, _⟩ := entry_final_fields a s
        have := hall s hs1 (by rw [e1]; exact h1)
        rw [e2, h2] at this
        cases this
  · intro hne
    rw [hsm] at hne
    rcases hfirst with ⟨h1, _⟩ | ⟨e, s, ae, he, ht, hnp, hs1, h1, h2, h3⟩
    · exact absurd h1 hne
    · obtain ⟨e1, e2, e3⟩ := entry_final_fields a s
      exact ⟨e, s, ae, he, ht, hnp, by rw [hlen]; exact hs1, by rw [e1]; exact h1,
        by rw [e2]; exact h2, by rw [hsm, e3]; exact h3⟩

/-- Witness of C23 (amended) on the three-seed state, none of whose seeds is fuzzed:
seed 2 is marked first, at position 0, and `smallest_favored` is 2. -/
theorem cull_queue_smallest_favored_witness :
    (cull_demo_state.score_changed = true ∧ cull_demo_state.non_instrumented_mode = false ∧
      trace_mini_inv cull_demo_state) ∧
    (∃ afl1, cull_queue cull_demo_state = some afl1 ∧
      (afl1.smallest_favored = -1 ↔
        ∀ s, s < afl1.queue_buf.length → (entry afl1 s).favored = true →
          (entry afl1 s).was_fuzzed = true) ∧
      (afl1.smallest_favored ≠ -1 →
        ∃ e s ae, e < cull_demo_state.map_size ∧ taken_at cull_demo_state e s ae ∧
          no_pending_favored ae ∧
          s < afl1.queue_buf.length ∧ (entry afl1 s).favored = true ∧
          (entry afl1 s).was_fuzzed = false ∧
          afl1.smallest_favored = ((entry afl1 s).id : Int))) ∧
    (cull_queue cull_demo_state).map
        (fun a => (a.smallest_favored, a.queue_buf.map (fun q => (q.favored, q.was_fuzzed)))) =
      some (2, [(false, false), (true, false), (true, false)]) :=
  ⟨⟨rfl, rfl, trace_mini_inv_cull_demo_state⟩,
    cull_queue_smallest_favored cull_demo_state rfl rfl trace_mini_inv_cull_demo_state,
    by decide⟩

/-- Counterexample to C23: edge 0 is held by seed 2 and edge 1 by seed 1, both unfuzzed;
after `cull_queue` both are favored and `smallest_favored` is 2, the seed met first,
although seed 1 (id 1) is favored and not fuzzed (the triples are `id`, `favored`,
`was_fuzzed`). -/
theorem cull_queue_smallest_favored_first :
    (cull_queue first_favored_state).map
      (fun a => (a.smallest_favored,
        a.queue_buf.map (fun q => (q.id, q.favored, q.was_fuzzed)))) =
      some (2, [(0, false, false), (1, true, false), (2, true, false)]) := by
  decide

/-- C24 (amended): a `cull_queue` call that runs on a state whose top-rated seeds have
their `trace_mini` returns a favored set that covers every edge with a top-rated seed,
and every favored seed is the top-rated seed of an edge whose bit is set in its own
`trace_mini`. The set is built greedily, in the order of the map positions: every
favored seed `s` is the top-rated seed of a position `e` at which the walk marks it,
and none of the seeds that are favored in front of `e` has the bit `e` in its
`trace_mini` (their bits were taken out of `temp_v`). At every position `e` with a
top-rated seed `t` the walk leaves the state as it is when a seed favored in front of
`e` covers `e`, and otherwise marks `t` and no other seed. No seed is taken out
again. -/
theorem cull_queue_greedy_cover (afl : afl_state_t) (hs : afl.score_changed = true)
    (hn : afl.non_instrumented_mode = false) (h : trace_mini_inv afl) :
    ∃ afl1, cull_queue afl = some afl1 ∧
      (∀ e s, e < afl.map_size → afl1.top_rated e = some s →
        ∃ f, f < afl1.queue_buf.length ∧ (entry afl1 f).favored = true ∧
          trace_mini_bit afl1 f e = true) ∧
      (∀ s, s < afl1.queue_buf.length → (entry afl1 s).favored = true →
        ∃ e, e < afl.map_size ∧ afl1.top_rated e = some s ∧ trace_mini_bit afl1 s e = true) ∧
      (∀ s, s < afl1.queue_buf.length → (entry afl1 s).favored = true →
        ∃ e ae, e < afl.map_size ∧ taken_at afl e s ae ∧
          ∀ f, f < ae.queue_buf.length → (entry ae f).favored = true →
            trace_mini_bit ae f e = false) ∧
      (∀ e t, e < afl.map_size → afl.top_rated e = some t →
        ∃ ae ae1, cull_walk afl e = some ae ∧ cull_walk afl (e + 1) = some ae1 ∧
          (covered_by_favored ae e → ae1 = ae) ∧
          (¬ covered_by_favored ae e →
            (entry ae1 t).favored = true ∧ ∀ s, s ≠ t → entry ae1 s = entry ae s)) := by
  obtain ⟨a, ha, hc, hms, _, hheld⟩ := cull_queue_favored_inv afl hs hn h
  have hwalk : cull_walk afl afl.map_size = some a := ha
  have hgreedy := (cull_walk_inv_all afl afl.map_size a hwalk).greedy
  obtain ⟨h1, h2, h3, h4⟩ := cull_queue_init_inv afl h
  obtain ⟨a2, ha2, hf, _, hcov⟩ := cull_queue_edges_steps (List.range afl.map_size)
    (cull_queue_init afl) (fun i hi => by rw [h4]; exact List.mem_range.mp hi) h1 h2
  have he : a2 = a := Option.some.inj (ha2.symm.trans ha)
  subst he
  have hfr : cull_frame a2 { cull_mark_redundant a2 with reinit_table := true } :=
    cull_mark_redundant_frame a2
  have hti : trace_mini_inv ({ cull_mark_redundant a2 with reinit_table := true } : afl_state_t) :=
    trace_mini_inv_frame (cull_frame_trans hf hfr) h1
  have hlen : ({ cull_mark_redundant a2 with reinit_table := true } : afl_state_t).queue_buf.length
      = a2.queue_buf.length := length_cull_mark_redundant a2
  refine ⟨_, hc, ?_, ?_, ?_, fun e t he ht => cull_walk_rule afl h e t he ht⟩
  · intro e s he hs1
    have htop : (cull_queue_init afl).top_rated e = some s := by
      have : ({ cull_mark_redundant a2 with reinit_table := true } : afl_state_t).top_rated =
          (cull_queue_init afl).top_rated := hfr.1.trans hf.1
      rw [← this]
      exact hs1
    exact covered_by_favored_frame hfr e (hcov e (List.mem_range.mpr he) s htop)
  · intro s hs1 hfav
    obtain ⟨e1, _, _⟩ := entry_final_fields a2 s
    rw [e1] at hfav
    obtain ⟨e, he, htop⟩ := hheld s (by rw [← hlen]; exact hs1) hfav
    have htop1 : ({ cull_mark_redundant a2 with reinit_table := true } : afl_state_t).top_rated e
        = some s := by
      rw [hfr.1]
      exact htop
    have hms1 : ({ cull_mark_redundant a2 with reinit_table := true } : afl_state_t).map_size
        = a2.map_size := hfr.2.1
    refine ⟨e, by rw [← hms]; exact he, htop1, ?_⟩
    exact hti e s (by rw [hms1]; exact he) htop1
  · intro s hs1 hfav
    obtain ⟨e1, _, _⟩ := entry_final_fields a2 s
    rw [e1] at hfav
    exact hgreedy.2 s (by rw [← hlen]; exact hs1) hfav

/-- Witness of C24 (amended) on the three-seed state: seed 2 is marked at position 0
and its bits 0 and 2 leave `temp_v`, seed 1 is marked at position 1, and position 2 is
covered (the pairs are `temp_v` and the `favored` flags in front of the positions 0
to 3). -/
theorem cull_queue_greedy_cover_witness :
    (cull_demo_state.score_changed = true ∧ cull_demo_state.non_instrumented_mode = false ∧
      trace_mini_inv cull_demo_state) ∧
    (∃ afl1, cull_queue cull_demo_state = some afl1 ∧
      (∀ e s, e < cull_demo_state.map_size → afl1.top_rated e = some s →
        ∃ f, f < afl1.queue_buf.length ∧ (entry afl1 f).favored = true ∧
          trace_mini_bit afl1 f e = true) ∧
      (∀ s, s < afl1.queue_buf.length → (entry afl1 s).favored = true →
        ∃ e, e < cull_demo_state.map_size ∧ afl1.top_rated e = some s ∧
          trace_mini_bit afl1 s e = true) ∧
      (∀ s, s < afl1.queue_buf.length → (entry afl1 s).favored = true →
        ∃ e ae, e < cull_demo_state.map_size ∧ taken_at cull_demo_state e s ae ∧
          ∀ f, f < ae.queue_buf.length → (entry ae f).favored = true →
            trace_mini_bit ae f e = false) ∧
      (∀ e t, e < cull_demo_state.map_size → cull_demo_state.top_rated e = some t →
        ∃ ae ae1, cull_walk cull_demo_state e = some ae ∧
          cull_walk cull_demo_state (e + 1) = some ae1 ∧
          (covered_by_favored ae e → ae1 = ae) ∧
          (¬ covered_by_favored ae e →
            (entry ae1 t).favored = true ∧ ∀ s, s ≠ t → entry ae1 s = entry ae s))) ∧
    (cull_queue cull_demo_state).map (fun a => a.queue_buf.map (fun q => q.favored)) =
      some [false, true, true] ∧
    (List.range 4).map
        (fun e => (cull_walk cull_demo_state e).map
          (fun a => (a.map_tmp_buf, a.queue_buf.map (fun q => q.favored)))) =
      [some ([255], [false, false, false]), some ([250], [false, false, true]),
        some ([248], [false, true, true]), some ([248], [false, true, true])] :=
  ⟨⟨rfl, rfl, trace_mini_inv_cull_demo_state⟩,
    cull_queue_greedy_cover cull_demo_state rfl rfl trace_mini_inv_cull_demo_state,
    by decide, by decide⟩

/-- Counterexample to C24: seed 0 (fast, edges 0 and 1) and seed 1 (slow, edges 0, 1
and 2) are scored in this order; seed 0 keeps edges 0 and 1, seed 1 takes edge 2, and
`cull_queue` marks both favored, although the `trace_mini` of seed 1 alone covers every
edge that has a top-rated seed: seed 0 can be removed. -/
theorem cull_queue_cover_not_minimal :
    (cull_queue (score_seeds demo_consts greedy_cover_traces greedy_cover_start [0, 1])).map
      (fun a => ((entry a 0).favored, (entry a 1).favored,
        (List.range a.map_size).map a.top_rated,
        (List.range a.map_size).all
          (fun e => (a.top_rated e).isNone || trace_mini_bit a 1 e))) =
      some (true, true, [some 0, some 0, some 1, none, none, none, none, none], true) := by
  decide

/-! ## Candidates and selection order of `set_cover_reduction_final` -/

theorem mem_swap_remove (l : List Nat) (i : Nat) (x : Nat)
    (h : x ∈ swap_remove l i) : x ∈ l := by
  unfold swap_remove at h
  have h1 := List.mem_of_mem_dropLast h
  rcases List.mem_or_eq_of_mem_set h1 with h2 | h2
  · exact h2
  · rw [h2]
    have hne : l ≠ [] := by
      intro c
      subst c
      simp at h
    have hpos : 0 < l.length := List.length_pos.mpr hne
    exact getD_mem_of_lt l (l.length - 1) (by omega)

/-- The search of lines 1535-1554, for a gain function `G` on the positions below
`n`: the result is the first position of greatest gain, if some gain is positive. -/
theorem set_cover_best_first (G : Nat → Nat) :
    ∀ n,
      (((List.range n).foldl (fun bm i => if G i > bm.2 then (some i, G i) else bm)
          ((none, 0) : Option Nat × Nat)).1 = none ∧
        ((List.range n).foldl (fun bm i => if G i > bm.2 then (some i, G i) else bm)
          ((none, 0) : Option Nat × Nat)).2 = 0 ∧
        ∀ i, i < n → G i = 0) ∨
      ∃ b, ((List.range n).foldl (fun bm i => if G i > bm.2 then (some i, G i) else bm)
          ((none, 0) : Option Nat × Nat)).1 = some b ∧ b < n ∧
        G b = ((List.range n).foldl (fun bm i => if G i > bm.2 then (some i, G i) else bm)
          ((none, 0) : Option Nat × Nat)).2 ∧
        0 < G b ∧ (∀ i, i < n → G i ≤ G b) ∧ ∀ i, i < b → G i < G b := by
  intro n
  induction n with
  | zero =>
    left
    exact ⟨rfl, rfl, fun i hi => absurd hi (by omega)⟩
  | succ n ih =>
    rw [List.range_succ, List.foldl_append, List.foldl_cons, List.foldl_nil]
    generalize (List.range n).foldl (fun bm i => if G i > bm.2 then (some i, G i) else bm)
      ((none, 0) : Option Nat × Nat) = r at ih
    by_cases hg : G n > r.2
    · rw [if_pos hg]
      right
      refine ⟨n, rfl, by omega, rfl, by omega, ?_, ?_⟩
      · intro i hi
        by_cases hin : i = n
        · subst hin
          exact le_refl _
        · rcases ih with ⟨_, h2, h3⟩ | ⟨b, _, _, h3, _, h5, _⟩
          · rw [h3 i (by omega)]
            omega
          · have := h5 i (by omega)
            omega
      · intro i hi
        rcases ih with ⟨_, h2, h3⟩ | ⟨b, _, _, h3, _, h5, _⟩
        · rw [h3 i hi]
          omega
        · have := h5 i hi
          omega
    · rw [if_neg hg]
      rcases ih with ⟨h1, h2, h3⟩ | ⟨b, h1, h2, h3, h4, h5, h6⟩
      · left
        refine ⟨h1, h2, ?_⟩
        intro i hi
        by_cases hin : i = n
        · subst hin
          omega
        · exact h3 i (by omega)
      · right
        refine ⟨b, h1, by omega, h3, h4, ?_, h6⟩
        intro i hi
        by_cases hin : i = n
        · subst hin
          omega
        · exact h5 i (by omega)

theorem set_cover_best_first_max (afl : afl_state_t) (u : List Nat) :
    ((set_cover_best afl u).1 = none ∧
      ∀ i, i < u.length →
        set_cover_gain afl.global_frontier_bitmap_temp (entry afl (u.getD i 0)) = 0) ∨
    ∃ b, (set_cover_best afl u).1 = some b ∧ b < u.length ∧
      0 < set_cover_gain afl.global_frontier_bitmap_temp (entry afl (u.getD b 0)) ∧
      (∀ i, i < u.length →
        set_cover_gain afl.global_frontier_bitmap_temp (entry afl (u.getD i 0)) ≤
          set_cover_gain afl.global_frontier_bitmap_temp (entry afl (u.getD b 0))) ∧
      ∀ i, i < b →
        set_cover_gain afl.global_frontier_bitmap_temp (entry afl (u.getD i 0)) <
          set_cover_gain afl.global_frontier_bitmap_temp (entry afl (u.getD b 0)) := by
  have h := set_cover_best_first
    (fun i => set_cover_gain afl.global_frontier_bitmap_temp (entry afl (u.getD i 0))) u.length
  have hdef : set_cover_best afl u = (List.range u.length).foldl
      (fun bm i =>
        if (fun i => set_cover_gain afl.global_frontier_bitmap_temp (entry afl (u.getD i 0))) i
            > bm.2 then
          (some i,
            (fun i => set_cover_gain afl.global_frontier_bitmap_temp (entry afl (u.getD i 0))) i)
        else bm) (none, 0) := rfl
  rw [← hdef] at h
  rcases h with ⟨h1, _, h3⟩ | ⟨b, h1, h2, _, h4, h5, h6⟩
  · exact Or.inl ⟨h1, h3⟩
  · exact Or.inr ⟨b, h1, h2, h4, h5, h6⟩

/-- What a round that selects position `b` leaves behind. -/
theorem set_cover_round_some (N : Nat) (v : set_cover_vars) (b : Nat)
    (hb : (set_cover_best v.afl v.unselected_seeds).1 = some b)
    (hpos : 0 < set_cover_gain v.afl.global_frontier_bitmap_temp
      (entry v.afl (v.unselected_seeds.getD b 0))) :
    ∃ v1, set_cover_round N v = some (v1, decide (v1.covered_frontier_count = N)) ∧
      v1.unselected_seeds = swap_remove v.unselected_seeds b ∧
      v1.set_covered_seed_list =
        v.set_covered_seed_list ++ [(entry v.afl (v.unselected_seeds.getD b 0)).id] ∧
      v1.afl.queue_buf.length = v.afl.queue_buf.length ∧
      (∀ s, (entry v1.afl s).id = (entry v.afl s).id) ∧
      (∀ s, (entry v1.afl s).disabled = (entry v.afl s).disabled) ∧
      (∀ s, (entry v1.afl s).covered_frontier_nodes_count =
        (entry v.afl s).covered_frontier_nodes_count) ∧
      (∀ s, covered_edges (entry v1.afl s) = covered_edges (entry v.afl s)) := by
  have hcl : (set_cover_clear v.afl.global_frontier_bitmap_temp
      (covered_edges (entry v.afl (v.unselected_seeds.getD b 0)))).2 ≠ 0 :=
    set_cover_clear_pos _ _ ((set_cover_gain_pos _ _).mp hpos)
  unfold set_cover_round
  rw [hb]
  simp only []
  rw [if_pos hcl]
  generalize hsidef : v.unselected_seeds.getD b 0 = si at *
  generalize hcldef : set_cover_clear v.afl.global_frontier_bitmap_temp
    (covered_edges (entry v.afl si)) = cl at *
  have hproj : ∀ {α : Type} (f : queue_entry → α),
      f { entry v.afl si with set_covered := true } = f (entry v.afl si) →
      ∀ s, f (entry (set_entry
        { v.afl with global_frontier_bitmap_temp := cl.1,
                     covered_seed_list_counter := v.afl.covered_seed_list_counter + 1 }
        si { entry v.afl si with set_covered := true }) s) = f (entry v.afl s) := by
    intro α f hf s
    exact entry_set_entry_proj f _ si s _ hf
  refine ⟨_, rfl, rfl, rfl, ?_, ?_, ?_, ?_, ?_⟩
  · exact length_set_entry _ _ _
  · intro s
    exact hproj (fun q => q.id) rfl s
  · intro s
    exact hproj (fun q => q.disabled) rfl s
  · intro s
    exact hproj (fun q => q.covered_frontier_nodes_count) rfl s
  · intro s
    exact hproj covered_edges rfl s

theorem set_cover_round_none (N : Nat) (v : set_cover_vars)
    (hb : (set_cover_best v.afl v.unselected_seeds).1 = none) :
    set_cover_round N v = none := by
  unfold set_cover_round
  rw [hb]

theorem set_cover_round_cases (N : Nat) (v v1 : set_cover_vars) (fin : Bool)
    (h : set_cover_round N v = some (v1, fin)) :
    ∃ b, (set_cover_best v.afl v.unselected_seeds).1 = some b ∧ b < v.unselected_seeds.length ∧
      0 < gain_at v b ∧ (∀ i, i < v.unselected_seeds.length → gain_at v i ≤ gain_at v b) ∧
      (∀ i, i < b → gain_at v i < gain_at v b) ∧
      fin = decide (v1.covered_frontier_count = N) ∧
      v1.unselected_seeds = swap_remove v.unselected_seeds b ∧
      v1.set_covered_seed_list =
        v.set_covered_seed_list ++ [(entry v.afl (v.unselected_seeds.getD b 0)).id] ∧
      v1.afl.queue_buf.length = v.afl.queue_buf.length ∧
      (∀ s, (entry v1.afl s).id = (entry v.afl s).id) := by
  rcases set_cover_best_first_max v.afl v.unselected_seeds with ⟨hn, _⟩ | ⟨b, hb, hlt, hpos, hmax, hfirst⟩
  · rw [set_cover_round_none N v hn] at h
    cases h
  · obtain ⟨v2, hr, h1, h2, h3, h4, _⟩ := set_cover_round_some N v b hb hpos
    rw [hr] at h
    have he := Option.some.inj h
    have hv : v2 = v1 := congrArg Prod.fst he
    have hf : decide (v2.covered_frontier_count = N) = fin := congrArg Prod.snd he
    subst hv
    exact ⟨b, hb, hlt, hpos, hmax, hfirst, hf.symm, h1, h2, h3, h4⟩

theorem candidates_inv_round (afl0 : afl_state_t) (N : Nat) (v v1 : set_cover_vars) (fin : Bool)
    (h : set_cover_round N v = some (v1, fin)) (hinv : candidates_inv afl0 v) :
    candidates_inv afl0 v1 := by
  obtain ⟨b, _, hlt, _, _, _, _, h1, h2, h3, h4⟩ := set_cover_round_cases N v v1 fin h
  constructor
  · exact h3.trans hinv.len
  · intro s
    exact (h4 s).trans (hinv.ids s)
  · intro s hs
    rw [h1] at hs
    exact hinv.cand s (mem_swap_remove _ _ _ hs)
  · intro x hx
    rw [h2] at hx
    rcases List.mem_append.mp hx with hx | hx
    · exact hinv.cover x hx
    · have hxe : x = (entry v.afl (v.unselected_seeds.getD b 0)).id := List.mem_singleton.mp hx
      obtain ⟨c1, c2⟩ := hinv.cand _ (getD_mem_of_lt _ _ hlt)
      exact ⟨_, c1, c2, by rw [hxe, hinv.ids]⟩

theorem candidates_inv_loop (afl0 : afl_state_t) (N : Nat) :
    ∀ (fuel : Nat) (v v1 : set_cover_vars), set_cover_loop N fuel v = some v1 →
      candidates_inv afl0 v → candidates_inv afl0 v1 := by
  intro fuel
  induction fuel with
  | zero =>
    intro v v1 h _
    cases h
  | succ fuel ih =>
    intro v v1 h hinv
    unfold set_cover_loop at h
    split at h
    · cases h
    · next v2 hr =>
      have := Option.some.inj h
      subst this
      exact candidates_inv_round afl0 N v _ true hr hinv
    · next v2 hr =>
      exact ih v2 v1 h (candidates_inv_round afl0 N v v2 false hr hinv)

theorem candidates_inv_init (afl : afl_state_t) : candidates_inv afl (set_cover_init afl) := by
  constructor
  · show (afl.queue_buf.map _).length = _
    rw [List.length_map]
  · intro s
    rw [entry_set_cover_init]
  · intro s hs
    have hs' : s ∈ (List.range afl.queue_buf.length).filter
        (fun i => decide ((entry afl i).covered_frontier_nodes_count > 0)) := hs
    rw [List.mem_filter, List.mem_range] at hs'
    exact ⟨hs'.1, of_decide_eq_true hs'.2⟩
  · intro x hx
    cases hx

/-- C25 (amended): every id that `set_cover_reduction_final` puts in the cover list is
the id of a candidate, a seed of the queue with a non-zero
`covered_frontier_nodes_count`; and when no seed is a candidate and the queue is not
empty, the call returns with an empty cover list and `set_favored_id` set to the id of
`queue_buf[rand() % queued_items]`. The flag `disabled` is read in neither place. -/
theorem set_cover_reduction_final_candidates (c : afl_consts) (rnd : Nat) (afl : afl_state_t) :
    (∀ r, set_cover_reduction_final c rnd afl = some r →
      ∀ x, x ∈ r.2 →
        ∃ s, s < afl.queue_buf.length ∧ 0 < (entry afl s).covered_frontier_nodes_count ∧
          (entry afl s).id = x) ∧
    ((∀ s, s < afl.queue_buf.length → (entry afl s).covered_frontier_nodes_count = 0) →
      0 < afl.queue_buf.length →
      ∃ a, set_cover_reduction_final c rnd afl = some (a, []) ∧
        a.set_favored_id = ((entry afl (rnd % afl.queue_buf.length)).id : Int)) := by
  constructor
  · intro r h x hx
    unfold set_cover_reduction_final at h
    simp only [] at h
    split at h
    · split at h
      · cases h
      · have := Option.some.inj h
        subst this
        cases hx
    · split at h
      · cases h
      · next v hl =>
        split at h
        · cases h
        · have := Option.some.inj h
          subst this
          exact (candidates_inv_loop afl _ _ _ v hl (candidates_inv_init afl)).cover x hx
  · intro hall hpos
    have hnil : (set_cover_init afl).unselected_seeds.length = 0 := by
      rw [List.length_eq_zero]
      show (List.range afl.queue_buf.length).filter
        (fun i => decide ((entry afl i).covered_frontier_nodes_count > 0)) = []
      rw [List.filter_eq_nil_iff]
      intro i hi
      rw [hall i (List.mem_range.mp hi)]
      decide
    unfold set_cover_reduction_final
    simp only []
    rw [if_pos hnil, if_neg (by omega)]
    refine ⟨_, rfl, ?_⟩
    show (((entry (set_cover_init afl).afl (rnd % afl.queue_buf.length)).id : Nat) : Int) = _
    rw [entry_set_cover_init]

/-- Witness of C25 (amended): the cover list of the two-seed state, and the two-seed
state without candidates. -/
theorem set_cover_reduction_final_candidates_witness :
    (∃ r, set_cover_reduction_final demo_consts 0 stale_favored_state = some r ∧
      ∀ x, x ∈ r.2 →
        ∃ s, s < stale_favored_state.queue_buf.length ∧
          0 < (entry stale_favored_state s).covered_frontier_nodes_count ∧
          (entry stale_favored_state s).id = x) ∧
    ((∀ s, s < disabled_first_state.queue_buf.length →
        (entry disabled_first_state s).covered_frontier_nodes_count = 0) ∧
      0 < disabled_first_state.queue_buf.length ∧
      ∃ a, set_cover_reduction_final demo_consts 3 disabled_first_state = some (a, []) ∧
        a.set_favored_id =
          ((entry disabled_first_state (3 % disabled_first_state.queue_buf.length)).id : Int)) :=
  have hsome := Option.isSome_iff_exists.mp
    (show (set_cover_reduction_final demo_consts 0 stale_favored_state).isSome = true by decide)
  have hall : ∀ s, s < disabled_first_state.queue_buf.length →
      (entry disabled_first_state s).covered_frontier_nodes_count = 0 := by decide
  ⟨⟨hsome.choose, hsome.choose_spec,
      (set_cover_reduction_final_candidates demo_consts 0 stale_favored_state).1 hsome.choose
        hsome.choose_spec⟩,
    ⟨hall, by decide,
      (set_cover_reduction_final_candidates demo_consts 3 disabled_first_state).2 hall
        (by decide)⟩⟩

/-- Counterexample to C25: the only candidate is a disabled seed and it ends in the
cover list, marked `set_covered`; and without a candidate, `rand() = 0` stores the id of
the disabled seed 0 in `set_favored_id` (which was 1). -/
theorem set_cover_reduction_final_takes_disabled :
    (set_cover_reduction_final demo_consts 0 disabled_candidate_state).map
        (fun r => (r.2, r.1.queue_buf.map (fun q => (q.id, q.disabled, q.set_covered)))) =
      some ([0], [(0, true, true), (1, false, false)]) ∧
    (set_cover_reduction_final demo_consts 0 disabled_first_state).map
        (fun r => (r.2, r.1.set_favored_id, r.1.queue_buf.map (fun q => (q.id, q.disabled)))) =
      some ([], 0, [(0, true), (1, false)]) := by
  refine ⟨?_, ?_⟩
  · unfold set_cover_reduction_final
    simp only []
    rw [if_neg (by decide)]
    decide
  · decide

/-- C27 fails on the frontier {3, 4} with a single candidate that lists edge 3: the
first round selects it (one edge of two covered, no candidate left, the loop goes on),
the second round finds no candidate with gain, `best_seed_idx` is still `-1` when it
indexes `unselected_seeds`, and the call has no result, for every value of `rand()`. -/
theorem set_cover_reduction_final_uncovered_edge (rnd : Nat) :
    (set_cover_round 2 (set_cover_init uncovered_frontier_state)).map
        (fun r => (r.1.unselected_seeds, r.1.covered_frontier_count,
          r.1.set_covered_seed_list, r.2)) =
      some ([], 1, [0], false) ∧
    (set_cover_round 2 (set_cover_init uncovered_frontier_state)).map
        (fun r => set_cover_best r.1.afl r.1.unselected_seeds) =
      some (none, 0) ∧
    set_cover_reduction_final demo_consts rnd uncovered_frontier_state = none := by
  refine ⟨by decide, by decide, ?_⟩
  unfold set_cover_reduction_final
  simp only []
  rw [if_neg (by decide)]
  exact Option.isNone_iff_eq_none.mp (by decide)

/-! ## Rotation inside the cover list -/

/-- C28 fails when every member of the cover list is already `set_favored`: with the
cover list 1, 2 of a three-seed queue and `rand() = 0`, the flags of seeds 1 and 2 are
reset and the value returned is 0, the position drawn, which is no member of the list;
seed 0 is the one marked (the pairs are `id`, `set_favored`). With a member that is not
yet `set_favored` (seed 2 of the second state) that member is returned. -/
theorem select_seed_with_priority_returns_position (time : Nat → Int) :
    (select_seed_with_priority time 0 all_favored_state [1, 2]).map
        (fun r => (r.2, r.1.queue_buf.map (fun q => (q.id, q.set_favored)))) =
      some (0, [(0, true), (1, false), (2, false)]) ∧
    (select_seed_with_priority time 0 one_favored_state [1, 2]).map
        (fun r => (r.2, r.1.queue_buf.map (fun q => (q.id, q.set_favored)))) =
      some (2, [(0, false), (1, true), (2, true)]) := by
  refine ⟨rfl, ?_⟩
  unfold select_seed_with_priority
  simp only []
  have hv : (List.range one_favored_state.covered_seed_list_counter).foldl
      (select_priority_step time one_favored_state [1, 2])
      { best_seed_id := ([1, 2] : List Nat).getD 0 0, best_priority_score := -1,
        all_favored := true } =
      { best_seed_id := 2, best_priority_score := 0, all_favored := false } := by
    show ([0, 1] : List Nat).foldl _ _ = _
    simp only [List.foldl_cons, List.foldl_nil]
    have h0 : select_priority_step time one_favored_state [1, 2]
        { best_seed_id := ([1, 2] : List Nat).getD 0 0, best_priority_score := -1,
          all_favored := true } 0 =
        { best_seed_id := 1, best_priority_score := -1, all_favored := true } := rfl
    rw [h0]
    unfold select_priority_step
    simp only []
    have hq : entry one_favored_state (([1, 2] : List Nat).getD 1 0) =
        { id := 2, exec_us := 9 } := rfl
    rw [hq]
    have hs : calculate_newest_frontier_node_score (time 1) one_favored_state
        { id := 2, exec_us := 9 } = 0 := rfl
    rw [hs]
    norm_num
  rw [hv]
  rfl

/-- C29 fails on a cover list of a fast seed 0 (10 us) and a slow seed 1 (500 us),
neither `set_favored`: `select_fastest_seed` returns 1, the largest id, and marks that
seed (the triples are `id`, `exec_us`, `set_favored`); `exec_us` is not read. -/
theorem select_fastest_seed_takes_largest_id (rnd : Nat → Nat) :
    (select_fastest_seed rnd fast_slow_state [0, 1]).map
        (fun r => (r.2, r.1.queue_buf.map (fun q => (q.id, q.exec_us, q.set_favored)))) =
      some (1, [(0, 10, false), (1, 500, true)]) := by
  rfl

/-! ## What `update_bitmap_score` records as frontier -/

theorem BITMAP_CHECK_SET (t : List Nat) (e e' : Nat) :
    BITMAP_CHECK (BITMAP_SET t e) e' =
      (BITMAP_CHECK t e' || (decide (e' = e) && decide (e >>> 3 < t.length))) := by
  unfold BITMAP_CHECK BITMAP_SET
  rw [getD_set_eq]
  by_cases h3 : e' >>> 3 = e >>> 3
  · by_cases hl : e >>> 3 < t.length
    · rw [if_pos ⟨h3, hl⟩, testBit_set_bit, h3]
      by_cases hb : e &&& 7 = e' &&& 7
      · have : e' = e := (edge_eq_iff e' e).mpr ⟨h3, hb.symm⟩
        simp [hb, this, hl]
      · have : ¬ e' = e := fun x => hb (by rw [x])
        simp [hb, this]
    · rw [if_neg (fun x => hl x.2)]
      simp [hl]
  · rw [if_neg (fun x => h3 x.1)]
    have : ¬ e' = e := fun x => h3 (by rw [x])
    simp [this]

theorem BITMAP_SET_length (t : List Nat) (e : Nat) : (BITMAP_SET t e).length = t.length := by
  simp [BITMAP_SET]

theorem same_frontier_refl (a : afl_state_t) : same_frontier a a :=
  ⟨rfl, rfl, rfl, rfl, fun _ => ⟨rfl, rfl⟩⟩

theorem same_frontier_trans {a b c : afl_state_t} (h1 : same_frontier a b)
    (h2 : same_frontier b c) : same_frontier a c :=
  ⟨h1.1.trans h2.1, h1.2.1.trans h2.2.1, h1.2.2.1.trans h2.2.2.1, h1.2.2.2.1.trans h2.2.2.2.1,
    fun s => ⟨((h1.2.2.2.2 s).1).trans ((h2.2.2.2.2 s).1),
      ((h1.2.2.2.2 s).2).trans ((h2.2.2.2.2 s).2)⟩⟩

theorem same_frontier_set_entry (afl : afl_state_t) (i : Nat) (e : queue_entry)
    (h1 : e.covered_frontier_node_list = (entry afl i).covered_frontier_node_list)
    (h2 : e.covered_frontier_nodes_count = (entry afl i).covered_frontier_nodes_count) :
    same_frontier (set_entry afl i e) afl :=
  ⟨rfl, rfl, rfl, length_set_entry afl i e, fun s =>
    ⟨entry_set_entry_proj (fun q => q.covered_frontier_node_list) afl i s e h1,
      entry_set_entry_proj (fun q => q.covered_frontier_nodes_count) afl i s e h2⟩⟩

theorem same_frontier_release_top (afl : afl_state_t) (t : Nat) :
    same_frontier (release_top afl t) afl := by
  unfold release_top
  simp only []
  exact same_frontier_set_entry afl t _ rfl rfl

theorem same_frontier_install_top (qi : Nat) (afl : afl_state_t) (i : Nat) :
    same_frontier (install_top qi afl i) afl := by
  have hE : ∀ x : queue_entry,
      x.covered_frontier_node_list = (entry afl qi).covered_frontier_node_list →
      x.covered_frontier_nodes_count = (entry afl qi).covered_frontier_nodes_count →
      same_frontier ({ set_entry { afl with
        top_rated := fun e => if e = i then some qi else afl.top_rated e } qi x with
        score_changed := true }) afl := by
    intro x h1 h2
    exact same_frontier_set_entry { afl with
      top_rated := fun e => if e = i then some qi else afl.top_rated e } qi x h1 h2
  unfold install_top
  simp only []
  split
  · exact hE _ rfl rfl
  · exact hE _ rfl rfl

/-- The loop body changes the frontier bookkeeping as `record_frontier` does when the
trace byte is set, and not at all otherwise. -/
theorem same_frontier_edge (c : afl_consts) (qi p f : Nat) (afl : afl_state_t) (i : Nat) :
    same_frontier (update_bitmap_score_edge c qi p f afl i)
      (if afl.trace_bits.getD i 0 ≠ 0 then record_frontier c qi afl i else afl) := by
  unfold update_bitmap_score_edge
  split
  · simp only []
    split
    · split
      · exact same_frontier_refl _
      · split
        · exact same_frontier_refl _
        · exact same_frontier_trans (same_frontier_install_top qi _ i)
            (same_frontier_release_top _ _)
    · exact same_frontier_install_top qi _ i
  · exact same_frontier_refl _

theorem hit_edges_succ (trace : List Nat) (k : Nat) :
    hit_edges trace (k + 1) =
      hit_edges trace k ++ (if trace.getD k 0 ≠ 0 then [k] else []) := by
  unfold hit_edges
  rw [List.range_succ, List.filter_append]
  congr 1
  by_cases h : trace.getD k 0 ≠ 0
  · rw [if_pos h]
    simp only [List.filter, decide_eq_true h]
  · rw [if_neg h]
    simp only [List.filter, decide_eq_false h]

theorem mem_hit_edges (trace : List Nat) (n e : Nat) :
    e ∈ hit_edges trace n ↔ e < n ∧ trace.getD e 0 ≠ 0 := by
  unfold hit_edges
  rw [List.mem_filter, List.mem_range]
  simp

theorem hit_edges_inv_of_same (c : afl_consts) (afl0 : afl_state_t) (qi k : Nat)
    (a b : afl_state_t) (h : same_frontier a b) (hb : hit_edges_inv c afl0 qi k b) :
    hit_edges_inv c afl0 qi k a := by
  obtain ⟨h1, h2, _, h4, h5⟩ := h
  constructor
  · exact h1.trans hb.trace
  · exact h4.trans hb.len
  · exact ((h5 qi).1).trans hb.list
  · exact ((h5 qi).2).trans hb.count
  · rw [h2]
    exact hb.glen
  · intro e
    rw [h2]
    exact hb.bits e

theorem hit_edges_inv_record (c : afl_consts) (afl0 : afl_state_t) (qi k : Nat)
    (a : afl_state_t) (hq : qi < afl0.queue_buf.length)
    (hk : afl0.trace_bits.getD k 0 ≠ 0) (h : hit_edges_inv c afl0 qi k a) :
    hit_edges_inv c afl0 qi (k + 1) (record_frontier c qi a k) := by
  have hqa : qi < a.queue_buf.length := by rw [h.len]; exact hq
  have hH : hit_edges afl0.trace_bits (k + 1) = hit_edges afl0.trace_bits k ++ [k] := by
    rw [hit_edges_succ, if_pos hk]
  have hG : ∀ x : afl_state_t, entry (record_frontier_global x k) qi = entry x qi ∧
      (record_frontier_global x k).trace_bits = x.trace_bits ∧
      (record_frontier_global x k).queue_buf.length = x.queue_buf.length ∧
      (record_frontier_global x k).global_frontier_bitmap.length =
        x.global_frontier_bitmap.length ∧
      ∀ e, BITMAP_CHECK (record_frontier_global x k).global_frontier_bitmap e =
        (BITMAP_CHECK x.global_frontier_bitmap e ||
          (decide (e = k) && decide (k >>> 3 < x.global_frontier_bitmap.length))) := by
    intro x
    unfold record_frontier_global
    by_cases hc : BITMAP_CHECK x.global_frontier_bitmap k = true
    · have hc' : ¬ (!BITMAP_CHECK x.global_frontier_bitmap k) = true := by rw [hc]; simp
      rw [if_neg hc']
      refine ⟨rfl, rfl, rfl, rfl, ?_⟩
      intro e
      by_cases hek : e = k
      · subst hek
        rw [hc]
        rfl
      · simp [hek]
    · have hc' : (!BITMAP_CHECK x.global_frontier_bitmap k) = true := by simpa using hc
      rw [if_pos hc']
      refine ⟨rfl, rfl, rfl, BITMAP_SET_length _ _, ?_⟩
      intro e
      exact BITMAP_CHECK_SET _ _ _
  have hL : (record_frontier_list c qi a k).trace_bits = a.trace_bits ∧
      (record_frontier_list c qi a k).queue_buf.length = a.queue_buf.length ∧
      (record_frontier_list c qi a k).global_frontier_bitmap = a.global_frontier_bitmap ∧
      (entry (record_frontier_list c qi a k) qi).covered_frontier_node_list =
        (hit_edges afl0.trace_bits (k + 1)).take c.MAX_NODES_PER_SEED ∧
      (entry (record_frontier_list c qi a k) qi).covered_frontier_nodes_count =
        ((hit_edges afl0.trace_bits (k + 1)).take c.MAX_NODES_PER_SEED).length := by
    unfold record_frontier_list
    simp only []
    have hcount := h.count
    have hlist := h.list
    rw [List.length_take] at hcount
    by_cases hlt : (entry a qi).covered_frontier_nodes_count < c.MAX_NODES_PER_SEED
    · rw [if_pos hlt]
      have hHl : (hit_edges afl0.trace_bits k).length < c.MAX_NODES_PER_SEED := by
        rw [hcount] at hlt
        omega
      have htake : (hit_edges afl0.trace_bits k).take c.MAX_NODES_PER_SEED =
          hit_edges afl0.trace_bits k := List.take_of_length_le (by omega)
      have htake1 : (hit_edges afl0.trace_bits (k + 1)).take c.MAX_NODES_PER_SEED =
          hit_edges afl0.trace_bits k ++ [k] := by
        rw [hH]
        apply List.take_of_length_le
        rw [List.length_append, List.length_singleton]
        omega
      rw [htake] at hlist
      have hc2 : (entry a qi).covered_frontier_nodes_count =
          (hit_edges afl0.trace_bits k).length := by
        rw [hcount]
        omega
      refine ⟨rfl, length_set_entry _ _ _, rfl, ?_, ?_⟩
      · rw [entry_set_entry, if_pos ⟨rfl, hqa⟩, htake1]
        show array_write _ _ k = _
        rw [hlist, hc2]
        unfold array_write
        rw [if_neg (by omega), Nat.sub_self]
        simp
      · rw [entry_set_entry, if_pos ⟨rfl, hqa⟩, htake1]
        show (entry a qi).covered_frontier_nodes_count + 1 = _
        rw [hc2, List.length_append, List.length_singleton]
    · rw [if_neg hlt]
      have hHl : c.MAX_NODES_PER_SEED ≤ (hit_edges afl0.trace_bits k).length := by
        rw [hcount] at hlt
        omega
      have htake1 : (hit_edges afl0.trace_bits (k + 1)).take c.MAX_NODES_PER_SEED =
          (hit_edges afl0.trace_bits k).take c.MAX_NODES_PER_SEED := by
        rw [hH]
        exact List.take_append_of_le_length hHl
      refine ⟨rfl, rfl, rfl, ?_, ?_⟩
      · rw [htake1]
        exact hlist
      · rw [htake1]
        exact h.count
  obtain ⟨g1, g2, g3, g4, g5⟩ := hG (record_frontier_list c qi a k)
  obtain ⟨l1, l2, l3, l4, l5⟩ := hL
  unfold record_frontier
  constructor
  · exact g2.trans (l1.trans h.trace)
  · exact g3.trans (l2.trans h.len)
  · rw [g1]
    exact l4
  · rw [g1]
    exact l5
  · rw [g4, l3]
    exact h.glen
  · intro e
    rw [g5, l3, h.bits, h.glen, hH]
    have hm : decide (e ∈ hit_edges afl0.trace_bits k ++ [k]) =
        (decide (e ∈ hit_edges afl0.trace_bits k) || decide (e = k)) := by
      by_cases h1 : e ∈ hit_edges afl0.trace_bits k <;> by_cases h2 : e = k <;> simp [h1, h2]
    rw [hm]
    by_cases hek : e = k
    · subst hek
      have hz : decide (e = e) = true := decide_eq_true rfl
      rw [hz]
      generalize BITMAP_CHECK afl0.global_frontier_bitmap e = x
      generalize decide (e ∈ hit_edges afl0.trace_bits e) = y
      generalize decide (e >>> 3 < afl0.global_frontier_bitmap.length) = w
      cases x <;> cases y <;> cases w <;> rfl
    · have hz : decide (e = k) = false := decide_eq_false hek
      rw [hz]
      generalize BITMAP_CHECK afl0.global_frontier_bitmap e = x
      generalize decide (e ∈ hit_edges afl0.trace_bits k) = y
      generalize decide (e >>> 3 < afl0.global_frontier_bitmap.length) = w
      generalize decide (k >>> 3 < afl0.global_frontier_bitmap.length) = w2
      cases x <;> cases y <;> cases w <;> cases w2 <;> rfl

theorem hit_edges_inv_step (c : afl_consts) (afl0 : afl_state_t) (qi p f k : Nat)
    (a : afl_state_t) (hq : qi < afl0.queue_buf.length) (h : hit_edges_inv c afl0 qi k a) :
    hit_edges_inv c afl0 qi (k + 1) (update_bitmap_score_edge c qi p f a k) := by
  have hs := same_frontier_edge c qi p f a k
  rw [h.trace] at hs
  by_cases hk : afl0.trace_bits.getD k 0 ≠ 0
  · rw [if_pos hk] at hs
    exact hit_edges_inv_of_same c afl0 qi (k + 1) _ _ hs (hit_edges_inv_record c afl0 qi k a hq hk h)
  · rw [if_neg hk] at hs
    have hH : hit_edges afl0.trace_bits (k + 1) = hit_edges afl0.trace_bits k := by
      rw [hit_edges_succ, if_neg hk, List.append_nil]
    refine hit_edges_inv_of_same c afl0 qi (k + 1) _ _ hs ?_
    constructor
    · exact h.trace
    · exact h.len
    · rw [hH]; exact h.list
    · rw [hH]; exact h.count
    · exact h.glen
    · intro e
      rw [hH]
      exact h.bits e

theorem hit_edges_inv_loop (c : afl_consts) (afl0 : afl_state_t) (qi p f : Nat)
    (a : afl_state_t) (hq : qi < afl0.queue_buf.length) (h : hit_edges_inv c afl0 qi 0 a) :
    ∀ n, hit_edges_inv c afl0 qi n
      ((List.range n).foldl (update_bitmap_score_edge c qi p f) a) := by
  intro n
  induction n with
  | zero => exact h
  | succ n ih =>
    rw [List.range_succ, List.foldl_append, List.foldl_cons, List.foldl_nil]
    exact hit_edges_inv_step c afl0 qi p f n _ hq ih

theorem covered_edges_of_list (q : queue_entry)
    (h : q.covered_frontier_nodes_count = q.covered_frontier_node_list.length) :
    covered_edges q = q.covered_frontier_node_list := by
  unfold covered_edges
  rw [h]
  apply List.ext_getElem
  · simp
  · intro i h1 h2
    simp [List.getD_eq_getElem?_getD, List.getElem?_eq_getElem h2]

theorem hit_edges_inv_reset (c : afl_consts) (afl : afl_state_t) (qi : Nat)
    (hq : qi < afl.queue_buf.length) (hs : afl.use_set_cover_scheduling = true) :
    hit_edges_inv c afl qi 0 (reset_frontier_list afl qi) := by
  unfold reset_frontier_list
  rw [if_pos hs]
  have h0 : hit_edges afl.trace_bits 0 = [] := rfl
  constructor
  · rfl
  · exact length_set_entry _ _ _
  · rw [entry_set_entry, if_pos ⟨rfl, hq⟩, h0, List.take_nil]
  · rw [entry_set_entry, if_pos ⟨rfl, hq⟩, h0, List.take_nil]
    rfl
  · rfl
  · intro e
    rw [h0]
    show BITMAP_CHECK afl.global_frontier_bitmap e = _
    simp

/-- C30 (amended): under set-cover scheduling, `update_bitmap_score(q)` for a seed of
the queue leaves in `covered_frontier_node_list` the edges that the current trace hits
(non-zero trace byte, below `map_size`), in ascending order and up to
`MAX_NODES_PER_SEED` of them, and sets in `global_frontier_bitmap` the bit of every hit
edge that lies within the bitmap and no other bit. No frontier test is applied to a hit
edge. -/
theorem update_bitmap_score_records_hit_edges (c : afl_consts) (afl : afl_state_t) (qi : Nat)
    (hq : qi < afl.queue_buf.length) (hs : afl.use_set_cover_scheduling = true) :
    covered_edges (entry (update_bitmap_score c afl qi) qi) =
      (hit_edges afl.trace_bits afl.map_size).take c.MAX_NODES_PER_SEED ∧
    ∀ e, BITMAP_CHECK (update_bitmap_score c afl qi).global_frontier_bitmap e = true ↔
      (BITMAP_CHECK afl.global_frontier_bitmap e = true ∨
        ((e < afl.map_size ∧ afl.trace_bits.getD e 0 ≠ 0) ∧
          e >>> 3 < afl.global_frontier_bitmap.length)) := by
  have h := hit_edges_inv_loop c afl qi (fuzz_p2_of c afl (entry afl qi))
    (fav_factor_of c afl (entry afl qi)) (reset_frontier_list afl qi) hq
    (hit_edges_inv_reset c afl qi hq hs) afl.map_size
  have hdef : update_bitmap_score c afl qi =
      (List.range afl.map_size).foldl
        (update_bitmap_score_edge c qi (fuzz_p2_of c afl (entry afl qi))
          (fav_factor_of c afl (entry afl qi)))
        (reset_frontier_list afl qi) := rfl
  rw [← hdef] at h
  constructor
  · rw [covered_edges_of_list _ (by rw [h.count, h.list])]
    exact h.list
  · intro e
    rw [h.bits e, Bool.or_eq_true, Bool.and_eq_true, decide_eq_true_iff, decide_eq_true_iff,
      mem_hit_edges]

/-- Witness of C30 (amended) on the one-seed state. -/
theorem update_bitmap_score_records_hit_edges_witness :
    (0 < plain_edge_state.queue_buf.length ∧
      plain_edge_state.use_set_cover_scheduling = true) ∧
    covered_edges (entry (update_bitmap_score demo_consts plain_edge_state 0) 0) =
      (hit_edges plain_edge_state.trace_bits plain_edge_state.map_size).take
        demo_consts.MAX_NODES_PER_SEED ∧
    ∀ e, BITMAP_CHECK
        (update_bitmap_score demo_consts plain_edge_state 0).global_frontier_bitmap e = true ↔
      (BITMAP_CHECK plain_edge_state.global_frontier_bitmap e = true ∨
        ((e < plain_edge_state.map_size ∧ plain_edge_state.trace_bits.getD e 0 ≠ 0) ∧
          e >>> 3 < plain_edge_state.global_frontier_bitmap.length)) :=
  ⟨⟨by decide, rfl⟩,
    update_bitmap_score_records_hit_edges demo_consts plain_edge_state 0 (by decide) rfl⟩

/-- Counterexample to C30: edge 3 has no successor in the CFG tables, so
`is_frontier_node_inner` is false for it, and the run of seed 0 hits it;
`update_bitmap_score` records edge 3 in the seed's list and sets bit 3 of the global
frontier bitmap (count 1). -/
theorem update_bitmap_score_records_plain_edge :
    is_frontier_node_inner plain_edge_state 3 = false ∧
    covered_edges (entry (update_bitmap_score demo_consts plain_edge_state 0) 0) = [3] ∧
    (update_bitmap_score demo_consts plain_edge_state 0).global_frontier_bitmap = [8] ∧
    (update_bitmap_score demo_consts plain_edge_state 0).global_covered_frontier_nodes_count
      = 1 := by
  decide

/-! ## Building the alias table twice -/

theorem alias_rel_refl (a : afl_state_t) : alias_rel a a :=
  ⟨rfl, rfl, rfl, rfl, fun _ => rfl⟩

theorem alias_rel_symm {a b : afl_state_t} (h : alias_rel a b) : alias_rel b a :=
  ⟨h.1.symm, h.2.1.symm, h.2.2.1.symm, h.2.2.2.1.symm, fun s => (h.2.2.2.2 s).symm⟩

theorem alias_rel_trans {a b c : afl_state_t} (h1 : alias_rel a b) (h2 : alias_rel b c) :
    alias_rel a c :=
  ⟨h1.1.trans h2.1, h1.2.1.trans h2.2.1, h1.2.2.1.trans h2.2.2.1, h1.2.2.2.1.trans h2.2.2.2.1,
    fun s => (h1.2.2.2.2 s).trans (h2.2.2.2.2 s)⟩

theorem alias_rel_set_entry (afl : afl_state_t) (i : Nat) (e : queue_entry)
    (h : alias_key e = alias_key (entry afl i)) : alias_rel (set_entry afl i e) afl :=
  ⟨rfl, rfl, rfl, length_set_entry afl i e, fun s => entry_set_entry_proj alias_key afl i s e h⟩

theorem alias_rel_disabled {a b : afl_state_t} (h : alias_rel a b) (s : Nat) :
    (entry a s).disabled = (entry b s).disabled :=
  congrArg (fun k => k.1) (h.2.2.2.2 s)

theorem filter_map_of_key {κ β : Type} (key : queue_entry → κ) (p : κ → Bool) (g : κ → β)
    (l1 l2 : List queue_entry) (h : l1.map key = l2.map key) :
    (l1.filter (fun q => p (key q))).map (fun q => g (key q)) =
      (l2.filter (fun q => p (key q))).map (fun q => g (key q)) := by
  have key_eq : ∀ l : List queue_entry,
      (l.filter (fun q => p (key q))).map (fun q => g (key q)) =
        ((l.map key).filter p).map g := by
    intro l
    rw [List.filter_map, List.map_map]
    rfl
  rw [key_eq, key_eq, h]

theorem alias_rel_map_key {a b : afl_state_t} (h : alias_rel a b) :
    a.queue_buf.map alias_key = b.queue_buf.map alias_key := by
  apply List.ext_getElem
  · rw [List.length_map, List.length_map]
    exact h.2.2.2.1
  · intro i h1 h2
    rw [List.length_map] at h1 h2
    rw [List.getElem_map, List.getElem_map]
    have ha : entry a i = a.queue_buf[i] := by
      unfold entry
      rw [List.getD_eq_getElem?_getD, List.getElem?_eq_getElem h1]
      rfl
    have hb : entry b i = b.queue_buf[i] := by
      unfold entry
      rw [List.getD_eq_getElem?_getD, List.getElem?_eq_getElem h2]
      rfl
    rw [← ha, ← hb]
    exact h.2.2.2.2 i

theorem alias_averages_congr (m : score_model) {a b : afl_state_t} (h : alias_rel a b) :
    alias_averages m a = alias_averages m b := by
  have hk := alias_rel_map_key h
  have h1 : (a.queue_buf.filter (fun q => !q.disabled)).map (fun q => fval.fin (q.exec_us : ℚ)) =
      (b.queue_buf.filter (fun q => !q.disabled)).map (fun q => fval.fin (q.exec_us : ℚ)) :=
    filter_map_of_key alias_key (fun k => !k.1) (fun k => fval.fin (k.2.1 : ℚ)) _ _ hk
  have h2 : (a.queue_buf.filter (fun q => !q.disabled)).map (fun q => flog m q.bitmap_size) =
      (b.queue_buf.filter (fun q => !q.disabled)).map (fun q => flog m q.bitmap_size) :=
    filter_map_of_key alias_key (fun k => !k.1) (fun k => flog m k.2.2.1) _ _ hk
  have h3 : (a.queue_buf.filter (fun q => !q.disabled)).map (fun q => fval.fin (q.tc_ref : ℚ)) =
      (b.queue_buf.filter (fun q => !q.disabled)).map (fun q => fval.fin (q.tc_ref : ℚ)) :=
    filter_map_of_key alias_key (fun k => !k.1) (fun k => fval.fin (k.2.2.2.1 : ℚ)) _ _ hk
  have h4 : (a.queue_buf.filter (fun q => !q.disabled)).length =
      (b.queue_buf.filter (fun q => !q.disabled)).length := by
    have := congrArg List.length h1
    rw [List.length_map, List.length_map] at this
    exact this
  unfold alias_averages
  simp only []
  rw [h1, h2, h3, h4]

theorem compute_weight_congr (c : afl_consts) (m : score_model) (a b : afl_state_t)
    (q q' : queue_entry) (x y z : fval) (hs : a.schedule = b.schedule) (hn : a.n_fuzz = b.n_fuzz)
    (hq : alias_key q = alias_key q') :
    compute_weight c m a q x y z = compute_weight c m b q' x y z := by
  unfold alias_key at hq
  simp only [Prod.mk.injEq] at hq
  obtain ⟨_, h2, h3, h4, h5, h6, h7, h8⟩ := hq
  unfold compute_weight
  simp only [hs, hn, h2, h3, h4, h5, h6, h7, h8]

theorem alias_weight_step_key (c : afl_consts) (m : score_model) (avg : fval × fval × fval)
    (st : afl_state_t × fval) (i : Nat) :
    alias_rel (alias_weight_step c m avg st i).1 st.1 ∧
    (i < st.1.queue_buf.length → (entry st.1 i).disabled = false →
      (entry (alias_weight_step c m avg st i).1 i).weight =
        compute_weight c m st.1 (entry st.1 i) avg.1 avg.2.1 avg.2.2) := by
  unfold alias_weight_step
  simp only []
  by_cases hd : (entry st.1 i).disabled = true
  · have hc : ¬ (!(entry st.1 i).disabled) = true := by rw [hd]; simp
    rw [if_neg hc]
    refine ⟨alias_rel_refl _, fun _ h => ?_⟩
    rw [hd] at h
    cases h
  · have hd' : (entry st.1 i).disabled = false := by simpa using hd
    have hc : (!(entry st.1 i).disabled) = true := by rw [hd']; rfl
    rw [if_pos hc]
    refine ⟨?_, ?_⟩
    · refine alias_rel_trans (alias_rel_set_entry _ i _ ?_) (alias_rel_set_entry _ i _ rfl)
      by_cases hi : i < st.1.queue_buf.length
      · rw [entry_self_set_entry _ i _ hi]
        rfl
      · rw [entry_set_entry, if_neg (fun c => hi c.2)]
        have hdef : entry st.1 i = default := by
          unfold entry
          rw [List.getD_eq_getElem?_getD, List.getElem?_eq_none (by omega)]
          rfl
        rw [hdef]
        rfl
    · intro hi _
      rw [entry_self_set_entry _ i _ (by rw [length_set_entry]; exact hi)]

/-- The weight loop run on two states that agree on its inputs: the results agree on
them too, the sums are equal, and so are the weights of the active seeds passed. -/
theorem alias_weight_fold_congr (c : afl_consts) (m : score_model) (avg : fval × fval × fval)
    (a b : afl_state_t) (h : alias_rel a b) :
    ∀ k, k ≤ a.queue_buf.length →
      alias_rel ((List.range k).foldl (alias_weight_step c m avg) (a, fval.fin 0)).1 a ∧
      alias_rel ((List.range k).foldl (alias_weight_step c m avg) (b, fval.fin 0)).1 b ∧
      ((List.range k).foldl (alias_weight_step c m avg) (a, fval.fin 0)).2 =
        ((List.range k).foldl (alias_weight_step c m avg) (b, fval.fin 0)).2 ∧
      ∀ s, s < k →
        (entry ((List.range k).foldl (alias_weight_step c m avg) (a, fval.fin 0)).1 s).disabled = false →
        (entry ((List.range k).foldl (alias_weight_step c m avg) (a, fval.fin 0)).1 s).weight =
          (entry ((List.range k).foldl (alias_weight_step c m avg) (b, fval.fin 0)).1 s).weight := by
  intro k
  induction k with
  | zero =>
    intro _
    exact ⟨alias_rel_refl a, alias_rel_refl b, rfl, fun s hs => absurd hs (by omega)⟩
  | succ k ih =>
    intro hk
    obtain ⟨i1, i2, i3, i4⟩ := ih (by omega)
    rw [List.range_succ, List.foldl_append, List.foldl_cons, List.foldl_nil,
      List.foldl_append, List.foldl_cons, List.foldl_nil]
    generalize (List.range k).foldl (alias_weight_step c m avg) (a, fval.fin 0) = ra at i1 i3 i4
    generalize (List.range k).foldl (alias_weight_step c m avg) (b, fval.fin 0) = rb at i2 i3 i4
    have hrel : alias_rel ra.1 rb.1 := alias_rel_trans i1 (alias_rel_trans h (alias_rel_symm i2))
    have hka : k < ra.1.queue_buf.length := by
      rw [i1.2.2.2.1]
      omega
    have hkb : k < rb.1.queue_buf.length := by
      rw [← hrel.2.2.2.1]
      exact hka
    obtain ⟨ka1, ka2⟩ := alias_weight_step_key c m avg ra k
    obtain ⟨kb1, kb2⟩ := alias_weight_step_key c m avg rb k
    obtain ⟨sa1, _, _, sa4, sa5, _⟩ := alias_weight_step_spec c m avg ra k
    obtain ⟨sb1, _, _, sb4, sb5, _⟩ := alias_weight_step_spec c m avg rb k
    have hdis : (entry ra.1 k).disabled = (entry rb.1 k).disabled := alias_rel_disabled hrel k
    have hwk : (entry ra.1 k).disabled = false →
        (entry (alias_weight_step c m avg ra k).1 k).weight =
          (entry (alias_weight_step c m avg rb k).1 k).weight := by
      intro hd
      rw [ka2 hka hd, kb2 hkb (by rw [← hdis]; exact hd)]
      exact compute_weight_congr c m ra.1 rb.1 _ _ _ _ _ hrel.1 hrel.2.1 (hrel.2.2.2.2 k)
    refine ⟨alias_rel_trans ka1 i1, alias_rel_trans kb1 i2, ?_, ?_⟩
    · rw [sa5 hka, sb5 hkb, i3, ← hdis]
      by_cases hd : (entry ra.1 k).disabled = true
      · rw [if_pos hd, if_pos hd]
      · rw [if_neg hd, if_neg hd, hwk (by simpa using hd)]
    · intro s hs hd
      by_cases hsk : s = k
      · subst hsk
        rw [sa4] at hd
        exact hwk hd
      · rw [sa1 s hsk] at hd ⊢
        rw [sb1 s hsk]
        exact i4 s (by omega) hd

theorem alias_double_fold_congr (n : Nat) (L : List Nat) :
    ∀ a b : afl_state_t, alias_rel a b →
      (∀ s, s < n → (entry a s).disabled = false → (entry a s).weight = (entry b s).weight) →
      alias_rel (L.foldl (fun a i =>
          if !(entry a i).disabled then
            set_entry a i { entry a i with weight := (entry a i).weight.mul (fval.fin 2) }
          else a) a) a ∧
      alias_rel (L.foldl (fun a i =>
          if !(entry a i).disabled then
            set_entry a i { entry a i with weight := (entry a i).weight.mul (fval.fin 2) }
          else a) b) b ∧
      ∀ s, s < n → (entry a s).disabled = false →
        (entry (L.foldl (fun a i =>
          if !(entry a i).disabled then
            set_entry a i { entry a i with weight := (entry a i).weight.mul (fval.fin 2) }
          else a) a) s).weight =
        (entry (L.foldl (fun a i =>
          if !(entry a i).disabled then
            set_entry a i { entry a i with weight := (entry a i).weight.mul (fval.fin 2) }
          else a) b) s).weight := by
  induction L with
  | nil =>
    intro a b _ hw
    exact ⟨alias_rel_refl a, alias_rel_refl b, hw⟩
  | cons i rest ih =>
    intro a b h hw
    rw [List.foldl_cons, List.foldl_cons]
    have hdis : (entry a i).disabled = (entry b i).disabled := alias_rel_disabled h i
    by_cases hd : (entry a i).disabled = true
    · have hca : ¬ (!(entry a i).disabled) = true := by rw [hd]; simp
      have hcb : ¬ (!(entry b i).disabled) = true := by rw [← hdis, hd]; simp
      rw [if_neg hca, if_neg hcb]
      exact ih a b h hw
    · have hd' : (entry a i).disabled = false := by simpa using hd
      have hca : (!(entry a i).disabled) = true := by rw [hd']; rfl
      have hcb : (!(entry b i).disabled) = true := by rw [← hdis, hd']; rfl
      rw [if_pos hca, if_pos hcb]
      have ra : alias_rel (set_entry a i { entry a i with weight := (entry a i).weight.mul (fval.fin 2) }) a :=
        alias_rel_set_entry a i _ rfl
      have rb : alias_rel (set_entry b i { entry b i with weight := (entry b i).weight.mul (fval.fin 2) }) b :=
        alias_rel_set_entry b i _ rfl
      have hw1 : ∀ s, s < n →
          (entry (set_entry a i { entry a i with weight := (entry a i).weight.mul (fval.fin 2) }) s).disabled
            = false →
          (entry (set_entry a i { entry a i with weight := (entry a i).weight.mul (fval.fin 2) }) s).weight =
          (entry (set_entry b i { entry b i with weight := (entry b i).weight.mul (fval.fin 2) }) s).weight := by
        intro s hs hds
        rw [alias_rel_disabled ra s] at hds
        rw [entry_set_entry, entry_set_entry]
        by_cases hsi : s = i
        · subst hsi
          by_cases hl : s < a.queue_buf.length
          · have hlb : s < b.queue_buf.length := by rw [← h.2.2.2.1]; exact hl
            rw [if_pos ⟨rfl, hl⟩, if_pos ⟨rfl, hlb⟩]
            show (entry a s).weight.mul (fval.fin 2) = (entry b s).weight.mul (fval.fin 2)
            rw [hw s hs hds]
          · have hlb : ¬ s < b.queue_buf.length := by rw [← h.2.2.2.1]; exact hl
            rw [if_neg (fun c => hl c.2), if_neg (fun c => hlb c.2)]
            exact hw s hs hds
        · rw [if_neg (fun c => hsi c.1), if_neg (fun c => hsi c.1)]
          exact hw s hs hds
      obtain ⟨j1, j2, j3⟩ := ih _ _ (alias_rel_trans ra (alias_rel_trans h (alias_rel_symm rb))) hw1
      refine ⟨alias_rel_trans j1 ra, alias_rel_trans j2 rb, ?_⟩
      intro s hs hds
      exact j3 s hs (by rw [alias_rel_disabled ra s]; exact hds)

theorem alias_mmopt_double_congr (c : afl_consts) (n : Nat) (a b : afl_state_t)
    (h : alias_rel a b)
    (hw : ∀ s, s < n → (entry a s).disabled = false → (entry a s).weight = (entry b s).weight) :
    alias_rel (alias_mmopt_double c a) a ∧ alias_rel (alias_mmopt_double c b) b ∧
    ∀ s, s < n → (entry a s).disabled = false →
      (entry (alias_mmopt_double c a) s).weight = (entry (alias_mmopt_double c b) s).weight := by
  unfold alias_mmopt_double
  by_cases hc : b.schedule = c.MMOPT ∧ b.queued_discovered ≠ 0
  · have hca : a.schedule = c.MMOPT ∧ a.queued_discovered ≠ 0 := by
      rw [h.1, h.2.2.1]
      exact hc
    rw [if_pos hca, if_pos hc]
    simp only []
    rw [h.2.2.2.1, h.2.2.1]
    exact alias_double_fold_congr n _ a b h hw
  · have hca : ¬ (a.schedule = c.MMOPT ∧ a.queued_discovered ≠ 0) := by
      rw [h.1, h.2.2.1]
      exact hc
    rw [if_neg hca, if_neg hc]
    exact ⟨alias_rel_refl a, alias_rel_refl b, hw⟩

/-- Below RARE the stored weights and their sum are a function of the inputs of the
weight computation alone. -/
theorem alias_weights_congr (c : afl_consts) (m : score_model) (a b : afl_state_t)
    (h : alias_rel a b) (hs : a.schedule < c.RARE) :
    alias_rel (alias_weights c m a).1 a ∧ alias_rel (alias_weights c m b).1 b ∧
    (alias_weights c m a).2 = (alias_weights c m b).2 ∧
    ∀ s, s < a.queue_buf.length → (entry a s).disabled = false →
      (entry (alias_weights c m a).1 s).weight = (entry (alias_weights c m b).1 s).weight := by
  have hsb : b.schedule < c.RARE := by rw [← h.1]; exact hs
  obtain ⟨f1, f2, f3, f4⟩ := alias_weight_fold_congr c m (alias_averages m a) a b h
    a.queue_buf.length (le_refl _)
  have hdefa : alias_weights c m a =
      (alias_mmopt_double c ((List.range a.queue_buf.length).foldl
          (alias_weight_step c m (alias_averages m a)) (a, fval.fin 0)).1,
        ((List.range a.queue_buf.length).foldl
          (alias_weight_step c m (alias_averages m a)) (a, fval.fin 0)).2) := by
    unfold alias_weights
    rw [if_pos hs]
  have hdefb : alias_weights c m b =
      (alias_mmopt_double c ((List.range a.queue_buf.length).foldl
          (alias_weight_step c m (alias_averages m a)) (b, fval.fin 0)).1,
        ((List.range a.queue_buf.length).foldl
          (alias_weight_step c m (alias_averages m a)) (b, fval.fin 0)).2) := by
    unfold alias_weights
    rw [if_pos hsb, ← alias_averages_congr m h, ← h.2.2.2.1]
  rw [hdefa, hdefb]
  generalize (List.range a.queue_buf.length).foldl
    (alias_weight_step c m (alias_averages m a)) (a, fval.fin 0) = ra at f1 f3 f4
  generalize (List.range a.queue_buf.length).foldl
    (alias_weight_step c m (alias_averages m a)) (b, fval.fin 0) = rb at f2 f3 f4
  have hrel : alias_rel ra.1 rb.1 := alias_rel_trans f1 (alias_rel_trans h (alias_rel_symm f2))
  obtain ⟨d1, d2, d3⟩ := alias_mmopt_double_congr c a.queue_buf.length ra.1 rb.1 hrel f4
  refine ⟨alias_rel_trans d1 f1, alias_rel_trans d2 f2, f3, ?_⟩
  intro s hs1 hd
  exact d3 s hs1 (by rw [alias_rel_disabled f1 s]; exact hd)

theorem alias_P_congr (c : afl_consts) (m : score_model) (a b : afl_state_t)
    (h : alias_rel a b) (hs : a.schedule < c.RARE) :
    alias_P c m a = alias_P c m b := by
  obtain ⟨w1, w2, w3, w4⟩ := alias_weights_congr c m a b h hs
  have hrel : alias_rel (alias_weights c m a).1 (alias_weights c m b).1 :=
    alias_rel_trans w1 (alias_rel_trans h (alias_rel_symm w2))
  unfold alias_P
  rw [← h.2.2.2.1, ← w3]
  apply List.map_congr_left
  intro i hi
  have hi' : i < a.queue_buf.length := List.mem_range.mp hi
  have hdis := alias_rel_disabled hrel i
  show (if (entry (alias_weights c m a).1 i).disabled = true then fval.fin 0
      else ((alias_final_weight c (alias_weights c m a).1 i).mul
        (fval.fin (a.queue_buf.length : ℚ))).div (alias_weights c m a).2) =
    (if (entry (alias_weights c m b).1 i).disabled = true then fval.fin 0
      else ((alias_final_weight c (alias_weights c m b).1 i).mul
        (fval.fin (a.queue_buf.length : ℚ))).div (alias_weights c m a).2)
  rw [← hdis]
  by_cases hd : (entry (alias_weights c m a).1 i).disabled = true
  · rw [if_pos hd, if_pos hd]
  · rw [if_neg hd, if_neg hd]
    have hd' : (entry (alias_weights c m a).1 i).disabled = false := by simpa using hd
    have hfw : alias_final_weight c (alias_weights c m a).1 i =
        alias_final_weight c (alias_weights c m b).1 i := by
      unfold alias_final_weight
      rw [← hdis, if_neg hd, if_neg hd, ← hrel.1, if_pos (by rw [w1.1]; exact hs),
        if_pos (by rw [w1.1]; exact hs)]
      exact w4 i hi' (by rw [← alias_rel_disabled w1 i]; exact hd')
    rw [hfw]

/-- C22 (amended): under every power schedule below RARE, building the alias table a
second time directly after the first yields the same `alias_table` and the same
`alias_probability`, whatever `calculate_score` returns and whatever handicap it
leaves: the weights of these schedules are computed from fields that the build does not
write. -/
theorem create_alias_table_twice (c : afl_consts) (m : score_model) (afl : afl_state_t)
    (hs : afl.schedule < c.RARE) :
    (create_alias_table c m (create_alias_table c m afl)).alias_table =
      (create_alias_table c m afl).alias_table ∧
    (create_alias_table c m (create_alias_table c m afl)).alias_probability =
      (create_alias_table c m afl).alias_probability := by
  obtain ⟨w1, _, _, _⟩ := alias_weights_congr c m afl afl (alias_rel_refl afl) hs
  have hr0 : alias_rel (create_alias_table c m afl) (alias_weights c m afl).1 :=
    ⟨rfl, rfl, rfl, rfl, fun _ => rfl⟩
  have hrel : alias_rel (create_alias_table c m afl) afl := alias_rel_trans hr0 w1
  have hP : alias_P c m (create_alias_table c m afl) = alias_P c m afl :=
    alias_P_congr c m _ afl hrel (by rw [hrel.1]; exact hs)
  have h1 : (create_alias_table c m (create_alias_table c m afl)).alias_table =
      (alias_build (alias_P c m (create_alias_table c m afl))).1 := rfl
  have h2 : (create_alias_table c m (create_alias_table c m afl)).alias_probability =
      (alias_build (alias_P c m (create_alias_table c m afl))).2 := rfl
  rw [h1, h2, hP]
  exact ⟨rfl, rfl⟩

/-- Witness of C22 (amended): the four-seed state under FAST. -/
theorem create_alias_table_twice_witness :
    alias_demo_state.schedule < demo_consts.RARE ∧
    (create_alias_table demo_consts demo_model
        (create_alias_table demo_consts demo_model alias_demo_state)).alias_table =
      (create_alias_table demo_consts demo_model alias_demo_state).alias_table ∧
    (create_alias_table demo_consts demo_model
        (create_alias_table demo_consts demo_model alias_demo_state)).alias_probability =
      (create_alias_table demo_consts demo_model alias_demo_state).alias_probability :=
  ⟨by decide, create_alias_table_twice demo_consts demo_model alias_demo_state (by decide)⟩

/-- Counterexample to C22: under SEEK the weight of a seed is the value of
`calculate_score`. Seed 0 has handicap 1: the first build scores it 200 and takes the
handicap, seed 1 scores 100, so `alias_probability` is 1, 2/3; the second build scores
both seeds 100 and `alias_probability` is 1, 1 (the pairs are `perf_score`,
`handicap`; the last line is `calculate_score` on the seeds of the starting state). -/
theorem create_alias_table_twice_differs :
    ((create_alias_table demo_consts (source_model demo_score_consts (fun _ => 1) (fun _ => 0))
        handicap_demo_state).queue_buf.map (fun q => (q.perf_score, q.handicap)),
      (create_alias_table demo_consts (source_model demo_score_consts (fun _ => 1) (fun _ => 0))
        handicap_demo_state).alias_table,
      (create_alias_table demo_consts (source_model demo_score_consts (fun _ => 1) (fun _ => 0))
        handicap_demo_state).alias_probability) =
      ([(200, 0), (100, 0)], [0, 0], [fval.fin 1, fval.fin (2 / 3)]) ∧
    ((create_alias_table demo_consts (source_model demo_score_consts (fun _ => 1) (fun _ => 0))
        (create_alias_table demo_consts
          (source_model demo_score_consts (fun _ => 1) (fun _ => 0))
          handicap_demo_state)).queue_buf.map (fun q => (q.perf_score, q.handicap)),
      (create_alias_table demo_consts (source_model demo_score_consts (fun _ => 1) (fun _ => 0))
        (create_alias_table demo_consts
          (source_model demo_score_consts (fun _ => 1) (fun _ => 0))
          handicap_demo_state)).alias_table,
      (create_alias_table demo_consts (source_model demo_score_consts (fun _ => 1) (fun _ => 0))
        (create_alias_table demo_consts
          (source_model demo_score_consts (fun _ => 1) (fun _ => 0))
          handicap_demo_state)).alias_probability) =
      ([(100, 0), (100, 0)], [0, 0], [fval.fin 1, fval.fin 1]) ∧
    handicap_demo_state.queue_buf.map (calculate_score demo_score_consts handicap_demo_state) =
      [some (200, 0), some (100, 0)] := by
  refine ⟨by decide!, by decide!, by decide!⟩

/-! ## The two frontier predicates -/

theorem mem_range_toNat (n : Int) (i : Nat) : i ∈ List.range n.toNat ↔ (i : Int) < n := by
  rw [List.mem_range]
  omega

/-- C31: `is_frontier_node_outer(e)` is true exactly when `successor_count[e] > 1` and
one of the first `successor_count[e]` successors of `e` has `virgin_bits` equal to
`0xFF`; `is_frontier_node_inner(e)` is true exactly when moreover that successor has
`trace_bits` equal to 0. Hence inner implies outer, and an edge with at most one
successor is a frontier for neither. -/
theorem is_frontier_node_spec (afl : afl_state_t) (e : Nat) :
    (is_frontier_node_outer afl e = true ↔
      1 < afl.successor_count.getD e 0 ∧
        ∃ i : Nat, (i : Int) < afl.successor_count.getD e 0 ∧
          afl.virgin_bits.getD (successor_at afl e i) 0 = 255) ∧
    (is_frontier_node_inner afl e = true ↔
      1 < afl.successor_count.getD e 0 ∧
        ∃ i : Nat, (i : Int) < afl.successor_count.getD e 0 ∧
          afl.virgin_bits.getD (successor_at afl e i) 0 = 255 ∧
          afl.trace_bits.getD (successor_at afl e i) 0 = 0) ∧
    (is_frontier_node_inner afl e = true → is_frontier_node_outer afl e = true) ∧
    (afl.successor_count.getD e 0 ≤ 1 →
      is_frontier_node_inner afl e = false ∧ is_frontier_node_outer afl e = false) := by
  have hout : is_frontier_node_outer afl e = true ↔
      1 < afl.successor_count.getD e 0 ∧
        ∃ i : Nat, (i : Int) < afl.successor_count.getD e 0 ∧
          afl.virgin_bits.getD (successor_at afl e i) 0 = 255 := by
    unfold is_frontier_node_outer successor_at
    simp only []
    by_cases h : afl.successor_count.getD e 0 ≤ 1
    · rw [if_pos h]
      constructor
      · intro c
        cases c
      · intro c
        omega
    · rw [if_neg h, List.any_eq_true]
      constructor
      · rintro ⟨i, hi, hv⟩
        exact ⟨by omega, i, (mem_range_toNat _ _).mp hi, of_decide_eq_true hv⟩
      · rintro ⟨_, i, hi, hv⟩
        exact ⟨i, (mem_range_toNat _ _).mpr hi, decide_eq_true hv⟩
  have hin : is_frontier_node_inner afl e = true ↔
      1 < afl.successor_count.getD e 0 ∧
        ∃ i : Nat, (i : Int) < afl.successor_count.getD e 0 ∧
          afl.virgin_bits.getD (successor_at afl e i) 0 = 255 ∧
          afl.trace_bits.getD (successor_at afl e i) 0 = 0 := by
    unfold is_frontier_node_inner successor_at
    simp only []
    by_cases h : afl.successor_count.getD e 0 ≤ 1
    · rw [if_pos h]
      constructor
      · intro c
        cases c
      · intro c
        omega
    · rw [if_neg h, List.any_eq_true]
      constructor
      · rintro ⟨i, hi, hv⟩
        rw [Bool.and_eq_true] at hv
        exact ⟨by omega, i, (mem_range_toNat _ _).mp hi, of_decide_eq_true hv.1,
          of_decide_eq_true hv.2⟩
      · rintro ⟨_, i, hi, hv, ht⟩
        refine ⟨i, (mem_range_toNat _ _).mpr hi, ?_⟩
        rw [Bool.and_eq_true]
        exact ⟨decide_eq_true hv, decide_eq_true ht⟩
  refine ⟨hout, hin, ?_, ?_⟩
  · intro h
    obtain ⟨h1, i, hi, hv, _⟩ := hin.mp h
    exact hout.mpr ⟨h1, i, hi, hv⟩
  · intro h
    constructor
    · cases hc : is_frontier_node_inner afl e
      · rfl
      · have := (hin.mp hc).1
        omega
    · cases hc : is_frontier_node_outer afl e
      · rfl
      · have := (hout.mp hc).1
        omega

/-- Witness of C31: in the three-edge graph, edge 0 (successors 1 and 2, edge 2 virgin
and not hit) is an inner and an outer frontier; edge 1, with one successor, is
neither. -/
theorem is_frontier_node_spec_witness :
    (is_frontier_node_inner cfg_demo_state 0 = true ∧
      is_frontier_node_outer cfg_demo_state 0 = true) ∧
    (cfg_demo_state.successor_count.getD 1 0 ≤ 1 ∧
      is_frontier_node_inner cfg_demo_state 1 = false ∧
      is_frontier_node_outer cfg_demo_state 1 = false) :=
  ⟨⟨by decide,
      (is_frontier_node_spec cfg_demo_state 0).2.2.1 (by decide)⟩,
    ⟨by decide, (is_frontier_node_spec cfg_demo_state 1).2.2.2 (by decide)⟩⟩

/-! ## `strstr` and the replacement of the path in front of `...` -/

theorem isPrefixOf_spec (n h : List Char) : n.isPrefixOf h = true ↔ ∃ y, h = n ++ y := by
  induction n generalizing h with
  | nil =>
    simp
  | cons a n ih =>
    cases h with
    | nil =>
      simp
    | cons b h =>
      rw [List.isPrefixOf, Bool.and_eq_true, ih]
      constructor
      · rintro ⟨hab, y, hy⟩
        have : a = b := by simpa using hab
        subst this
        exact ⟨y, by rw [hy]; rfl⟩
      · rintro ⟨y, hy⟩
        have h1 := List.cons.inj hy
        exact ⟨by rw [h1.1]; simp, y, h1.2⟩

/-- The value of `strstr`: `NULL` exactly when the needle does not occur, else the
offset of the first occurrence. -/
theorem strstr_spec (n : List Char) :
    ∀ h : List Char,
      (strstr h n = none → ¬ has_substr h n) ∧
      ∀ p, strstr h n = some p →
        ∃ x y, h = x ++ n ++ y ∧ x.length = p ∧
          ∀ x1 y1, h = x1 ++ n ++ y1 → p ≤ x1.length := by
  intro h
  induction h with
  | nil =>
    unfold strstr
    by_cases hn : n = []
    · rw [if_pos hn]
      refine ⟨fun c => (by cases c), ?_⟩
      intro p hp
      have : p = 0 := (Option.some.inj hp).symm
      subst this
      exact ⟨[], [], by rw [hn]; rfl, rfl, fun _ _ _ => Nat.zero_le _⟩
    · rw [if_neg hn]
      refine ⟨?_, fun p hp => by cases hp⟩
      rintro _ ⟨x, y, hxy⟩
      have h1 : (x ++ n ++ y).length = 0 := by rw [← hxy]; rfl
      rw [List.length_append, List.length_append] at h1
      have : n.length = 0 := by omega
      exact hn (List.length_eq_zero.mp this)
  | cons c h ih =>
    obtain ⟨ih1, ih2⟩ := ih
    unfold strstr
    by_cases hp : n.isPrefixOf (c :: h) = true
    · rw [if_pos hp]
      refine ⟨fun c => (by cases c), ?_⟩
      intro p hp1
      have : p = 0 := (Option.some.inj hp1).symm
      subst this
      obtain ⟨y, hy⟩ := (isPrefixOf_spec n (c :: h)).mp hp
      exact ⟨[], y, by rw [hy]; rfl, rfl, fun _ _ _ => Nat.zero_le _⟩
    · rw [if_neg hp]
      have hnot : ∀ y, c :: h ≠ n ++ y := by
        intro y hy
        exact hp ((isPrefixOf_spec n (c :: h)).mpr ⟨y, hy⟩)
      have hshift : ∀ x1 y1, c :: h = x1 ++ n ++ y1 →
          ∃ x2, x1 = c :: x2 ∧ h = x2 ++ n ++ y1 := by
        intro x1 y1 h1
        cases x1 with
        | nil =>
          exact absurd (by rw [h1]; rfl) (hnot y1)
        | cons a x2 =>
          have h2 : c :: h = a :: (x2 ++ n ++ y1) := by rw [h1]; rfl
          have h3 := List.cons.inj h2
          exact ⟨x2, by rw [h3.1], h3.2⟩
      cases hs : strstr h n with
      | none =>
        simp only []
        refine ⟨?_, fun p hp1 => by cases hp1⟩
        rintro _ ⟨x1, y1, h1⟩
        obtain ⟨x2, _, h2⟩ := hshift x1 y1 h1
        exact ih1 hs ⟨x2, y1, h2⟩
      | some q =>
        simp only []
        refine ⟨fun c => (by cases c), ?_⟩
        intro p hp1
        have : p = q + 1 := (Option.some.inj hp1).symm
        subst this
        obtain ⟨x, y, hxy, hlen, hmin⟩ := ih2 q hs
        refine ⟨c :: x, y, by rw [hxy]; rfl, by rw [List.length_cons, hlen], ?_⟩
        intro x1 y1 h1
        obtain ⟨x2, hx2, h2⟩ := hshift x1 y1 h1
        rw [hx2, List.length_cons]
        have := hmin x2 y1 h2
        omega

theorem strstr_isSome (h n : List Char) : (strstr h n).isSome = true ↔ has_substr h n := by
  obtain ⟨h1, h2⟩ := strstr_spec n h
  cases hs : strstr h n with
  | none =>
    constructor
    · intro c
      cases c
    · intro c
      exact absurd c (h1 hs)
  | some p =>
    obtain ⟨x, y, hxy, _, _⟩ := h2 p hs
    exact ⟨fun _ => ⟨x, y, hxy⟩, fun _ => rfl⟩

theorem strstr_eq_none (h n : List Char) : strstr h n = none ↔ ¬ has_substr h n := by
  rw [← strstr_isSome]
  cases strstr h n <;> simp

theorem dropWhile_head (l : List Char) :
    (l.dropWhile (fun c => c == '/')).head? ≠ some '/' := by
  induction l with
  | nil =>
    simp
  | cons a l ih =>
    rw [List.dropWhile_cons]
    by_cases h : (a == '/') = true
    · rw [if_pos h]
      exact ih
    · rw [if_neg h]
      intro c
      have : a = '/' := Option.some.inj c
      exact h (by rw [this]; rfl)

/-- What the function returns on an input that holds `...` at offset `p` first. -/
theorem replace_prefix_before_ellipsis_some (s : List Char) (p : Nat)
    (h : strstr s "...".toList = some p) :
    replace_prefix_before_ellipsis s =
      some (( k_fix_prefix) ++ (s.drop (p + 3)).dropWhile (fun c => c == '/')) := by
  unfold replace_prefix_before_ellipsis
  rw [h]
  simp only []
  have hn : (decide (( k_fix_prefix).length > 0) &&
      decide (( k_fix_prefix).getD (( k_fix_prefix).length - 1) ' ' ≠ '/')) = false := by
    decide
  rw [hn]
  simp

/-- C35: `replace_prefix_before_ellipsis` returns no result exactly when its input does
not contain `...`; on an input whose first `...` is followed by the text `y` it returns
`/workspace/target_final/` followed by `y` without its leading `/` characters; so every
result starts with the target root and what follows the root does not start with `/`. -/
theorem replace_prefix_before_ellipsis_spec (s : List Char) :
    (replace_prefix_before_ellipsis s = none ↔ ¬ has_substr s "...".toList) ∧
    (∀ x y, s = x ++ "...".toList ++ y →
      (∀ x1 y1, s = x1 ++ "...".toList ++ y1 → x.length ≤ x1.length) →
      replace_prefix_before_ellipsis s =
        some ("/workspace/target_final/".toList ++ y.dropWhile (fun c => c == '/'))) ∧
    (∀ r, replace_prefix_before_ellipsis s = some r →
      ∃ t, r = "/workspace/target_final/".toList ++ t ∧ t.head? ≠ some '/') := by
  obtain ⟨h1, h2⟩ := strstr_spec "...".toList s
  refine ⟨?_, ?_, ?_⟩
  · rw [← strstr_eq_none]
    cases hs : strstr s "...".toList with
    | none =>
      unfold replace_prefix_before_ellipsis
      rw [hs]
      simp
    | some p =>
      rw [replace_prefix_before_ellipsis_some s p hs]
      simp
  · intro x y hxy hmin
    cases hs : strstr s "...".toList with
    | none => exact absurd ⟨x, y, hxy⟩ (h1 hs)
    | some p =>
      obtain ⟨x0, y0, hxy0, hlen, hmin0⟩ := h2 p hs
      have hp : p = x.length := by
        have a1 := hmin0 x y hxy
        have a2 := hmin x0 y0 hxy0
        omega
      rw [replace_prefix_before_ellipsis_some s p hs]
      have hd : s.drop (p + 3) = y := by
        rw [hxy, hp]
        have h3 : ("...".toList : List Char).length = 3 := rfl
        rw [show x ++ "...".toList ++ y = (x ++ "...".toList) ++ y from rfl,
          List.drop_append_of_le_length (by rw [List.length_append, h3])]
        have : (x ++ "...".toList).length = x.length + 3 := by rw [List.length_append, h3]
        rw [← this, List.drop_length, List.nil_append]
      rw [hd]
      rfl
  · intro r hr
    cases hs : strstr s "...".toList with
    | none =>
      unfold replace_prefix_before_ellipsis at hr
      rw [hs] at hr
      cases hr
    | some p =>
      rw [replace_prefix_before_ellipsis_some s p hs] at hr
      have := Option.some.inj hr
      exact ⟨_, this.symm, dropWhile_head _⟩

/-- Witness of C35: `src/...//in/seed` becomes `/workspace/target_final/in/seed`, and
`plain` has no result. -/
theorem replace_prefix_before_ellipsis_spec_witness :
    replace_prefix_before_ellipsis "src/...//in/seed".toList =
      some ("/workspace/target_final/".toList ++
        ("//in/seed".toList).dropWhile (fun c => c == '/')) ∧
    replace_prefix_before_ellipsis "src/...//in/seed".toList =
      some "/workspace/target_final/in/seed".toList ∧
    replace_prefix_before_ellipsis "plain".toList = none :=
  ⟨(replace_prefix_before_ellipsis_spec "src/...//in/seed".toList).2.1 "src/".toList
      "//in/seed".toList (by decide)
      (by
        intro x1 y1 h1
        by_contra hlt
        have hx : x1.length < 4 := by
          have : ("src/".toList : List Char).length = 4 := rfl
          omega
        have hs := (strstr_spec "...".toList "src/...//in/seed".toList).2 4 (by decide)
        obtain ⟨_, _, _, _, hmin⟩ := hs
        have := hmin x1 y1 h1
        omega),
    by decide, by decide⟩

/-! ## The mode decision of the minimizer command line -/

theorem exists_getD_iff_mem (l : List (List Char)) (P : List Char → Prop) :
    (∃ i, i < l.length ∧ P (l.getD i [])) ↔ ∃ a, a ∈ l ∧ P a := by
  constructor
  · rintro ⟨i, hi, hp⟩
    refine ⟨l.getD i [], ?_, hp⟩
    rw [List.getD_eq_getElem?_getD, List.getElem?_eq_getElem hi]
    exact List.getElem_mem hi
  · rintro ⟨a, ha, hp⟩
    obtain ⟨i, hi, he⟩ := List.mem_iff_getElem.mp ha
    refine ⟨i, hi, ?_⟩
    rw [List.getD_eq_getElem?_getD, List.getElem?_eq_getElem hi]
    simp only [Option.getD_some]
    rw [he]
    exact hp

theorem argv_has_atat_iff (argv : List (List Char)) :
    argv_has_atat argv = true ↔ ∃ a, a ∈ argv ∧ has_substr a "@@".toList := by
  unfold argv_has_atat
  rw [List.any_eq_true]
  constructor
  · rintro ⟨a, ha, hs⟩
    exact ⟨a, ha, (strstr_isSome _ _).mp hs⟩
  · rintro ⟨a, ha, hs⟩
    exact ⟨a, ha, (strstr_isSome _ _).mpr hs⟩

theorem idx_stdin_dash_iff (argv : List (List Char)) :
    (idx_stdin_dash argv).isSome = true ↔ "-".toList ∈ argv := by
  unfold idx_stdin_dash
  rw [List.find?_isSome]
  constructor
  · rintro ⟨i, hi, hp⟩
    obtain ⟨a, ha, he⟩ := (exists_getD_iff_mem argv (fun a => a = "-".toList)).mp
      ⟨i, List.mem_range.mp hi, of_decide_eq_true hp⟩
    rw [← he]
    exact ha
  · intro h
    obtain ⟨i, hi, hp⟩ := (exists_getD_iff_mem argv (fun a => a = "-".toList)).mpr
      ⟨_, h, rfl⟩
    exact ⟨i, List.mem_range.mpr hi, decide_eq_true hp⟩

/-- An argument that the search for the fixed path accepts. -/
theorem fixed_path_fold (argv : List (List Char)) (cfg : Option (List Char)) :
    ∀ k,
      (((List.range k).foldl (fixed_path_step argv cfg) (none, false)).1 = none →
        ((List.range k).foldl (fixed_path_step argv cfg) (none, false)).2 = false ∧
        ∀ i, i < k →
          ¬ (argv.getD i [] ≠ "-".toList ∧ strstr (argv.getD i []) "@@".toList = none ∧
            (cfg = some (argv.getD i []) ∨
              (strstr (argv.getD i []) ".cur_input".toList).isSome = true))) ∧
      ∀ ip, ((List.range k).foldl (fixed_path_step argv cfg) (none, false)).1 = some ip →
        ip.1 < k ∧ ip.2 = argv.getD ip.1 [] ∧ ip.2 ≠ "-".toList ∧
          strstr ip.2 "@@".toList = none ∧
          (cfg = some ip.2 ∨ (strstr ip.2 ".cur_input".toList).isSome = true) := by
  intro k
  induction k with
  | zero =>
    refine ⟨fun _ => ⟨rfl, fun i hi => absurd hi (by omega)⟩, ?_⟩
    intro ip h
    cases h
  | succ k ih =>
    rw [List.range_succ, List.foldl_append, List.foldl_cons, List.foldl_nil]
    generalize (List.range k).foldl (fixed_path_step argv cfg) (none, false) = st at ih
    obtain ⟨ih1, ih2⟩ := ih
    have keep : (st.1 = none → st.2 = false ∧ ∀ i, i < k →
          ¬ (argv.getD i [] ≠ "-".toList ∧ strstr (argv.getD i []) "@@".toList = none ∧
            (cfg = some (argv.getD i []) ∨
              (strstr (argv.getD i []) ".cur_input".toList).isSome = true))) →
        ¬ (argv.getD k [] ≠ "-".toList ∧ strstr (argv.getD k []) "@@".toList = none ∧
            (cfg = some (argv.getD k []) ∨
              (strstr (argv.getD k []) ".cur_input".toList).isSome = true)) →
        (st.1 = none → st.2 = false ∧ ∀ i, i < k + 1 →
          ¬ (argv.getD i [] ≠ "-".toList ∧ strstr (argv.getD i []) "@@".toList = none ∧
            (cfg = some (argv.getD i []) ∨
              (strstr (argv.getD i []) ".cur_input".toList).isSome = true))) ∧
        ∀ ip, st.1 = some ip →
          ip.1 < k + 1 ∧ ip.2 = argv.getD ip.1 [] ∧ ip.2 ≠ "-".toList ∧
            strstr ip.2 "@@".toList = none ∧
            (cfg = some ip.2 ∨ (strstr ip.2 ".cur_input".toList).isSome = true) := by
      intro _ hk
      refine ⟨fun hn => ⟨(ih1 hn).1, fun i hi => ?_⟩, fun ip hip => ?_⟩
      · by_cases hik : i = k
        · subst hik
          exact hk
        · exact (ih1 hn).2 i (by omega)
      · obtain ⟨a1, a2⟩ := ih2 ip hip
        exact ⟨by omega, a2⟩
    have found : ∀ b : Bool,
        argv.getD k [] ≠ "-".toList → strstr (argv.getD k []) "@@".toList = none →
        (cfg = some (argv.getD k []) ∨
          (strstr (argv.getD k []) ".cur_input".toList).isSome = true) →
        (((some (k, argv.getD k []), b) : Option (Nat × List Char) × Bool).1 = none →
          ((some (k, argv.getD k []), b) : Option (Nat × List Char) × Bool).2 = false ∧
          ∀ i, i < k + 1 →
          ¬ (argv.getD i [] ≠ "-".toList ∧ strstr (argv.getD i []) "@@".toList = none ∧
            (cfg = some (argv.getD i []) ∨
              (strstr (argv.getD i []) ".cur_input".toList).isSome = true))) ∧
        ∀ ip, ((some (k, argv.getD k []), b) : Option (Nat × List Char) × Bool).1 = some ip →
          ip.1 < k + 1 ∧ ip.2 = argv.getD ip.1 [] ∧ ip.2 ≠ "-".toList ∧
            strstr ip.2 "@@".toList = none ∧
            (cfg = some ip.2 ∨ (strstr ip.2 ".cur_input".toList).isSome = true) := by
      intro b h1 h2 h3
      refine ⟨fun hn => (by cases hn), fun ip hip => ?_⟩
      have : ip = (k, argv.getD k []) := (Option.some.inj hip).symm
      subst this
      exact ⟨Nat.lt_succ_self k, rfl, h1, h2, h3⟩
    unfold fixed_path_step
    by_cases hb : st.2 = true
    · rw [if_pos hb]
      refine ⟨fun hn => ?_, fun ip hip => ?_⟩
      · have := (ih1 hn).1
        rw [hb] at this
        cases this
      · obtain ⟨a1, a2⟩ := ih2 ip hip
        exact ⟨by omega, a2⟩
    · rw [if_neg hb]
      simp only []
      by_cases hd : argv.getD k [] = "-".toList
      · rw [if_pos hd]
        exact keep ih1 (fun c => c.1 hd)
      · rw [if_neg hd]
        by_cases ha : (strstr (argv.getD k []) "@@".toList).isSome = true
        · rw [if_pos ha]
          refine keep ih1 (fun c => ?_)
          rw [c.2.1] at ha
          cases ha
        · rw [if_neg ha]
          have ha' : strstr (argv.getD k []) "@@".toList = none := by
            cases hs : strstr (argv.getD k []) "@@".toList with
            | none => rfl
            | some p =>
              rw [hs] at ha
              exact absurd rfl ha
          by_cases hc : cfg = some (argv.getD k [])
          · rw [if_pos hc]
            exact found true hd ha' (Or.inl hc)
          · rw [if_neg hc]
            by_cases hi : (strstr (argv.getD k []) ".cur_input".toList).isSome = true
            · rw [if_pos hi]
              exact found _ hd ha' (Or.inr hi)
            · rw [if_neg hi]
              refine keep ih1 (fun c => ?_)
              rcases c.2.2 with c1 | c1
              · exact hc c1
              · exact hi c1

theorem find_fixed_path_iff (argv : List (List Char)) (cfg : Option (List Char))
    (hat : ¬ ∃ a, a ∈ argv ∧ has_substr a "@@".toList) :
    ((find_fixed_path argv cfg).isSome = true ↔
      ∃ a, a ∈ argv ∧ a ≠ "-".toList ∧ (cfg = some a ∨ has_substr a ".cur_input".toList)) ∧
    ∀ ip, find_fixed_path argv cfg = some ip →
      ip.2 ∈ argv ∧ ip.2 ≠ "-".toList ∧
        (cfg = some ip.2 ∨ has_substr ip.2 ".cur_input".toList) := by
  obtain ⟨h1, h2⟩ := fixed_path_fold argv cfg argv.length
  have hdef : find_fixed_path argv cfg =
      ((List.range argv.length).foldl (fixed_path_step argv cfg) (none, false)).1 := rfl
  rw [← hdef] at h1 h2
  have hmem : ∀ ip, find_fixed_path argv cfg = some ip →
      ip.2 ∈ argv ∧ ip.2 ≠ "-".toList ∧
        (cfg = some ip.2 ∨ has_substr ip.2 ".cur_input".toList) := by
    intro ip hip
    obtain ⟨a1, a2, a3, _, a5⟩ := h2 ip hip
    refine ⟨?_, a3, ?_⟩
    · obtain ⟨a, ha, he⟩ := (exists_getD_iff_mem argv (fun a => a = ip.2)).mp ⟨ip.1, a1, a2.symm⟩
      rw [← he]
      exact ha
    · rcases a5 with a5 | a5
      · exact Or.inl a5
      · exact Or.inr ((strstr_isSome _ _).mp a5)
  refine ⟨?_, hmem⟩
  constructor
  · intro hs
    cases hf : find_fixed_path argv cfg with
    | none =>
      rw [hf] at hs
      cases hs
    | some ip =>
      obtain ⟨b1, b2, b3⟩ := hmem ip hf
      exact ⟨ip.2, b1, b2, b3⟩
  · rintro ⟨a, ha, hd, hc⟩
    cases hf : find_fixed_path argv cfg with
    | some ip => rfl
    | none =>
      exfalso
      obtain ⟨i, hi, he⟩ := (exists_getD_iff_mem argv (fun x => x = a)).mpr ⟨a, ha, rfl⟩
      refine (h1 hf).2 i hi ⟨by rw [he]; exact hd, ?_, ?_⟩
      · rw [he, strstr_eq_none]
        exact fun c => hat ⟨a, ha, c⟩
      · rw [he]
        rcases hc with hc | hc
        · exact Or.inl hc
        · exact Or.inr ((strstr_isSome _ _).mpr hc)

/-- C34: the mode of `spawn_afl_cmin_and_wait` is pass-through exactly when some
target argument contains `@@`; else fixed-file exactly when some argument other than
`-` equals the configured out-file or contains `.cur_input`; else existing stdin
exactly when some argument is `-`; else forced stdin. The argv handed to `afl-cmin`
is the option head, then `-f <path>` exactly in fixed-file mode (the path being such an
argument), then `--`, then the target argv, then a closing `-` exactly in forced stdin
mode; the construction never stops in `FATAL`. -/
theorem cmin_argv_mode (afl : afl_state_t) (in_dir out_dir : List Char) :
    (decide_mode afl = cmin_mode.MODE_ATAT ↔
      ∃ a, a ∈ afl.argv ∧ has_substr a "@@".toList) ∧
    (decide_mode afl = cmin_mode.MODE_FILE_FIXED ↔
      (¬ ∃ a, a ∈ afl.argv ∧ has_substr a "@@".toList) ∧
      ∃ a, a ∈ afl.argv ∧ a ≠ "-".toList ∧
        (afl.out_file = some a ∨ has_substr a ".cur_input".toList)) ∧
    (decide_mode afl = cmin_mode.MODE_STDIN_EXISTING ↔
      (¬ ∃ a, a ∈ afl.argv ∧ has_substr a "@@".toList) ∧
      (¬ ∃ a, a ∈ afl.argv ∧ a ≠ "-".toList ∧
        (afl.out_file = some a ∨ has_substr a ".cur_input".toList)) ∧
      "-".toList ∈ afl.argv) ∧
    (decide_mode afl = cmin_mode.MODE_STDIN_FORCED ↔
      (¬ ∃ a, a ∈ afl.argv ∧ has_substr a "@@".toList) ∧
      (¬ ∃ a, a ∈ afl.argv ∧ a ≠ "-".toList ∧
        (afl.out_file = some a ∨ has_substr a ".cur_input".toList)) ∧
      "-".toList ∉ afl.argv) ∧
    ∃ f, cmin_argv afl in_dir out_dir =
        some (cmin_argv_head afl in_dir out_dir ++ f ++ ["--".toList] ++
          cmin_argv_target (decide_mode afl) afl.argv ++
          (if decide_mode afl = cmin_mode.MODE_STDIN_FORCED then ["-".toList] else [])) ∧
      (decide_mode afl = cmin_mode.MODE_FILE_FIXED →
        ∃ p, p ∈ afl.argv ∧ p ≠ "-".toList ∧
          (afl.out_file = some p ∨ has_substr p ".cur_input".toList) ∧
          f = ["-f".toList, p]) ∧
      (decide_mode afl ≠ cmin_mode.MODE_FILE_FIXED → f = []) := by
  have hA := argv_has_atat_iff afl.argv
  have hD := idx_stdin_dash_iff afl.argv
  by_cases hat : argv_has_atat afl.argv = true
  · have hm : decide_mode afl = cmin_mode.MODE_ATAT := by
      unfold decide_mode
      rw [if_pos hat]
    have hex := hA.mp hat
    refine ⟨?_, ?_, ?_, ?_, ?_⟩
    · exact ⟨fun _ => hex, fun _ => hm⟩
    · rw [hm]
      exact ⟨fun c => (by cases c), fun c => absurd hex c.1⟩
    · rw [hm]
      exact ⟨fun c => (by cases c), fun c => absurd hex c.1⟩
    · rw [hm]
      exact ⟨fun c => (by cases c), fun c => absurd hex c.1⟩
    · refine ⟨[], ?_, ?_, fun _ => rfl⟩
      · unfold cmin_argv
        simp only []
        rw [hm]
        rfl
      · intro c
        rw [hm] at c
        cases c
  · have hnex : ¬ ∃ a, a ∈ afl.argv ∧ has_substr a "@@".toList := fun c => hat (hA.mpr c)
    obtain ⟨hF, hFm⟩ := find_fixed_path_iff afl.argv afl.out_file hnex
    by_cases hfx : (find_fixed_path afl.argv afl.out_file).isSome = true
    · have hm : decide_mode afl = cmin_mode.MODE_FILE_FIXED := by
        unfold decide_mode
        rw [if_neg hat, if_pos hfx]
      have hex := hF.mp hfx
      refine ⟨?_, ?_, ?_, ?_, ?_⟩
      · rw [hm]
        exact ⟨fun c => (by cases c), fun c => absurd c hnex⟩
      · exact ⟨fun _ => ⟨hnex, hex⟩, fun _ => hm⟩
      · rw [hm]
        exact ⟨fun c => (by cases c), fun c => absurd hex c.2.1⟩
      · rw [hm]
        exact ⟨fun c => (by cases c), fun c => absurd hex c.2.1⟩
      · cases hf : find_fixed_path afl.argv afl.out_file with
        | none =>
          rw [hf] at hfx
          cases hfx
        | some ip =>
          obtain ⟨b1, b2, b3⟩ := hFm ip hf
          refine ⟨["-f".toList, ip.2], ?_, fun _ => ⟨ip.2, b1, b2, b3, rfl⟩,
            fun c => absurd hm c⟩
          unfold cmin_argv
          simp only []
          rw [hm, hf]
          rfl
    · have hnfx : ¬ ∃ a, a ∈ afl.argv ∧ a ≠ "-".toList ∧
          (afl.out_file = some a ∨ has_substr a ".cur_input".toList) := fun c => hfx (hF.mpr c)
      by_cases hd : (idx_stdin_dash afl.argv).isSome = true
      · have hm : decide_mode afl = cmin_mode.MODE_STDIN_EXISTING := by
          unfold decide_mode
          rw [if_neg hat, if_neg hfx, if_pos hd]
        have hmem := hD.mp hd
        refine ⟨?_, ?_, ?_, ?_, ?_⟩
        · rw [hm]
          exact ⟨fun c => (by cases c), fun c => absurd c hnex⟩
        · rw [hm]
          exact ⟨fun c => (by cases c), fun c => absurd c.2 hnfx⟩
        · exact ⟨fun _ => ⟨hnex, hnfx, hmem⟩, fun _ => hm⟩
        · rw [hm]
          exact ⟨fun c => (by cases c), fun c => absurd hmem c.2.2⟩
        · refine ⟨[], ?_, ?_, fun _ => rfl⟩
          · unfold cmin_argv
            simp only []
            rw [hm]
            rfl
          · intro c
            rw [hm] at c
            cases c
      · have hm : decide_mode afl = cmin_mode.MODE_STDIN_FORCED := by
          unfold decide_mode
          rw [if_neg hat, if_neg hfx, if_neg hd]
        have hnmem : "-".toList ∉ afl.argv := fun c => hd (hD.mpr c)
        refine ⟨?_, ?_, ?_, ?_, ?_⟩
        · rw [hm]
          exact ⟨fun c => (by cases c), fun c => absurd c hnex⟩
        · rw [hm]
          exact ⟨fun c => (by cases c), fun c => absurd c.2 hnfx⟩
        · rw [hm]
          exact ⟨fun c => (by cases c), fun c => absurd c.2.2 hnmem⟩
        · exact ⟨fun _ => ⟨hnex, hnfx, hnmem⟩, fun _ => hm⟩
        · refine ⟨[], ?_, ?_, fun _ => rfl⟩
          · unfold cmin_argv
            simp only []
            rw [hm]
            rfl
          · intro c
            rw [hm] at c
            cases c

/-- Witness of C34: a target that names `-` and a `.cur_input` file runs in fixed-file
mode with `-f out/.cur_input` in front of `--` and its `-` dropped; a target without a
placeholder runs in forced stdin mode with a closing `-`. -/
theorem cmin_argv_mode_witness :
    (decide_mode cmin_file_state = cmin_mode.MODE_FILE_FIXED ∧
      ∃ p, p ∈ cmin_file_state.argv ∧ p ≠ "-".toList ∧
        (cmin_file_state.out_file = some p ∨ has_substr p ".cur_input".toList)) ∧
    cmin_argv cmin_file_state "in".toList "out".toList =
      some ["afl-cmin".toList, "-i".toList, "in".toList, "-o".toList, "out".toList,
        "-m".toList, "none".toList, "-t".toList, "1000".toList, "-Q".toList, "-f".toList,
        "out/.cur_input".toList, "--".toList, "./target".toList, "out/.cur_input".toList] ∧
    decide_mode cmin_plain_state = cmin_mode.MODE_STDIN_FORCED ∧
    cmin_argv cmin_plain_state "in".toList "out".toList =
      some ["afl-cmin".toList, "-i".toList, "in".toList, "-o".toList, "out".toList,
        "-m".toList, "50".toList, "-t".toList, "1000".toList, "--".toList,
        "./target".toList, "-v".toList, "-".toList] :=
  have hm : decide_mode cmin_file_state = cmin_mode.MODE_FILE_FIXED := by decide
  ⟨⟨hm, ((cmin_argv_mode cmin_file_state [] []).2.1.mp hm).2⟩, by decide, by decide, by decide⟩

/-! ## The normalised weights below RARE -/

/-- Below RARE: the state `r` after the weight loop, the sum it has accumulated, and
the final state after the MMOPT doubling. -/
theorem alias_weights_below_rare (c : afl_consts) (m : score_model) (afl : afl_state_t)
    (hs : afl.schedule < c.RARE) :
    ∃ r : afl_state_t × fval,
      alias_weights c m afl = (alias_mmopt_double c r.1, r.2) ∧
      alias_rel r.1 afl ∧
      r.2 = fsum (((List.range afl.queue_buf.length).filter
        (fun i => !(entry afl i).disabled)).map (fun i => (entry r.1 i).weight)) ∧
      (∀ i, i < afl.queue_buf.length → (entry afl i).disabled = false →
        weight_class (entry r.1 i).weight) := by
  refine ⟨(List.range afl.queue_buf.length).foldl
    (alias_weight_step c m (alias_averages m afl)) (afl, fval.fin 0), ?_, ?_, ?_, ?_⟩
  · unfold alias_weights
    rw [if_pos hs]
  · exact (alias_weight_fold_congr c m (alias_averages m afl) afl afl (alias_rel_refl afl)
      afl.queue_buf.length (le_refl _)).1
  · have h := weights_fold (alias_weight_step c m (alias_averages m afl)) (fun q => q.weight)
      (fun q => weight_class q.weight)
      (fun st i => (alias_weight_step_spec c m _ st i).1)
      (fun st i => (alias_weight_step_spec c m _ st i).2.1)
      (fun st i => (alias_weight_step_spec c m _ st i).2.2.1)
      (fun st i => (alias_weight_step_spec c m _ st i).2.2.2.1)
      (fun st i => (alias_weight_step_spec c m _ st i).2.2.2.2.1)
      (fun st i => (alias_weight_step_spec c m _ st i).2.2.2.2.2)
      (afl, fval.fin 0) afl.queue_buf.length (le_refl _)
    obtain ⟨_, _, _, _, h5, _⟩ := h
    rw [h5]
    rfl
  · have h := weights_fold (alias_weight_step c m (alias_averages m afl)) (fun q => q.weight)
      (fun q => weight_class q.weight)
      (fun st i => (alias_weight_step_spec c m _ st i).1)
      (fun st i => (alias_weight_step_spec c m _ st i).2.1)
      (fun st i => (alias_weight_step_spec c m _ st i).2.2.1)
      (fun st i => (alias_weight_step_spec c m _ st i).2.2.2.1)
      (fun st i => (alias_weight_step_spec c m _ st i).2.2.2.2.1)
      (fun st i => (alias_weight_step_spec c m _ st i).2.2.2.2.2)
      (afl, fval.fin 0) afl.queue_buf.length (le_refl _)
    exact h.2.2.2.2.2

/-- C32 (amended): below RARE, `P[i]` is `w_i * n / sum` for an active seed and 0 for
a disabled one, with `w_i` the weight stored in seed `i` after the build and `sum` the
value the weight loop has accumulated. When the MMOPT doubling does not apply, `sum`
is the sum of the `w_i` of the active seeds; when moreover that sum is a finite number
(no weight is infinite or NaN) and the queue has an active seed, the `P[i]` add up to
`n`. -/
theorem alias_P_normalised (c : afl_consts) (m : score_model) (afl : afl_state_t)
    (hs : afl.schedule < c.RARE) :
    (∀ i, i < afl.queue_buf.length →
      (alias_P c m afl).getD i (fval.fin 0) =
        if (entry afl i).disabled = true then fval.fin 0
        else ((entry (alias_weights c m afl).1 i).weight.mul
          (fval.fin (afl.queue_buf.length : ℚ))).div (alias_weights c m afl).2) ∧
    (¬ (afl.schedule = c.MMOPT ∧ afl.queued_discovered ≠ 0) →
      (alias_weights c m afl).2 =
        fsum (((List.range afl.queue_buf.length).filter
          (fun i => !(entry afl i).disabled)).map
            (fun i => (entry (alias_weights c m afl).1 i).weight)) ∧
      ((∃ i, i < afl.queue_buf.length ∧ (entry afl i).disabled = false) →
        (∃ s : ℚ, (alias_weights c m afl).2 = fval.fin s) →
        fsum (alias_P c m afl) = fval.fin (afl.queue_buf.length : ℚ))) := by
  obtain ⟨hlen, hsched, hdis⟩ := alias_weights_frame c m afl
  have hget : ∀ i, i < afl.queue_buf.length →
      (alias_P c m afl).getD i (fval.fin 0) =
        if (entry afl i).disabled = true then fval.fin 0
        else ((entry (alias_weights c m afl).1 i).weight.mul
          (fval.fin (afl.queue_buf.length : ℚ))).div (alias_weights c m afl).2 := by
    intro i hi
    rw [alias_P_getD c m afl i hi]
    unfold alias_final_weight
    rw [hdis i]
    by_cases hd : (entry afl i).disabled = true
    · rw [if_pos hd, if_pos hd]
    · rw [if_neg hd, if_neg hd, if_neg hd, if_pos (by rw [hsched]; exact hs)]
  refine ⟨hget, ?_⟩
  intro hno
  obtain ⟨r, hw, hrel, hsum, hcl⟩ := alias_weights_below_rare c m afl hs
  have hsame : alias_mmopt_double c r.1 = r.1 := by
    unfold alias_mmopt_double
    rw [if_neg (by rw [hrel.1, hrel.2.2.1]; exact hno)]
  rw [hsame] at hw
  have hS : (alias_weights c m afl).2 =
      fsum (((List.range afl.queue_buf.length).filter
        (fun i => !(entry afl i).disabled)).map
          (fun i => (entry (alias_weights c m afl).1 i).weight)) := by
    rw [hw]
    exact hsum
  refine ⟨hS, ?_⟩
  rintro ⟨i0, hi0, hd0⟩ ⟨s, hsv⟩
  rw [hsv] at hS
  obtain ⟨l', hl', hls⟩ := fsum_eq_fin hS.symm
  have hfin : ∀ i, i < afl.queue_buf.length → (entry afl i).disabled = false →
      ∃ x : ℚ, 0 < x ∧ (entry (alias_weights c m afl).1 i).weight = fval.fin x := by
    intro i hi hd
    have hm : (entry (alias_weights c m afl).1 i).weight ∈ l'.map fval.fin := by
      rw [← hl']
      exact List.mem_map.mpr ⟨i, mem_active afl i hi hd, rfl⟩
    obtain ⟨x, _, hx⟩ := List.mem_map.mp hm
    have hc := hcl i hi hd
    rw [hw] at hx
    rcases hc with h | h | ⟨y, hy, h⟩
    · rw [h] at hx
      cases hx
    · rw [h] at hx
      cases hx
    · rw [hw]
      exact ⟨y, hy, h⟩
  have hl2 : l' = ((List.range afl.queue_buf.length).filter
      (fun i => !(entry afl i).disabled)).map
        (fun i => (entry (alias_weights c m afl).1 i).weight.to_rat) := by
    have h1 := congrArg (List.map fval.to_rat) hl'
    rw [List.map_map, List.map_map] at h1
    have h2 : (fval.to_rat ∘ fval.fin) = id := by
      funext x
      rfl
    rw [h2, List.map_id] at h1
    rw [← h1]
    rfl
  have hsumq : s = ∑ i in Finset.range afl.queue_buf.length,
      (if (entry afl i).disabled = true then 0
        else (entry (alias_weights c m afl).1 i).weight.to_rat) := by
    rw [← hls, hl2, sum_active]
  have hspos : 0 < s := by
    rw [hsumq]
    apply Finset.sum_pos'
    · intro i hi
      split
      · exact le_refl _
      · next hd =>
        obtain ⟨x, hx, hxe⟩ := hfin i (Finset.mem_range.mp hi) (by simpa using hd)
        rw [hxe]
        exact le_of_lt hx
    · refine ⟨i0, Finset.mem_range.mpr hi0, ?_⟩
      rw [if_neg (by rw [hd0]; simp)]
      obtain ⟨x, hx, hxe⟩ := hfin i0 hi0 hd0
      rw [hxe]
      exact hx
  have hP : alias_P c m afl = ((List.range afl.queue_buf.length).map
      (fun i => if (entry afl i).disabled = true then (0 : ℚ)
        else (entry (alias_weights c m afl).1 i).weight.to_rat *
          (afl.queue_buf.length : ℚ) / s)).map fval.fin := by
    apply List.ext_getElem
    · rw [alias_P_length, List.length_map, List.length_map, List.length_range]
    · intro i h1 h2
      have hi : i < afl.queue_buf.length := by rw [alias_P_length] at h1; exact h1
      have hg := List.getD_eq_getElem (alias_P c m afl) (fval.fin 0) h1
      rw [← hg, List.getElem_map, List.getElem_map, List.getElem_range, hget i hi, hsv]
      by_cases hd : (entry afl i).disabled = true
      · rw [if_pos hd, if_pos hd]
      · rw [if_neg hd, if_neg hd]
        obtain ⟨x, _, hxe⟩ := hfin i hi (by simpa using hd)
        rw [hxe]
        simp only [fval.mul, fval.div, if_neg hspos.ne']
        rfl
  rw [hP, fsum_map_fin, list_sum_range_map]
  congr 1
  have hterm : ∀ i ∈ Finset.range afl.queue_buf.length,
      (if (entry afl i).disabled = true then (0 : ℚ)
        else (entry (alias_weights c m afl).1 i).weight.to_rat *
          (afl.queue_buf.length : ℚ) / s) =
        (if (entry afl i).disabled = true then 0
          else (entry (alias_weights c m afl).1 i).weight.to_rat) *
          ((afl.queue_buf.length : ℚ) / s) := by
    intro i _
    split
    · rw [zero_mul]
    · rw [mul_div_assoc]
  rw [Finset.sum_congr rfl hterm, ← Finset.sum_mul, ← hsumq]
  field_simp

/-- Witness of C32 (amended): the four-seed state under FAST, whose weights are
1, 1, 2, 4 with the sum 8 and whose `P` is 1/2, 1/2, 1, 2. -/
theorem alias_P_normalised_witness :
    alias_demo_state.schedule < demo_consts.RARE ∧
    (∀ i, i < alias_demo_state.queue_buf.length →
      (alias_P demo_consts demo_model alias_demo_state).getD i (fval.fin 0) =
        if (entry alias_demo_state i).disabled = true then fval.fin 0
        else ((entry (alias_weights demo_consts demo_model alias_demo_state).1 i).weight.mul
            (fval.fin (alias_demo_state.queue_buf.length : ℚ))).div
          (alias_weights demo_consts demo_model alias_demo_state).2) ∧
    fsum (alias_P demo_consts demo_model alias_demo_state) =
      fval.fin (alias_demo_state.queue_buf.length : ℚ) ∧
    (alias_weights demo_consts demo_model alias_demo_state).2 = fval.fin 8 ∧
    alias_P demo_consts demo_model alias_demo_state =
      [fval.fin (1 / 2), fval.fin (1 / 2), fval.fin 1, fval.fin 2] :=
  have h := alias_P_normalised demo_consts demo_model alias_demo_state (by decide)
  ⟨by decide, h.1, (h.2 (by decide)).2 ⟨0, by decide, by decide⟩ ⟨8, by decide!⟩, by decide!,
    by decide!⟩

/-- Counterexample to C32: under MMOPT with one recent discovery the two seeds get the
weights 10 and 10, `sum` is 20, the weight of seed 1 is then doubled, and `P` is 1, 2:
the divisor is not the sum 30 of the final weights and the `P[i]` add up to 3, not to
`n = 2`. -/
theorem alias_P_mmopt_sum :
    mmopt_demo_state.schedule < demo_consts.RARE ∧
    (alias_weights demo_consts demo_model mmopt_demo_state).1.queue_buf.map
        (fun q => q.weight) = [fval.fin 10, fval.fin 20] ∧
    (alias_weights demo_consts demo_model mmopt_demo_state).2 = fval.fin 20 ∧
    alias_P demo_consts demo_model mmopt_demo_state = [fval.fin 1, fval.fin 2] ∧
    fsum (alias_P demo_consts demo_model mmopt_demo_state) = fval.fin 3 := by
  refine ⟨by decide, by decide!, by decide!, by decide!, by decide!⟩

/-! ## A queue of disabled seeds -/

theorem alias_pair_loop_no_large (fuel : Nat) (st : alias_state) (h : st.Large = []) :
    alias_pair_loop fuel st = st := by
  cases fuel with
  | zero => rfl
  | succ fuel =>
    unfold alias_pair_loop
    split
    · next small ss large ls hS hL =>
      rw [h] at hL
      cases hL
    · rfl

theorem alias_P_all_disabled (c : afl_consts) (m : score_model) (afl : afl_state_t)
    (hall : ∀ i, i < afl.queue_buf.length → (entry afl i).disabled = true) :
    ∀ x, (alias_P c m afl).getD x (fval.fin 0) = fval.fin 0 := by
  intro x
  obtain ⟨_, _, hdis⟩ := alias_weights_frame c m afl
  by_cases hx : x < afl.queue_buf.length
  · rw [alias_P_getD c m afl x hx]
    rw [hdis x, if_pos (hall x hx)]
  · rw [List.getD_eq_getElem?_getD, List.getElem?_eq_none (by rw [alias_P_length]; omega)]
    rfl

/-- C38: if every seed of a non-empty queue is disabled, `create_alias_table` leaves
`alias_probability[s] = 1` for every index `s`, so that `select_next_queue_entry`
returns the drawn index `s` itself for every draw `p < 1`, and that seed is
disabled. -/
theorem create_alias_table_all_disabled (c : afl_consts) (m : score_model) (afl : afl_state_t)
    (hall : ∀ i, i < afl.queue_buf.length → (entry afl i).disabled = true) :
    ∀ s, s < afl.queue_buf.length →
      (create_alias_table c m afl).alias_probability.getD s (fval.fin 0) = fval.fin 1 ∧
      (∀ p : ℚ, p < 1 → select_next_queue_entry (create_alias_table c m afl) s p = s) ∧
      (entry (create_alias_table c m afl) s).disabled = true := by
  intro s hs
  have hP := alias_P_all_disabled c m afl hall
  have hPl := alias_P_length c m afl
  obtain ⟨hperm, _, hlarge⟩ := alias_partition_spec_fval (alias_P c m afl)
  have hL : (alias_partition (alias_P c m afl)).2 = [] := by
    rw [List.eq_nil_iff_forall_not_mem]
    intro x hx
    have := hlarge x hx
    rw [hP x] at this
    simp [fval.lt] at this
  have hmem : s ∈ (alias_partition (alias_P c m afl)).1 := by
    have : s ∈ (alias_partition (alias_P c m afl)).1 ++ (alias_partition (alias_P c m afl)).2 :=
      hperm.mem_iff.mpr (List.mem_range.mpr (by rw [hPl]; exact hs))
    rw [hL, List.append_nil] at this
    exact this
  have hprob : (create_alias_table c m afl).alias_probability.getD s (fval.fin 0) =
      fval.fin 1 := by
    have hdef : (create_alias_table c m afl).alias_probability =
        (alias_build (alias_P c m afl)).2 := rfl
    rw [hdef]
    unfold alias_build
    rw [alias_pair_loop_no_large _ _ hL]
    unfold alias_finish
    simp only []
    rw [hL, List.foldl_nil]
    obtain ⟨_, h2⟩ := set_one_fold_fval (alias_partition (alias_P c m afl)).1
      (List.replicate (alias_P c m afl).length (fval.fin 0))
    rw [h2 s, if_pos ⟨hmem, by rw [List.length_replicate, hPl]; exact hs⟩]
  refine ⟨hprob, ?_, ?_⟩
  · intro p hp
    unfold select_next_queue_entry
    rw [hprob, if_pos (by rw [fval_lt_fin]; exact decide_eq_true hp)]
  · obtain ⟨_, _, hdis⟩ := alias_weights_frame c m afl
    have he : entry (create_alias_table c m afl) s = entry (alias_weights c m afl).1 s := rfl
    rw [he, hdis s]
    exact hall s hs

/-- Witness of C38: two disabled seeds; both probabilities are 1 and the draw
`s = 1`, `p = 1/2` returns seed 1. -/
theorem create_alias_table_all_disabled_witness :
    (0 < all_disabled_state.queue_buf.length ∧
      ∀ i, i < all_disabled_state.queue_buf.length →
        (entry all_disabled_state i).disabled = true) ∧
    ((create_alias_table demo_consts demo_model all_disabled_state).alias_probability.getD 1
        (fval.fin 0) = fval.fin 1 ∧
      (∀ p : ℚ, p < 1 →
        select_next_queue_entry (create_alias_table demo_consts demo_model all_disabled_state)
          1 p = 1) ∧
      (entry (create_alias_table demo_consts demo_model all_disabled_state) 1).disabled
        = true) ∧
    (create_alias_table demo_consts demo_model all_disabled_state).alias_probability =
      [fval.fin 1, fval.fin 1] ∧
    select_next_queue_entry (create_alias_table demo_consts demo_model all_disabled_state)
      1 (1 / 2) = 1 :=
  have hall : ∀ i, i < all_disabled_state.queue_buf.length →
      (entry all_disabled_state i).disabled = true := by decide
  ⟨⟨by decide, hall⟩,
    create_alias_table_all_disabled demo_consts demo_model all_disabled_state hall 1 (by decide),
    by decide!, by decide!⟩

/-! ## Bounds of the performance score -/

theorem score_finish_bounds (k : score_consts) (afl : afl_state_t) (q : queue_entry)
    (perf_score : Nat) (factor : ℚ) (hm : 1 ≤ afl.havoc_max_mult)
    (hc : afl.havoc_max_mult * 100 < 2 ^ 32) (r : Nat)
    (hr : score_finish k afl q perf_score factor = some r) :
    r ≤ afl.havoc_max_mult * 100 ∧
    (afl.schedule ≠ k.COE →
      ¬ (afl.limit_time_sig ≠ 0 ∧ u64_sub afl.max_depth q.depth < 3) → 1 ≤ r) := by
  unfold score_finish at hr
  simp only [] at hr
  rw [Nat.mod_eq_of_lt hc] at hr
  generalize (if k.EXPLOIT ≤ afl.schedule ∧ afl.schedule ≤ k.QUAD then
      ((fval.fin (perf_score : ℚ)).mul
        ((fval.fin (if factor > k.MAX_FACTOR then k.MAX_FACTOR else factor)).div
          (fval.fin k.POWER_BETA))).to_u32
    else some perf_score) = o1 at hr
  cases o1 with
  | none => cases hr
  | some p1 =>
    simp only [Option.some.injEq] at hr
    generalize hp2 : (if afl.limit_time_sig ≠ 0 ∧ u64_sub afl.max_depth q.depth < 3 then
        (p1 * 2) % 2 ^ 32
      else if afl.schedule ≠ k.COE ∧ p1 < 1 then 1
      else p1) = p2 at hr
    rw [← hr]
    constructor
    · by_cases hgt : p2 > afl.havoc_max_mult * 100
      · rw [if_pos hgt]
      · rw [if_neg hgt]
        omega
    · intro hcoe hmopt
      have h2 : 1 ≤ p2 := by
        rw [← hp2, if_neg hmopt]
        by_cases h1 : afl.schedule ≠ k.COE ∧ p1 < 1
        · rw [if_pos h1]
        · rw [if_neg h1]
          by_contra hlt
          exact h1 ⟨hcoe, by omega⟩
      by_cases hgt : p2 > afl.havoc_max_mult * 100
      · rw [if_pos hgt]
        omega
      · rw [if_neg hgt]
        exact h2

theorem score_finish_returns (k : score_consts) (afl : afl_state_t) (q : queue_entry)
    (perf_score : Nat) (factor : ℚ)
    (hr : ¬ (k.EXPLOIT ≤ afl.schedule ∧ afl.schedule ≤ k.QUAD)) :
    (score_finish k afl q perf_score factor).isSome = true := by
  unfold score_finish
  simp only []
  rw [if_neg hr]
  rfl

theorem score_schedule_returns (k : score_consts) (afl : afl_state_t) (q : queue_entry)
    (p : Nat)
    (hk : afl.schedule = k.EXPLORE ∨ afl.schedule = k.SEEK ∨ afl.schedule = k.MMOPT)
    (h1 : afl.schedule ≠ k.EXPLOIT) (h2 : afl.schedule ≠ k.COE) (h3 : afl.schedule ≠ k.FAST)
    (h4 : afl.schedule ≠ k.LIN) (h5 : afl.schedule ≠ k.QUAD) :
    (score_schedule k afl q p).isSome = true := by
  unfold score_schedule
  by_cases a1 : afl.schedule = k.EXPLORE
  · rw [if_pos a1]
    rfl
  · rw [if_neg a1]
    by_cases a2 : afl.schedule = k.SEEK
    · rw [if_pos a2]
      rfl
    · rw [if_neg a2, if_neg h1, if_neg h2, if_neg h3, if_neg h4, if_neg h5]
      have a3 : afl.schedule = k.MMOPT := by
        rcases hk with h | h | h
        · exact absurd h a1
        · exact absurd h a2
        · exact h
      rw [if_pos a3]
      split <;> rfl

/-- Under LIN and QUAD the `u32` sum `n_fuzz + 1` is the divisor: where it wraps to
zero for a seed that was fuzzed, `calculate_score` returns no value. -/
theorem calculate_score_wrap (k : score_consts) (afl : afl_state_t) (q : queue_entry)
    (hk : afl.schedule = k.LIN ∨ afl.schedule = k.QUAD)
    (h1 : afl.schedule ≠ k.EXPLORE) (h2 : afl.schedule ≠ k.SEEK)
    (h3 : afl.schedule ≠ k.EXPLOIT) (h4 : afl.schedule ≠ k.COE) (h5 : afl.schedule ≠ k.FAST)
    (hf : q.fuzz_level ≠ 0) (hn : (afl.n_fuzz.getD q.n_fuzz_entry 0 + 1) % 2 ^ 32 = 0) :
    calculate_score k afl q = none := by
  have hs : ∀ p, score_schedule k afl q p = none := by
    intro p
    unfold score_schedule
    rw [if_neg h1, if_neg h2, if_neg h3, if_neg h4, if_neg h5]
    by_cases a : afl.schedule = k.LIN
    · rw [if_pos a, if_neg hf, if_pos hn]
    · have b : afl.schedule = k.QUAD := by
        rcases hk with h | h
        · exact absurd h a
        · exact h
      rw [if_neg a, if_pos b, if_neg hf, if_pos hn]
  unfold calculate_score
  simp only []
  rw [hs]

/-- C33 (amended): in a state with `havoc_max_mult >= 1` (and `havoc_max_mult * 100`
within `u32`), every value that `calculate_score` returns is at most
`havoc_max_mult * 100`, and under every power schedule other than COE it is at least 1
unless the MOpt doubling applies (`limit_time_sig != 0` and `max_depth - depth < 3`),
which takes the place of the lower bound. Under each of the schedules EXPLORE, SEEK
and MMOPT (enumerators other than EXPLOIT, COE, FAST, LIN and QUAD and outside of the
range from EXPLOIT to QUAD) the function returns a value. -/
theorem calculate_score_bounds (k : score_consts) (afl : afl_state_t) (q : queue_entry)
    (hm : 1 ≤ afl.havoc_max_mult) (hc : afl.havoc_max_mult * 100 < 2 ^ 32) :
    (∀ r, calculate_score k afl q = some r →
      r.1 ≤ afl.havoc_max_mult * 100 ∧
      (afl.schedule ≠ k.COE →
        ¬ (afl.limit_time_sig ≠ 0 ∧ u64_sub afl.max_depth q.depth < 3) → 1 ≤ r.1)) ∧
    ((afl.schedule = k.EXPLORE ∨ afl.schedule = k.SEEK ∨ afl.schedule = k.MMOPT) →
      afl.schedule ∉ [k.EXPLOIT, k.COE, k.FAST, k.LIN, k.QUAD] →
      ¬ (k.EXPLOIT ≤ afl.schedule ∧ afl.schedule ≤ k.QUAD) →
      (calculate_score k afl q).isSome = true) := by
  constructor
  · intro r hr
    unfold calculate_score at hr
    simp only [] at hr
    split at hr
    · next s _ =>
      split at hr
      · next p hp =>
        have := Option.some.inj hr
        rw [← this]
        exact score_finish_bounds k afl q s.1 s.2 hm hc p hp
      · cases hr
    · cases hr
  · intro hk hnot hrange
    simp only [List.mem_cons, List.mem_singleton, List.not_mem_nil, or_false, not_or] at hnot
    obtain ⟨hne1, hcoe, hfast, hlin, hne5⟩ := hnot
    unfold calculate_score
    simp only []
    generalize (score_depth q (score_handicap q (score_bitmap q
        ((afl.total_bitmap_size /
          (if afl.total_bitmap_entries % 2 ^ 32 = 0 then 1
            else afl.total_bitmap_entries % 2 ^ 32)) % 2 ^ 32)
        (score_speed k afl q
          ((afl.total_cal_us /
            (if afl.total_cal_cycles % 2 ^ 32 = 0 then 1
              else afl.total_cal_cycles % 2 ^ 32)) % 2 ^ 32)))).1) = p
    have h := score_schedule_returns k afl q p hk hne1 hcoe hfast hlin hne5
    cases hs : score_schedule k afl q p with
    | none =>
      rw [hs] at h
      cases h
    | some s =>
      simp only []
      have h2 := score_finish_returns k afl q s.1 s.2 hrange
      cases hf : score_finish k afl q s.1 s.2 with
      | none =>
        rw [hf] at h2
        cases h2
      | some r => rfl

/-- Witness of C33 (amended): the first seed under SEEK scores 200, within 1 and 6400;
under LIN the seed whose path counter is `2^32 - 1` gets no score. -/
theorem calculate_score_bounds_witness :
    (1 ≤ handicap_demo_state.havoc_max_mult ∧
      handicap_demo_state.havoc_max_mult * 100 < 2 ^ 32) ∧
    calculate_score demo_score_consts handicap_demo_state (entry handicap_demo_state 0) =
      some (200, 0) ∧
    (200 ≤ handicap_demo_state.havoc_max_mult * 100 ∧
      (handicap_demo_state.schedule ≠ demo_score_consts.COE →
        ¬ (handicap_demo_state.limit_time_sig ≠ 0 ∧
          u64_sub handicap_demo_state.max_depth (entry handicap_demo_state 0).depth < 3) →
        1 ≤ 200)) ∧
    (calculate_score demo_score_consts handicap_demo_state
      (entry handicap_demo_state 0)).isSome = true ∧
    calculate_score demo_score_consts lin_trap_state (entry lin_trap_state 0) = none :=
  have hv : calculate_score demo_score_consts handicap_demo_state
      (entry handicap_demo_state 0) = some (200, 0) := by decide!
  ⟨⟨by decide, by decide⟩, hv,
    (calculate_score_bounds demo_score_consts handicap_demo_state (entry handicap_demo_state 0)
      (by decide) (by decide)).1 (200, 0) hv,
    (calculate_score_bounds demo_score_consts handicap_demo_state (entry handicap_demo_state 0)
      (by decide) (by decide)).2 (Or.inr (Or.inl (by decide))) (by decide) (by decide),
    by decide!⟩

/-- Counterexample to C33: under FAST in MOpt mode a slow seed with a small bitmap
scores 10, then 2 after the bitmap adjustment, then 0 after the factor 0.4; the MOpt
branch doubles the 0 and the lower bound of its `else` branch is not applied, so
`calculate_score` returns 0 with `havoc_max_mult = 64`. -/
theorem calculate_score_mopt_zero :
    1 ≤ mopt_zero_state.havoc_max_mult ∧
    mopt_zero_state.schedule ≠ demo_score_consts.COE ∧
    calculate_score demo_score_consts mopt_zero_state (entry mopt_zero_state 0) =
      some (0, 0) := by
  refine ⟨by decide, by decide, by decide!⟩

/-! ## The counter of the global frontier bitmap -/

theorem bitmap_count_le (t : List Nat) : bitmap_count t ≤ 8 * t.length := by
  unfold bitmap_count
  have := List.countP_le_length (fun e => BITMAP_CHECK t e) (l := List.range (8 * t.length))
  rw [List.length_range] at this
  exact this

theorem bitmap_count_SET (t : List Nat) (e : Nat) (h : BITMAP_CHECK t e = false)
    (he : e >>> 3 < t.length) : bitmap_count (BITMAP_SET t e) = bitmap_count t + 1 := by
  unfold bitmap_count
  rw [BITMAP_SET_length]
  have hlt : e < 8 * t.length := by
    rw [shr3] at he
    omega
  have := countP_range_point (fun x => BITMAP_CHECK t x)
    (fun x => BITMAP_CHECK (BITMAP_SET t e) x) (8 * t.length) e hlt
    (by
      intro j hj
      simp only []
      rw [BITMAP_CHECK_SET t e j]
      simp [hj])
  simp only [] at this
  have h2 : BITMAP_CHECK (BITMAP_SET t e) e = true := by
    rw [BITMAP_CHECK_SET t e e]
    simp [he]
  rw [if_neg (by rw [h]; simp), if_pos h2] at this
  omega

theorem frontier_count_at_of_same {L : Nat} {a b : afl_state_t}
    (hb : b.global_frontier_bitmap = a.global_frontier_bitmap)
    (hc : b.global_covered_frontier_nodes_count = a.global_covered_frontier_nodes_count)
    (h : frontier_count_at L a) : frontier_count_at L b := by
  unfold frontier_count_at frontier_count_inv at *
  rw [hb, hc]
  exact h

theorem frontier_count_record_global (L : Nat) (afl : afl_state_t) (e : Nat)
    (h : frontier_count_at L afl) (hL : 8 * L < 2 ^ 32) (he : e < 8 * L) :
    frontier_count_at L (record_frontier_global afl e) := by
  obtain ⟨hinv, hlen⟩ := h
  unfold record_frontier_global
  split
  · next hchk =>
    have hchk' : BITMAP_CHECK afl.global_frontier_bitmap e = false := by
      simpa using hchk
    have he3 : e >>> 3 < afl.global_frontier_bitmap.length := by
      rw [shr3, hlen]
      omega
    have hcnt := bitmap_count_SET afl.global_frontier_bitmap e hchk' he3
    have hle := bitmap_count_le (BITMAP_SET afl.global_frontier_bitmap e)
    rw [BITMAP_SET_length, hlen] at hle
    refine ⟨?_, ?_⟩
    · unfold frontier_count_inv at *
      show (afl.global_covered_frontier_nodes_count + 1) % 2 ^ 32 =
        bitmap_count (BITMAP_SET afl.global_frontier_bitmap e)
      rw [hcnt, hinv]
      apply Nat.mod_eq_of_lt
      omega
    · show (BITMAP_SET afl.global_frontier_bitmap e).length = L
      rw [BITMAP_SET_length, hlen]
  · exact ⟨hinv, hlen⟩

theorem record_frontier_list_global (c : afl_consts) (qi : Nat) (afl : afl_state_t) (e : Nat) :
    (record_frontier_list c qi afl e).global_frontier_bitmap = afl.global_frontier_bitmap ∧
      (record_frontier_list c qi afl e).global_covered_frontier_nodes_count =
        afl.global_covered_frontier_nodes_count := by
  unfold record_frontier_list
  simp only []
  split
  · exact ⟨rfl, rfl⟩
  · exact ⟨rfl, rfl⟩

theorem frontier_count_edge (c : afl_consts) (qi p f L : Nat) (afl : afl_state_t) (i : Nat)
    (h : frontier_count_at L afl) (hL : 8 * L < 2 ^ 32) (hi : i < 8 * L) :
    frontier_count_at L (update_bitmap_score_edge c qi p f afl i) := by
  have hs := same_frontier_edge c qi p f afl i
  refine frontier_count_at_of_same hs.2.1 hs.2.2.1 ?_
  split
  · unfold record_frontier
    apply frontier_count_record_global L _ i _ hL hi
    exact frontier_count_at_of_same (record_frontier_list_global c qi afl i).1
      (record_frontier_list_global c qi afl i).2 h
  · exact h

theorem frontier_count_loop (c : afl_consts) (qi p f L : Nat) (afl : afl_state_t)
    (h : frontier_count_at L afl) (hL : 8 * L < 2 ^ 32) (n : Nat) (hn : n ≤ 8 * L) :
    frontier_count_at L ((List.range n).foldl (update_bitmap_score_edge c qi p f) afl) := by
  induction n with
  | zero => exact h
  | succ k ih =>
    rw [List.range_succ, List.foldl_append]
    exact frontier_count_edge c qi p f L _ k (ih (by omega)) hL (by omega)

theorem frontier_count_reset (L : Nat) (afl : afl_state_t) (qi : Nat)
    (h : frontier_count_at L afl) : frontier_count_at L (reset_frontier_list afl qi) := by
  unfold reset_frontier_list
  split
  · exact frontier_count_at_of_same rfl rfl h
  · exact h

theorem reset_frontier_list_map_size (afl : afl_state_t) (qi : Nat) :
    (reset_frontier_list afl qi).map_size = afl.map_size := by
  unfold reset_frontier_list
  split
  · rfl
  · rfl

theorem frontier_count_update_bitmap_score (c : afl_consts) (afl : afl_state_t) (qi : Nat)
    (h : frontier_count_inv afl) (hL : 8 * afl.global_frontier_bitmap.length < 2 ^ 32)
    (hm : afl.map_size ≤ 8 * afl.global_frontier_bitmap.length) :
    frontier_count_at afl.global_frontier_bitmap.length (update_bitmap_score c afl qi) := by
  unfold update_bitmap_score
  simp only []
  exact frontier_count_loop c qi _ _ _ _
    (frontier_count_reset _ afl qi ⟨h, rfl⟩) hL _ hm

/-! ### The pruning loop -/

theorem frontier_count_bit (L i bit : Nat) (hL : 8 * L < 2 ^ 32) (a : afl_state_t) (cur : Nat)
    (h : frontier_count_at L a) (a1 : afl_state_t) (cur1 : Nat)
    (hs : update_frontier_bit i (some (a, cur)) bit = some (a1, cur1)) :
    frontier_count_at L a1 := by
  unfold update_frontier_bit at hs
  simp only [] at hs
  split at hs
  · cases hs
  · split at hs
    · split at hs
      · cases hs
      · split at hs
        · split at hs
          · next hchk =>
            simp only [Option.some.injEq, Prod.mk.injEq] at hs
            obtain ⟨hs1, _⟩ := hs
            subst hs1
            obtain ⟨hinv, hlen⟩ := h
            have hcl := bitmap_count_CLEAR a.global_frontier_bitmap _ hchk
            have hle := bitmap_count_le a.global_frontier_bitmap
            rw [hlen] at hle
            refine ⟨?_, ?_⟩
            · unfold frontier_count_inv at *
              simp only []
              rw [hinv]
              have : (bitmap_count a.global_frontier_bitmap + 2 ^ 32 - 1) % 2 ^ 32 =
                  bitmap_count a.global_frontier_bitmap - 1 := by
                have h1 : bitmap_count a.global_frontier_bitmap + 2 ^ 32 - 1 =
                    (bitmap_count a.global_frontier_bitmap - 1) + 2 ^ 32 := by omega
                rw [h1, Nat.add_mod_right]
                apply Nat.mod_eq_of_lt
                omega
              rw [this]
              omega
            · simp only []
              rw [BITMAP_CLEAR_length, hlen]
          · simp only [Option.some.injEq, Prod.mk.injEq] at hs
            obtain ⟨hs1, _⟩ := hs
            subst hs1
            exact h
        · simp only [Option.some.injEq, Prod.mk.injEq] at hs
          obtain ⟨hs1, _⟩ := hs
          subst hs1
          exact h
    · simp only [Option.some.injEq, Prod.mk.injEq] at hs
      obtain ⟨hs1, _⟩ := hs
      subst hs1
      exact h

theorem update_frontier_bit_none (i : Nat) (l : List Nat) :
    l.foldl (update_frontier_bit i) none = none := by
  induction l with
  | nil => rfl
  | cons b t ih =>
    rw [List.foldl_cons]
    exact ih

theorem update_frontier_byte_none (qi : Nat) (l : List Nat) :
    l.foldl (update_frontier_byte qi) none = none := by
  induction l with
  | nil => rfl
  | cons b t ih =>
    rw [List.foldl_cons]
    exact ih

theorem frontier_count_bits (L i : Nat) (hL : 8 * L < 2 ^ 32) (l : List Nat) :
    ∀ (a : afl_state_t) (cur : Nat), frontier_count_at L a →
      ∀ (a1 : afl_state_t) (cur1 : Nat),
        l.foldl (update_frontier_bit i) (some (a, cur)) = some (a1, cur1) →
        frontier_count_at L a1 := by
  induction l with
  | nil =>
    intro a cur h a1 cur1 hs
    simp only [List.foldl_nil, Option.some.injEq, Prod.mk.injEq] at hs
    rw [← hs.1]
    exact h
  | cons b t ih =>
    intro a cur h a1 cur1 hs
    rw [List.foldl_cons] at hs
    cases hstep : update_frontier_bit i (some (a, cur)) b with
    | none =>
      rw [hstep, update_frontier_bit_none] at hs
      cases hs
    | some r =>
      obtain ⟨a2, cur2⟩ := r
      rw [hstep] at hs
      exact ih a2 cur2 (frontier_count_bit L i b hL a cur h a2 cur2 hstep) a1 cur1 hs

theorem frontier_count_byte (L qi i : Nat) (hL : 8 * L < 2 ^ 32) (a : afl_state_t) (u : Nat)
    (h : frontier_count_at L a) (a1 : afl_state_t) (u1 : Nat)
    (hs : update_frontier_byte qi (some (a, u)) i = some (a1, u1)) :
    frontier_count_at L a1 := by
  unfold update_frontier_byte at hs
  simp only [] at hs
  split at hs
  · simp only [Option.some.injEq, Prod.mk.injEq] at hs
    rw [← hs.1]
    exact h
  · split at hs
    · cases hs
    · next a2 cur2 hfold =>
      simp only [Option.some.injEq, Prod.mk.injEq] at hs
      rw [← hs.1]
      exact frontier_count_at_of_same rfl rfl
        (frontier_count_bits L i hL _ a _ h a2 cur2 hfold)

theorem frontier_count_bytes (L qi : Nat) (hL : 8 * L < 2 ^ 32) (l : List Nat) :
    ∀ (a : afl_state_t) (u : Nat), frontier_count_at L a →
      ∀ (a1 : afl_state_t) (u1 : Nat),
        l.foldl (update_frontier_byte qi) (some (a, u)) = some (a1, u1) →
        frontier_count_at L a1 := by
  induction l with
  | nil =>
    intro a u h a1 u1 hs
    simp only [List.foldl_nil, Option.some.injEq, Prod.mk.injEq] at hs
    rw [← hs.1]
    exact h
  | cons b t ih =>
    intro a u h a1 u1 hs
    rw [List.foldl_cons] at hs
    cases hstep : update_frontier_byte qi (some (a, u)) b with
    | none =>
      rw [hstep, update_frontier_byte_none] at hs
      cases hs
    | some r =>
      obtain ⟨a2, u2⟩ := r
      rw [hstep] at hs
      exact ih a2 u2 (frontier_count_byte L qi b hL a u h a2 u2 hstep) a1 u1 hs

theorem frontier_count_update_global (afl : afl_state_t) (qi : Nat)
    (h : frontier_count_inv afl) (hL : 8 * afl.global_frontier_bitmap.length < 2 ^ 32)
    (a1 : afl_state_t) (hs : update_global_frontier_nodes afl qi = some a1) :
    frontier_count_at afl.global_frontier_bitmap.length a1 := by
  unfold update_global_frontier_nodes at hs
  simp only [] at hs
  split at hs
  · cases hs
  · next a2 u2 hfold =>
    simp only [Option.some.injEq] at hs
    rw [← hs]
    refine frontier_count_at_of_same rfl rfl
      (frontier_count_bytes _ qi hL _ _ 0 ?_ a2 u2 hfold)
    exact frontier_count_at_of_same rfl rfl ⟨h, rfl⟩

/-! ### The pruning loop returns -/

theorem testBit_of_and_shift {x b : Nat} (h : x &&& (1 <<< b) ≠ 0) : x.testBit b = true := by
  rw [Nat.one_shiftLeft, Nat.and_two_pow] at h
  cases hx : x.testBit b with
  | true => rfl
  | false =>
    rw [hx] at h
    simp at h

theorem update_frontier_bit_some (i bit : Nat) (a : afl_state_t) (cur : Nat)
    (hi : 8 * i + 7 < 2 ^ 32) (hbit : bit < 8)
    (hcur : cur.testBit bit = true → 8 * i + bit < a.map_size) :
    ∃ a1 cur1, update_frontier_bit i (some (a, cur)) bit = some (a1, cur1) ∧
      a1.map_size = a.map_size ∧ a1.queue_buf = a.queue_buf ∧
      ∀ b, cur1.testBit b = true → cur.testBit b = true := by
  have hsh : (i <<< 3) % 2 ^ 32 = 8 * i := by
    rw [Nat.shiftLeft_eq, Nat.mod_eq_of_lt (by omega)]
    omega
  have hedge : ((i <<< 3) % 2 ^ 32 + bit) % 2 ^ 32 = 8 * i + bit := by
    rw [hsh]
    apply Nat.mod_eq_of_lt
    omega
  unfold update_frontier_bit
  simp only []
  rw [hedge, hsh, if_neg (by omega)]
  split
  · next hset =>
    have hlt := hcur (testBit_of_and_shift hset)
    rw [if_neg (by omega)]
    split
    · split
      · refine ⟨_, _, rfl, rfl, rfl, ?_⟩
        intro b hb
        rw [Nat.testBit_and] at hb
        simp only [Bool.and_eq_true] at hb
        exact hb.1
      · refine ⟨_, _, rfl, rfl, rfl, ?_⟩
        intro b hb
        rw [Nat.testBit_and] at hb
        simp only [Bool.and_eq_true] at hb
        exact hb.1
    · exact ⟨_, _, rfl, rfl, rfl, fun _ hb => hb⟩
  · exact ⟨_, _, rfl, rfl, rfl, fun _ hb => hb⟩

theorem update_frontier_bits_some (i : Nat) (hi : 8 * i + 7 < 2 ^ 32) (M : Nat) (l : List Nat) :
    ∀ (a : afl_state_t) (cur : Nat), a.map_size = M → (∀ b ∈ l, b < 8) →
      (∀ b ∈ l, cur.testBit b = true → 8 * i + b < M) →
      ∃ a1 cur1, l.foldl (update_frontier_bit i) (some (a, cur)) = some (a1, cur1) ∧
        a1.map_size = M ∧ a1.queue_buf = a.queue_buf := by
  induction l with
  | nil =>
    intro a cur hM _ _
    exact ⟨a, cur, rfl, hM, rfl⟩
  | cons b t ih =>
    intro a cur hM h8 hq
    obtain ⟨a1, cur1, hstep, hm1, hq1, hsub⟩ :=
      update_frontier_bit_some i b a cur hi (h8 b (List.mem_cons_self b t))
        (fun hb => by
          rw [hM]
          exact hq b (List.mem_cons_self b t) hb)
    obtain ⟨a2, cur2, hfold, hm2, hq2⟩ :=
      ih a1 cur1 (hm1.trans hM) (fun x hx => h8 x (List.mem_cons_of_mem b hx))
        (fun x hx hb => hq x (List.mem_cons_of_mem b hx) (hsub x hb))
    refine ⟨a2, cur2, ?_, hm2, hq2.trans hq1⟩
    rw [List.foldl_cons, hstep]
    exact hfold

theorem update_frontier_byte_some (qi i M : Nat) (hi : 8 * i + 7 < 2 ^ 32) (a : afl_state_t)
    (u : Nat) (hM : a.map_size = M)
    (hq : ∀ bit < 8, ((entry a qi).frontier_node_bitmap.getD i 0).testBit bit = true →
      8 * i + bit < M) :
    ∃ a1 u1, update_frontier_byte qi (some (a, u)) i = some (a1, u1) ∧ a1.map_size = M ∧
      ∀ j, j ≠ i → (entry a1 qi).frontier_node_bitmap.getD j 0 =
        (entry a qi).frontier_node_bitmap.getD j 0 := by
  unfold update_frontier_byte
  simp only []
  split
  · exact ⟨a, u, rfl, hM, fun _ _ => rfl⟩
  · obtain ⟨a2, cur2, hfold, hm2, hq2⟩ :=
      update_frontier_bits_some i hi M (List.range 8) a
        ((entry a qi).frontier_node_bitmap.getD i 0) hM
        (fun b hb => List.mem_range.mp hb)
        (fun b hb h => hq b (List.mem_range.mp hb) h)
    rw [hfold]
    simp only []
    refine ⟨_, _, rfl, hm2, ?_⟩
    intro j hj
    have he : entry a2 qi = entry a qi := by
      unfold entry
      rw [hq2]
    rw [entry_set_entry]
    split
    · simp only []
      rw [getD_set_eq, if_neg (fun x => hj x.1), he]
    · rw [he]

theorem update_frontier_bytes_some (afl : afl_state_t) (qi M : Nat) (a0 : afl_state_t)
    (hM : a0.map_size = M)
    (h0 : ∀ j, (entry a0 qi).frontier_node_bitmap.getD j 0 =
      (entry afl qi).frontier_node_bitmap.getD j 0)
    (n : Nat) (hn : 8 * n ≤ 2 ^ 32)
    (hq : ∀ i < n, ∀ bit < 8,
      ((entry afl qi).frontier_node_bitmap.getD i 0).testBit bit = true → 8 * i + bit < M) :
    ∃ a1 u1, (List.range n).foldl (update_frontier_byte qi) (some (a0, 0)) = some (a1, u1) ∧
      a1.map_size = M ∧
      ∀ j, n ≤ j → (entry a1 qi).frontier_node_bitmap.getD j 0 =
        (entry afl qi).frontier_node_bitmap.getD j 0 := by
  induction n with
  | zero => exact ⟨a0, 0, rfl, hM, fun j _ => h0 j⟩
  | succ k ih =>
    obtain ⟨a1, u1, hfold, hm1, hk⟩ :=
      ih (by omega) (fun i hi => hq i (by omega))
    obtain ⟨a2, u2, hstep, hm2, hj⟩ :=
      update_frontier_byte_some qi k M (by omega) a1 u1 hm1
        (fun bit hbit h => hq k (by omega) bit hbit (by
          rw [← hk k (Nat.le_refl k)]
          exact h))
    refine ⟨a2, u2, ?_, hm2, ?_⟩
    · rw [List.range_succ, List.foldl_append, hfold]
      exact hstep
    · intro j hjk
      rw [hj j (by omega)]
      exact hk j (by omega)

theorem update_global_frontier_nodes_some (afl : afl_state_t) (qi : Nat)
    (hr : 8 * ((afl.real_map_size >>> 3) + 1) ≤ 2 ^ 32)
    (hq : ∀ i < (afl.real_map_size >>> 3) + 1, ∀ bit < 8,
      ((entry afl qi).frontier_node_bitmap.getD i 0).testBit bit = true →
        8 * i + bit < afl.map_size) :
    ∃ a1, update_global_frontier_nodes afl qi = some a1 := by
  obtain ⟨a1, u1, hfold, _, _⟩ :=
    update_frontier_bytes_some afl qi afl.map_size
      (set_entry afl qi { entry afl qi with set_covered := false }) rfl
      (fun j => congrArg (fun l => List.getD l j 0)
        (entry_set_entry_proj (fun q => q.frontier_node_bitmap) afl qi qi _ rfl))
      ((afl.real_map_size >>> 3) + 1) hr hq
  unfold update_global_frontier_nodes
  simp only []
  rw [hfold]
  exact ⟨_, rfl⟩

/-- C37: a state in which `global_covered_frontier_nodes_count` is the number of bits
set in `global_frontier_bitmap` (a bitmap of fewer than `2^32` bits) is taken to such a
state by `update_bitmap_score`, when the map positions lie inside the bitmap, and by
`update_global_frontier_nodes`, whenever it returns; and the latter returns when the
set bits of the seed's frontier bitmap are edges below `map_size`. -/
theorem frontier_count_inv_preserved (c : afl_consts) (afl : afl_state_t) (qi : Nat)
    (h : frontier_count_inv afl)
    (hL : 8 * afl.global_frontier_bitmap.length < 2 ^ 32) :
    (afl.map_size ≤ 8 * afl.global_frontier_bitmap.length →
      frontier_count_inv (update_bitmap_score c afl qi)) ∧
    (∀ a1, update_global_frontier_nodes afl qi = some a1 → frontier_count_inv a1) ∧
    (8 * ((afl.real_map_size >>> 3) + 1) ≤ 2 ^ 32 →
      (∀ i < (afl.real_map_size >>> 3) + 1, ∀ bit < 8,
        ((entry afl qi).frontier_node_bitmap.getD i 0).testBit bit = true →
          8 * i + bit < afl.map_size) →
      ∃ a1, update_global_frontier_nodes afl qi = some a1 ∧ frontier_count_inv a1) := by
  refine ⟨?_, ?_, ?_⟩
  · intro hm
    exact (frontier_count_update_bitmap_score c afl qi h hL hm).1
  · intro a1 hs
    exact (frontier_count_update_global afl qi h hL a1 hs).1
  · intro hr hq
    obtain ⟨a1, hs⟩ := update_global_frontier_nodes_some afl qi hr hq
    exact ⟨a1, hs, (frontier_count_update_global afl qi h hL a1 hs).1⟩

theorem frontier_count_inv_preserved_witness :
    frontier_count_inv frontier_prune_state ∧
    frontier_count_inv (update_bitmap_score demo_consts frontier_prune_state 0) ∧
    (update_bitmap_score demo_consts frontier_prune_state 0).global_covered_frontier_nodes_count
      = 3 ∧
    (∃ a1, update_global_frontier_nodes frontier_prune_state 0 = some a1 ∧
      frontier_count_inv a1) ∧
    (update_global_frontier_nodes frontier_prune_state 0).map
      (fun a => (a.global_frontier_bitmap, a.global_covered_frontier_nodes_count)) =
        some ([2, 0], 1) :=
  ⟨by decide,
    (frontier_count_inv_preserved demo_consts frontier_prune_state 0 (by decide)
      (by decide)).1 (by decide),
    by decide,
    (frontier_count_inv_preserved demo_consts frontier_prune_state 0 (by decide)
      (by decide)).2.2 (by decide) (by decide),
    by decide⟩

/-! ## The test case cache -/

theorem draw_victim_spec (afl : afl_state_t) (draws : List Nat) :
    ∀ tid old rest, draw_victim afl draws = some (tid, old, rest) →
      afl.q_testcase_cache.getD tid none = some old ∧ afl.queue_cur ≠ some old ∧
        tid ∈ draws ∧ rest.length < draws.length := by
  induction draws with
  | nil =>
    intro tid old rest h
    unfold draw_victim at h
    cases h
  | cons d ds ih =>
    intro tid old rest h
    unfold draw_victim at h
    split at h
    · obtain ⟨h1, h2, h3, h4⟩ := ih tid old rest h
      exact ⟨h1, h2, List.mem_cons_of_mem d h3, by
        rw [List.length_cons]
        omega⟩
    · next o ho =>
      split at h
      · obtain ⟨h1, h2, h3, h4⟩ := ih tid old rest h
        exact ⟨h1, h2, List.mem_cons_of_mem d h3, by
          rw [List.length_cons]
          omega⟩
      · next hne =>
        simp only [Option.some.injEq, Prod.mk.injEq] at h
        obtain ⟨ht, ho2, hr⟩ := h
        subst ht
        subst ho2
        subst hr
        exact ⟨ho, hne, List.mem_cons_self _ _, by
          rw [List.length_cons]
          omega⟩

theorem entry_cache_evict (afl : afl_state_t) (tid old s : Nat) :
    entry (cache_evict afl tid old) s =
      if s = old ∧ old < afl.queue_buf.length then
        { entry afl old with testcase_buf := none }
      else entry afl s :=
  entry_set_entry afl old s { entry afl old with testcase_buf := none }

theorem cache_learn_frame (afl : afl_state_t) (len : Nat) :
    (cache_learn afl len).queue_buf = afl.queue_buf ∧
      (cache_learn afl len).queue_cur = afl.queue_cur := by
  unfold cache_learn
  split
  · exact ⟨rfl, rfl⟩
  · exact ⟨rfl, rfl⟩

theorem entry_cache_learn (afl : afl_state_t) (len s : Nat) :
    entry (cache_learn afl len) s = entry afl s := by
  unfold entry
  rw [(cache_learn_frame afl len).1]

/-- The eviction loop leaves `queue_cur` and the entry behind it as they are. -/
theorem cache_make_room_frame (len : Nat) (fuel : Nat) :
    ∀ (afl : afl_state_t) (tid : Nat) (draws : List Nat) (a1 : afl_state_t) (t1 : Nat),
      cache_make_room len fuel afl tid draws = some (a1, t1) →
      a1.queue_cur = afl.queue_cur ∧
        ∀ cur, afl.queue_cur = some cur → entry a1 cur = entry afl cur := by
  induction fuel with
  | zero =>
    intro afl tid draws a1 t1 h
    unfold cache_make_room at h
    cases h
  | succ k ih =>
    intro afl tid draws a1 t1 h
    unfold cache_make_room at h
    split at h
    · simp only [] at h
      split at h
      · cases h
      · next t old rest hd =>
        obtain ⟨_, hne, _, _⟩ := draw_victim_spec _ draws t old rest hd
        rw [(cache_learn_frame afl len).2] at hne
        obtain ⟨hq, he⟩ := ih _ _ _ a1 t1 h
        have hq0 : (cache_evict (cache_learn afl len) t old).queue_cur = afl.queue_cur :=
          (cache_learn_frame afl len).2
        refine ⟨hq.trans hq0, ?_⟩
        intro cur hcur
        rw [he cur (hq0.trans hcur), entry_cache_evict]
        have hco : ¬ cur = old := by
          intro hx
          apply hne
          rw [hcur, hx]
        rw [if_neg (fun x => hco x.1)]
        exact entry_cache_learn afl len cur
    · simp only [Option.some.injEq, Prod.mk.injEq] at h
      obtain ⟨h1, _⟩ := h
      subst h1
      exact ⟨rfl, fun _ _ => rfl⟩

/-- The call leaves `queue_cur` as it is, and the buffer of the seed behind it when
that seed has one. -/
theorem queue_testcase_get_frame (afl : afl_state_t) (qi : Nat) (draws : List Nat)
    (file : Option (List Nat)) (cur : Nat) (b : List Nat)
    (hcur : afl.queue_cur = some cur) (hb : (entry afl cur).testcase_buf = some b)
    (a : afl_state_t) (r : List Nat)
    (h : queue_testcase_get afl qi draws file = some (a, r)) :
    a.queue_cur = some cur ∧ (entry a cur).testcase_buf = some b := by
  unfold queue_testcase_get at h
  simp only [] at h
  split at h
  · split at h
    · cases h
    · split at h
      · simp only [Option.some.injEq, Prod.mk.injEq] at h
        obtain ⟨h1, _⟩ := h
        subst h1
        exact ⟨hcur, hb⟩
      · simp only [Option.some.injEq, Prod.mk.injEq] at h
        obtain ⟨h1, _⟩ := h
        subst h1
        exact ⟨hcur, hb⟩
  · split at h
    · simp only [Option.some.injEq, Prod.mk.injEq] at h
      obtain ⟨h1, _⟩ := h
      subst h1
      exact ⟨hcur, hb⟩
    · next hnone =>
      split at h
      · cases h
      · next a1 tid0 hroom =>
        obtain ⟨hq, he⟩ := cache_make_room_frame _ _ _ _ _ a1 tid0 hroom
        generalize next_free a1.q_testcase_cache (a1.q_testcase_cache.length + 1)
          (if tid0 ≥ a1.q_testcase_max_cache_entries then a1.q_testcase_smallest_free
            else tid0) = tid at h
        by_cases hge : tid ≥ a1.q_testcase_cache.length
        · rw [if_pos hge] at h
          cases h
        · rw [if_neg hge] at h
          split at h
          · cases h
          · simp only [Option.some.injEq, Prod.mk.injEq] at h
            obtain ⟨h1, _⟩ := h
            subst h1
            have hne : ¬ cur = qi := by
              intro hx
              rw [hx, hnone] at hb
              cases hb
            refine ⟨hq.trans hcur, ?_⟩
            show (entry (set_entry a1 qi _) cur).testcase_buf = some b
            rw [entry_set_entry, if_neg (fun x => hne x.1), he cur hcur]
            exact hb

/-- A seed that is cached is handed out as it is. -/
theorem queue_testcase_get_cached (afl : afl_state_t) (qi : Nat) (draws : List Nat)
    (file : Option (List Nat)) (b : List Nat) (hm : afl.q_testcase_max_cache_size ≠ 0)
    (hb : (entry afl qi).testcase_buf = some b) :
    queue_testcase_get afl qi draws file = some (afl, b) := by
  unfold queue_testcase_get
  simp only []
  rw [if_neg hm, hb]

theorem u32_pred {n : Nat} (h1 : 1 ≤ n) (h2 : n < 2 ^ 32) : (n + 2 ^ 32 - 1) % 2 ^ 32 = n - 1 := by
  have : n + 2 ^ 32 - 1 = (n - 1) + 2 ^ 32 := by omega
  rw [this, Nat.add_mod_right]
  apply Nat.mod_eq_of_lt
  omega

theorem u64_sub_le {n m : Nat} (h1 : m ≤ n) (h2 : n < 2 ^ 64) :
    (n + 2 ^ 64 - m % 2 ^ 64) % 2 ^ 64 = n - m := by
  have hm : m % 2 ^ 64 = m := Nat.mod_eq_of_lt (by omega)
  rw [hm]
  have : n + 2 ^ 64 - m = (n - m) + 2 ^ 64 := by omega
  rw [this, Nat.add_mod_right]
  apply Nat.mod_eq_of_lt
  omega

/-- What an eviction does to the seed evicted and to the counters. -/
theorem cache_evict_effect (afl : afl_state_t) (tid old : Nat) :
    (entry (cache_evict afl tid old) old).testcase_buf = none ∧
    (cache_evict afl tid old).q_testcase_cache.getD tid none = none ∧
    ((entry afl old).len ≤ afl.q_testcase_cache_size → afl.q_testcase_cache_size < 2 ^ 64 →
      (cache_evict afl tid old).q_testcase_cache_size =
        afl.q_testcase_cache_size - (entry afl old).len) ∧
    (1 ≤ afl.q_testcase_cache_count → afl.q_testcase_cache_count < 2 ^ 32 →
      (cache_evict afl tid old).q_testcase_cache_count = afl.q_testcase_cache_count - 1) := by
  refine ⟨?_, ?_, ?_, ?_⟩
  · rw [entry_cache_evict]
    split
    · rfl
    · next hc =>
      have hlen : ¬ old < afl.queue_buf.length := fun x => hc ⟨rfl, x⟩
      unfold entry
      rw [List.getD_eq_getElem?_getD, List.getElem?_eq_none (Nat.le_of_not_lt hlen)]
      rfl
  · show (afl.q_testcase_cache.set tid none).getD tid none = none
    rw [getD_set_eq]
    split
    · rfl
    · next hc =>
      have hlen : ¬ tid < afl.q_testcase_cache.length := fun x => hc ⟨rfl, x⟩
      rw [List.getD_eq_getElem?_getD, List.getElem?_eq_none (Nat.le_of_not_lt hlen)]
      rfl
  · intro h1 h2
    exact u64_sub_le h1 h2
  · intro h1 h2
    exact u32_pred h1 h2

/-- A round of the eviction loop evicts the seed of a drawn slot, which is not
`queue_cur`, and goes on from the state after the eviction. -/
theorem cache_make_room_round (len fuel : Nat) (afl : afl_state_t) (tid : Nat)
    (draws : List Nat) (r : afl_state_t × Nat)
    (hc : (afl.q_testcase_cache_size + len) % 2 ^ 64 ≥ afl.q_testcase_max_cache_size ∨
      afl.q_testcase_cache_count ≥ (afl.q_testcase_max_cache_entries + 2 ^ 32 - 1) % 2 ^ 32)
    (h : cache_make_room len (fuel + 1) afl tid draws = some r) :
    ∃ t old rest, draw_victim (cache_learn afl len) draws = some (t, old, rest) ∧
      (cache_learn afl len).q_testcase_cache.getD t none = some old ∧
      afl.queue_cur ≠ some old ∧
      cache_make_room len fuel (cache_evict (cache_learn afl len) t old) t rest = some r := by
  unfold cache_make_room at h
  rw [if_pos hc] at h
  simp only [] at h
  split at h
  · cases h
  · next t old rest hd =>
    obtain ⟨h1, h2, _, _⟩ := draw_victim_spec _ draws t old rest hd
    rw [(cache_learn_frame afl len).2] at h2
    exact ⟨t, old, rest, hd, h1, h2, h⟩

/-- The result of the eviction loop does not depend on the fuel, once there is more of
it than there are draws. -/
theorem cache_make_room_fuel (len : Nat) (fuel : Nat) :
    ∀ (afl : afl_state_t) (tid : Nat) (draws : List Nat), draws.length < fuel →
      cache_make_room len (fuel + 1) afl tid draws = cache_make_room len fuel afl tid draws := by
  induction fuel with
  | zero =>
    intro afl tid draws h
    omega
  | succ k ih =>
    intro afl tid draws h
    rw [cache_make_room.eq_def len (k + 1 + 1), cache_make_room.eq_def len (k + 1)]
    simp only []
    split
    · cases hd : draw_victim (cache_learn afl len) draws with
      | none => rfl
      | some v =>
        obtain ⟨t, old, rest⟩ := v
        simp only []
        obtain ⟨_, _, _, hlt⟩ := draw_victim_spec _ draws t old rest hd
        exact ih _ t rest (by omega)
    · rfl

theorem cache_make_room_fuel_add (len : Nat) (afl : afl_state_t) (tid : Nat) (draws : List Nat)
    (n : Nat) :
    cache_make_room len (draws.length + 1 + n) afl tid draws =
      cache_make_room len (draws.length + 1) afl tid draws := by
  induction n with
  | zero => rfl
  | succ k ih =>
    rw [← ih]
    exact cache_make_room_fuel len (draws.length + 1 + k) afl tid draws (by omega)

/-- C36: when `queue_cur` is the seed `cur` and that seed has a cached buffer, then
after every call of `queue_testcase_get` that returns, for every requested seed, all
draws and every file content, `queue_cur` is still `cur` with the same buffer; a
requested seed that is cached is returned with the state as it was; the slot that the
eviction draws holds a seed other than `cur`; an eviction clears the buffer of the
evicted seed and its slot, takes its `len` off the cache size and one off the cache
count (no wrap where the size is at least `len` and the count at least one); and the
eviction loop is given enough fuel. -/
theorem queue_testcase_get_keeps_current (afl : afl_state_t) (qi : Nat) (draws : List Nat)
    (file : Option (List Nat)) (cur : Nat) (b : List Nat)
    (hcur : afl.queue_cur = some cur) (hb : (entry afl cur).testcase_buf = some b) :
    (∀ a r, queue_testcase_get afl qi draws file = some (a, r) →
      a.queue_cur = some cur ∧ (entry a cur).testcase_buf = some b) ∧
    (∀ b1, afl.q_testcase_max_cache_size ≠ 0 → (entry afl qi).testcase_buf = some b1 →
      queue_testcase_get afl qi draws file = some (afl, b1)) ∧
    (∀ tid old rest, draw_victim afl draws = some (tid, old, rest) →
      afl.q_testcase_cache.getD tid none = some old ∧ old ≠ cur ∧ tid ∈ draws) ∧
    (∀ tid old,
      (entry (cache_evict afl tid old) old).testcase_buf = none ∧
      (cache_evict afl tid old).q_testcase_cache.getD tid none = none ∧
      ((entry afl old).len ≤ afl.q_testcase_cache_size → afl.q_testcase_cache_size < 2 ^ 64 →
        (cache_evict afl tid old).q_testcase_cache_size =
          afl.q_testcase_cache_size - (entry afl old).len) ∧
      (1 ≤ afl.q_testcase_cache_count → afl.q_testcase_cache_count < 2 ^ 32 →
        (cache_evict afl tid old).q_testcase_cache_count = afl.q_testcase_cache_count - 1)) ∧
    (∀ len tid n, cache_make_room len (draws.length + 1 + n) afl tid draws =
      cache_make_room len (draws.length + 1) afl tid draws) := by
  refine ⟨?_, ?_, ?_, ?_, ?_⟩
  · intro a r h
    exact queue_testcase_get_frame afl qi draws file cur b hcur hb a r h
  · intro b1 hm hq
    exact queue_testcase_get_cached afl qi draws file b1 hm hq
  · intro tid old rest h
    obtain ⟨h1, h2, h3, _⟩ := draw_victim_spec afl draws tid old rest h
    refine ⟨h1, ?_, h3⟩
    intro hx
    apply h2
    rw [hcur, hx]
  · intro tid old
    exact cache_evict_effect afl tid old
  · intro len tid n
    exact cache_make_room_fuel_add len afl tid draws n

theorem queue_testcase_get_keeps_current_witness :
    (queue_testcase_get cache_full_state 2 [0, 2, 1] (some [9, 9, 9, 9])).map
        (fun r => (r.2, r.1.q_testcase_cache, r.1.queue_buf.map (fun q => q.testcase_buf))) =
      some ([9, 9, 9], [some 0, some 2, none, none],
        [some [1, 2, 3, 4], none, some [9, 9, 9]]) ∧
    (queue_testcase_get cache_full_state 2 [0, 2, 1] (some [9, 9, 9, 9])).map
        (fun r => (r.1.q_testcase_cache_size, r.1.q_testcase_cache_count,
          r.1.q_testcase_evictions)) = some (7, 2, 1) ∧
    (∀ a r, queue_testcase_get cache_full_state 2 [0, 2, 1] (some [9, 9, 9, 9]) = some (a, r) →
      a.queue_cur = some 0 ∧ (entry a 0).testcase_buf = some [1, 2, 3, 4]) ∧
    draw_victim cache_full_state [0, 2, 1] = some (1, 1, []) ∧
    (cache_evict cache_full_state 1 1).q_testcase_cache_size = 8 - 4 :=
  ⟨by decide, by decide,
    (queue_testcase_get_keeps_current cache_full_state 2 [0, 2, 1] (some [9, 9, 9, 9]) 0
      [1, 2, 3, 4] (by decide) (by decide)).1,
    by decide,
    (queue_testcase_get_keeps_current cache_full_state 2 [0, 2, 1] (some [9, 9, 9, 9]) 0
      [1, 2, 3, 4] (by decide) (by decide)).2.2.2.1 1 1 |>.2.2.1 (by decide) (by decide)⟩

end RandSet
